import Mathlib

/-!
# Symbol Index (`SessionSymbolIndex.cpp`): a shallow embedding

Byte strings (`std::string`) are lists of characters, `int` line numbers are
integers, vectors are lists in vector order, and the `unordered_map` from
lower-cased names to symbol vectors is an association list whose list order
stands for the (unspecified) iteration order of the map.
-/

namespace Rao

/-- A `std::string`. -/
abbrev Str := List Char

/-! ## String helpers (`boost::algorithm`, `std::string`) -/

/-- One step of `boost::algorithm::to_lower` in the classic locale. -/
def toLowerChar (c : Char) : Char :=
  if 65 ≤ c.toNat ∧ c.toNat ≤ 90 then Char.ofNat (c.toNat + 32) else c

/-- The function `boost::algorithm::to_lower`. -/
def to_lower (s : Str) : Str := s.map toLowerChar

/-- The predicate `std::isspace` in the classic locale. -/
def isSpace (c : Char) : Bool :=
  c == ' ' || c == '\t' || c == '\n' || c == '\x0b' || c == '\x0c' || c == '\r'

/-- Drop the longest run of characters satisfying `p` at the end of `s`. -/
def dropEndWhile (p : Char → Bool) (s : Str) : Str :=
  (s.reverse.dropWhile p).reverse

/-- The function `boost::algorithm::trim_right`. -/
def trim_right (s : Str) : Str := dropEndWhile isSpace s

/-- The function `boost::algorithm::trim_copy` (both ends). -/
def trim_copy (s : Str) : Str := trim_right (s.dropWhile isSpace)

/-- The function `boost::algorithm::starts_with`. -/
def starts_with : Str → Str → Bool
  | _, [] => true
  | [], _ :: _ => false
  | c :: s, d :: t => c == d && starts_with s t

/-- The function `boost::algorithm::ends_with`. -/
def ends_with (s t : Str) : Bool := starts_with s.reverse t.reverse

/-- Whether `std::string::find(t)` succeeds on `s` (the result is not `npos`). -/
def containsStr : Str → Str → Bool
  | [], t => t.isEmpty
  | c :: s, t => starts_with (c :: s) t || containsStr s t

/-- The split `boost::algorithm::split(words, s, is_any_of(seps))` without token
compression: every separator ends a token, so `n` separators give `n + 1`
tokens, empty ones included. -/
def splitAny (seps : Str) : Str → List Str
  | [] => [[]]
  | c :: s =>
    if seps.contains c then [] :: splitAny seps s
    else
      match splitAny seps s with
      | [] => [[c]]
      | w :: ws => (c :: w) :: ws

/-- The hash clean-up shared by the query and by header names: after
`trim_right`, if `find_last_not_of('#')` finds a character and it is not the
last one, cut behind it and `trim_right` again. A string made only of `#` is
left as it is (`find_last_not_of` returns `npos`). -/
def stripTrailingHashes (s : Str) : Str :=
  let t := trim_right s
  let u := dropEndWhile (fun c => c == '#') t
  if u ≠ [] ∧ u.length < t.length then trim_right u else t

/-- The part of a path after the last `/` or `\` (`find_last_of("/\\")`). -/
def baseName (p : Str) : Str :=
  (p.reverse.takeWhile (fun c => !(c == '/' || c == '\\'))).reverse

/-! ## Symbols and the symbol store -/

/-- The struct `Symbol`. -/
structure Symbol where
  name : Str
  type : Str
  filePath : Str
  fileName : Str
  lineStart : Int
  lineEnd : Int
  parents : Str
  signature : Str
  children : List Str
  deriving DecidableEq, Repr

/-- The constructor `Symbol(name, type, filePath, lineStart, lineEnd, parents,
signature)`: the file name is the part of the path after the last slash. -/
def Symbol.make (name type filePath : Str) (lineStart lineEnd : Int)
    (parents signature : Str) : Symbol :=
  { name := name, type := type, filePath := filePath, fileName := baseName filePath,
    lineStart := lineStart, lineEnd := lineEnd, parents := parents,
    signature := signature, children := [] }

/-- The method `Symbol::isSameInstance`: same name, file and start line. -/
def Symbol.isSameInstance (a b : Symbol) : Bool :=
  a.name == b.name && a.filePath == b.filePath && a.lineStart == b.lineStart

/-- The member `symbolMap_`: lower-cased name to the symbols of that name. -/
abbrev SymbolMap := List (Str × List Symbol)

/-- The lookup `symbolMap_.find(key)`. -/
def findBucket : SymbolMap → Str → Option (List Symbol)
  | [], _ => none
  | (k, b) :: rest, key => if k = key then some b else findBucket rest key

/-- All stored symbols, bucket after bucket (the loop of `getAllSymbols`). -/
def allSymbols (m : SymbolMap) : List Symbol := m.flatMap (fun kb => kb.2)

/-- The method `SymbolIndex::addSymbolNoLock`: the bucket of the lower-cased
name is created when missing; a symbol that is the same instance as one of the
bucket is skipped, any other is pushed at the back of the bucket. -/
def addSymbolNoLock : SymbolMap → Symbol → SymbolMap
  | [], symbol => [(to_lower symbol.name, [symbol])]
  | (k, b) :: rest, symbol =>
    if k = to_lower symbol.name then
      if b.any (fun existingSymbol => existingSymbol.isSameInstance symbol) then (k, b) :: rest
      else (k, b ++ [symbol]) :: rest
    else (k, b) :: addSymbolNoLock rest symbol

/-- The method `SymbolIndex::addSymbol` (the mutex is not modelled). -/
def addSymbol (m : SymbolMap) (symbol : Symbol) : SymbolMap := addSymbolNoLock m symbol

/-- The erase/remove_if idiom of `removeSymbolsForFile` and of
`onAllSourceDocsRemoved`: drop the symbols satisfying `p` from every bucket,
then erase the buckets that are empty. -/
def removeWhere (p : Symbol → Bool) (m : SymbolMap) : SymbolMap :=
  (m.map (fun kb => (kb.1, kb.2.filter (fun s => !p s)))).filter (fun kb => !kb.2.isEmpty)

/-- The method `SymbolIndex::removeSymbolsForFile`. -/
def removeSymbolsForFile (m : SymbolMap) (filePath : Str) : SymbolMap :=
  removeWhere (fun symbol => symbol.filePath == filePath) m

/-- The removed files of `updateIndexIncrementally`: the files of the previous
snapshot `directoryFiles_` that `std::find` does not find in the current
listing. -/
def removedFiles (directoryFiles currentFiles : List Str) : List Str :=
  directoryFiles.filter (fun oldFile => !currentFiles.contains oldFile)

/-- The loop of `updateIndexIncrementally` over the removed files, on the symbol
store: `removeSymbolsForFile` for each of them in turn. -/
def removeSymbolsOfRemovedFiles (m : SymbolMap) (directoryFiles currentFiles : List Str) :
    SymbolMap :=
  (removedFiles directoryFiles currentFiles).foldl removeSymbolsForFile m

/-! ## Signature formatting (`normalizeWhitespace`, `formatFunctionParameters`) -/

/-- The loop of `normalizeWhitespace`: `prev` is `input[i-1]` (none at `i = 0`),
the result is built back to front in `acc`. -/
def normalizeWhitespaceLoop : Option Char → Bool → Bool → Str → Str → Str
  | _, _, _, acc, [] => acc.reverse
  | prev, lastWasSpace, inQuotes, acc, c :: rest =>
    if c == '"' || c == '\'' then
      let inQuotes1 := if prev ≠ some '\\' then !inQuotes else inQuotes
      normalizeWhitespaceLoop (some c) false inQuotes1 (c :: acc) rest
    else if isSpace c then
      if !lastWasSpace && !inQuotes then
        normalizeWhitespaceLoop (some c) true inQuotes (' ' :: acc) rest
      else if inQuotes then
        normalizeWhitespaceLoop (some c) lastWasSpace inQuotes (c :: acc) rest
      else
        normalizeWhitespaceLoop (some c) lastWasSpace inQuotes acc rest
    else
      normalizeWhitespaceLoop (some c) false inQuotes (c :: acc) rest

/-- The function `normalizeWhitespace`: runs of white space outside quotes
become one blank, then one leading and one trailing blank are removed. -/
def normalizeWhitespace (input : Str) : Str :=
  let result := normalizeWhitespaceLoop none false false [] input
  let result1 := match result with
    | ' ' :: r => r
    | r => r
  match result1.reverse with
  | ' ' :: r => r.reverse
  | _ => result1

/-- The loop of `formatFunctionParameters`. `prev` is `input[i-1]`; `skipping`
stands for the inner `while` that jumps over white space after an `=`. -/
def formatFunctionParametersLoop :
    Option Char → Bool → Bool → Bool → Int → Str → Str → Str
  | _, _, _, _, _, acc, [] => acc.reverse
  | prev, skipping, inQuotes, lastWasComma, parenDepth, acc, c :: rest =>
    if skipping && isSpace c then
      formatFunctionParametersLoop (some c) true inQuotes lastWasComma parenDepth acc rest
    else if c == '(' && !inQuotes then
      formatFunctionParametersLoop (some c) false inQuotes lastWasComma (parenDepth + 1)
        (c :: acc) rest
    else if c == ')' && !inQuotes then
      formatFunctionParametersLoop (some c) false inQuotes lastWasComma (parenDepth - 1)
        (c :: acc) rest
    else if c == '"' || c == '\'' then
      let inQuotes1 := if prev ≠ some '\\' then !inQuotes else inQuotes
      formatFunctionParametersLoop (some c) false inQuotes1 false parenDepth (c :: acc) rest
    else if !inQuotes && parenDepth == 1 && c == ',' then
      formatFunctionParametersLoop (some c) false inQuotes true parenDepth (' ' :: ',' :: acc) rest
    else if !inQuotes && parenDepth == 1 && lastWasComma && isSpace c then
      formatFunctionParametersLoop (some c) false inQuotes lastWasComma parenDepth acc rest
    else if !inQuotes && parenDepth == 1 && c == '=' && prev.isSome then
      let acc1 := match acc with
        | [] => acc
        | d :: _ => if d ≠ ' ' then ' ' :: acc else acc
      formatFunctionParametersLoop (some c) true inQuotes lastWasComma parenDepth
        (' ' :: '=' :: acc1) rest
    else
      formatFunctionParametersLoop (some c) false inQuotes false parenDepth (c :: acc) rest

/-- The end of `formatFunctionParameters`, on the reversed result: `revAfter` is
what follows the last `)`, reversed, and `revUpTo` is the text up to and
including that `)`, reversed. When only white space stands between the last
comma before the `)` and the `)`, the comma and the white space are erased. -/
def dropHangingComma (revAfter revUpTo : Str) : Str :=
  match revUpTo with
  | ')' :: before =>
    let gap := before.takeWhile (fun c => c != ',')
    match before.dropWhile (fun c => c != ',') with
    | ',' :: front =>
      if gap.all isSpace then (revAfter ++ ')' :: front).reverse
      else (revAfter ++ revUpTo).reverse
    | _ => (revAfter ++ revUpTo).reverse
  | _ => (revAfter ++ revUpTo).reverse

/-- The function `formatFunctionParameters`. -/
def formatFunctionParameters (input : Str) : Str :=
  let result := formatFunctionParametersLoop none false false false 0 [] input
  let rev := result.reverse
  dropHangingComma (rev.takeWhile (fun c => c != ')')) (rev.dropWhile (fun c => c != ')'))

/-- The signature clean-up of `loadIndexFromStorageNoLock`: a function symbol
whose signature starts with `function(` is re-formatted. -/
def formatLoadedSignature (symbol : Symbol) : Symbol :=
  if symbol.type = "function".toList ∧ symbol.signature ≠ [] ∧
      starts_with symbol.signature "function(".toList then
    { symbol with signature := formatFunctionParameters (normalizeWhitespace symbol.signature) }
  else symbol

/-! ## The query side of `findSymbol` -/

/-- A line terminator, which `.` of an ECMAScript regex does not match. -/
def isLineTerminator (c : Char) : Bool := c == '\n' || c == '\r'

/-- The class `[a-z]`. -/
def isLowerAlpha (c : Char) : Bool := 97 ≤ c.toNat && c.toNat ≤ 122

/-- The tail `\s*\(([a-z]+)\)\s*$` of the type-filter regex, matched at the
start of `r`: the captured letters. As the character after each greedy run
cannot belong to the run, the match is unique. -/
def matchTypeFilterTail (r : Str) : Option Str :=
  match r.dropWhile isSpace with
  | '(' :: r2 =>
    let letters := r2.takeWhile isLowerAlpha
    match r2.dropWhile isLowerAlpha with
    | ')' :: r4 => if letters ≠ [] ∧ r4.all isSpace then some letters else none
    | _ => none
  | _ => none

/-- The search of `^(.+?)\s*\(([a-z]+)\)\s*$`: the lazy first group grows one
character at a time (never over a line terminator) until the tail matches.
`acc` is the group so far. The result is the pair of captures. -/
def typeFilterSearch : Str → Str → Option (Str × Str)
  | _, [] => none
  | acc, c :: rest =>
    if isLineTerminator c then none
    else
      match matchTypeFilterTail rest with
      | some letters => some (acc ++ [c], letters)
      | none => typeFilterSearch (acc ++ [c]) rest

/-- The call `std::regex_search(lowerName, typeMatch, typeFilterRegex)`. -/
def typeFilterRegex (lowerName : Str) : Option (Str × Str) := typeFilterSearch [] lowerName

/-- The first part of `findSymbol`: the clean query and the split into the
search name and the type filter (empty when the query has no `(type)` part). -/
def parseQuery (name : Str) : Str × Str :=
  let lowerName := stripTrailingHashes (to_lower name)
  match typeFilterRegex lowerName with
  | some (g1, g2) => (trim_copy g1, trim_copy g2)
  | none => (lowerName, [])

/-- The conversion `static_cast<float>(n)` of an unsigned integer, as the exact
value of the binary32 result: integers below `2^24` are kept, larger ones are
rounded to 24 significant bits, ties to even. -/
def f32OfNat (n : Nat) : Nat :=
  if n < 16777216 then n
  else
    let k := Nat.log2 n - 23
    let q := n / 2 ^ k
    let r := n % 2 ^ k
    let half := 2 ^ (k - 1)
    if r > half ∨ (r = half ∧ q % 2 = 1) then (q + 1) * 2 ^ k else q * 2 ^ k

/-- The test `static_cast<float>(x) / y > 0.15f` in binary32 arithmetic. The
constant `0.15f` is `10066330 * 2^-26`, an even mantissa, so the rounded
quotient exceeds it exactly when the real quotient exceeds the midpoint
`20132661 * 2^-27` to the next binary32 value. -/
def f32RatioGt015 (x y : Nat) : Bool :=
  decide (20132661 * f32OfNat y < f32OfNat x * 134217728)

/-- The test `static_cast<float>(k) / n >= 0.7` (a `float` against the `double`
constant `0.7`). The least binary32 value that is at least the double `0.7` is
`11744052 * 2^-24`, an even mantissa, so the rounded quotient reaches it exactly
when the real quotient is at least the midpoint `23488103 * 2^-25`. -/
def f32RatioGe07 (k n : Nat) : Bool :=
  decide (0 < f32OfNat n ∧ 23488103 * f32OfNat n ≤ f32OfNat k * 33554432)

/-- The type-filter test of the two fuzzy stages: a symbol is skipped when a
filter is given and its type does not start with it. -/
def passesTypeFilter (typeFilter : Str) (symbol : Symbol) : Bool :=
  typeFilter.isEmpty || starts_with symbol.type typeFilter

/-- The exact stage of `findSymbol`: `none` when the stage does not return
(no bucket, or a type filter that leaves nothing). -/
def exactStage (m : SymbolMap) (searchName typeFilter : Str) : Option (List Symbol) :=
  match findBucket m searchName with
  | some bucket =>
    if !typeFilter.isEmpty then
      let results := bucket.filter (fun symbol => starts_with symbol.type typeFilter)
      if !results.isEmpty then some results else none
    else some bucket
  | none => none

/-- The body of the header stage for one symbol: whether it is pushed. -/
def headerStageAccepts (searchName typeFilter : Str) (symbol : Symbol) : Bool :=
  passesTypeFilter typeFilter symbol &&
  starts_with symbol.type "header".toList &&
  (let lowerSymbolName := stripTrailingHashes (to_lower symbol.name)
   let queryWords := splitAny " \t".toList searchName
   let allWordsMatch :=
     if queryWords.length > 10 then false
     else queryWords.all (fun queryWord => containsStr lowerSymbolName queryWord)
   let phraseMatch :=
     !allWordsMatch && decide (searchName.length ≥ 4) && containsStr lowerSymbolName searchName
   (allWordsMatch || phraseMatch) &&
   (let minLength := min searchName.length lowerSymbolName.length
    let maxLength := max searchName.length lowerSymbolName.length
    decide (maxLength > 0) && f32RatioGt015 minLength maxLength))

/-- Whether a query word counts as matched by a symbol word in the general
stage. -/
def wordMatches (queryWord symbolWord : Str) : Bool :=
  (starts_with symbolWord queryWord && decide (queryWord.length ≥ 4)) ||
  symbolWord == queryWord || containsStr symbolWord queryWord

/-- The body of the general fuzzy stage for one symbol: whether it is pushed. -/
def generalStageAccepts (searchName typeFilter : Str) (queryWords : List Str)
    (symbol : Symbol) : Bool :=
  passesTypeFilter typeFilter symbol &&
  (let lowerSymbolName :=
     if starts_with symbol.type "header".toList then stripTrailingHashes (to_lower symbol.name)
     else to_lower symbol.name
   let symbolWords := splitAny " \t".toList lowerSymbolName
   let matchCount :=
     (queryWords.filter (fun queryWord =>
       symbolWords.any (fun symbolWord => wordMatches queryWord symbolWord))).length
   let substantialWords := queryWords.length
   match queryWords with
   | [queryWord] =>
     symbolWords.any (fun symbolWord =>
       symbolWord == queryWord ||
       (starts_with symbolWord queryWord && decide (queryWord.length ≥ 5)))
   | _ =>
     (f32RatioGe07 matchCount substantialWords ||
       (decide (queryWords.length ≥ 2) && decide (matchCount = substantialWords))) &&
     f32RatioGt015 (min searchName.length lowerSymbolName.length)
       (max searchName.length lowerSymbolName.length))

/-- The stages of `findSymbol` over the store, after the query has been parsed
and the store possibly reloaded: exact, header fuzzy, general fuzzy. -/
def lookupStages (m : SymbolMap) (searchName typeFilter : Str) : List Symbol :=
  match exactStage m searchName typeFilter with
  | some results => results
  | none =>
    let headerResults := (allSymbols m).filter (headerStageAccepts searchName typeFilter)
    if !headerResults.isEmpty then headerResults
    else if searchName.length ≥ 3 then
      let queryWords := splitAny " \t".toList searchName
      let hasSubstantialWord := queryWords.any (fun queryWord => decide (queryWord.length ≥ 3))
      if !hasSubstantialWord && decide (queryWords.length ≤ 1) then []
      else if queryWords.length > 8 then []
      else (allSymbols m).filter (generalStageAccepts searchName typeFilter queryWords)
    else []

/-! ## The index object and its storage -/

/-- The struct `FileChecksum`. -/
structure FileChecksum where
  path : Str
  checksum : Str
  lastModified : Str
  deriving DecidableEq, Repr

/-- The data members of the class `SymbolIndex` (the mutex and the start time of
the time budget are not modelled). -/
structure SymbolIndex where
  symbolMap_ : SymbolMap
  fileChecksums_ : List (Str × FileChecksum)
  directoryFiles_ : List Str
  pendingFiles_ : List Str
  traversalPath_ : List Nat
  indexBuilt_ : Bool
  currentWorkingDir_ : Str
  deriving DecidableEq, Repr

/-- The constructor `SymbolIndex()`. -/
def SymbolIndex.new : SymbolIndex :=
  { symbolMap_ := [], fileChecksums_ := [], directoryFiles_ := [], pendingFiles_ := [],
    traversalPath_ := [], indexBuilt_ := false, currentWorkingDir_ := [] }

/-- The accessor `isIndexBuilt`. -/
def SymbolIndex.isIndexBuilt (idx : SymbolIndex) : Bool := idx.indexBuilt_

/-- The accessor `hasPendingFiles`. -/
def SymbolIndex.hasPendingFiles (idx : SymbolIndex) : Bool := !idx.traversalPath_.isEmpty

/-- The accessor `getPendingFileCount`. -/
def SymbolIndex.getPendingFileCount (idx : SymbolIndex) : Nat :=
  if !idx.traversalPath_.isEmpty then 1000 else 0

/-- The error conditions the index reports (`systemError` codes and the R error
of the request wrappers). -/
inductive IndexError where
  | noSuchFileOrDirectory
  | invalidArgument
  | operationNotPermitted
  | notBuilt
  deriving DecidableEq, Repr

/-- The parsed content of `symbol_index.json`. -/
structure StoredIndex where
  symbols : List Symbol
  working_directory : Str
  traversal_path : List Int
  deriving DecidableEq, Repr

/-- The storage folder of one directory id; a file that is missing is `none`
(input and output failures are not modelled). -/
structure StorageFolder where
  symbol_index : Option StoredIndex
  file_checksums : Option (List FileChecksum)
  dir_structure : Option (List Str)
  deriving DecidableEq, Repr

/-- The index base directory: the data rows of `directory_mapping.csv`, as
pairs of the decoded directory path and the id, and the folder of each id. -/
structure Storage where
  mapping : List (Str × Str)
  folders : List (Str × StorageFolder)
  deriving DecidableEq, Repr

/-- The index object together with the storage it reads and writes. -/
structure Machine where
  index : SymbolIndex
  storage : Storage
  deriving DecidableEq, Repr

/-- The folder of an id; a folder that does not exist holds no file. -/
def Storage.folder (storage : Storage) (dirId : Str) : StorageFolder :=
  match storage.folders.find? (fun f => f.1 == dirId) with
  | some f => f.2
  | none => { symbol_index := none, file_checksums := none, dir_structure := none }

/-- Write the folder of an id (created when missing). -/
def Storage.setFolder (storage : Storage) (dirId : Str) (folder : StorageFolder) : Storage :=
  { storage with
    folders := (storage.folders.filter (fun f => !(f.1 == dirId))) ++ [(dirId, folder)] }

/-- The function `normalizeDirPath`: a trailing slash is added when missing. -/
def normalizeDirPath (dirPath : Str) : Str :=
  if ends_with dirPath "/".toList then dirPath else dirPath ++ "/".toList

/-- The method `SymbolIndex::getDirectoryId`: the id of the first row whose
decoded path is the normalised directory path, empty when there is none. -/
def getDirectoryId (storage : Storage) (dirPath : Str) : Str :=
  match storage.mapping.find? (fun row => row.1 == normalizeDirPath dirPath) with
  | some row => row.2
  | none => []

/-- The conversion `static_cast<int>(pos)` of a `size_t`. -/
def toInt32 (n : Nat) : Int :=
  if n % 4294967296 < 2147483648 then (n % 4294967296 : Nat)
  else ((n % 4294967296 : Nat) : Int) - 4294967296

/-- The conversion `static_cast<size_t>(i)` of an `int` (64-bit `size_t`). -/
def toSizeT (i : Int) : Nat := (i % 18446744073709551616).toNat

/-- The assignment `fileChecksums_[path] = value`. -/
def setChecksum : List (Str × FileChecksum) → Str → FileChecksum → List (Str × FileChecksum)
  | [], path, value => [(path, value)]
  | (k, v) :: rest, path, value =>
    if k = path then (k, value) :: rest else (k, v) :: setChecksum rest path value

/-- The lookup `fileChecksums_.find(path)`. -/
def findChecksum (cs : List (Str × FileChecksum)) (path : Str) : Option FileChecksum :=
  (cs.find? (fun kv => kv.1 == path)).map (fun kv => kv.2)

/-- The method `SymbolIndex::saveIndexToStorage`. -/
def saveIndexToStorage (mach : Machine) (dirId : Str) : Machine :=
  let folder := mach.storage.folder dirId
  let stored : StoredIndex :=
    { symbols := allSymbols mach.index.symbolMap_,
      working_directory := mach.index.currentWorkingDir_,
      traversal_path := mach.index.traversalPath_.map toInt32 }
  let folder1 : StorageFolder := { folder with symbol_index := some stored }
  { mach with storage := mach.storage.setFolder dirId folder1 }

/-- The method `SymbolIndex::saveChecksumsToStorage`. -/
def saveChecksumsToStorage (mach : Machine) (dirId : Str) : Machine :=
  let folder := mach.storage.folder dirId
  let folder1 : StorageFolder :=
    { folder with file_checksums := some (mach.index.fileChecksums_.map (fun kv => kv.2)) }
  { mach with storage := mach.storage.setFolder dirId folder1 }

/-- The method `SymbolIndex::saveDirStructureToStorage`. -/
def saveDirStructureToStorage (mach : Machine) (dirId : Str) : Except IndexError Machine :=
  if dirId.isEmpty then .error .invalidArgument
  else
    let folder := mach.storage.folder dirId
    let folder1 : StorageFolder := { folder with dir_structure := some mach.index.directoryFiles_ }
    .ok { mach with storage := mach.storage.setFolder dirId folder1 }

/-- The method `SymbolIndex::loadChecksumsFromStorage`: the result tells
whether the load succeeded. -/
def loadChecksumsFromStorage (mach : Machine) (dirId : Str) : Bool × Machine :=
  let cleared := { mach with index := { mach.index with fileChecksums_ := [] } }
  match (mach.storage.folder dirId).file_checksums with
  | none => (false, cleared)
  | some checksumArray =>
    (true, { cleared with index := { cleared.index with
      fileChecksums_ := checksumArray.foldl (fun cs c => setChecksum cs c.path c) [] } })

/-- The method `SymbolIndex::loadDirStructureFromStorage`: a missing structure
file is created empty. -/
def loadDirStructureFromStorage (mach : Machine) (dirId : Str) : Bool × Machine :=
  if dirId.isEmpty then (false, mach)
  else
    match (mach.storage.folder dirId).dir_structure with
    | none =>
      let cleared := { mach with index := { mach.index with directoryFiles_ := [] } }
      match saveDirStructureToStorage cleared dirId with
      | .ok saved => (true, saved)
      | .error _ => (false, cleared)
    | some fileArray =>
      (true, { mach with index := { mach.index with directoryFiles_ := fileArray } })

/-- The method `SymbolIndex::loadIndexFromStorageNoLock`: the store and the
traversal position are cleared first; when `symbol_index.json` is missing the
load fails there. Otherwise the working directory, the traversal position and
the symbols are read (signatures re-formatted, symbols added one by one), then
the checksums and the directory structure, and the index is marked built. -/
def loadIndexFromStorageNoLock (mach : Machine) (dirId : Str) : Bool × Machine :=
  let cleared := { mach with index := { mach.index with symbolMap_ := [], traversalPath_ := [] } }
  match (mach.storage.folder dirId).symbol_index with
  | none => (false, cleared)
  | some indexObj =>
    let loaded := { cleared with index := { cleared.index with
      currentWorkingDir_ := indexObj.working_directory,
      traversalPath_ := indexObj.traversal_path.map toSizeT,
      symbolMap_ := (indexObj.symbols.map formatLoadedSignature).foldl addSymbolNoLock [] } }
    let withChecksums := (loadChecksumsFromStorage loaded dirId).2
    let withStructure := (loadDirStructureFromStorage withChecksums dirId).2
    (true, { withStructure with index := { withStructure.index with indexBuilt_ := true } })

/-- The cold-start reload at the head of `findSymbol` and `getAllSymbols`: when
the store is empty and a working directory is known, the persisted index of
that directory is loaded. -/
def coldStartReload (mach : Machine) : Machine :=
  if mach.index.symbolMap_.isEmpty && !mach.index.currentWorkingDir_.isEmpty then
    let dirId := getDirectoryId mach.storage mach.index.currentWorkingDir_
    if !dirId.isEmpty then (loadIndexFromStorageNoLock mach dirId).2 else mach
  else mach

/-- The method `SymbolIndex::findSymbol`. -/
def findSymbol (mach : Machine) (name : Str) : List Symbol × Machine :=
  let query := parseQuery name
  let mach1 := coldStartReload mach
  (lookupStages mach1.index.symbolMap_ query.1 query.2, mach1)

/-- The method `SymbolIndex::getAllSymbols`. -/
def getAllSymbols (mach : Machine) : List Symbol × Machine :=
  let mach1 := coldStartReload mach
  (allSymbols mach1.index.symbolMap_, mach1)

/-- The request `rs_findSymbol` (and the RPC method `find_symbol`): an error
when the index has not been built. -/
def rs_findSymbol (mach : Machine) (name : Str) : Except IndexError (List Symbol) × Machine :=
  if !mach.index.isIndexBuilt then (.error .notBuilt, mach)
  else ((.ok (findSymbol mach name).1), (findSymbol mach name).2)

/-- The request `rs_getAllSymbols` (and the RPC method `get_all_symbols`). -/
def rs_getAllSymbols (mach : Machine) : Except IndexError (List Symbol) × Machine :=
  if !mach.index.isIndexBuilt then (.error .notBuilt, mach)
  else ((.ok (getAllSymbols mach).1), (getAllSymbols mach).2)

/-- The method `SymbolIndex::removeSymbolIndex`. `processDir` is the current
directory of the process, used when no working directory is known. All members
are cleared; when the directory has an id, its folder and its mapping row are
removed. -/
def removeSymbolIndex (processDir : Str) (mach : Machine) : Machine :=
  let workingDir :=
    if mach.index.currentWorkingDir_.isEmpty then processDir else mach.index.currentWorkingDir_
  let dirId := getDirectoryId mach.storage workingDir
  let cleared : SymbolIndex :=
    { symbolMap_ := [], fileChecksums_ := [], directoryFiles_ := [], pendingFiles_ := [],
      traversalPath_ := [], currentWorkingDir_ := [], indexBuilt_ := false }
  if !dirId.isEmpty then
    { index := cleared,
      storage :=
        { mapping := mach.storage.mapping.filter (fun row => row.1 != normalizeDirPath workingDir),
          folders := mach.storage.folders.filter (fun f => !(f.1 == dirId)) } }
  else { index := cleared, storage := mach.storage }

/-! ## The file system -/

/-- A file-system entry: a file with its name, its content (`none` when
`readStringFromFile` fails) and its modification time, or a directory with its
name, its modification time and its children in the order `getChildren`
returns them. -/
inductive FsNode where
  | file (name : Str) (content : Option Str) (modTime : Nat)
  | dir (name : Str) (modTime : Nat) (children : List FsNode)
  deriving Repr

/-- The call `getFilename`. -/
def FsNode.name : FsNode → Str
  | .file name _ _ => name
  | .dir name _ _ => name

/-- The call `isDirectory`. -/
def FsNode.isDirectory : FsNode → Bool
  | .file _ _ _ => false
  | .dir _ _ _ => true

/-- The call `getLastWriteTime`. -/
def FsNode.modTime : FsNode → Nat
  | .file _ _ modTime => modTime
  | .dir _ modTime _ => modTime

mutual
/-- The nesting depth of a tree. -/
def FsNode.depth : FsNode → Nat
  | .file _ _ _ => 0
  | .dir _ _ children => FsNode.depthList children + 1
/-- The largest depth among a list of trees. -/
def FsNode.depthList : List FsNode → Nat
  | [] => 0
  | child :: rest => max child.depth (FsNode.depthList rest)
end

/-- The absolute path of a child of the directory `dirPath`. -/
def childPath (dirPath name : Str) : Str := dirPath ++ '/' :: name

mutual
/-- The entry with absolute path `target` in the tree `node` whose own absolute
path is `nodePath` (what `FilePath(target)` refers to), if there is one. -/
def FsNode.lookup : FsNode → Str → Str → Option FsNode
  | .file name content modTime, nodePath, target =>
    if nodePath = target then some (.file name content modTime) else none
  | .dir name modTime children, nodePath, target =>
    if nodePath = target then some (.dir name modTime children)
    else FsNode.lookupList children nodePath target
/-- The lookup among the children of the directory `dirPath`. -/
def FsNode.lookupList : List FsNode → Str → Str → Option FsNode
  | [], _, _ => none
  | child :: rest, dirPath, target =>
    match child.lookup (childPath dirPath child.name) target with
    | some found => some found
    | none => FsNode.lookupList rest dirPath target
end

/-- Insertion into a list sorted by the key `key` (strings compared as
`std::string::operator<` does). -/
def insertByKey {α : Type} (key : α → Str) (a : α) : List α → List α
  | [] => [a]
  | b :: rest => if key a < key b then a :: b :: rest else b :: insertByKey key a rest

/-- The call `std::sort` with the comparison of the keys. -/
def sortByKey {α : Type} (key : α → Str) (l : List α) : List α :=
  l.foldr (insertByKey key) []

/-- The sorted children of `traverseDirectory`: by absolute path. -/
def sortChildren (dirPath : Str) (children : List FsNode) : List FsNode :=
  sortByKey (fun child => childPath dirPath child.name) children

/-- The call `getExtensionLowerCase`: the lower-cased text of the file name from
its last dot on, empty when the name has no dot. -/
def getExtensionLowerCase (fileName : Str) : Str :=
  if fileName.contains '.' then
    to_lower ('.' :: (fileName.reverse.takeWhile (fun c => c != '.')).reverse)
  else []

/-- The set of `getExcludedFilenames`. -/
def excludedFilenames : List Str :=
  [".DS_Store", "._.DS_Store", "._*", ".Spotlight-V100", ".Trashes", ".fseventsd",
   ".VolumeIcon.icns", ".com.apple.timemachine.donotpresent",
   "Thumbs.db", "Desktop.ini", "System Volume Information", "$RECYCLE.BIN",
   ".git", ".svn", ".hg", ".gitignore", ".gitattributes", ".gitmodules",
   ".vscode", ".idea", "*.tmp", "*.swp", "*.swo", "*~", "#*#", ".#*"].map String.toList

/-- The wildcard test of `isExcludedFilename` for one entry of the set. -/
def matchesWildcard (pattern filename : Str) : Bool :=
  pattern.contains '*' &&
  ((pattern.head? == some '*' && pattern.getLast? != some '*' &&
      decide (filename.length ≥ pattern.tail.length) && ends_with filename pattern.tail) ||
   (pattern.head? != some '*' && pattern.getLast? == some '*' &&
      decide (filename.length ≥ pattern.dropLast.length) && starts_with filename pattern.dropLast))

/-- The function `isExcludedFilename`. -/
def isExcludedFilename (filename : Str) : Bool :=
  excludedFilenames.contains filename ||
  excludedFilenames.any (fun pattern => matchesWildcard pattern filename)

/-- The set `imageExtensions`. -/
def imageExtensions : List Str :=
  [".png", ".jpg", ".jpeg", ".gif", ".bmp", ".svg", ".tiff", ".webp", ".ico", ".psd"].map
    String.toList

/-- The set `binaryExtensions`. -/
def binaryExtensions : List Str :=
  [".png", ".jpg", ".jpeg", ".gif", ".bmp", ".svg", ".tiff", ".webp", ".ico", ".psd",
   ".exe", ".dll", ".so", ".dylib", ".obj", ".o", ".a", ".lib",
   ".zip", ".gz", ".tar", ".7z", ".rar", ".jar", ".war", ".ear",
   ".mp3", ".mp4", ".avi", ".mov", ".mkv", ".wav", ".flac", ".ogg",
   ".pdf", ".doc", ".docx", ".xls", ".xlsx", ".ppt", ".pptx",
   ".db", ".sqlite", ".mdb", ".accdb", ".frm", ".dbf",
   ".bin", ".dat", ".class", ".pyc", ".pyo"].map String.toList

/-- The set `indexableExtensions`. -/
def indexableExtensions : List Str :=
  [".r", ".c", ".cpp", ".cc", ".h", ".hpp", ".cxx", ".hxx", ".py", ".pyi", ".pyw",
   ".md", ".rmd", ".qmd", ".markdown", ".sh", ".bash", ".zsh", ".bat", ".cmd", ".ps1",
   ".sql", ".rd", ".Rd", ".stan"].map String.toList

/-- The function `isBinaryFileType`. -/
def isBinaryFileType (extension : Str) : Bool := binaryExtensions.contains extension

/-- The function `isImageFileType`. -/
def isImageFileType (extension : Str) : Bool := imageExtensions.contains extension

/-- The function `isIndexableFileType`. -/
def isIndexableFileType (extension : Str) : Bool := indexableExtensions.contains extension

/-! ## Collaborators taken as parameters -/

/-- The language extractors `index…FromString(content, path)`, each a change of
the symbol store, and the other collaborators whose code is outside this
translation: the document type tags of the source database, the path alias
resolution, the CRC-32 hash, the id generator, whether the storage directory
can be created, the relationship pass `updateFileAndDirectoryContexts` and the
incremental update `updateIndexIncrementally`. -/
structure Env where
  indexRFromString : Str → Str → SymbolMap → SymbolMap
  indexCppFromString : Str → Str → SymbolMap → SymbolMap
  indexPythonFromString : Str → Str → SymbolMap → SymbolMap
  indexMarkdownFromString : Str → Str → SymbolMap → SymbolMap
  indexSqlFromString : Str → Str → SymbolMap → SymbolMap
  indexStanFromString : Str → Str → SymbolMap → SymbolMap
  indexShellFromString : Str → Str → SymbolMap → SymbolMap
  indexRdFromString : Str → Str → SymbolMap → SymbolMap
  kSourceDocumentTypeRSource : Str
  kSourceDocumentTypeCpp : Str
  kSourceDocumentTypePython : Str
  kSourceDocumentTypeRMarkdown : Str
  kSourceDocumentTypeQuartoMarkdown : Str
  kSourceDocumentTypeSQL : Str
  kSourceDocumentTypeShell : Str
  resolveAliasedPath : Str → Str
  crc32HexHash : Str → Str
  generateUniqueId : Storage → Str
  storageWritable : Bool
  updateFileAndDirectoryContexts : SymbolMap → SymbolMap
  updateIndexIncrementally : Machine → Bool × Machine

/-- The dispatch on the extension shared by `indexFileByType` and
`indexContentByFileType`, after their guards. -/
def indexByExtension (env : Env) (ext content path : Str) (m : SymbolMap) :
    Option SymbolMap :=
  if ext = ".r".toList then some (env.indexRFromString content path m)
  else if ext = ".cpp".toList ∨ ext = ".cc".toList ∨ ext = ".c".toList ∨ ext = ".h".toList ∨
      ext = ".hpp".toList then some (env.indexCppFromString content path m)
  else if ext = ".py".toList then some (env.indexPythonFromString content path m)
  else if ext = ".md".toList ∨ ext = ".rmd".toList ∨ ext = ".qmd".toList then
    some (env.indexMarkdownFromString content path m)
  else if ext = ".sql".toList then some (env.indexSqlFromString content path m)
  else if ext = ".stan".toList then some (env.indexStanFromString content path m)
  else if ext = ".sh".toList ∨ ext = ".bash".toList then
    some (env.indexShellFromString content path m)
  else if ext = ".rd".toList then some (env.indexRdFromString content path m)
  else none

/-- The method `SymbolIndex::indexFileByType` for a regular file: nothing for a
binary or non-indexable extension; otherwise the extractor of the extension
runs on the content read from the file (nothing when the read fails). -/
def indexFileByType (env : Env) (fileName : Str) (content : Option Str)
    (absPath : Str) (m : SymbolMap) : SymbolMap :=
  let ext := getExtensionLowerCase fileName
  if isBinaryFileType ext || !isIndexableFileType ext then m
  else
    match content with
    | none => m
    | some text =>
      match indexByExtension env ext text absPath m with
      | some m1 => m1
      | none =>
        if ends_with (to_lower fileName) ".rd".toList then env.indexRdFromString text absPath m
        else m

/-- The method `SymbolIndex::indexContentByFileType`: the extension is the text
of the path from its last dot on. -/
def indexContentByFileType (env : Env) (content filePath : Str) (m : SymbolMap) :
    SymbolMap :=
  let ext :=
    if filePath.contains '.' then
      to_lower ('.' :: (filePath.reverse.takeWhile (fun c => c != '.')).reverse)
    else []
  if isExcludedFilename (baseName filePath) then m
  else if isBinaryFileType ext || !isIndexableFileType ext then m
  else (indexByExtension env ext content filePath m).getD m

/-- The method `SymbolIndex::indexContentByDocumentType`. -/
def indexContentByDocumentType (env : Env) (content filePath docType : Str)
    (m : SymbolMap) : SymbolMap :=
  if isExcludedFilename (baseName filePath) then m
  else if docType = env.kSourceDocumentTypeRSource then env.indexRFromString content filePath m
  else if docType = env.kSourceDocumentTypeCpp then env.indexCppFromString content filePath m
  else if docType = env.kSourceDocumentTypePython then
    env.indexPythonFromString content filePath m
  else if docType = env.kSourceDocumentTypeRMarkdown ∨
      docType = env.kSourceDocumentTypeQuartoMarkdown then
    env.indexMarkdownFromString content filePath m
  else if docType = env.kSourceDocumentTypeSQL then env.indexSqlFromString content filePath m
  else if docType = env.kSourceDocumentTypeShell then env.indexShellFromString content filePath m
  else indexContentByFileType env content filePath m

/-! ## The traversal engine -/

/-- The constant `MAX_FILES_PER_BATCH`. -/
def MAX_FILES_PER_BATCH : Nat := 100

/-- The index during a traversal call, with the counter `filesIndexed` that the
call receives by reference. -/
structure Traversal where
  index : SymbolIndex
  filesIndexed : Nat
  deriving DecidableEq, Repr

/-- The call `traversalPath_.push_back(pos)`. -/
def Traversal.pushPath (t : Traversal) (pos : Nat) : Traversal :=
  { t with index := { t.index with traversalPath_ := t.index.traversalPath_ ++ [pos] } }

/-- The call `addSymbolNoLock` on the index of a traversal. -/
def Traversal.addSymbol (t : Traversal) (symbol : Symbol) : Traversal :=
  { t with index := { t.index with symbolMap_ := addSymbolNoLock t.index.symbolMap_ symbol } }

/-- The test of `traverseDirectory` for a directory that is skipped. -/
def isSkippedDirectory (dirName : Str) : Bool :=
  dirName.head? == some '.' || dirName == ".git".toList || ends_with dirName "_cache".toList

/-- The line count of a text file for its file symbol: the number of newline
characters plus one, or 0 when the file cannot be read. -/
def fileLineCount (content : Option Str) : Int :=
  match content with
  | some text => (text.count '\n' : Nat) + 1
  | none => 0

/-- The file branch of the loop of `traverseDirectory`, for a file that is not
excluded: the file-level symbol (image, binary, or text with its line count),
the content extraction for a text file of an indexable type, and the counter. -/
def indexFileEntry (env : Env) (fileName : Str) (content : Option Str) (filePath : Str)
    (t : Traversal) : Traversal :=
  let extension := getExtensionLowerCase fileName
  let t1 :=
    if isImageFileType extension then
      t.addSymbol (Symbol.make fileName "image".toList filePath 0 0 [] [])
    else if isBinaryFileType extension then
      t.addSymbol (Symbol.make fileName "binary".toList filePath 0 0 [] [])
    else
      let fileLines := fileLineCount content
      let t2 := t.addSymbol (Symbol.make fileName "file".toList filePath 1 fileLines [] [])
      if isIndexableFileType extension then
        { t2 with index := { t2.index with
            symbolMap_ := indexFileByType env fileName content filePath t2.index.symbolMap_ } }
      else t2
  { t1 with filesIndexed := t1.filesIndexed + 1 }

/-- The loop of `traverseDirectory` from position `i` on; `rest` holds the
sorted children from position `i`, `size` is the number of children, and
`recurse` is the recursive call of `traverseDirectory` on a subdirectory. The
time budget is ignored (`hasTimedOut` is never true). -/
def traverseLoop (env : Env) (maxFiles : Nat) (recurse : FsNode → Str → Traversal → Traversal)
    (dirPath : Str) (size : Nat) : Nat → List FsNode → Traversal → Traversal
  | _, [], t => t
  | i, child :: rest, t =>
    if t.filesIndexed ≥ maxFiles then
      if i < size - 1 then t.pushPath (i + 1) else t
    else
      match child with
      | .dir dirName _ _ =>
        if isSkippedDirectory dirName then
          traverseLoop env maxFiles recurse dirPath size (i + 1) rest t
        else
          let t1 := t.addSymbol
            (Symbol.make dirName "directory".toList (childPath dirPath dirName) 0 0 [] [])
          let t2 := { t1 with filesIndexed := t1.filesIndexed + 1 }
          if t2.filesIndexed ≥ maxFiles then t2.pushPath (i + 1)
          else
            let t3 := recurse child (childPath dirPath dirName) t2
            if t3.filesIndexed ≥ maxFiles then t3.pushPath i
            else traverseLoop env maxFiles recurse dirPath size (i + 1) rest t3
      | .file fileName content _ =>
        if isExcludedFilename fileName then
          traverseLoop env maxFiles recurse dirPath size (i + 1) rest t
        else
          traverseLoop env maxFiles recurse dirPath size (i + 1) rest
            (indexFileEntry env fileName content (childPath dirPath fileName) t)

/-- The method `SymbolIndex::traverseDirectory` with the batch limit `maxFiles`
(`MAX_FILES_PER_BATCH` in the code) and a recursion budget `fuel`; a budget
above the depth of the tree is never used up. A path that is not a directory
has no children to list (`getChildren` fails) and the call returns. -/
def traverseDirectory (env : Env) (maxFiles : Nat) :
    Nat → FsNode → Str → Traversal → Traversal
  | 0, _, _, t => t
  | _ + 1, .file _ _ _, _, t => t
  | fuel + 1, .dir _ _ entries, dirPath, t =>
    let children := sortChildren dirPath entries
    if t.filesIndexed ≥ maxFiles then
      if !children.isEmpty then
        if t.index.traversalPath_.isEmpty || t.index.traversalPath_.getLast? != some 1 then
          t.pushPath 1
        else t
      else t
    else
      let startPosition := t.index.traversalPath_.getLast?.getD 0
      let t1 := { t with index := { t.index with
        traversalPath_ := t.index.traversalPath_.dropLast } }
      traverseLoop env maxFiles (traverseDirectory env maxFiles fuel) dirPath children.length
        startPosition (children.drop startPosition) t1

/-- A full traversal call on the tree `dir`: the recursion budget is the depth
of the tree plus one. -/
def traverse (env : Env) (maxFiles : Nat) (dir : FsNode) (dirPath : Str) (t : Traversal) :
    Traversal :=
  traverseDirectory env maxFiles (dir.depth + 1) dir dirPath t

/-- The loop of the lambda `traverseDirForList` of `getCurrentDirectoryStructure`
over the children of `dirPath`, in the order `getChildren` gives; `recurse` is
the lambda applied to a subdirectory. `fileList` grows up to
`MAX_FILES_PER_BATCH` files (`filesFound` is its length). -/
def listLoop (recurse : List FsNode → Str → List Str → List Str) (dirPath : Str) :
    List FsNode → List Str → List Str
  | [], fileList => fileList
  | child :: rest, fileList =>
    if fileList.length ≥ MAX_FILES_PER_BATCH then fileList
    else
      match child with
      | .dir dirName _ entries =>
        if dirName.head? == some '.' || dirName == "node_modules".toList ||
            dirName == ".git".toList then
          listLoop recurse dirPath rest fileList
        else
          listLoop recurse dirPath rest (recurse entries (childPath dirPath dirName) fileList)
      | .file fileName _ _ =>
        listLoop recurse dirPath rest (fileList ++ [childPath dirPath fileName])

/-- The recursive lambda `traverseDirForList` on the children `entries` of the
directory `dirPath`, with a recursion budget. -/
def traverseDirForList : Nat → List FsNode → Str → List Str → List Str
  | 0, _, _, fileList => fileList
  | fuel + 1, entries, dirPath, fileList =>
    listLoop (traverseDirForList fuel) dirPath entries fileList

/-! ## Directory snapshot and fingerprints -/

/-- The method `SymbolIndex::getCurrentDirectoryStructure` for the directory
tree `dir` with absolute path `dirPath`. -/
def getCurrentDirectoryStructure (dir : FsNode) (dirPath : Str) : List Str :=
  match dir with
  | .dir _ _ entries => traverseDirForList (dir.depth + 1) entries dirPath []
  | .file _ _ _ => []

/-- The function `generateFileChecksum`: empty for a path that does not exist,
else the CRC-32 of the decimal modification time. -/
def generateFileChecksum (env : Env) (dir : FsNode) (dirPath path : Str) : Str :=
  match dir.lookup dirPath path with
  | none => []
  | some node => env.crc32HexHash (Nat.repr node.modTime).toList

/-- The function `getFileModifiedTime`. -/
def getFileModifiedTime (dir : FsNode) (dirPath path : Str) : Str :=
  match dir.lookup dirPath path with
  | none => []
  | some node => (Nat.repr node.modTime).toList

/-- The method `SymbolIndex::calculateFileChecksums`: a checksum for every path
of `directoryFiles_` that exists and is not a directory. -/
def calculateFileChecksums (env : Env) (dir : FsNode) (dirPath : Str) (idx : SymbolIndex) :
    SymbolIndex :=
  let checksums :=
    idx.directoryFiles_.foldl
      (fun cs path =>
        match dir.lookup dirPath path with
        | none => cs
        | some node =>
          if node.isDirectory then cs
          else setChecksum cs path
            { path := path, checksum := generateFileChecksum env dir dirPath path,
              lastModified := getFileModifiedTime dir dirPath path })
      []
  { idx with fileChecksums_ := checksums }

/-- The method `SymbolIndex::hasDirectoryChanged`; the stored structure and
checksums are loaded into the index on the way. -/
def hasDirectoryChanged (env : Env) (dir : FsNode) (dirPath : Str) (mach : Machine) :
    Bool × Machine :=
  let dirId := getDirectoryId mach.storage dirPath
  if dirId.isEmpty then (true, mach)
  else
    let s1 := loadDirStructureFromStorage mach dirId
    if !s1.1 then (true, s1.2)
    else
      let s2 := loadChecksumsFromStorage s1.2 dirId
      if !s2.1 then (true, s2.2)
      else
        let currentFiles := getCurrentDirectoryStructure dir dirPath
        if currentFiles.length ≠ s2.2.index.directoryFiles_.length then (true, s2.2)
        else if sortByKey id currentFiles ≠ sortByKey id s2.2.index.directoryFiles_ then
          (true, s2.2)
        else
          (currentFiles.any (fun filePath =>
            match findChecksum s2.2.index.fileChecksums_ filePath with
            | none => true
            | some saved => saved.checksum != generateFileChecksum env dir dirPath filePath),
           s2.2)

/-! ## Open documents -/

/-- A document of the source database: id, path (empty when unsaved), contents,
type tag and the `tempName` property. -/
structure SourceDocument where
  id : Str
  path : Str
  contents : Str
  type : Str
  tempName : Str
  deriving DecidableEq, Repr

/-- The path under which a document is indexed (`indexOpenDocuments` and
`onSourceDocUpdated`): the resolved saved path, else a synthetic path made of
the first four characters of the id and the display name. -/
def documentFilePath (env : Env) (doc : SourceDocument) : Str :=
  if !doc.path.isEmpty then env.resolveAliasedPath doc.path
  else if !doc.tempName.isEmpty then
    if !doc.id.isEmpty then "__UNSAVED_".toList ++ doc.id.take 4 ++ "__/".toList ++ doc.tempName
    else "__UNSAVED__/".toList ++ doc.tempName
  else
    if !doc.id.isEmpty then "__UNSAVED_".toList ++ doc.id.take 4 ++ "__/Untitled".toList
    else "__UNSAVED__/Untitled".toList

/-- The text of a path before its last `/` or `\`, empty when it has none
(`filePath.substr(0, lastSlash)`). -/
def beforeLastSlash (p : Str) : Str :=
  ((p.reverse.dropWhile (fun c => !(c == '/' || c == '\\'))).drop 1).reverse

/-- The file-level symbol of an open document. -/
def documentFileSymbol (doc : SourceDocument) (filePath : Str) : Symbol :=
  let fileLines : Int := (doc.contents.count '\n' : Nat) + 1
  let parentContext := if doc.path.isEmpty then [] else beforeLastSlash filePath
  Symbol.make (baseName filePath) "file".toList filePath 1 fileLines parentContext []

/-- The body of the loop of `indexOpenDocuments` for one document. -/
def indexOpenDocument (env : Env) (m : SymbolMap) (doc : SourceDocument) : SymbolMap :=
  if doc.contents.isEmpty then m
  else
    let filePath := documentFilePath env doc
    let m1 := removeSymbolsForFile m filePath
    let m2 := indexContentByDocumentType env doc.contents filePath doc.type m1
    addSymbolNoLock m2 (documentFileSymbol doc filePath)

/-- The method `SymbolIndex::indexOpenDocuments` over the open documents. -/
def indexOpenDocuments (env : Env) (docs : List SourceDocument) (idx : SymbolIndex) :
    SymbolIndex :=
  { idx with symbolMap_ := docs.foldl (indexOpenDocument env) idx.symbolMap_ }

/-- The handler `onSourceDocUpdated`. -/
def onSourceDocUpdated (env : Env) (doc : SourceDocument) (idx : SymbolIndex) : SymbolIndex :=
  if !idx.isIndexBuilt then idx
  else if doc.contents.isEmpty then idx
  else
    let filePath := documentFilePath env doc
    let m1 := removeSymbolsForFile idx.symbolMap_ filePath
    let m2 := indexContentByDocumentType env doc.contents filePath doc.type m1
    { idx with symbolMap_ := addSymbol m2 (documentFileSymbol doc filePath) }

/-- The handler `onSourceDocRemoved`. -/
def onSourceDocRemoved (env : Env) (_id path : Str) (idx : SymbolIndex) : SymbolIndex :=
  if !idx.isIndexBuilt then idx
  else if !path.isEmpty then
    { idx with symbolMap_ := removeSymbolsForFile idx.symbolMap_ (env.resolveAliasedPath path) }
  else idx

/-- The handler `onAllSourceDocsRemoved`. -/
def onAllSourceDocsRemoved (idx : SymbolIndex) : SymbolIndex :=
  if !idx.isIndexBuilt then idx
  else
    let kept := removeWhere (fun symbol => containsStr symbol.filePath "__UNSAVED".toList)
      idx.symbolMap_
    { idx with symbolMap_ := kept }

/-! ## Building the index -/

/-- The method `SymbolIndex::ensureStorageDir`: the id of the directory, minted
and appended to the mapping when the directory has none; empty when the
storage cannot be created. -/
def ensureStorageDir (env : Env) (workingDir : Str) (storage : Storage) : Str × Storage :=
  if !env.storageWritable then ([], storage)
  else
    let dirId := getDirectoryId storage workingDir
    if dirId.isEmpty then
      let newId := env.generateUniqueId storage
      let withFolder := storage.setFolder newId (storage.folder newId)
      (newId, { withFolder with
                  mapping := storage.mapping ++ [(normalizeDirPath workingDir, newId)] })
    else (dirId, storage.setFolder dirId (storage.folder dirId))

/-- The method `SymbolIndex::saveAllToStorage`: the relationship pass, then the
index, the checksums and the directory structure are written. -/
def saveAllToStorage (env : Env) (mach : Machine) (dirId : Str) : Machine :=
  let updated := { mach with index := { mach.index with
    symbolMap_ := env.updateFileAndDirectoryContexts mach.index.symbolMap_ } }
  let saved := saveChecksumsToStorage (saveIndexToStorage updated dirId) dirId
  match saveDirStructureToStorage saved dirId with
  | .ok done => done
  | .error _ => saved

/-- The initialisation of a full index in `buildIndex`: when no traversal is in
progress, the store and the pending queue are cleared and the snapshot and the
checksums are taken; otherwise the index is left as it is. -/
def startOfWalk (env : Env) (dir : FsNode) (dirPath : Str) (idx : SymbolIndex) : SymbolIndex :=
  if idx.traversalPath_.isEmpty then
    calculateFileChecksums env dir dirPath
      { idx with symbolMap_ := [], pendingFiles_ := [],
                 directoryFiles_ := getCurrentDirectoryStructure dir dirPath }
  else idx

/-- The full-traversal part of `buildIndex` (from the second lock on): a fresh
start clears the store and the pending queue and takes the snapshot and the
checksums; then one traversal call from the root with a counter of zero, the
built flag, the open documents and the save. -/
def buildIndexTraversal (env : Env) (dir : FsNode) (dirPath : Str) (docs : List SourceDocument)
    (mach : Machine) (dirId : Str) : Machine :=
  let idx1 := startOfWalk env dir dirPath mach.index
  let walked := traverse env MAX_FILES_PER_BATCH dir dirPath { index := idx1, filesIndexed := 0 }
  let idx2 := indexOpenDocuments env docs { walked.index with indexBuilt_ := true }
  saveAllToStorage env { mach with index := idx2 } dirId

/-- The first statements of `buildIndex`: the traversal position is cleared when
the directory differs from the last one, and the working directory is set. -/
def enterWorkingDir (mach : Machine) (workingDir : Str) : Machine :=
  { mach with index := { mach.index with
      traversalPath_ :=
        if workingDir ≠ mach.index.currentWorkingDir_ then [] else mach.index.traversalPath_,
      currentWorkingDir_ := workingDir } }

/-- The method `SymbolIndex::buildIndex` for the directory tree `dir` with
absolute path `dirPath` and the open documents `docs`. -/
def buildIndex (env : Env) (dir : FsNode) (dirPath : Str) (docs : List SourceDocument)
    (mach : Machine) : Except IndexError Unit × Machine :=
  let workingDir := dirPath
  let mach0 := enterWorkingDir mach workingDir
  let dirId := getDirectoryId mach0.storage workingDir
  if !dirId.isEmpty then
    let loaded := loadIndexFromStorageNoLock mach0 dirId
    let mach1 :=
      if !loaded.1 then { loaded.2 with index := { loaded.2.index with traversalPath_ := [] } }
      else loaded.2
    if !mach1.index.traversalPath_.isEmpty then
      (.ok (), buildIndexTraversal env dir dirPath docs mach1 dirId)
    else
      let changed := hasDirectoryChanged env dir dirPath mach1
      if !changed.1 then
        let idx1 := indexOpenDocuments env docs { changed.2.index with indexBuilt_ := true }
        (.ok (), { changed.2 with index := idx1 })
      else
        let updated := env.updateIndexIncrementally changed.2
        if updated.1 then
          (.ok (), { updated.2 with index := { updated.2.index with indexBuilt_ := true } })
        else (.ok (), buildIndexTraversal env dir dirPath docs updated.2 dirId)
  else
    let ensured := ensureStorageDir env workingDir mach0.storage
    if ensured.1.isEmpty then (.error .operationNotPermitted, mach0)
    else
      (.ok (), buildIndexTraversal env dir dirPath docs { mach0 with storage := ensured.2 }
                 ensured.1)

/-- The method `SymbolIndex::buildIndexQuick`. -/
def buildIndexQuick (env : Env) (dirPath : Str) (mach : Machine) :
    Except IndexError Unit × Machine :=
  let mach0 := { mach with index := { mach.index with
    currentWorkingDir_ := dirPath, traversalPath_ := [] } }
  let dirId := getDirectoryId mach0.storage dirPath
  let loaded := loadIndexFromStorageNoLock mach0 dirId
  if !dirId.isEmpty && loaded.1 then
    (.ok (), { loaded.2 with index := { loaded.2.index with indexBuilt_ := true } })
  else
    let mach1 := if !dirId.isEmpty then loaded.2 else mach0
    let ensured :=
      if dirId.isEmpty then ensureStorageDir env dirPath mach1.storage
      else (dirId, mach1.storage)
    if ensured.1.isEmpty then (.error .operationNotPermitted, mach1)
    else
      (.ok (), { index := { mach1.index with symbolMap_ := [], fileChecksums_ := [],
                                              directoryFiles_ := [], pendingFiles_ := [],
                                              indexBuilt_ := true },
                 storage := ensured.2 })




/-! ## Invariants of the symbol store -/

/-- Two symbols have the same identity: name, file path and start line. -/
def SameIdentity (a b : Symbol) : Prop :=
  a.name = b.name ∧ a.filePath = b.filePath ∧ a.lineStart = b.lineStart

/-- What every store built by `addSymbolNoLock` and `removeSymbolsForFile`
satisfies: the keys are distinct, every bucket holds symbols whose lower-cased
name is its key, no two symbols of a bucket are the same instance, and no
bucket is empty. -/
def StoreWF (m : SymbolMap) : Prop :=
  (m.map Prod.fst).Nodup ∧
  ∀ kb ∈ m, (∀ s ∈ kb.2, to_lower s.name = kb.1) ∧
    kb.2.Pairwise (fun a b => a.isSameInstance b = false) ∧ kb.2 ≠ []

instance (a b : Symbol) : Decidable (SameIdentity a b) := by
  unfold SameIdentity; infer_instance

instance (m : SymbolMap) : Decidable (StoreWF m) := by
  unfold StoreWF; infer_instance

/-- No symbol of the store has an empty name or a name with a `#`. -/
def PlainNames (m : SymbolMap) : Prop :=
  ∀ s ∈ allSymbols m, s.name ≠ [] ∧ '#' ∉ s.name

instance (m : SymbolMap) : Decidable (PlainNames m) := by
  unfold PlainNames; infer_instance

/-- The types of the symbols that the traversal adds for the entries of a
directory. -/
def isEntrySymbol (symbol : Symbol) : Bool :=
  symbol.type == "file".toList || symbol.type == "image".toList ||
  symbol.type == "binary".toList || symbol.type == "directory".toList

/-- The number of stored file, image, binary and directory symbols. -/
def entryCount (m : SymbolMap) : Nat := ((allSymbols m).filter isEntrySymbol).length

/-- The content extraction adds no file, image, binary or directory symbol (the
extractors give functions, classes, headers, chunks and the like). -/
def ExtractorsAddNoEntries (env : Env) : Prop :=
  ∀ fileName content absPath m,
    entryCount (indexFileByType env fileName content absPath m) ≤ entryCount m

/-- The relation between the traversal state before and after a piece of the
walk with batch limit `maxFiles`: the counter does not decrease, stays within
the limit when it was within it, and the number of entry symbols grows by no
more than the counter. -/
def WalkStep (maxFiles : Nat) (t r : Traversal) : Prop :=
  t.filesIndexed ≤ r.filesIndexed ∧
  (t.filesIndexed ≤ maxFiles → r.filesIndexed ≤ maxFiles) ∧
  entryCount r.index.symbolMap_ + t.filesIndexed ≤
    entryCount t.index.symbolMap_ + r.filesIndexed


/-! ## The control skeleton of the traversal -/

/-- The part of the traversal state that decides where the walk goes: the
traversal position stack and the counter. -/
structure Cursor where
  traversalPath_ : List Nat
  filesIndexed : Nat
  deriving DecidableEq, Repr

/-- The cursor of a traversal state. -/
def Traversal.cursor (t : Traversal) : Cursor :=
  { traversalPath_ := t.index.traversalPath_, filesIndexed := t.filesIndexed }

/-- The loop of `traverseDirectory` on the cursor alone: the same tests and the
same stack operations as `traverseLoop`, without the symbol store. -/
def cursorLoop (maxFiles : Nat) (recurse : FsNode → Str → Cursor → Cursor) (dirPath : Str)
    (size : Nat) : Nat → List FsNode → Cursor → Cursor
  | _, [], c => c
  | i, child :: rest, c =>
    if c.filesIndexed ≥ maxFiles then
      if i < size - 1 then { c with traversalPath_ := c.traversalPath_ ++ [i + 1] } else c
    else
      match child with
      | .dir dirName _ _ =>
        if isSkippedDirectory dirName then cursorLoop maxFiles recurse dirPath size (i + 1) rest c
        else
          let c2 : Cursor := { c with filesIndexed := c.filesIndexed + 1 }
          if c2.filesIndexed ≥ maxFiles then
            { c2 with traversalPath_ := c2.traversalPath_ ++ [i + 1] }
          else
            let c3 := recurse child (childPath dirPath dirName) c2
            if c3.filesIndexed ≥ maxFiles then
              { c3 with traversalPath_ := c3.traversalPath_ ++ [i] }
            else cursorLoop maxFiles recurse dirPath size (i + 1) rest c3
      | .file fileName _ _ =>
        if isExcludedFilename fileName then
          cursorLoop maxFiles recurse dirPath size (i + 1) rest c
        else
          cursorLoop maxFiles recurse dirPath size (i + 1) rest
            { c with filesIndexed := c.filesIndexed + 1 }

/-- The method `traverseDirectory` on the cursor alone. -/
def cursorDirectory (maxFiles : Nat) : Nat → FsNode → Str → Cursor → Cursor
  | 0, _, _, c => c
  | _ + 1, .file _ _ _, _, c => c
  | fuel + 1, .dir _ _ entries, dirPath, c =>
    let children := sortChildren dirPath entries
    if c.filesIndexed ≥ maxFiles then
      if !children.isEmpty then
        if c.traversalPath_.isEmpty || c.traversalPath_.getLast? != some 1 then
          { c with traversalPath_ := c.traversalPath_ ++ [1] }
        else c
      else c
    else
      cursorLoop maxFiles (cursorDirectory maxFiles fuel) dirPath children.length
        (c.traversalPath_.getLast?.getD 0) (children.drop (c.traversalPath_.getLast?.getD 0))
        { c with traversalPath_ := c.traversalPath_.dropLast }

/-- The index after the traversal call of `buildIndex` (`buildIndexTraversal`),
before the built flag, the open documents and the save. -/
def walkedIndex (env : Env) (dir : FsNode) (dirPath : Str) (idx : SymbolIndex) : SymbolIndex :=
  (traverse env MAX_FILES_PER_BATCH dir dirPath
    { index := startOfWalk env dir dirPath idx, filesIndexed := 0 }).index

/-- The members that a traversal call does not touch. -/
def SameSettings (a b : SymbolIndex) : Prop :=
  b.currentWorkingDir_ = a.currentWorkingDir_ ∧ b.directoryFiles_ = a.directoryFiles_ ∧
  b.fileChecksums_ = a.fileChecksums_ ∧ b.pendingFiles_ = a.pendingFiles_ ∧
  b.indexBuilt_ = a.indexBuilt_


/-- The storage holds an index for the directory `dirPath` under the id `dirId`
whose saved traversal position is `path`. -/
def StoredPosition (storage : Storage) (dirPath dirId : Str) (path : List Int) : Prop :=
  getDirectoryId storage dirPath = dirId ∧
  ∃ si, (storage.folder dirId).symbol_index = some si ∧ si.traversal_path = path

/-! ## The header branch of the Markdown extractor -/

/-- The search of `^(#{1,6})\s+(.*)` in a line: one to six `#` at the start of
the line, then white space, then the title up to a line terminator. The result
is the level and the raw title. -/
def headerRegex (line : Str) : Option (Nat × Str) :=
  let hashes := line.takeWhile (fun c => c == '#')
  let rest := line.dropWhile (fun c => c == '#')
  if hashes.length = 0 ∨ hashes.length > 6 then none
  else if (rest.takeWhile isSpace).isEmpty then none
  else some (hashes.length, (rest.dropWhile isSpace).takeWhile (fun c => !isLineTerminator c))

/-- The symbol that `indexMarkdownFromString` adds for the line with index `i`
(outside a code block) when the line is a header: the title without trailing
white space and hashes, the type `header` followed by the level, and the line
number `i + 1` for both ends. -/
def markdownHeaderSymbol (line : Str) (i : Nat) (path : Str) : Option Symbol :=
  match headerRegex line with
  | none => none
  | some (level, title) =>
    some (Symbol.make (stripTrailingHashes title) ("header".toList ++ (Nat.repr level).toList)
      path ((i : Int) + 1) ((i : Int) + 1) [] [])

/-! ## Fixtures for the examples -/

/-- Collaborators for the examples: extractors that find nothing, the document
type tags of the source database, no path aliases, storage that can be
written, and a relationship pass and an incremental update that do nothing. -/
def quietEnv : Env :=
  { indexRFromString := fun _ _ m => m
    indexCppFromString := fun _ _ m => m
    indexPythonFromString := fun _ _ m => m
    indexMarkdownFromString := fun _ _ m => m
    indexSqlFromString := fun _ _ m => m
    indexStanFromString := fun _ _ m => m
    indexShellFromString := fun _ _ m => m
    indexRdFromString := fun _ _ m => m
    kSourceDocumentTypeRSource := "r_source".toList
    kSourceDocumentTypeCpp := "cpp".toList
    kSourceDocumentTypePython := "python".toList
    kSourceDocumentTypeRMarkdown := "r_markdown".toList
    kSourceDocumentTypeQuartoMarkdown := "quarto_markdown".toList
    kSourceDocumentTypeSQL := "sql".toList
    kSourceDocumentTypeShell := "sh".toList
    resolveAliasedPath := fun p => p
    crc32HexHash := fun s => s
    generateUniqueId := fun _ => "id-1".toList
    storageWritable := true
    updateFileAndDirectoryContexts := fun m => m
    updateIndexIncrementally := fun mach => (false, mach) }

/-- A fresh index object and an empty storage. -/
def Machine.fresh : Machine := { index := SymbolIndex.new, storage := { mapping := [], folders := [] } }

/-- A built index holding the store `m`, with no working directory. -/
def Machine.ofStore (m : SymbolMap) : Machine :=
  { index := { SymbolIndex.new with symbolMap_ := m, indexBuilt_ := true },
    storage := { mapping := [], folders := [] } }

/-- A project whose only entry is the directory `data (old)`. -/
def c1Tree : FsNode := .dir "proj".toList 0 [.dir "data (old)".toList 0 []]

/-- The index after `buildIndex` on `c1Tree`. -/
def c1Machine : Machine := (buildIndex quietEnv c1Tree "/proj".toList [] Machine.fresh).2

/-- The directory symbol of `data (old)`. -/
def c1Symbol : Symbol :=
  Symbol.make "data (old)".toList "directory".toList "/proj/data (old)".toList 0 0 [] []

/-- A function symbol `foo`, as the R extractor adds for `foo <- function(x) {}`
at line 1 of `/proj/a.R`. -/
def fooSymbol : Symbol :=
  Symbol.make "foo".toList "function".toList "/proj/a.R".toList 1 1 [] "function(x)".toList

/-- The store after the Markdown extractor has read the line `line` as the first
line of `/proj/notes.md`. -/
def headerStore (line : Str) : SymbolMap :=
  match markdownHeaderSymbol line 0 "/proj/notes.md".toList with
  | some sym => addSymbolNoLock [] sym
  | none => []

/-- A project with the directory `d` that holds the file `a.txt`. -/
def c2Tree : FsNode :=
  .dir "proj".toList 0 [.dir "d".toList 0 [.file "a.txt".toList (some "x".toList) 0]]

/-- One traversal call on `c2Tree` with a batch limit of one entry, resuming
from the traversal position of the index. -/
def c2Resume (idx : SymbolIndex) : SymbolIndex :=
  (traverse quietEnv 1 c2Tree "/proj".toList { index := idx, filesIndexed := 0 }).index

/-- The names of the stored symbols. -/
def storedNames (idx : SymbolIndex) : List Str := (allSymbols idx.symbolMap_).map (fun s => s.name)

/-- The names `f00.txt` to `f98.txt`. -/
def c3Names : List Str :=
  ["f00.txt", "f01.txt", "f02.txt", "f03.txt", "f04.txt", "f05.txt", "f06.txt", "f07.txt", "f08.txt", "f09.txt", "f10.txt", "f11.txt", "f12.txt", "f13.txt", "f14.txt", "f15.txt", "f16.txt", "f17.txt", "f18.txt", "f19.txt", "f20.txt", "f21.txt", "f22.txt", "f23.txt", "f24.txt", "f25.txt", "f26.txt", "f27.txt", "f28.txt", "f29.txt", "f30.txt", "f31.txt", "f32.txt", "f33.txt", "f34.txt", "f35.txt", "f36.txt", "f37.txt", "f38.txt", "f39.txt", "f40.txt", "f41.txt", "f42.txt", "f43.txt", "f44.txt", "f45.txt", "f46.txt", "f47.txt", "f48.txt", "f49.txt", "f50.txt", "f51.txt", "f52.txt", "f53.txt", "f54.txt", "f55.txt", "f56.txt", "f57.txt", "f58.txt", "f59.txt", "f60.txt", "f61.txt", "f62.txt", "f63.txt", "f64.txt", "f65.txt", "f66.txt", "f67.txt", "f68.txt", "f69.txt", "f70.txt", "f71.txt", "f72.txt", "f73.txt", "f74.txt", "f75.txt", "f76.txt", "f77.txt", "f78.txt", "f79.txt", "f80.txt", "f81.txt", "f82.txt", "f83.txt", "f84.txt", "f85.txt", "f86.txt", "f87.txt", "f88.txt", "f89.txt", "f90.txt", "f91.txt", "f92.txt", "f93.txt", "f94.txt", "f95.txt", "f96.txt", "f97.txt", "f98.txt"].map String.toList

/-- A project with the directory `d` that holds 99 text files. -/
def c3Tree : FsNode :=
  .dir "proj".toList 0 [.dir "d".toList 0 (c3Names.map (fun n => .file n (some "x".toList) 0))]

/-- One `buildIndex` call on `c3Tree` with no open document. -/
def c3Build (mach : Machine) : Machine := (buildIndex quietEnv c3Tree "/proj".toList [] mach).2

/-! ## Requests to the index -/

/-- The operations a caller can run on the index: the lookups, the edits of the
symbol store (`addSymbol`, `removeSymbolsForFile`, and any other operation that
only edits the store, as `indexSpecificTarget` does), the document events, the
removal of the index and the two builds. -/
inductive Request where
  | findSymbol (name : Str)
  | getAllSymbols
  | addSymbol (symbol : Symbol)
  | removeSymbolsForFile (filePath : Str)
  | editStore (edit : SymbolMap → SymbolMap)
  | docUpdated (doc : SourceDocument)
  | docRemoved (id path : Str)
  | allDocsRemoved
  | removeSymbolIndex (processDir : Str)
  | buildIndex (dir : FsNode) (dirPath : Str) (docs : List SourceDocument)
  | buildIndexQuick (dirPath : Str)

/-- The state after a request. -/
def Request.run (env : Env) : Request → Machine → Machine
  | .findSymbol name, mach => (Rao.findSymbol mach name).2
  | .getAllSymbols, mach => (Rao.getAllSymbols mach).2
  | .addSymbol symbol, mach =>
    { mach with index := { mach.index with symbolMap_ := Rao.addSymbol mach.index.symbolMap_ symbol } }
  | .removeSymbolsForFile filePath, mach =>
    { mach with index := { mach.index with
        symbolMap_ := Rao.removeSymbolsForFile mach.index.symbolMap_ filePath } }
  | .editStore edit, mach =>
    { mach with index := { mach.index with symbolMap_ := edit mach.index.symbolMap_ } }
  | .docUpdated doc, mach => { mach with index := onSourceDocUpdated env doc mach.index }
  | .docRemoved id path, mach => { mach with index := onSourceDocRemoved env id path mach.index }
  | .allDocsRemoved, mach => { mach with index := onAllSourceDocsRemoved mach.index }
  | .removeSymbolIndex processDir, mach => Rao.removeSymbolIndex processDir mach
  | .buildIndex dir dirPath docs, mach => (Rao.buildIndex env dir dirPath docs mach).2
  | .buildIndexQuick dirPath, mach => (Rao.buildIndexQuick env dirPath mach).2

/-- Whether a request is a build that returns success in the given state. -/
def Request.isSuccessfulBuild (env : Env) : Request → Machine → Bool
  | .buildIndex dir dirPath docs, mach =>
    match (Rao.buildIndex env dir dirPath docs mach).1 with
    | .ok _ => true
    | .error _ => false
  | .buildIndexQuick dirPath, mach =>
    match (Rao.buildIndexQuick env dirPath mach).1 with
    | .ok _ => true
    | .error _ => false
  | _, _ => false

/-- No request of the sequence, run in turn from the given state, is a build
that succeeds. -/
def NoBuildSucceeds (env : Env) : List Request → Machine → Prop
  | [], _ => True
  | request :: rest, mach =>
    request.isSuccessfulBuild env mach = false ∧ NoBuildSucceeds env rest (request.run env mach)

/-- The state after a sequence of requests. -/
def runRequests (env : Env) (requests : List Request) (mach : Machine) : Machine :=
  requests.foldl (fun m request => request.run env m) mach

/-- The index is not built and a cold start would find nothing to load: no
working directory is known, or the known one has no id in the mapping. -/
def NotBuiltNoReload (mach : Machine) : Prop :=
  mach.index.indexBuilt_ = false ∧
  (mach.index.currentWorkingDir_ = [] ∨
    getDirectoryId mach.storage mach.index.currentWorkingDir_ = [])

instance (env : Env) (requests : List Request) (mach : Machine) :
    Decidable (NoBuildSucceeds env requests mach) := by
  induction requests generalizing mach with
  | nil => unfold NoBuildSucceeds; infer_instance
  | cons request rest ih =>
    unfold NoBuildSucceeds
    have := ih (request.run env mach)
    infer_instance

/-- A machine whose index was built for `/proj` and holds the function `foo`,
with the index saved under the id `id-1`. -/
def c9Machine : Machine :=
  { index :=
      { symbolMap_ := addSymbolNoLock [] fooSymbol, fileChecksums_ := [],
        directoryFiles_ := ["/proj/a.R".toList], pendingFiles_ := [], traversalPath_ := [],
        indexBuilt_ := true, currentWorkingDir_ := "/proj".toList },
    storage :=
      { mapping := [("/proj/".toList, "id-1".toList)],
        folders := [("id-1".toList,
          { symbol_index := some { symbols := [fooSymbol], working_directory := "/proj".toList,
                                   traversal_path := [] },
            file_checksums := some [], dir_structure := some ["/proj/a.R".toList] })] } }

/-- The environment `quietEnv` with a storage that cannot be written. -/
def readOnlyEnv : Env := { quietEnv with storageWritable := false }

/-- A sequence of requests: a lookup, a build of `/proj`, a listing, and an
update of the open document `/proj/a.R`. -/
def c9Requests : List Request :=
  [.findSymbol "foo".toList,
   .buildIndex c2Tree "/proj".toList [],
   .getAllSymbols,
   .docUpdated { id := "d1".toList, path := "/proj/a.R".toList,
                 contents := "foo <- function(x) 1".toList, type := "r_source".toList,
                 tempName := [] }]

/-! ## The buffer-updated event -/

/-- The content extractors of the environment. -/
def Env.extractors (env : Env) : List (Str → Str → SymbolMap → SymbolMap) :=
  [env.indexRFromString, env.indexCppFromString, env.indexPythonFromString,
   env.indexMarkdownFromString, env.indexSqlFromString, env.indexStanFromString,
   env.indexShellFromString, env.indexRdFromString]

/-- The extractors and the relationship pass keep the store well formed: they
add symbols with `addSymbolNoLock` and change no name, path or start line of a
stored symbol. -/
def EnvKeepsStoreWF (env : Env) : Prop :=
  (∀ extractor ∈ env.extractors, ∀ content path m,
    StoreWF m → StoreWF (extractor content path m)) ∧
  ∀ m, StoreWF m → StoreWF (env.updateFileAndDirectoryContexts m)

/-- Every path of the directory snapshot refers to an entry of the tree that is
not a directory. -/
def SnapshotResolves (dir : FsNode) (dirPath : Str) : Prop :=
  ∀ path ∈ getCurrentDirectoryStructure dir dirPath,
    (dir.lookup dirPath path).any (fun node => !node.isDirectory) = true

instance (dir : FsNode) (dirPath : Str) : Decidable (SnapshotResolves dir dirPath) := by
  unfold SnapshotResolves; infer_instance

/-- The checksum map is sound: its keys are distinct, and every value names its
key as path and holds the checksum of that path in the tree. -/
def ChecksumsSound (env : Env) (dir : FsNode) (dirPath : Str)
    (cs : List (Str × FileChecksum)) : Prop :=
  (cs.map Prod.fst).Nodup ∧
  ∀ kv ∈ cs, kv.2.path = kv.1 ∧ kv.2.checksum = generateFileChecksum env dir dirPath kv.1

/-- Collaborators for the example with an R file whose text is the single line
`foo <- function(x=1) {}`: on this text the R extractor finds the assignment
`<-`, the name `foo` before it and `function(` after it, and adds the function
`foo` of line 1 with the text from `function` to the closing parenthesis as
its signature. -/
def rFunctionEnv : Env :=
  { quietEnv with
    indexRFromString := fun content path m =>
      if content = "foo <- function(x=1) \x7b\x7d".toList then
        addSymbolNoLock m
          (Symbol.make "foo".toList "function".toList path 1 1 [] "function(x=1)".toList)
      else m }

/-- A project with the R file `a.R`. -/
def c4Small : FsNode :=
  .dir "proj".toList 0 [.file "a.R".toList (some "foo <- function(x=1) \x7b\x7d".toList) 0]

/-- The function `foo` of `a.R` as the R extractor stores it. -/
def fooRaw : Symbol :=
  Symbol.make "foo".toList "function".toList "/proj/a.R".toList 1 1 [] "function(x=1)".toList

/-- The function `foo` of `a.R` as the load from storage leaves it. -/
def fooLoaded : Symbol :=
  Symbol.make "foo".toList "function".toList "/proj/a.R".toList 1 1 [] "function(x = 1)".toList

/-- The names `f000.txt` to `f101.txt`. -/
def c4Names : List Str :=
  ["f000.txt", "f001.txt", "f002.txt", "f003.txt", "f004.txt", "f005.txt", "f006.txt",
   "f007.txt", "f008.txt", "f009.txt", "f010.txt", "f011.txt", "f012.txt", "f013.txt",
   "f014.txt", "f015.txt", "f016.txt", "f017.txt", "f018.txt", "f019.txt", "f020.txt",
   "f021.txt", "f022.txt", "f023.txt", "f024.txt", "f025.txt", "f026.txt", "f027.txt",
   "f028.txt", "f029.txt", "f030.txt", "f031.txt", "f032.txt", "f033.txt", "f034.txt",
   "f035.txt", "f036.txt", "f037.txt", "f038.txt", "f039.txt", "f040.txt", "f041.txt",
   "f042.txt", "f043.txt", "f044.txt", "f045.txt", "f046.txt", "f047.txt", "f048.txt",
   "f049.txt", "f050.txt", "f051.txt", "f052.txt", "f053.txt", "f054.txt", "f055.txt",
   "f056.txt", "f057.txt", "f058.txt", "f059.txt", "f060.txt", "f061.txt", "f062.txt",
   "f063.txt", "f064.txt", "f065.txt", "f066.txt", "f067.txt", "f068.txt", "f069.txt",
   "f070.txt", "f071.txt", "f072.txt", "f073.txt", "f074.txt", "f075.txt", "f076.txt",
   "f077.txt", "f078.txt", "f079.txt", "f080.txt", "f081.txt", "f082.txt", "f083.txt",
   "f084.txt", "f085.txt", "f086.txt", "f087.txt", "f088.txt", "f089.txt", "f090.txt",
   "f091.txt", "f092.txt", "f093.txt", "f094.txt", "f095.txt", "f096.txt", "f097.txt",
   "f098.txt", "f099.txt", "f100.txt", "f101.txt"].map String.toList

/-- A project that holds 102 text files. -/
def c4Tree : FsNode := .dir "proj".toList 0 (c4Names.map (fun n => .file n (some "x".toList) 0))

/-- One `buildIndex` call on `c4Tree` with no open document. -/
def c4Build (mach : Machine) : Machine := (buildIndex quietEnv c4Tree "/proj".toList [] mach).2

/-- The file symbol of `f101.txt`. -/
def c4Last : Symbol :=
  Symbol.make "f101.txt".toList "file".toList "/proj/f101.txt".toList 1 1 [] []

/-! ## Unsaved buffers -/

/-- An unsaved document (no path) with the given id and display name. -/
def unsavedDoc (id tempName : Str) : SourceDocument :=
  { id := id, path := [], contents := "x".toList, type := "r_source".toList,
    tempName := tempName }

/-- The file-level symbol of the unsaved buffer `Untitled1` of the document
whose id starts with `abcd`. -/
def unsavedSymbol : Symbol :=
  Symbol.make "Untitled1".toList "file".toList "__UNSAVED_abcd__/Untitled1".toList 1 1 [] []

/-- A built index that holds the symbol of an unsaved buffer and the function
`foo` of `/proj/a.R`. -/
def c18Index : SymbolIndex :=
  { SymbolIndex.new with
    symbolMap_ := addSymbolNoLock (addSymbolNoLock [] unsavedSymbol) fooSymbol,
    indexBuilt_ := true, currentWorkingDir_ := "/proj".toList }

/-! ## The type filter of a query -/

/-- A file whose name has a line break and ends like a type filter. -/
def oddFileSymbol : Symbol :=
  Symbol.make "x\ny (function)".toList "file".toList "/proj/x\ny (function)".toList 1 1 [] []

/-! ## The lock discipline

The mutex `mutex_` is not part of the state above. For the operations that
write to the symbol store, the following lists give, in program order, where
the code acquires the mutex, where it releases it, and where it writes to
`symbolMap_`. -/

/-- One step of an operation that matters for the lock discipline. -/
inductive LockStep where
  | acquire
  | release
  | mutate
  deriving DecidableEq, Repr

/-- Whether every write of the list happens while the mutex is held; `held`
tells whether it is held at the start. -/
def mutatesUnderLock : Bool → List LockStep → Bool
  | _, [] => true
  | _, .acquire :: rest => mutatesUnderLock true rest
  | _, .release :: rest => mutatesUnderLock false rest
  | held, .mutate :: rest => held && mutatesUnderLock held rest

/-- The method `addSymbolNoLock`: one write, no lock. -/
def Locking.addSymbolNoLock : List LockStep := [.mutate]

/-- The method `addSymbol`: a `lock_guard` around `addSymbolNoLock`. -/
def Locking.addSymbol : List LockStep := [.acquire] ++ Locking.addSymbolNoLock ++ [.release]

/-- The method `removeSymbolsForFile`: the erase loop and the removal of the
empty buckets, no lock. -/
def Locking.removeSymbolsForFile : List LockStep := [.mutate, .mutate]

/-- The method `indexContentByDocumentType`: no lock; the chosen extractor calls
`addSymbolNoLock` once for each of the `found` symbols it finds. -/
def Locking.indexContentByDocumentType (found : Nat) : List LockStep :=
  (List.replicate found Locking.addSymbolNoLock).flatten

/-- The handler `onSourceDocUpdated` for a document in which the extractor finds
`found` symbols. -/
def Locking.onSourceDocUpdated (built contentsEmpty : Bool) (found : Nat) : List LockStep :=
  if !built then []
  else if contentsEmpty then []
  else
    Locking.removeSymbolsForFile ++ Locking.indexContentByDocumentType found ++
      Locking.addSymbol

/-- The handler `onSourceDocRemoved`. -/
def Locking.onSourceDocRemoved (built pathEmpty : Bool) : List LockStep :=
  if !built then []
  else if !pathEmpty then Locking.removeSymbolsForFile
  else []

/-- The handler `onAllSourceDocsRemoved`: the erase loop and the removal of the
empty buckets on the map returned by `getSymbolMap()`, no lock. -/
def Locking.onAllSourceDocsRemoved (built : Bool) : List LockStep :=
  if !built then [] else [.mutate, .mutate]

/-! ## The R extractor -/

/-- The class `[A-Za-z]`. -/
def isAsciiAlpha (c : Char) : Bool :=
  (65 ≤ c.toNat && c.toNat ≤ 90) || (97 ≤ c.toNat && c.toNat ≤ 122)

/-- The class `[0-9]`. -/
def isAsciiDigit (c : Char) : Bool := 48 ≤ c.toNat && c.toNat ≤ 57

/-- The class `\w` of the regexes: `[A-Za-z0-9_]`. -/
def isWordChar (c : Char) : Bool := isAsciiAlpha c || isAsciiDigit c || c == '_'

/-- A character of the set `" \t"`. -/
def isBlank (c : Char) : Bool := c == ' ' || c == '\t'

/-- The idiom `find_first_not_of(" \t")` followed by `substr` when a character
is found: a string of blanks only is left as it is. -/
def trimLeftBlank (s : Str) : Str := if s.all isBlank then s else s.dropWhile isBlank

/-- The idiom `find_last_not_of(" \t")` followed by `substr(0, last + 1)` when a
character is found: a string of blanks only is left as it is. -/
def trimRightBlank (s : Str) : Str := if s.all isBlank then s else dropEndWhile isBlank s

/-- The alternatives of the regex `(<<-|->>|->|<-|:=|=)`, in its order. -/
def assignmentOps : List Str := ["<<-", "->>", "->", "<-", ":=", "="].map String.toList

/-- The alternative of `assignmentOps` that matches at the start of `s`. -/
def assignmentOpAt (s : Str) : Option Str := assignmentOps.find? (fun op => starts_with s op)

/-- The call `regex_search(line, assignMatch, assignmentOps)`: the text before
the leftmost match, the match, and the text after it. -/
def searchAssignmentOp : Str → Option (Str × Str × Str)
  | [] => none
  | c :: s =>
    match assignmentOpAt (c :: s) with
    | some op => some ([], op, (c :: s).drop op.length)
    | none =>
      match searchAssignmentOp s with
      | some (before, op, after) => some (c :: before, op, after)
      | none => none

/-- The class `[A-Za-z._]`. -/
def isRIdentStart (c : Char) : Bool := isAsciiAlpha c || c == '.' || c == '_'

/-- The class `[A-Za-z0-9._]`. -/
def isRIdentChar (c : Char) : Bool := isAsciiAlpha c || isAsciiDigit c || c == '.' || c == '_'

/-- The call `regex_search(beforeAssign, nameMatch, reIdentifier)` with the
regex `[A-Za-z._][A-Za-z0-9._]*`: the leftmost, longest match. -/
def searchRIdentifier : Str → Option Str
  | [] => none
  | c :: s => if isRIdentStart c then some (c :: s.takeWhile isRIdentChar) else searchRIdentifier s

/-- The search of `\bfunction\s*\(`; `prev` is the character before `s`. -/
def hasFunctionKeyword : Option Char → Str → Bool
  | _, [] => false
  | prev, c :: s =>
    ((match prev with
      | some p => !isWordChar p
      | none => true) &&
     starts_with (c :: s) "function".toList &&
     (match ((c :: s).drop 8).dropWhile isSpace with
      | '(' :: _ => true
      | _ => false)) ||
    hasFunctionKeyword (some c) s

/-- The loops over the characters that find the closing parenthesis or brace
that brings the count to zero; `count` is the count before the head of the
text and `p` the index of the head. -/
def findClosing (opening closing : Char) : Int → Nat → Str → Option Nat
  | _, _, [] => none
  | count, p, c :: s =>
    if c == opening then findClosing opening closing (count + 1) (p + 1) s
    else if c == closing then
      if count - 1 == 0 then some p else findClosing opening closing (count - 1) (p + 1) s
    else findClosing opening closing count (p + 1) s

/-- The signature that `indexRFromString` takes from the text after the
assignment: the text from `function` to the parenthesis that closes the first
one, or `function()`. -/
def rSignature (afterAssign : Str) : Str :=
  if hasFunctionKeyword none afterAssign then
    let parenPos := (afterAssign.takeWhile (fun c => c != '(')).length
    if parenPos < afterAssign.length then
      let endPos := (findClosing '(' ')' 0 parenPos (afterAssign.drop parenPos)).getD parenPos
      if endPos > parenPos ∧ parenPos ≥ 8 then
        (afterAssign.drop (parenPos - 8)).take (endPos - parenPos + 9)
      else "function()".toList
    else "function()".toList
  else "function()".toList

/-- The look at the next lines (at most three) when nothing follows the
assignment: empty lines and comments are skipped, and the first other line
decides. -/
def lookAheadFunction : List Str → Bool
  | [] => false
  | l :: rest =>
    let nextLineContent := trimLeftBlank l
    if nextLineContent.isEmpty || nextLineContent.head? == some '#' then lookAheadFunction rest
    else starts_with nextLineContent "function(".toList

/-- The brace count over one line: whether the function end is found on it (at
a closing brace that brings the count to zero after an opening one was seen),
and the count and the flag after the line. -/
def scanBraces : Int → Bool → Str → Bool × Int × Bool
  | count, found, [] => (false, count, found)
  | count, found, c :: s =>
    if c == '\x7b' then scanBraces (count + 1) true s
    else if c == '\x7d' then
      if found && count - 1 == 0 then (true, count - 1, found)
      else scanBraces (count - 1) found s
    else scanBraces count found s

/-- The loop `for j` that tracks braces from the line of the definition on: the
index of the line on which the function end is found. -/
def findFunctionEnd : Nat → Int → Bool → List Str → Option Nat
  | _, _, _, [] => none
  | j, count, found, l :: ls =>
    match scanBraces count found l with
    | (true, _, _) => some j
    | (false, count1, found1) => findFunctionEnd (j + 1) count1 found1 ls

/-- The context that `indexRFromString` carries from line to line. -/
structure RState where
  currentNamespace : Str
  currentFunction : Str
  currentFunctionStart : Int
  functionStack : List (Str × Int)
  deriving DecidableEq, Repr

/-- The function symbol that `indexRFromString` adds for the line `line` with
index `i`, followed by the lines `rest`, if the line assigns a function. -/
def rFunctionDefinition (path : Str) (i : Nat) (line : Str) (rest : List Str) (st : RState) :
    Option Symbol :=
  match searchAssignmentOp line with
  | none => none
  | some (before, _, after) =>
    match searchRIdentifier (trimRightBlank before) with
    | none => none
    | some potentialName =>
      let afterAssign := trimLeftBlank after
      let foundFunction :=
        starts_with afterAssign "function(".toList ||
        (afterAssign.isEmpty && lookAheadFunction (rest.take 3))
      if foundFunction then
        let signature := rSignature afterAssign
        let endLine := (findFunctionEnd i 0 false (line :: rest)).getD i
        let parents :=
          if st.currentFunction.isEmpty then st.currentNamespace
          else if st.currentNamespace.isEmpty then st.currentFunction
          else st.currentNamespace ++ "::".toList ++ st.currentFunction
        some (Symbol.make potentialName "function".toList path ((i : Int) + 1)
          ((endLine : Int) + 1) parents signature)
      else none

/-- The search of `setMethod\s*\(\s*["']([^"']+)["']` at the start of `s`: the
capture. -/
def matchSetMethodAt (s : Str) : Option Str :=
  if starts_with s "setMethod".toList then
    match (s.drop 9).dropWhile isSpace with
    | '(' :: r =>
      match r.dropWhile isSpace with
      | q :: r2 =>
        if q == '"' || q == '\'' then
          let name := r2.takeWhile (fun c => !(c == '"' || c == '\''))
          match r2.dropWhile (fun c => !(c == '"' || c == '\'')) with
          | _ :: _ => if name.isEmpty then none else some name
          | [] => none
        else none
      | [] => none
    | _ => none
  else none

/-- The call `regex_search(line, callMatch, setMethodPattern)`: the capture of
the leftmost match. -/
def searchSetMethod : Str → Option Str
  | [] => none
  | c :: s =>
    match matchSetMethodAt (c :: s) with
    | some name => some name
    | none => searchSetMethod s

/-- The end `["']?\s*\)` of the namespace regex at the start of `s`. -/
def matchNamespaceClose (s : Str) : Bool :=
  (match s with
   | q :: t =>
     (q == '"' || q == '\'') &&
     (match t.dropWhile isSpace with
      | ')' :: _ => true
      | _ => false)
   | [] => false) ||
  (match s.dropWhile isSpace with
   | ')' :: _ => true
   | _ => false)

/-- The part `([^"')]+)["']?\s*\)` of the namespace regex at the start of `s`:
the capture, the longest one first. -/
def matchNamespaceName (s : Str) : Option Str :=
  let run := s.takeWhile (fun c => !(c == '"' || c == '\'' || c == ')'))
  ((List.range run.length).reverse.map (fun g => g + 1)).findSome?
    (fun g => if matchNamespaceClose (s.drop g) then some (s.take g) else none)

/-- The part `["']?([^"')]+)["']?\s*\)` of the namespace regex at the start of
`s`: with the optional quote first, then without it. -/
def matchNamespaceArg (s : Str) : Option Str :=
  match s with
  | q :: t =>
    if q == '"' || q == '\'' then
      match matchNamespaceName t with
      | some name => some name
      | none => matchNamespaceName s
    else matchNamespaceName s
  | [] => none

/-- The search of `(library|require)\s*\(\s*["']?([^"')]+)["']?\s*\)` at the
start of `s`: the second capture. The white space after the parenthesis is
tried longest first, as the backtracking matcher does. -/
def matchNamespaceAt (s : Str) : Option Str :=
  if starts_with s "library".toList || starts_with s "require".toList then
    match (s.drop 7).dropWhile isSpace with
    | '(' :: r =>
      (List.range ((r.takeWhile isSpace).length + 1)).reverse.findSome?
        (fun w => matchNamespaceArg (r.drop w))
    | _ => none
  else none

/-- The call `regex_search(line, callMatch, namespacePattern)`: the second
capture of the leftmost match. -/
def searchNamespace : Str → Option Str
  | [] => none
  | c :: s =>
    match matchNamespaceAt (c :: s) with
    | some name => some name
    | none => searchNamespace s

/-- The body of the loop of `indexRFromString` for the line `line` with index
`i`, followed by the lines `rest`: the symbols passed to `addSymbolNoLock`, in
order, and the context after the line. The loop over the function calls of the
line adds nothing and is left out. -/
def indexRLine (path : Str) (i : Nat) (line : Str) (rest : List Str) (st : RState) :
    List Symbol × RState :=
  let trimmedLine := line.dropWhile isBlank
  if trimmedLine.isEmpty || trimmedLine.head? == some '#' then ([], st)
  else
    let definition := rFunctionDefinition path i line rest st
    let st1 : RState :=
      match definition with
      | some symbol =>
        { st with
          functionStack := st.functionStack ++ [(st.currentFunction, st.currentFunctionStart)],
          currentFunction := symbol.name, currentFunctionStart := i }
      | none => st
    let lambda :=
      if line.contains '\\' then
        [Symbol.make "(lambda)".toList "function".toList path ((i : Int) + 1) ((i : Int) + 1)
          st1.currentFunction "\\(...)".toList]
      else []
    let method :=
      match searchSetMethod line with
      | some methodName =>
        [Symbol.make methodName "method".toList path ((i : Int) + 1) ((i : Int) + 1)
          st1.currentNamespace ("setMethod(\"".toList ++ methodName ++ "\")".toList)]
      | none => []
    let st2 : RState :=
      match searchNamespace line with
      | some name => { st1 with currentNamespace := name }
      | none => st1
    let st3 : RState :=
      if !st2.functionStack.isEmpty && line.contains '\x7d' then
        match st2.functionStack.getLast? with
        | some prev =>
          { st2 with functionStack := st2.functionStack.dropLast, currentFunction := prev.1,
                     currentFunctionStart := prev.2 }
        | none => st2
      else st2
    (definition.toList ++ lambda ++ method, st3)

/-- The loop of `indexRFromString` over the lines from index `i` on. -/
def indexRLines (path : Str) : Nat → List Str → RState → SymbolMap → SymbolMap
  | _, [], _, m => m
  | i, line :: rest, st, m =>
    indexRLines path (i + 1) rest (indexRLine path i line rest st).2
      ((indexRLine path i line rest st).1.foldl addSymbolNoLock m)

/-- The method `SymbolIndex::indexRFromString`. -/
def indexRFromString (content path : Str) (m : SymbolMap) : SymbolMap :=
  indexRLines path 0 (splitAny "\n".toList content)
    { currentNamespace := [], currentFunction := [], currentFunctionStart := -1,
      functionStack := [] } m

/-! ## The Markdown extractor -/

/-- The search of the regex for the start of a code block, three backticks,
an optional brace, `(\w*)` and `(.*)`: the two captures, the language and
the rest of the line up to a line terminator. -/
def codeBlockStartRegex (line : Str) : Option (Str × Str) :=
  if starts_with line "```".toList then
    let afterBrace :=
      match line.drop 3 with
      | '\x7b' :: t => t
      | r => r
    some (afterBrace.takeWhile isWordChar,
      (afterBrace.dropWhile isWordChar).takeWhile (fun c => !isLineTerminator c))
  else none

/-- The search of the regex for the end of a code block: three backticks at
the start of the line. -/
def codeBlockEndRegex (line : Str) : Bool := starts_with line "```".toList

/-- The call `boost::algorithm::iequals(codeBlockLanguage, "r")`. -/
def isRLanguage (language : Str) : Bool := to_lower language == "r".toList

/-- The name of an R chunk from the options after the language: the text from
the first character that is not a blank to the next blank, comma or closing
brace, trimmed; `current` is the value of `chunkName` before, which stays when
the options hold blanks only. -/
def chunkNameOf (chunkOptions current : Str) : Str :=
  let r := chunkOptions.dropWhile isBlank
  if r.isEmpty then current
  else trim_copy (r.takeWhile (fun c => !(c == ' ' || c == '\t' || c == ',' || c == '\x7d')))

/-- The call `s.find(pattern, start)`. -/
def findFrom (s pattern : Str) (start : Nat) : Option Nat :=
  (List.range (s.length + 1 - start)).findSome?
    (fun k => if starts_with (s.drop (start + k)) pattern then some (start + k) else none)

/-- The number of newline characters before position `pos`. -/
def newlinesBefore (code : Str) (pos : Nat) : Nat := (code.take pos).count '\n'

/-- The signature of a function of an R chunk, from the position of the
parenthesis after `function` and the position found for the closing one
(0 when there is none). -/
def chunkSignature (code : Str) (openParenPos paramEndPos : Nat) : Str :=
  if paramEndPos > openParenPos then
    normalizeWhitespace (trim_copy ("function(".toList ++
      (code.drop (openParenPos + 1)).take (paramEndPos - openParenPos - 1) ++ ")".toList))
  else "function()".toList

/-- The position of the parenthesis that closes the one at `openParenPos`, or 0. -/
def chunkParamEnd (code : Str) (openParenPos : Nat) : Nat :=
  (findClosing '(' ')' 1 (openParenPos + 1) (code.drop (openParenPos + 1))).getD 0

/-- The end line of a function of an R chunk: the line of the brace that
closes the first brace found from position `searchFrom` on, or the line of the
function when there is none. -/
def chunkFunctionEndLine (code : Str) (startLine : Nat) (functionLine : Int)
    (searchFrom : Nat) : Int :=
  match findFrom code "\x7b".toList searchFrom with
  | none => functionLine
  | some openBracePos =>
    match findClosing '\x7b' '\x7d' 1 (openBracePos + 1) (code.drop (openBracePos + 1)) with
    | none => functionLine
    | some closePos => ((startLine + 1 + newlinesBefore code closePos + 1 : Nat) : Int)

/-- The search of `(\w+)\s*(?:<-|=)\s*$` at the start of `s`; `$` matches at the
end of the text only (the flag `multiline` is not set). -/
def matchPotentialFuncAt (s : Str) : Option Str :=
  let name := s.takeWhile isWordChar
  if name.isEmpty then none
  else
    let r := (s.dropWhile isWordChar).dropWhile isSpace
    let afterOp :=
      if starts_with r "<-".toList then some (r.drop 2)
      else if starts_with r "=".toList then some (r.drop 1)
      else none
    match afterOp with
    | some t => if t.all isSpace then some name else none
    | none => none

/-- The loop that collects `potentialFuncs`: the name and the end position of
every match from `offset` on. A match ends at the end of the text, so there is
at most one. -/
def potentialFuncs (code : Str) : Nat → Str → List (Str × Nat)
  | _, [] => []
  | offset, c :: s =>
    match matchPotentialFuncAt (c :: s) with
    | some name => [(name, code.length)]
    | none => potentialFuncs code (offset + 1) s

/-- The symbol added for an entry of `potentialFuncs` when `function` is the
next token after the assignment. -/
def potentialFunctionSymbol (code : Str) (startLine : Nat) (path chunkName : Str)
    (potential : Str × Nat) : Option Symbol :=
  let pos := potential.2 + ((code.drop potential.2).takeWhile isSpace).length
  if pos + 8 ≤ code.length ∧ (code.drop pos).take 8 = "function".toList then
    match findFrom code "(".toList pos with
    | none => none
    | some openParenPos =>
      let paramEndPos := chunkParamEnd code openParenPos
      let signature := chunkSignature code openParenPos paramEndPos
      let functionLine : Int := ((startLine + 1 + newlinesBefore code pos + 1 : Nat) : Int)
      some (Symbol.make potential.1 "function".toList path functionLine
        (chunkFunctionEndLine code startLine functionLine (pos + 8)) chunkName signature)
  else none

/-- The search of `(\w+)\s*OP\s*(?:(?:\s|\n)*)function\s*\(` at the start of
`s`, for the operator `<-` or `=`: the capture and the length of the match. -/
def matchRFuncAt (op s : Str) : Option (Str × Nat) :=
  let name := s.takeWhile isWordChar
  if name.isEmpty then none
  else
    let r1 := (s.dropWhile isWordChar).dropWhile isSpace
    if starts_with r1 op then
      let r2 := (r1.drop op.length).dropWhile isSpace
      if starts_with r2 "function".toList then
        match (r2.drop 8).dropWhile isSpace with
        | '(' :: r3 => some (name, s.length - r3.length)
        | _ => none
      else none
    else none

/-- The loop `while (regex_search(searchStart, ...))` for one of the two
function regexes: the capture and the start position of every match, each
search starting at the end of the match before. `fuel` bounds the number of
positions tried and `offset` is the position of the head of `s`. -/
def rFuncMatches (op : Str) : Nat → Nat → Str → List (Str × Nat)
  | 0, _, _ => []
  | _, _, [] => []
  | fuel + 1, offset, c :: s =>
    match matchRFuncAt op (c :: s) with
    | some (name, len) => (name, offset) :: rFuncMatches op fuel (offset + len) ((c :: s).drop len)
    | none => rFuncMatches op fuel (offset + 1) s

/-- The helper `SymbolIndex::processRChunkFunction` for a match with capture
`name` that starts at `matchStart`: the symbol passed to `addSymbolNoLock`. -/
def processRChunkFunction (name : Str) (matchStart : Nat) (code : Str) (startLine : Nat)
    (path chunkName : Str) : Option Symbol :=
  let functionLine : Int := ((startLine + 1 + newlinesBefore code matchStart + 1 : Nat) : Int)
  match findFrom code "function".toList matchStart with
  | none => none
  | some functionPos =>
    match findFrom code "(".toList functionPos with
    | none => none
    | some openParenPos =>
      let paramEndPos := chunkParamEnd code openParenPos
      let signature := chunkSignature code openParenPos paramEndPos
      some (Symbol.make name "function".toList path functionLine
        (chunkFunctionEndLine code startLine functionLine paramEndPos) chunkName signature)

/-- The symbols that the end of an R chunk passes to `addSymbolNoLock`, in
order: those of `potentialFuncs`, those of the arrow regex, those of the
equals regex. -/
def rChunkSymbols (codeBlockLines : List Str) (startLine : Nat) (path chunkName : Str) :
    List Symbol :=
  let rCode := "\n".toList.intercalate codeBlockLines
  ((potentialFuncs rCode 0 rCode).filterMap
    (potentialFunctionSymbol rCode startLine path chunkName)) ++
  ((rFuncMatches "<-".toList (rCode.length + 1) 0 rCode).filterMap
    (fun nm => processRChunkFunction nm.1 nm.2 rCode startLine path chunkName)) ++
  ((rFuncMatches "=".toList (rCode.length + 1) 0 rCode).filterMap
    (fun nm => processRChunkFunction nm.1 nm.2 rCode startLine path chunkName))

/-- Apply `f` to the first element of the list that satisfies `p`. -/
def modifyFirst (p : Symbol → Bool) (f : Symbol → Symbol) : List Symbol → List Symbol
  | [] => []
  | s :: rest => if p s then f s :: rest else s :: modifyFirst p f rest

/-- The loop at the end of an R chunk that sets the end line of the chunk
symbol: in every bucket, the first symbol of type `chunk` with the name, the
path and the start line of the chunk. -/
def setChunkEnd (m : SymbolMap) (chunkName path : Str) (lineStart lineEnd : Int) : SymbolMap :=
  m.map (fun kb =>
    (kb.1, modifyFirst
      (fun sym => sym.type == "chunk".toList && sym.name == chunkName && sym.filePath == path &&
        sym.lineStart == lineStart)
      (fun sym => { sym with lineEnd := lineEnd }) kb.2))

/-- Apply `f` to the element at position `idx`. -/
def modifyAt {α : Type} (f : α → α) : Nat → List α → List α
  | _, [] => []
  | 0, a :: rest => f a :: rest
  | idx + 1, a :: rest => a :: modifyAt f idx rest

/-- Apply `f` to the bucket of the key `key`. -/
def modifyBucket (f : List Symbol → List Symbol) (key : Str) : SymbolMap → SymbolMap
  | [] => []
  | (k, b) :: rest => if k = key then (k, f b) :: rest else (k, b) :: modifyBucket f key rest

/-- The assignment `lastHeaderSymbol->lineEnd = lineEnd`. The pointer
`lastHeaderSymbol` is the position `idx` in the bucket of `key` (in the code a
later `push_back` that reallocates the bucket would leave it dangling). -/
def setHeaderEnd (m : SymbolMap) (lastHeaderSymbol : Option (Str × Nat)) (lineEnd : Int) :
    SymbolMap :=
  match lastHeaderSymbol with
  | none => m
  | some (key, idx) =>
    modifyBucket (modifyAt (fun sym => { sym with lineEnd := lineEnd }) idx) key m

/-- The local variables of `indexMarkdownFromString` that live across lines,
with the symbol store. -/
structure MdState where
  store : SymbolMap
  inCodeBlock : Bool
  codeBlockLanguage : Str
  chunkName : Str
  codeBlockLines : List Str
  codeBlockStartLine : Nat
  chunkCounter : Nat
  lastHeaderSymbol : Option (Str × Nat)

/-- The header branch of the loop for a line that matches the header regex. -/
def mdHeaderLine (path : Str) (i : Nat) (level : Nat) (rawTitle : Str) (st : MdState) :
    MdState :=
  let m1 := setHeaderEnd st.store st.lastHeaderSymbol (i : Int)
  let title := stripTrailingHashes rawTitle
  let m2 := addSymbolNoLock m1
    (Symbol.make title ("header".toList ++ (Nat.repr level).toList) path ((i : Int) + 1)
      ((i : Int) + 1) [] [])
  let lastHeader :=
    match findBucket m2 (to_lower title) with
    | some bucket => if bucket.isEmpty then st.lastHeaderSymbol
                     else some (to_lower title, bucket.length - 1)
    | none => st.lastHeaderSymbol
  { st with store := m2, lastHeaderSymbol := lastHeader }

/-- The branch of the loop for a line that starts a code block. -/
def mdOpenLine (path : Str) (i : Nat) (language chunkOptions : Str) (st : MdState) : MdState :=
  let st1 : MdState :=
    { st with inCodeBlock := true, codeBlockLanguage := language, codeBlockLines := [],
              codeBlockStartLine := i }
  if isRLanguage language then
    let named := chunkNameOf chunkOptions st.chunkName
    let chunkName :=
      if named.isEmpty then "chunk_".toList ++ (Nat.repr st.chunkCounter).toList else named
    let counter := if named.isEmpty then st.chunkCounter + 1 else st.chunkCounter
    { st1 with
      chunkName := chunkName, chunkCounter := counter,
      store := addSymbolNoLock st.store
        (Symbol.make chunkName "chunk".toList path ((i : Int) + 1) 0 [] []) }
  else st1

/-- The branch of the loop for a line that ends a code block. -/
def mdCloseLine (path : Str) (i : Nat) (st : MdState) : MdState :=
  let m1 :=
    if isRLanguage st.codeBlockLanguage && !st.chunkName.isEmpty then
      setChunkEnd st.store st.chunkName path ((st.codeBlockStartLine : Int) + 1) ((i : Int) + 1)
    else st.store
  let m2 :=
    if isRLanguage st.codeBlockLanguage then
      (rChunkSymbols st.codeBlockLines st.codeBlockStartLine path st.chunkName).foldl
        addSymbolNoLock m1
    else m1
  { st with store := m2, inCodeBlock := false, chunkName := [] }

/-- The body of the loop of `indexMarkdownFromString` for the line with index
`i`. -/
def indexMarkdownLine (path : Str) (i : Nat) (line : Str) (st : MdState) : MdState :=
  if !st.inCodeBlock then
    match headerRegex line with
    | some (level, rawTitle) => mdHeaderLine path i level rawTitle st
    | none =>
      match codeBlockStartRegex line with
      | some (language, chunkOptions) => mdOpenLine path i language chunkOptions st
      | none => st
  else if codeBlockEndRegex line then mdCloseLine path i st
  else { st with codeBlockLines := st.codeBlockLines ++ [line] }

/-- The loop of `indexMarkdownFromString` over the lines from index `i` on. -/
def indexMarkdownLines (path : Str) : Nat → List Str → MdState → MdState
  | _, [], st => st
  | i, line :: rest, st => indexMarkdownLines path (i + 1) rest (indexMarkdownLine path i line st)

/-- The method `SymbolIndex::indexMarkdownFromString`. -/
def indexMarkdownFromString (content path : Str) (m : SymbolMap) : SymbolMap :=
  let lines := splitAny "\n".toList content
  let st := indexMarkdownLines path 0 lines
    { store := m, inCodeBlock := false, codeBlockLanguage := [], chunkName := [],
      codeBlockLines := [], codeBlockStartLine := 0, chunkCounter := 1,
      lastHeaderSymbol := none }
  setHeaderEnd st.store st.lastHeaderSymbol (lines.length : Int)

/-! ## The relationship pass -/

/-- What the relationship pass asks of the file system: the parent directory
of a path (`FilePath::getParent`), the file names of the children of a
directory (`FilePath::getChildren`, `none` on error), and the content of a
file (`readStringFromFile`, `none` on error). -/
structure FileSystem where
  getParent : Str → Str
  getChildren : Str → Option (List Str)
  readStringFromFile : Str → Option Str

/-- The method `Symbol::addChild`: the name is appended unless it is there. -/
def Symbol.addChild (s : Symbol) (childName : Str) : Symbol :=
  if childName ∈ s.children then s else { s with children := s.children ++ [childName] }

/-- The call `std::stoi`: white space, an optional sign, decimal digits; `none`
stands for the exception thrown when there is no digit or the value does not
fit an `int`. -/
def stoi (s : Str) : Option Int :=
  let r := s.dropWhile isSpace
  let negative := r.head? == some '-'
  let r1 :=
    match r with
    | '-' :: t => t
    | '+' :: t => t
    | _ => r
  let digits := r1.takeWhile isAsciiDigit
  if digits.isEmpty then none
  else
    let magnitude : Int := digits.foldl (fun acc d => acc * 10 + ((d.toNat - 48 : Nat) : Int)) 0
    let value := if negative then -magnitude else magnitude
    if value < -2147483648 ∨ value > 2147483647 then none else some value

/-- The level of a header type: `std::stoi(type.substr(6))`, or `fallback` when
it throws. -/
def headerLevel (fallback : Int) (type : Str) : Int := (stoi (type.drop 6)).getD fallback

/-- Whether a type starts with `header`. -/
def isHeaderType (type : Str) : Bool := starts_with type "header".toList

/-- The symbol at position `j` of the flattened store (what a `Symbol*` of the
pass points to). -/
def symbolAt (arr : List Symbol) (j : Nat) : Symbol :=
  arr.getD j (Symbol.make [] [] [] 0 0 [] [])

/-- The entry `symbolsByFile[path]` of the first pass: the positions, in
iteration order, of the symbols of the file that are not of type `file`,
`directory` or `variable`. -/
def symbolsByFile (arr : List Symbol) (path : Str) : List Nat :=
  (List.range arr.length).filter (fun j =>
    !((symbolAt arr j).type == "file".toList || (symbolAt arr j).type == "directory".toList ||
      (symbolAt arr j).type == "variable".toList) &&
    (symbolAt arr j).filePath == path)

/-- A loop `for (Symbol* childSymbol : it->second)` that adds to the symbol at
position `i` the names of the members that satisfy `accept`. -/
def addChildrenWhere (accept : List Symbol → Nat → Bool) (members : List Nat) (i : Nat)
    (arr : List Symbol) : List Symbol :=
  members.foldl
    (fun a j => if accept a j then modifyAt (fun s => s.addChild (symbolAt a j).name) i a else a)
    arr

/-- The second pass for a symbol of type `file`, `image` or `binary`. -/
def relateFile (fsys : FileSystem) (i : Nat) (arr : List Symbol) : List Symbol :=
  let arr1 := modifyAt
    (fun s => { s with children := [], parents := fsys.getParent s.filePath }) i arr
  let members := symbolsByFile arr1 (symbolAt arr1 i).filePath
  let arr2 := addChildrenWhere (fun a j => (symbolAt a j).type == "header1".toList) members i arr1
  let arr3 := addChildrenWhere (fun a j => (symbolAt a j).type == "chunk".toList) members i arr2
  addChildrenWhere
    (fun a j => (symbolAt a j).type == "function".toList &&
      !starts_with (symbolAt a j).parents "chunk_".toList) members i arr3

/-- The second pass for a symbol of type `directory`. -/
def relateDirectory (fsys : FileSystem) (i : Nat) (arr : List Symbol) : List Symbol :=
  let arr1 := modifyAt (fun s => { s with children := [], parents := [] }) i arr
  match fsys.getChildren (symbolAt arr1 i).filePath with
  | none => arr1
  | some children =>
    children.foldl
      (fun a child => if isExcludedFilename child then a else modifyAt (fun s => s.addChild child) i a)
      arr1

/-- The loop of the second pass that looks for the parent header of the header
at position `i` with level `level`: the state is the candidate, its level and
its start line. -/
def findParentHeader (arr : List Symbol) (i : Nat) (level : Int) (members : List Nat) :
    Option Nat :=
  (members.foldl
    (fun (state : Option Nat × Int × Int) j =>
      if !isHeaderType (symbolAt arr j).type then state
      else
        let otherLevel := headerLevel 0 (symbolAt arr j).type
        if otherLevel < level ∧ (symbolAt arr j).lineStart < (symbolAt arr i).lineStart ∧
            ((symbolAt arr j).lineEnd = 0 ∨
              (symbolAt arr i).lineStart ≤ (symbolAt arr j).lineEnd) ∧
            (state.1 = none ∨ (symbolAt arr j).lineStart > state.2.2 ∨
              ((symbolAt arr j).lineStart = state.2.2 ∧ otherLevel > state.2.1)) then
          (some j, otherLevel, (symbolAt arr j).lineStart)
        else state)
    (none, 0, 0)).1

/-- The second pass for a header. -/
def relateHeader (i : Nat) (arr : List Symbol) : List Symbol :=
  let arr1 := modifyAt (fun s => { s with children := [], parents := s.filePath }) i arr
  let level := headerLevel 0 (symbolAt arr1 i).type
  let members := symbolsByFile arr1 (symbolAt arr1 i).filePath
  if members.isEmpty then arr1
  else
    let arr2 :=
      if level > 1 then
        match findParentHeader arr1 i level members with
        | some p =>
          modifyAt (fun s => s.addChild (symbolAt arr1 i).name) p
            (modifyAt (fun s => { s with parents := (symbolAt arr1 p).name }) i arr1)
        | none => arr1
      else arr1
    let arr3 := addChildrenWhere
      (fun a c =>
        isHeaderType (symbolAt a c).type &&
        decide (headerLevel 0 (symbolAt a c).type = level + 1 ∧
          (symbolAt a c).lineStart > (symbolAt a i).lineStart ∧
          ((symbolAt a i).lineEnd = 0 ∨ (symbolAt a c).lineStart ≤ (symbolAt a i).lineEnd)) &&
        !members.any (fun o =>
          isHeaderType (symbolAt a o).type &&
          decide (headerLevel 0 (symbolAt a o).type = level ∧ o ≠ i ∧
            (symbolAt a o).lineStart > (symbolAt a i).lineStart ∧
            (symbolAt a o).lineStart < (symbolAt a c).lineStart)))
      members i arr2
    addChildrenWhere
      (fun a c =>
        (symbolAt a c).type == "function".toList &&
        decide ((symbolAt a c).lineStart > (symbolAt a i).lineStart ∧
          ((symbolAt a i).lineEnd = 0 ∨ (symbolAt a c).lineStart ≤ (symbolAt a i).lineEnd)) &&
        !members.any (fun o =>
          isHeaderType (symbolAt a o).type &&
          decide (o ≠ i ∧ (symbolAt a o).lineStart > (symbolAt a i).lineStart ∧
            (symbolAt a o).lineStart < (symbolAt a c).lineStart ∧
            ((symbolAt a o).lineEnd = 0 ∨
              (symbolAt a c).lineStart ≤ (symbolAt a o).lineEnd))))
      members i arr3

/-- The second pass for a chunk. -/
def relateChunk (i : Nat) (arr : List Symbol) : List Symbol :=
  let arr1 := modifyAt (fun s => { s with children := [], parents := s.filePath }) i arr
  addChildrenWhere
    (fun a j => (symbolAt a j).type == "function".toList &&
      (symbolAt a j).parents == (symbolAt a i).name)
    (symbolsByFile arr1 (symbolAt arr1 i).filePath) i arr1

/-- The body of the second pass for the symbol at position `i`. -/
def secondPassStep (fsys : FileSystem) (arr : List Symbol) (i : Nat) : List Symbol :=
  let type := (symbolAt arr i).type
  if type == "file".toList || type == "image".toList || type == "binary".toList then
    relateFile fsys i arr
  else if type == "directory".toList then relateDirectory fsys i arr
  else if isHeaderType type then relateHeader i arr
  else if type == "chunk".toList then relateChunk i arr
  else arr

/-- The body of the third pass for the symbol at position `i`: the end line of
a header. `INT_MAX` as the start value of `nextHeaderLine` is `none`. -/
def thirdPassStep (fsys : FileSystem) (arr : List Symbol) (i : Nat) : List Symbol :=
  if !isHeaderType (symbolAt arr i).type then arr
  else
    let level := headerLevel 0 (symbolAt arr i).type
    let members := symbolsByFile arr (symbolAt arr i).filePath
    if members.isEmpty then arr
    else
      let nextHeaderLine : Option Int :=
        members.foldl
          (fun next j =>
            if isHeaderType (symbolAt arr j).type ∧ headerLevel 0 (symbolAt arr j).type ≤ level ∧
                (symbolAt arr j).lineStart > (symbolAt arr i).lineStart ∧
                (next.all (fun line => decide ((symbolAt arr j).lineStart < line)) = true) then
              some (symbolAt arr j).lineStart
            else next)
          none
      match nextHeaderLine with
      | some line => modifyAt (fun s => { s with lineEnd := line - 1 }) i arr
      | none =>
        let arr1 :=
          match members.find? (fun j => (symbolAt arr j).type == "file".toList) with
          | some f => modifyAt (fun s => { s with lineEnd := (symbolAt arr f).lineEnd }) i arr
          | none => arr
        if (symbolAt arr1 i).lineEnd = 0 then
          match fsys.readStringFromFile (symbolAt arr1 i).filePath with
          | some content =>
            modifyAt (fun s => { s with lineEnd := ((content.count '\n' + 1 : Nat) : Int) }) i arr1
          | none => arr1
        else arr1

/-- Insertion into a list of positions sorted by the start line of their
symbols. -/
def insertByLine (arr : List Symbol) (j : Nat) : List Nat → List Nat
  | [] => [j]
  | k :: rest =>
    if (symbolAt arr j).lineStart < (symbolAt arr k).lineStart then j :: k :: rest
    else k :: insertByLine arr j rest

/-- The headers of a file sorted by start line (`std::sort` with the
comparison of the start lines; the order of headers with the same start line
is the one of `symbolsByFile`). -/
def sortedHeaders (arr : List Symbol) (path : Str) : List Nat :=
  ((symbolsByFile arr path).filter (fun j => isHeaderType (symbolAt arr j).type)).foldr
    (insertByLine arr) []

/-- The level of a header in the hierarchy loop: 1 when `std::stoi` throws or
gives a value outside 1 to 9. -/
def stackLevel (type : Str) : Nat :=
  match stoi (type.drop 6) with
  | some level => if level ≤ 0 ∨ level ≥ 10 then 1 else level.toNat
  | none => 1

/-- The body of the hierarchy loop for the header at position `h`; `stack` is
`headerStack`. -/
def hierarchyStep (path : Str) (state : List Symbol × (Nat → Option Nat)) (h : Nat) :
    List Symbol × (Nat → Option Nat) :=
  let arr := state.1
  let level := stackLevel (symbolAt arr h).type
  let stack1 : Nat → Option Nat := fun l => if level ≤ l then none else state.2 l
  let parent := ((List.range (level - 1)).reverse.map (fun l => l + 1)).findSome? stack1
  let arr1 :=
    match parent with
    | some p =>
      modifyAt (fun s => s.addChild (symbolAt arr h).name) p
        (modifyAt (fun s => { s with parents := (symbolAt arr p).name }) h arr)
    | none =>
      let arr0 := modifyAt (fun s => { s with parents := path }) h arr
      match (symbolsByFile arr0 path).find? (fun j => (symbolAt arr0 j).type == "file".toList) with
      | some f => modifyAt (fun s => s.addChild (symbolAt arr0 h).name) f arr0
      | none => arr0
  (arr1, fun l => if l = level then some h else stack1 l)

/-- The hierarchy loop for the headers of one file. -/
def hierarchyFile (arr : List Symbol) (path : Str) : List Symbol :=
  ((sortedHeaders arr path).foldl (hierarchyStep path) (arr, fun _ => none)).1

/-- The keys of `symbolsByFile`: the paths of the symbols that are not of type
`file`, `directory` or `variable`, each once. -/
def indexedPaths (arr : List Symbol) : List Str :=
  ((arr.filter (fun s =>
    !(s.type == "file".toList || s.type == "directory".toList ||
      s.type == "variable".toList))).map (fun s => s.filePath)).eraseDups

/-- One run of the block that builds the header hierarchy of every file. -/
def hierarchyPass (arr : List Symbol) : List Symbol :=
  (indexedPaths arr).foldl hierarchyFile arr

/-- The body of the fourth pass for the symbol at position `i`: the parent of a
function. -/
def fourthPassStep (arr : List Symbol) (i : Nat) : List Symbol :=
  if !((symbolAt arr i).type == "function".toList) then arr
  else
    let members := symbolsByFile arr (symbolAt arr i).filePath
    match members.find? (fun c =>
        (symbolAt arr c).type == "chunk".toList &&
        decide ((symbolAt arr i).lineStart ≥ (symbolAt arr c).lineStart ∧
          (symbolAt arr i).lineStart ≤ (symbolAt arr c).lineEnd)) with
    | some c => modifyAt (fun s => { s with parents := (symbolAt arr c).name }) i arr
    | none =>
      let best : Option Nat × Int :=
        members.foldl
          (fun (state : Option Nat × Int) h =>
            if isHeaderType (symbolAt arr h).type ∧
                (symbolAt arr i).lineStart > (symbolAt arr h).lineStart ∧
                (symbolAt arr i).lineStart ≤ (symbolAt arr h).lineEnd ∧
                (state.1 = none ∨ headerLevel 0 (symbolAt arr h).type > state.2) then
              (some h, headerLevel 0 (symbolAt arr h).type)
            else state)
          (none, 0)
      match best.1 with
      | some h =>
        modifyAt (fun s => s.addChild (symbolAt arr i).name) h
          (modifyAt (fun s => { s with parents := (symbolAt arr h).name }) i arr)
      | none =>
        let arr1 := modifyAt (fun s => { s with parents := s.filePath }) i arr
        match members.find? (fun j => (symbolAt arr1 j).type == "file".toList) with
        | some f => modifyAt (fun s => s.addChild (symbolAt arr1 i).name) f arr1
        | none => arr1

/-- Put the symbols of a flattened store back into the buckets. -/
def refill : SymbolMap → List Symbol → SymbolMap
  | [], _ => []
  | (k, b) :: rest, arr => (k, arr.take b.length) :: refill rest (arr.drop b.length)

/-- The passes of `updateFileAndDirectoryContexts` on the flattened store; the
hierarchy block runs once for every bucket of the map (`buckets` times). -/
def relationshipPasses (fsys : FileSystem) (buckets : Nat) (arr : List Symbol) : List Symbol :=
  let arr2 := (List.range arr.length).foldl (secondPassStep fsys) arr
  let arr3 := (List.range arr2.length).foldl (thirdPassStep fsys) arr2
  let arr4 := (List.range buckets).foldl (fun a _ => hierarchyPass a) arr3
  (List.range arr4.length).foldl fourthPassStep arr4

/-- The method `SymbolIndex::updateFileAndDirectoryContexts`. The symbols are
visited in the order of `allSymbols`, and a pointer to a symbol is its position
in that order. -/
def updateFileAndDirectoryContexts (fsys : FileSystem) (m : SymbolMap) : SymbolMap :=
  refill m (relationshipPasses fsys m.length (allSymbols m))

/-! ## Fixtures for the extractors and the relationship pass -/

/-- The file system seen through a directory tree with root path `rootPath`;
the parent of a path is the text before its last slash. -/
def FileSystem.ofTree (root : FsNode) (rootPath : Str) : FileSystem :=
  { getParent := beforeLastSlash
    getChildren := fun path =>
      match root.lookup rootPath path with
      | some (.dir _ _ children) => some (children.map FsNode.name)
      | _ => none
    readStringFromFile := fun path =>
      match root.lookup rootPath path with
      | some (.file _ content _) => content
      | _ => none }

/-- Collaborators for projects of R and Markdown files: the R extractor, the
Markdown extractor and the relationship pass are the models above, on the
file system of the tree; the extractors of the other languages, which such
projects never call, add nothing. -/
def rmdEnv (root : FsNode) (rootPath : Str) : Env :=
  { quietEnv with
    indexRFromString := indexRFromString
    indexMarkdownFromString := indexMarkdownFromString
    updateFileAndDirectoryContexts :=
      updateFileAndDirectoryContexts (FileSystem.ofTree root rootPath) }

/-- The store after `buildIndex` on a project that holds one file, from a fresh
index and an empty storage. -/
def builtStore (fileName content : Str) : SymbolMap :=
  (buildIndex
    (rmdEnv (.dir "proj".toList 0 [.file fileName (some content) 0]) "/proj".toList)
    (.dir "proj".toList 0 [.file fileName (some content) 0]) "/proj".toList []
    Machine.fresh).2.index.symbolMap_

/-- The Markdown text with the header `A` on line 1 and the header `B` of level
2 on line 3; it has four lines, the last one empty. -/
def c12Text : Str := "# A\n\n## B\n".toList

/-- The file symbol of `notes.md` after the build of `c12Text`. -/
def c12File : Symbol :=
  { name := "notes.md".toList, type := "file".toList, filePath := "/proj/notes.md".toList,
    fileName := "notes.md".toList, lineStart := 1, lineEnd := 4, parents := "/proj".toList,
    signature := [], children := ["A".toList] }

/-- The header `A` after the build of `c12Text`: it ends on line 2. -/
def c12HeaderA : Symbol :=
  { name := "A".toList, type := "header1".toList, filePath := "/proj/notes.md".toList,
    fileName := "notes.md".toList, lineStart := 1, lineEnd := 2,
    parents := "/proj/notes.md".toList, signature := [], children := ["B".toList] }

/-- The header `B` after the build of `c12Text`. -/
def c12HeaderB : Symbol :=
  { name := "B".toList, type := "header2".toList, filePath := "/proj/notes.md".toList,
    fileName := "notes.md".toList, lineStart := 3, lineEnd := 4, parents := "A".toList,
    signature := [], children := [] }

/-- An R Markdown text with the chunk `setup` that defines the function `f`. -/
def c14Text : Str := "```\x7br setup\x7d\nf <- function(x) \x7b\x7d\n```".toList

/-- The names of the stored functions. -/
def functionNames (m : SymbolMap) : List Str :=
  ((allSymbols m).filter (fun s => s.type == "function".toList)).map (fun s => s.name)

/-- The Markdown document that holds the R code `body` in one R chunk. -/
def asRChunk (body : Str) : Str := "```\x7br\x7d\n".toList ++ body ++ "\n```".toList

/-! ## Function definitions on one line -/

/-- The depth walk of a text for a pair of brackets, from depth `depth`: no
closing bracket comes at depth zero, and the text ends at depth zero. -/
def balancedFrom (opening closing : Char) : Nat → Str → Bool
  | depth, [] => depth == 0
  | depth, c :: s =>
    if c == opening then balancedFrom opening closing (depth + 1) s
    else if c == closing then decide (1 ≤ depth) && balancedFrom opening closing (depth - 1) s
    else balancedFrom opening closing depth s

/-- The brackets `opening` and `closing` are balanced in the text. -/
def Balanced (opening closing : Char) (s : Str) : Prop := balancedFrom opening closing 0 s = true

instance (opening closing : Char) (s : Str) : Decidable (Balanced opening closing s) := by
  unfold Balanced; infer_instance

/-- An R identifier as the regex `[A-Za-z._][A-Za-z0-9._]*` reads it. -/
def isRIdentifier : Str → Bool
  | [] => false
  | c :: rest => isRIdentStart c && rest.all isRIdentChar

/-- The line `NAME <- function(ARGS) { BODY }`. -/
def functionLine (name args body : Str) : Str :=
  name ++ " <- function(".toList ++ args ++ ") \x7b ".toList ++ body ++ " \x7d".toList

/-- The symbols that the loop of `indexRFromString` passes to `addSymbolNoLock`
from the line with index `i` on, in order. -/
def indexRLinesSymbols (path : Str) : Nat → List Str → RState → List Symbol
  | _, [], _ => []
  | i, line :: rest, st =>
    (indexRLine path i line rest st).1 ++
      indexRLinesSymbols path (i + 1) rest (indexRLine path i line rest st).2

/-- The symbols that `indexRFromString` passes to `addSymbolNoLock`, in order. -/
def indexRSymbols (content path : Str) : List Symbol :=
  indexRLinesSymbols path 0 (splitAny "\n".toList content)
    { currentNamespace := [], currentFunction := [], currentFunctionStart := -1,
      functionStack := [] }

/-- The arguments `x = "{"`: a brace inside a string. -/
def c11Args : Str := "x = \"\x7b\"".toList

/-- The line `foo <- function(x = "{") { x }` followed by a line with a closing
brace. -/
def c11Text : Str := functionLine "foo".toList c11Args "x".toList ++ "\n\x7d".toList

/-! ## Fenced code blocks -/

/-- Two symbols with the same name, type, path and start line. -/
def SameCore (a b : Symbol) : Prop :=
  a.name = b.name ∧ a.type = b.type ∧ a.filePath = b.filePath ∧ a.lineStart = b.lineStart

/-- The positions of the headers of a file in a flattened store. -/
def headersOf (arr : List Symbol) (path : Str) : List Nat :=
  (List.range arr.length).filter (fun j =>
    isHeaderType (symbolAt arr j).type && (symbolAt arr j).filePath == path)

/-- Two flattened stores of the same length whose symbols have, position by
position, the same name, type, path and start line. -/
def SameSkeleton (a b : List Symbol) : Prop :=
  a.length = b.length ∧ ∀ j, SameCore (symbolAt a j) (symbolAt b j)

/-- Every symbol of the second store has the children of the symbol at its
position in the first one. -/
def ChildrenGrow (a b : List Symbol) : Prop :=
  ∀ j, ∀ c ∈ (symbolAt a j).children, c ∈ (symbolAt b j).children

/-- The update of `headerStack` for the header at position `h`, with the levels
of the positions given by `lv`: the entries of the level of the header and
above are cleared, then the header is put at its level. -/
def stackPush (lv : Nat → Nat) (stack : Nat → Option Nat) (h : Nat) : Nat → Option Nat :=
  fun l => if l = lv h then some h else if lv h ≤ l then none else stack l

/-- The search of the parent in `headerStack` for a header of level `level`:
the entry of the highest level below `level`. -/
def parentOn (stack : Nat → Option Nat) (level : Nat) : Option Nat :=
  ((List.range (level - 1)).reverse.map (fun l => l + 1)).findSome?
    (fun l => if level ≤ l then none else stack l)

/-- The label that the hierarchy loop gives to the header at position `h` of
the file `path`, after the headers `pre`, and what it asks of the parent. -/
def HierarchyDone (ref arr : List Symbol) (path : Str) (stack : Nat → Option Nat) (h : Nat) :
    Prop :=
  (symbolAt arr h).parents =
      (match parentOn stack (stackLevel (symbolAt ref h).type) with
       | some p => (symbolAt ref p).name
       | none => path) ∧
  ∀ p, parentOn stack (stackLevel (symbolAt ref h).type) = some p → p < ref.length →
    (symbolAt ref h).name ∈ (symbolAt arr p).children

/-- The header at position `h` of the file `path` is linked as the hierarchy
asks, the levels, names and lines being those of `ref`: when `g` is the nearest
header before it with a lower level, its label is the name of `g` and `g` has
its name as a child; when no header before it has a lower level, its label is
the path. -/
def HeaderLinked (ref out : List Symbol) (path : Str) (h : Nat) : Prop :=
  (∀ g ∈ headersOf ref path,
    (symbolAt ref g).lineStart < (symbolAt ref h).lineStart →
    stackLevel (symbolAt ref g).type < stackLevel (symbolAt ref h).type →
    (∀ k ∈ headersOf ref path,
      (symbolAt ref g).lineStart < (symbolAt ref k).lineStart →
      (symbolAt ref k).lineStart < (symbolAt ref h).lineStart →
      stackLevel (symbolAt ref h).type ≤ stackLevel (symbolAt ref k).type) →
    (symbolAt out h).parents = (symbolAt ref g).name ∧
      (symbolAt ref h).name ∈ (symbolAt out g).children) ∧
  ((∀ g ∈ headersOf ref path,
    (symbolAt ref g).lineStart < (symbolAt ref h).lineStart →
    stackLevel (symbolAt ref h).type ≤ stackLevel (symbolAt ref g).type) →
    (symbolAt out h).parents = path)

/-- The headers of a file start on different lines. -/
def DistinctHeaderLines (arr : List Symbol) (path : Str) : Prop :=
  ((headersOf arr path).map (fun j => (symbolAt arr j).lineStart)).Nodup

instance (arr : List Symbol) (path : Str) : Decidable (DistinctHeaderLines arr path) := by
  unfold DistinctHeaderLines; infer_instance

/-- The store that the Markdown extractor fills from `c12Text`: the header `A`
at position 0 and the header `B` at position 1. -/
def c13Store : SymbolMap := indexMarkdownFromString c12Text "/proj/notes.md".toList []

/-! ## Fixtures for the lookup stages, the exclusion set and the extractors -/

/-- A function symbol whose name has two words. -/
def shortWordsSymbol : Symbol :=
  Symbol.make "ab cdx".toList "function".toList "/proj/a.R".toList 1 1 [] []

/-- A project that holds the one file `#a.txt#`. -/
def c25Tree : FsNode := .dir "proj".toList 0 [.file "#a.txt#".toList (some "x".toList) 0]

/-- The extensions of the indexable set for which the dispatch on the extension
has no branch. -/
def undispatchedExtensions : List Str :=
  [".cxx", ".hxx", ".pyi", ".pyw", ".markdown", ".zsh", ".bat", ".cmd", ".ps1"].map String.toList

/-- A Markdown text of two lines whose R chunk is never closed. -/
def c27Text : Str := "```\x7br\x7d\nx <- 1".toList

/-- The header `Intro` of the file `/proj/p.md`, line 1. -/
def introP : Symbol :=
  Symbol.make "Intro".toList "header1".toList "/proj/p.md".toList 1 1 [] []

/-- The header `Intro` of the file `/proj/q.md`, lines 1 to 5. -/
def introQ : Symbol :=
  Symbol.make "Intro".toList "header1".toList "/proj/q.md".toList 1 5 [] []

/-- A store that holds the header `Intro` of `p.md` and then the one of `q.md`,
in the bucket `intro`. -/
def c29Store : SymbolMap := addSymbolNoLock (addSymbolNoLock [] introP) introQ

/-! ## The incremental update -/

/-- The method `SymbolIndex::indexFileByTypeSafe` for a regular file: nothing
for an excluded file name, else the guards and the dispatch of
`indexFileByType`. -/
def indexFileByTypeSafe (env : Env) (fileName : Str) (content : Option Str)
    (absPath : Str) (m : SymbolMap) : SymbolMap :=
  if isExcludedFilename fileName then m
  else indexFileByType env fileName content absPath m

/-- The method `SymbolIndex::loadAllFromStorage`: the result tells whether the
load succeeded. The storage folder is created when missing; the index is
loaded, and the checksums and the directory structure are loaded again when
the index holds none. -/
def loadAllFromStorage (env : Env) (mach : Machine) (dirId : Str) : Bool × Machine :=
  if dirId.isEmpty then (false, mach)
  else
    let storageDirExists := mach.storage.folders.any (fun f => f.1 == dirId)
    if !storageDirExists && !env.storageWritable then (false, mach)
    else
      let mach0 :=
        if storageDirExists then mach
        else { mach with storage := mach.storage.setFolder dirId (mach.storage.folder dirId) }
      let loaded := loadIndexFromStorageNoLock mach0 dirId
      if !loaded.1 then (false, loaded.2)
      else
        let mach1 :=
          if loaded.2.index.fileChecksums_.isEmpty then (loadChecksumsFromStorage loaded.2 dirId).2
          else loaded.2
        let mach2 :=
          if mach1.index.directoryFiles_.isEmpty then (loadDirStructureFromStorage mach1 dirId).2
          else mach1
        (true, mach2)

/-- The body of the two loops of `updateIndexIncrementally` for a file on disk:
the symbols of the file are removed first in the loop over the modified files
(`removeFirst`), the file-level symbol is added, the content is extracted for a
text file of an indexable type, and the checksum of the file is set. -/
def updateFileEntry (env : Env) (dir : FsNode) (dirPath : Str) (removeFirst : Bool)
    (fileName : Str) (content : Option Str) (path : Str) (idx : SymbolIndex) : SymbolIndex :=
  let extension := getExtensionLowerCase fileName
  let isBinary := isBinaryFileType extension
  let shouldIndex := isIndexableFileType extension
  let m0 := if removeFirst then removeSymbolsForFile idx.symbolMap_ path else idx.symbolMap_
  let m1 :=
    if isBinary then addSymbolNoLock m0 (Symbol.make fileName "binary".toList path 0 0 [] [])
    else
      let fileLines := fileLineCount content
      addSymbolNoLock m0 (Symbol.make fileName "file".toList path 1 fileLines [] [])
  let m2 :=
    if !isBinary && shouldIndex then indexFileByTypeSafe env fileName content path m1 else m1
  { idx with
    symbolMap_ := m2,
    fileChecksums_ := setChecksum idx.fileChecksums_ path
      { path := path, checksum := generateFileChecksum env dir dirPath path,
        lastModified := getFileModifiedTime dir dirPath path } }

/-- The remaining files of a loop of `updateIndexIncrementally` are pushed to
`pendingFiles_`, each one unless `std::find` finds it there. -/
def addPending (pendingFiles remaining : List Str) : List Str :=
  remaining.foldl (fun pending file => if pending.contains file then pending else pending ++ [file])
    pendingFiles

/-- The state of the loops of `updateIndexIncrementally`: the index, the counter
`filesProcessed` and the counter of the loop (`modifiedProcessed` or
`newFilesProcessed`). -/
structure UpdateState where
  index : SymbolIndex
  filesProcessed : Nat
  processed : Nat
  deriving DecidableEq, Repr

/-- A loop of `updateIndexIncrementally` over the files that are left of
`modifiedFiles` (with `removeFirst`) or of `newFiles`: at the batch limit the
files that are left go to `pendingFiles_` and the loop ends; a path that does
not exist or is a directory is counted and skipped. The time budget is ignored
(`hasTimedOut` is never true). -/
def updateLoop (env : Env) (dir : FsNode) (dirPath : Str) (removeFirst : Bool) :
    List Str → UpdateState → UpdateState
  | [], st => st
  | path :: rest, st =>
    if st.filesProcessed ≥ MAX_FILES_PER_BATCH then
      { st with index := { st.index with
          pendingFiles_ := addPending st.index.pendingFiles_ (path :: rest) } }
    else
      match dir.lookup dirPath path with
      | some (.file fileName content _) =>
        updateLoop env dir dirPath removeFirst rest
          { index := updateFileEntry env dir dirPath removeFirst fileName content path st.index,
            filesProcessed := st.filesProcessed + 1,
            processed := st.processed + 1 }
      | _ =>
        updateLoop env dir dirPath removeFirst rest { st with processed := st.processed + 1 }

/-- The modified files of `updateIndexIncrementally`: the files of the current
listing that have no stored checksum or a stored checksum that differs from
the current one. -/
def modifiedFilesOf (env : Env) (dir : FsNode) (dirPath : Str)
    (fileChecksums : List (Str × FileChecksum)) (currentFiles : List Str) : List Str :=
  currentFiles.filter (fun currentFile =>
    match findChecksum fileChecksums currentFile with
    | none => true
    | some saved => saved.checksum != generateFileChecksum env dir dirPath currentFile)

/-- The new files of `updateIndexIncrementally`: the files of the current
listing that `std::find` does not find in `directoryFiles_`. -/
def newFilesOf (directoryFiles currentFiles : List Str) : List Str :=
  currentFiles.filter (fun currentFile => !directoryFiles.contains currentFile)

/-- The method `SymbolIndex::updateIndexIncrementally` for the directory tree
`dir` with absolute path `dirPath`; the result tells whether it succeeded. -/
def updateIndexIncrementally (env : Env) (dir : FsNode) (dirPath : Str) (mach : Machine) :
    Bool × Machine :=
  let dirId := getDirectoryId mach.storage dirPath
  if dirId.isEmpty then (false, mach)
  else
    let loaded := loadAllFromStorage env mach dirId
    if !loaded.1 then (false, loaded.2)
    else
      let idx0 := loaded.2.index
      let currentFiles := getCurrentDirectoryStructure dir dirPath
      let removed := removedFiles idx0.directoryFiles_ currentFiles
      let idx1 := removed.foldl
        (fun idx removedFile =>
          { idx with
            symbolMap_ := removeSymbolsForFile idx.symbolMap_ removedFile,
            fileChecksums_ := idx.fileChecksums_.filter (fun kv => !(kv.1 == removedFile)) })
        idx0
      let modifiedFiles := modifiedFilesOf env dir dirPath idx1.fileChecksums_ currentFiles
      let newFiles := newFilesOf idx1.directoryFiles_ currentFiles
      let s1 := updateLoop env dir dirPath true modifiedFiles
        { index := idx1, filesProcessed := 0, processed := 0 }
      let s2 := updateLoop env dir dirPath false newFiles
        { index := s1.index, filesProcessed := s1.filesProcessed, processed := 0 }
      let processedFiles :=
        idx1.directoryFiles_.filter
          (fun file => !removed.contains file && !modifiedFiles.contains file) ++
        modifiedFiles.take s1.processed ++ newFiles.take s2.processed
      let idx3 := { s2.index with directoryFiles_ := processedFiles }
      (true, saveAllToStorage env { loaded.2 with index := idx3 } dirId)

/-! ## Fixtures for the incremental update -/

/-- A project that holds the file `a.txt`. -/
def c21Before : FsNode := .dir "proj".toList 0 [.file "a.txt".toList (some "x".toList) 1]

/-- The project of `c21Before` after the file `b.txt` has been added. -/
def c21After : FsNode :=
  .dir "proj".toList 0
    [.file "a.txt".toList (some "x".toList) 1, .file "b.txt".toList (some "y\nz".toList) 2]

/-- The index of `c21Before`, built and stored. -/
def c21Built : Machine := (buildIndex quietEnv c21Before "/proj".toList [] Machine.fresh).2

/-- The index of `c21Built` after the incremental update for `c21After`. -/
def c21Updated : Machine := (updateIndexIncrementally quietEnv c21After "/proj".toList c21Built).2

/-- The project of `c21Before` after the files `logo.png` and `.DS_Store` have
been added. -/
def c30After : FsNode :=
  .dir "proj".toList 0
    [.file "a.txt".toList (some "x".toList) 1, .file "logo.png".toList (some "p".toList) 2,
     .file ".DS_Store".toList (some "d".toList) 3]

/-- The name, type and line range of the stored symbols. -/
def storedEntries (mach : Machine) : List (Str × Str × Int × Int) :=
  (allSymbols mach.index.symbolMap_).map (fun s => (s.name, s.type, s.lineStart, s.lineEnd))

/-! ## Fixtures and the rule of the general stage -/

/-- A query of eleven words. -/
def longQuery : Str := "a b c d e f g h i j k".toList

/-- A header whose name holds the eleven words of `longQuery` and one more. -/
def longHeader : Symbol :=
  Symbol.make "a b c d e f g h i j k l".toList "header1".toList "/proj/notes.md".toList 1 1 [] []

/-- The name that the general stage of `findSymbol` compares with the query:
the lower-cased name, for a header symbol after the hash clean-up. -/
def generalStageName (symbol : Symbol) : Str :=
  if starts_with symbol.type "header".toList then stripTrailingHashes (to_lower symbol.name)
  else to_lower symbol.name

/-- The rule of the general stage in the words of the specification, for the
query and the name it is compared with. A query of one word: some word of the
name equals the query, or starts with the query when the query has at least 5
characters. A query of several words: at least 70% of the query words occur as
a substring of some word of the name, and the quotient of the shorter by the
longer length of query and name is greater than 0.15. -/
def generalFuzzyRule (query name : Str) : Bool :=
  let queryWords := splitAny " \t".toList query
  let nameWords := splitAny " \t".toList name
  if queryWords.length = 1 then
    nameWords.any (fun word => word == query || (starts_with word query && decide (query.length ≥ 5)))
  else
    let matchCount :=
      (queryWords.filter (fun queryWord =>
        nameWords.any (fun word => containsStr word queryWord))).length
    decide (7 * queryWords.length ≤ 10 * matchCount) &&
    decide (3 * max query.length name.length < 20 * min query.length name.length)

/-- A header whose name ends with a `#`. -/
def hashedHeader : Symbol :=
  Symbol.make "some very long header title abcd#".toList "header1".toList
    "/proj/notes.md".toList 1 1 [] []

/-- A function whose name has three words. -/
def threeWordFunction : Symbol :=
  Symbol.make "plot model fit".toList "function".toList "/proj/a.R".toList 1 1 [] []

/-- A function whose name has ten words. -/
def tenWordFunction : Symbol :=
  Symbol.make "a b c d e f g h i j".toList "function".toList "/proj/a.R".toList 1 1 [] []

/-! ## Extraction into a store that holds other files -/

/-- The bucket of a key, empty when the store has none. -/
def bucketOf (m : SymbolMap) (key : Str) : List Symbol := (findBucket m key).getD []

/-- The store `m` is the store `base` with the symbols of `n` pushed behind,
bucket by bucket. -/
def Overlay (base m n : SymbolMap) : Prop :=
  ∀ key, bucketOf m key = bucketOf base key ++ bucketOf n key

theorem isSameInstance_iff (a b : Symbol) :
    a.isSameInstance b = true ↔ SameIdentity a b := by
  simp [Symbol.isSameInstance, SameIdentity, and_assoc]

theorem isSameInstance_false_iff (a b : Symbol) :
    a.isSameInstance b = false ↔ ¬ SameIdentity a b := by
  rw [← isSameInstance_iff]; simp

theorem storeWF_nil : StoreWF [] := by
  simp [StoreWF]

theorem addSymbolNoLock_keys (m : SymbolMap) (s : Symbol) :
    (addSymbolNoLock m s).map Prod.fst =
      if to_lower s.name ∈ m.map Prod.fst then m.map Prod.fst
      else m.map Prod.fst ++ [to_lower s.name] := by
  induction m with
  | nil => simp [addSymbolNoLock]
  | cons kb rest ih =>
    obtain ⟨k, b⟩ := kb
    by_cases hk : k = to_lower s.name
    · by_cases hd : b.any (fun existingSymbol => existingSymbol.isSameInstance s)
      · simp [addSymbolNoLock, hk, hd]
      · simp [addSymbolNoLock, hk, hd]
    · have hk2 : ¬ to_lower s.name = k := fun h => hk h.symm
      simp only [addSymbolNoLock, hk, if_false, List.map_cons, ih, List.mem_cons, hk2, false_or]
      split <;> simp

theorem addSymbolNoLock_mem (m : SymbolMap) (s : Symbol) (kb : Str × List Symbol)
    (h : kb ∈ addSymbolNoLock m s) :
    kb ∈ m ∨ kb = (to_lower s.name, [s]) ∨
      ∃ b, (to_lower s.name, b) ∈ m ∧ kb = (to_lower s.name, b ++ [s]) ∧
        b.any (fun existingSymbol => existingSymbol.isSameInstance s) = false := by
  induction m with
  | nil => simp [addSymbolNoLock] at h; exact Or.inr (Or.inl h)
  | cons kb0 rest ih =>
    obtain ⟨k, b⟩ := kb0
    by_cases hk : k = to_lower s.name
    · by_cases hd : b.any (fun existingSymbol => existingSymbol.isSameInstance s)
      · simp only [addSymbolNoLock, hk, if_true, hd] at h
        exact Or.inl (by simpa [hk] using h)
      · simp only [addSymbolNoLock, hk, if_true, hd] at h
        rcases List.mem_cons.mp h with h1 | h1
        · refine Or.inr (Or.inr ⟨b, ?_, h1, ?_⟩)
          · simp [hk]
          · simpa using hd
        · exact Or.inl (List.mem_cons_of_mem _ h1)
    · simp only [addSymbolNoLock, hk, if_false] at h
      rcases List.mem_cons.mp h with h1 | h1
      · exact Or.inl (by simp [h1])
      · rcases ih h1 with h2 | h2 | ⟨b2, hb2, e2, d2⟩
        · exact Or.inl (List.mem_cons_of_mem _ h2)
        · exact Or.inr (Or.inl h2)
        · exact Or.inr (Or.inr ⟨b2, List.mem_cons_of_mem _ hb2, e2, d2⟩)

theorem storeWF_addSymbolNoLock (m : SymbolMap) (s : Symbol) (h : StoreWF m) :
    StoreWF (addSymbolNoLock m s) := by
  obtain ⟨hn, hb⟩ := h
  refine ⟨?_, ?_⟩
  · rw [addSymbolNoLock_keys]
    split
    · exact hn
    · rename_i hmem
      rw [List.nodup_append]
      refine ⟨hn, by simp, ?_⟩
      intro a ha hb2
      simp at hb2
      exact hmem (hb2 ▸ ha)
  · intro kb hkb
    rcases addSymbolNoLock_mem m s kb hkb with h1 | h1 | ⟨b, hb1, e, d⟩
    · exact hb kb h1
    · subst h1
      simp
    · subst e
      obtain ⟨h1, h2, _⟩ := hb _ hb1
      refine ⟨?_, ?_, by simp⟩
      · intro x hx
        rcases List.mem_append.mp hx with hx | hx
        · exact h1 x hx
        · simp at hx; subst hx; rfl
      · rw [List.pairwise_append]
        refine ⟨h2, by simp, ?_⟩
        intro x hx y hy
        simp at hy; subst hy
        simp only [List.any_eq_false] at d
        simpa using d x hx

theorem storeWF_foldl_addSymbolNoLock (l : List Symbol) (m : SymbolMap) (h : StoreWF m) :
    StoreWF (l.foldl addSymbolNoLock m) := by
  induction l generalizing m with
  | nil => exact h
  | cons s rest ih => exact ih _ (storeWF_addSymbolNoLock m s h)

theorem to_lower_ne_of_name_ne {a b : Symbol} (h : to_lower a.name ≠ to_lower b.name) :
    a.name ≠ b.name := fun e => h (by rw [e])

theorem storeWF_pairwise (m : SymbolMap) (h : StoreWF m) :
    (allSymbols m).Pairwise (fun a b => ¬ SameIdentity a b) := by
  obtain ⟨hn, hb⟩ := h
  unfold allSymbols
  rw [List.pairwise_flatMap]
  refine ⟨?_, ?_⟩
  · intro kb hkb
    exact (hb kb hkb).2.1.imp (fun {a b} hab => (isSameInstance_false_iff a b).mp hab)
  · have hp : m.Pairwise (fun a b => a.1 ≠ b.1) := by
      have := hn
      unfold List.Nodup at this
      rwa [List.pairwise_map] at this
    refine hp.imp_of_mem ?_
    intro kb1 kb2 h1 h2 hne x hx y hy hsame
    have e1 := (hb kb1 h1).1 x hx
    have e2 := (hb kb2 h2).1 y hy
    apply hne
    rw [← e1, ← e2, hsame.1]

theorem storeWF_tail (kb : Str × List Symbol) (rest : SymbolMap) (h : StoreWF (kb :: rest)) :
    StoreWF rest := by
  obtain ⟨hn, hb⟩ := h
  refine ⟨?_, fun kb2 hkb2 => hb kb2 (List.mem_cons_of_mem _ hkb2)⟩
  simp only [List.map_cons, List.nodup_cons] at hn
  exact hn.2

theorem addSymbolNoLock_of_stored (m : SymbolMap) (s t : Symbol) (h : StoreWF m)
    (ht : t ∈ allSymbols m) (hs : SameIdentity t s) : addSymbolNoLock m s = m := by
  induction m with
  | nil => simp [allSymbols] at ht
  | cons kb rest ih =>
    obtain ⟨k, b⟩ := kb
    have hrest := storeWF_tail _ _ h
    obtain ⟨hn, hb⟩ := h
    simp only [allSymbols, List.flatMap_cons, List.mem_append] at ht
    by_cases hk : k = to_lower s.name
    · have hany : b.any (fun existingSymbol => existingSymbol.isSameInstance s) = true := by
        rcases ht with ht | ht
        · exact List.any_eq_true.mpr ⟨t, ht, (isSameInstance_iff t s).mpr hs⟩
        · exfalso
          obtain ⟨kb2, hkb2, ht2⟩ := List.mem_flatMap.mp ht
          have e := (hrest.2 kb2 hkb2).1 t ht2
          simp only [List.map_cons, List.nodup_cons, List.mem_map, not_exists, not_and] at hn
          exact hn.1 kb2 hkb2 (by rw [← e, hs.1, hk])
      simp [addSymbolNoLock, hk, hany]
    · rcases ht with ht | ht
      · exfalso
        have e := (hb (k, b) (List.mem_cons_self _ _)).1 t ht
        simp only at e
        exact hk (by rw [← e, hs.1])
      · simp only [addSymbolNoLock, hk, if_false]
        congr 1
        exact ih hrest ht

theorem addSymbolNoLock_has_identity (m : SymbolMap) (s : Symbol) :
    ∃ t ∈ allSymbols (addSymbolNoLock m s), SameIdentity t s := by
  induction m with
  | nil => exact ⟨s, by simp [addSymbolNoLock, allSymbols], rfl, rfl, rfl⟩
  | cons kb rest ih =>
    obtain ⟨k, b⟩ := kb
    by_cases hk : k = to_lower s.name
    · by_cases hd : b.any (fun existingSymbol => existingSymbol.isSameInstance s)
      · obtain ⟨t, ht, hts⟩ := List.any_eq_true.mp hd
        exact ⟨t, by simp [addSymbolNoLock, hk, hd, allSymbols, ht],
          (isSameInstance_iff t s).mp hts⟩
      · exact ⟨s, by simp [addSymbolNoLock, hk, hd, allSymbols], rfl, rfl, rfl⟩
    · obtain ⟨t, ht, hts⟩ := ih
      refine ⟨t, ?_, hts⟩
      simp only [addSymbolNoLock, hk, if_false, allSymbols, List.flatMap_cons, List.mem_append]
      exact Or.inr ht

theorem addSymbolNoLock_keeps (m : SymbolMap) (s t : Symbol) (ht : t ∈ allSymbols m) :
    t ∈ allSymbols (addSymbolNoLock m s) := by
  induction m with
  | nil => simp [allSymbols] at ht
  | cons kb rest ih =>
    obtain ⟨k, b⟩ := kb
    simp only [allSymbols, List.flatMap_cons, List.mem_append] at ht
    by_cases hk : k = to_lower s.name
    · by_cases hd : b.any (fun existingSymbol => existingSymbol.isSameInstance s)
      · simp only [addSymbolNoLock, hk, if_true, hd, allSymbols, List.flatMap_cons,
          List.mem_append]
        simpa [hk] using ht
      · have hd2 : b.any (fun existingSymbol => existingSymbol.isSameInstance s) = false := by
          simpa using hd
        simp only [addSymbolNoLock, hk, if_true, hd2, Bool.false_eq_true, if_false, allSymbols,
          List.flatMap_cons, List.mem_append]
        rcases ht with ht | ht
        · exact Or.inl (Or.inl ht)
        · exact Or.inr ht
    · simp only [addSymbolNoLock, hk, if_false, allSymbols, List.flatMap_cons, List.mem_append]
      rcases ht with ht | ht
      · exact Or.inl ht
      · exact Or.inr (ih ht)

theorem allSymbols_removeWhere (p : Symbol → Bool) (m : SymbolMap) :
    allSymbols (removeWhere p m) = (allSymbols m).filter (fun s => !p s) := by
  induction m with
  | nil => rfl
  | cons kb rest ih =>
    obtain ⟨k, b⟩ := kb
    have ih2 : allSymbols ((rest.map (fun kb => (kb.1, kb.2.filter (fun s => !p s)))).filter
        (fun kb => !kb.2.isEmpty)) = (allSymbols rest).filter (fun s => !p s) := ih
    simp only [removeWhere, List.map_cons, List.filter_cons, allSymbols, List.flatMap_cons,
      List.filter_append]
    by_cases he : (b.filter (fun s => !p s)).isEmpty
    · simp only [he, Bool.not_true, Bool.false_eq_true, if_false]
      rw [List.isEmpty_iff] at he
      rw [he, List.nil_append]
      exact ih2
    · simp only [he, Bool.not_false, if_true, List.flatMap_cons]
      congr 1

theorem removeWhere_mem (p : Symbol → Bool) (m : SymbolMap) (kb : Str × List Symbol) :
    kb ∈ removeWhere p m ↔
      kb.2 ≠ [] ∧ ∃ b, (kb.1, b) ∈ m ∧ kb.2 = b.filter (fun s => !p s) := by
  obtain ⟨k, c⟩ := kb
  simp only [removeWhere, List.mem_filter, List.mem_map, Prod.mk.injEq, Prod.exists,
    Bool.not_eq_true', List.isEmpty_eq_false, ne_eq]
  constructor
  · rintro ⟨⟨k2, b, hmem, rfl, rfl⟩, hne⟩
    exact ⟨hne, b, hmem, rfl⟩
  · rintro ⟨hne, b, hmem, rfl⟩
    exact ⟨⟨k, b, hmem, rfl, rfl⟩, hne⟩

theorem mem_allSymbols_removeSymbolsForFile (m : SymbolMap) (p : Str) (s : Symbol) :
    s ∈ allSymbols (removeSymbolsForFile m p) ↔ s ∈ allSymbols m ∧ s.filePath ≠ p := by
  rw [removeSymbolsForFile, allSymbols_removeWhere, List.mem_filter]
  simp

theorem mem_allSymbols_foldl_removeSymbolsForFile (l : List Str) (m : SymbolMap) (s : Symbol) :
    s ∈ allSymbols (l.foldl removeSymbolsForFile m) ↔ s ∈ allSymbols m ∧ s.filePath ∉ l := by
  induction l generalizing m with
  | nil => simp
  | cons p rest ih =>
    rw [List.foldl_cons, ih, mem_allSymbols_removeSymbolsForFile, List.mem_cons]
    constructor
    · rintro ⟨⟨h1, h2⟩, h3⟩
      exact ⟨h1, fun h => h.elim h2 h3⟩
    · rintro ⟨h1, h2⟩
      exact ⟨⟨h1, fun h => h2 (Or.inl h)⟩, fun h => h2 (Or.inr h)⟩

theorem mem_removedFiles (old cur : List Str) (f : Str) :
    f ∈ removedFiles old cur ↔ f ∈ old ∧ f ∉ cur := by
  simp [removedFiles, List.mem_filter]

/-- C5: `removeSymbolsForFile(p)` removes exactly the symbols of `p`. Afterwards
no stored symbol has file path `p`; every symbol of another file is still
stored, unchanged and under the same key; nothing is stored that was not
stored before; and no bucket is empty. The incremental update applies it to
exactly the files of the previous snapshot `old` that are absent from the
current listing `cur`: afterwards no symbol of such a file is stored and every
symbol of any other file still is. -/
theorem C5_removeSymbolsForFile_exact (m : SymbolMap) (p : Str) (old cur : List Str) :
    (∀ s ∈ allSymbols (removeSymbolsForFile m p), s.filePath ≠ p) ∧
    (∀ k b s, (k, b) ∈ m → s ∈ b → s.filePath ≠ p →
      ∃ b2, (k, b2) ∈ removeSymbolsForFile m p ∧ s ∈ b2) ∧
    (∀ k b2 s, (k, b2) ∈ removeSymbolsForFile m p → s ∈ b2 → ∃ b, (k, b) ∈ m ∧ s ∈ b) ∧
    (∀ kb ∈ removeSymbolsForFile m p, kb.2 ≠ []) ∧
    (∀ f, f ∈ removedFiles old cur ↔ f ∈ old ∧ f ∉ cur) ∧
    (∀ s, s ∈ allSymbols (removeSymbolsOfRemovedFiles m old cur) ↔
      s ∈ allSymbols m ∧ ¬ (s.filePath ∈ old ∧ s.filePath ∉ cur)) ∧
    (removedFiles old cur ≠ [] → ∀ kb ∈ removeSymbolsOfRemovedFiles m old cur, kb.2 ≠ []) := by
  refine ⟨?_, ?_, ?_, ?_, ?_, ?_, ?_⟩
  · intro s hs
    rw [removeSymbolsForFile, allSymbols_removeWhere] at hs
    simpa using (List.mem_filter.mp hs).2
  · intro k b s hkb hs hp
    refine ⟨b.filter (fun s => !(s.filePath == p)), ?_, ?_⟩
    · refine (removeWhere_mem _ m _).mpr ⟨?_, b, hkb, rfl⟩
      intro he
      have : s ∈ b.filter (fun s => !(s.filePath == p)) :=
        List.mem_filter.mpr ⟨hs, by simpa using hp⟩
      simp only at he
      rw [he] at this
      exact absurd this (List.not_mem_nil _)
    · exact List.mem_filter.mpr ⟨hs, by simpa using hp⟩
  · intro k b2 s hkb hs
    obtain ⟨-, b, hmem, e⟩ := (removeWhere_mem _ m _).mp hkb
    simp only at e
    exact ⟨b, hmem, by rw [e] at hs; exact (List.mem_filter.mp hs).1⟩
  · intro kb hkb
    exact ((removeWhere_mem _ m kb).mp hkb).1
  · intro f
    exact mem_removedFiles old cur f
  · intro s
    rw [removeSymbolsOfRemovedFiles, mem_allSymbols_foldl_removeSymbolsForFile,
      mem_removedFiles]
  · intro hne kb hkb
    unfold removeSymbolsOfRemovedFiles at hkb
    revert hkb hne
    generalize removedFiles old cur = l
    intro hne
    induction l using List.reverseRecOn with
    | nil => exact absurd rfl hne
    | append_singleton l2 q _ =>
      intro hkb
      rw [List.foldl_append, List.foldl_cons, List.foldl_nil] at hkb
      exact ((removeWhere_mem _ _ kb).mp hkb).1

/-! ## Strings -/

theorem toLowerChar_idem (c : Char) : toLowerChar (toLowerChar c) = toLowerChar c := by
  unfold toLowerChar
  by_cases h : 65 ≤ c.toNat ∧ c.toNat ≤ 90
  · simp only [h, and_self, if_true]
    obtain ⟨h1, h2⟩ := h
    generalize c.toNat = n at *
    interval_cases n <;> decide
  · simp [h]

theorem to_lower_idem (s : Str) : to_lower (to_lower s) = to_lower s := by
  simp [to_lower, toLowerChar_idem]

theorem toLowerChar_eq_hash (c : Char) : toLowerChar c = '#' ↔ c = '#' := by
  unfold toLowerChar
  by_cases h : 65 ≤ c.toNat ∧ c.toNat ≤ 90
  · simp only [h, and_self, if_true]
    obtain ⟨h1, h2⟩ := h
    constructor
    · intro e
      exfalso
      revert e
      generalize c.toNat = n at *
      interval_cases n <;> decide
    · intro e
      subst e
      exact absurd h1 (by decide)
  · simp [h]

theorem hash_mem_to_lower (s : Str) : '#' ∈ to_lower s ↔ '#' ∈ s := by
  simp only [to_lower, List.mem_map]
  constructor
  · rintro ⟨c, hc, e⟩
    rwa [(toLowerChar_eq_hash c).mp e] at hc
  · intro h
    exact ⟨'#', h, by decide⟩

theorem to_lower_eq_nil (s : Str) : to_lower s = [] ↔ s = [] := by
  simp [to_lower]

theorem dropWhile_append_of_all (p : Char → Bool) (a b : Str) (h : ∀ c ∈ a, p c = true) :
    (a ++ b).dropWhile p = b.dropWhile p := by
  induction a with
  | nil => rfl
  | cons c rest ih =>
    have hc := h c (List.mem_cons_self _ _)
    simp only [List.cons_append, List.dropWhile_cons, hc, if_true]
    exact ih (fun d hd => h d (List.mem_cons_of_mem _ hd))

theorem dropWhile_eq_nil_of_all (p : Char → Bool) (a : Str) (h : ∀ c ∈ a, p c = true) :
    a.dropWhile p = [] := by
  have := dropWhile_append_of_all p a [] h
  simpa using this

theorem dropEndWhile_sublist (p : Char → Bool) (s : Str) : (dropEndWhile p s).Sublist s := by
  unfold dropEndWhile
  have h := (List.dropWhile_sublist p (l := s.reverse)).reverse
  simpa using h

theorem dropEndWhile_of_all (p : Char → Bool) (s : Str) (h : ∀ c ∈ s, p c = true) :
    dropEndWhile p s = [] := by
  unfold dropEndWhile
  rw [dropWhile_eq_nil_of_all p s.reverse (fun c hc => h c (List.mem_reverse.mp hc))]
  rfl

theorem dropEndWhile_append_of_all (p : Char → Bool) (a b : Str) (h : ∀ c ∈ b, p c = true) :
    dropEndWhile p (a ++ b) = dropEndWhile p a := by
  unfold dropEndWhile
  rw [List.reverse_append,
    dropWhile_append_of_all p b.reverse a.reverse (fun c hc => h c (List.mem_reverse.mp hc))]

theorem dropEndWhile_of_last (p : Char → Bool) (a : Str) (c : Char) (h : p c = false) :
    dropEndWhile p (a ++ [c]) = a ++ [c] := by
  unfold dropEndWhile
  simp [List.dropWhile_cons, h]

theorem mem_of_mem_trim_right (s : Str) (c : Char) (h : c ∈ trim_right s) : c ∈ s :=
  (dropEndWhile_sublist _ s).subset h

theorem mem_of_mem_stripTrailingHashes (s : Str) (c : Char)
    (h : c ∈ stripTrailingHashes s) : c ∈ s := by
  unfold stripTrailingHashes at h
  simp only at h
  split at h
  · exact mem_of_mem_trim_right s c
      ((dropEndWhile_sublist _ _).subset (mem_of_mem_trim_right _ c h))
  · exact mem_of_mem_trim_right s c h

theorem mem_of_mem_splitAny (seps s : Str) (w : Str) (c : Char)
    (hw : w ∈ splitAny seps s) (hc : c ∈ w) : c ∈ s := by
  induction s generalizing w with
  | nil => simp [splitAny] at hw; subst hw; exact absurd hc (List.not_mem_nil _)
  | cons d rest ih =>
    unfold splitAny at hw
    split at hw
    · rcases List.mem_cons.mp hw with h1 | h1
      · subst h1; exact absurd hc (List.not_mem_nil _)
      · exact List.mem_cons_of_mem _ (ih w h1 hc)
    · split at hw
      · simp at hw; subst hw
        simp at hc; subst hc; exact List.mem_cons_self _ _
      · rename_i w0 ws heq
        rcases List.mem_cons.mp hw with h1 | h1
        · subst h1
          rcases List.mem_cons.mp hc with h2 | h2
          · subst h2; exact List.mem_cons_self _ _
          · exact List.mem_cons_of_mem _ (ih w0 (by rw [heq]; exact List.mem_cons_self _ _) h2)
        · exact List.mem_cons_of_mem _ (ih w (by rw [heq]; exact List.mem_cons_of_mem _ h1) hc)

theorem splitAny_of_no_sep (seps s : Str) (h : ∀ c ∈ s, seps.contains c = false) :
    splitAny seps s = [s] := by
  induction s with
  | nil => rfl
  | cons d rest ih =>
    have hd := h d (List.mem_cons_self _ _)
    have hr := ih (fun c hc => h c (List.mem_cons_of_mem _ hc))
    unfold splitAny
    rw [if_neg (by rw [hd]; exact Bool.false_ne_true), hr]

theorem mem_of_starts_with (s t : Str) (h : starts_with s t = true) (c : Char) (hc : c ∈ t) :
    c ∈ s := by
  induction t generalizing s with
  | nil => exact absurd hc (List.not_mem_nil _)
  | cons d rest ih =>
    cases s with
    | nil => simp [starts_with] at h
    | cons e srest =>
      simp only [starts_with, Bool.and_eq_true, beq_iff_eq] at h
      rcases List.mem_cons.mp hc with h1 | h1
      · subst h1; rw [h.1]; exact List.mem_cons_self _ _
      · exact List.mem_cons_of_mem _ (ih srest h.2 h1)

theorem mem_of_containsStr (s t : Str) (h : containsStr s t = true) (c : Char) (hc : c ∈ t) :
    c ∈ s := by
  induction s with
  | nil =>
    simp only [containsStr, List.isEmpty_iff] at h
    subst h; exact absurd hc (List.not_mem_nil _)
  | cons e srest ih =>
    simp only [containsStr, Bool.or_eq_true] at h
    rcases h with h | h
    · exact mem_of_starts_with _ _ h c hc
    · exact List.mem_cons_of_mem _ (ih h)

theorem findBucket_of_mem (m : SymbolMap) (k : Str) (b : List Symbol)
    (hn : (m.map Prod.fst).Nodup) (h : (k, b) ∈ m) : findBucket m k = some b := by
  induction m with
  | nil => exact absurd h (List.not_mem_nil _)
  | cons kb rest ih =>
    obtain ⟨k0, b0⟩ := kb
    simp only [List.map_cons, List.nodup_cons, List.mem_map, not_exists, not_and] at hn
    rcases List.mem_cons.mp h with h1 | h1
    · injection h1 with e1 e2
      subst e1; subst e2
      simp [findBucket]
    · have hk : k0 ≠ k := fun e => hn.1 (k, b) h1 e.symm
      simp only [findBucket, hk, if_false]
      exact ih hn.2 h1

theorem findBucket_mem (m : SymbolMap) (k : Str) (b : List Symbol)
    (h : findBucket m k = some b) : (k, b) ∈ m := by
  induction m with
  | nil => simp [findBucket] at h
  | cons kb rest ih =>
    obtain ⟨k0, b0⟩ := kb
    unfold findBucket at h
    split at h
    · rename_i hk
      injection h with e
      subst hk; subst e
      exact List.mem_cons_self _ _
    · exact List.mem_cons_of_mem _ (ih h)

/-! ## Lookup -/

theorem coldStartReload_of_nonempty (mach : Machine) (h : mach.index.symbolMap_ ≠ []) :
    coldStartReload mach = mach := by
  unfold coldStartReload
  have : mach.index.symbolMap_.isEmpty = false := by
    cases hm : mach.index.symbolMap_ with
    | nil => exact absurd hm h
    | cons _ _ => rfl
  simp [this]

theorem mem_bucket_of_mem_allSymbols (m : SymbolMap) (s : Symbol) (hwf : StoreWF m)
    (hs : s ∈ allSymbols m) : ∃ b, (to_lower s.name, b) ∈ m ∧ s ∈ b := by
  obtain ⟨kb, hkb, hsb⟩ := List.mem_flatMap.mp hs
  obtain ⟨k, b⟩ := kb
  have e := (hwf.2 _ hkb).1 s hsb
  simp only at e
  exact ⟨b, by rw [e]; exact hkb, hsb⟩

/-- C1: with the query equal to the lower-cased name of a stored symbol,
`findSymbol` returns a list that contains the symbol, provided the query
clean-up leaves that name as it is (no trailing white space, no trailing `#`
after another character) and the name does not have the form `name (type)` of
a type filter. -/
theorem C1_findSymbol_exact_name (mach : Machine) (s : Symbol)
    (hwf : StoreWF mach.index.symbolMap_)
    (hs : s ∈ allSymbols mach.index.symbolMap_)
    (hclean : stripTrailingHashes (to_lower s.name) = to_lower s.name)
    (hfilter : typeFilterRegex (to_lower s.name) = none) :
    s ∈ (findSymbol mach (to_lower s.name)).1 := by
  have hne : mach.index.symbolMap_ ≠ [] := by
    intro e; rw [e] at hs; simp [allSymbols] at hs
  obtain ⟨b, hb, hsb⟩ := mem_bucket_of_mem_allSymbols _ s hwf hs
  have hfind := findBucket_of_mem _ _ _ hwf.1 hb
  simp only [findSymbol, coldStartReload_of_nonempty mach hne, parseQuery, to_lower_idem,
    hclean, hfilter, lookupStages, exactStage, hfind]
  simpa using hsb

/-- C1, witness: the function symbol `foo` in a store that holds only it. -/
theorem C1_findSymbol_exact_name_witness :
    fooSymbol ∈ (findSymbol (Machine.ofStore (addSymbolNoLock [] fooSymbol))
      (to_lower fooSymbol.name)).1 :=
  C1_findSymbol_exact_name (Machine.ofStore (addSymbolNoLock [] fooSymbol)) fooSymbol
    (by decide) (by decide) (by decide) (by decide)

/-- C1, counterexample: after `buildIndex` on a project with the directory
`data (old)`, the directory symbol is stored, and `findSymbol` with its
lower-cased name `data (old)` returns nothing: the query is read as the name
`data` with the type filter `old`. -/
theorem C1_counterexample :
    c1Symbol ∈ allSymbols c1Machine.index.symbolMap_ ∧
    StoreWF c1Machine.index.symbolMap_ ∧
    (findSymbol c1Machine (to_lower c1Symbol.name)).1 = [] := by
  decide

theorem isSpace_cases (c : Char) (h : isSpace c = true) :
    c = ' ' ∨ c = '\t' ∨ c = '\n' ∨ c = '\x0b' ∨ c = '\x0c' ∨ c = '\r' := by
  simpa [isSpace, or_assoc] using h

theorem toLowerChar_of_isSpace (c : Char) (h : isSpace c = true) : toLowerChar c = c := by
  rcases isSpace_cases c h with h | h | h | h | h | h <;> subst h <;> decide

theorem isSpace_ne_hash (c : Char) (h : isSpace c = true) : (c == '#') = false := by
  rcases isSpace_cases c h with h | h | h | h | h | h <;> subst h <;> decide

theorem to_lower_blank_hash (W H : Str) (hW : ∀ c ∈ W, isSpace c = true)
    (hH : ∀ c ∈ H, c = '#') : to_lower (W ++ H) = W ++ H := by
  unfold to_lower
  have h : (W ++ H).map toLowerChar = (W ++ H).map id := by
    apply List.map_congr_left
    intro c hc
    rcases List.mem_append.mp hc with h | h
    · exact toLowerChar_of_isSpace c (hW c h)
    · rw [hH c h]; decide
  rw [h, List.map_id]

theorem stripTrailingHashes_blank_hash (W H : Str) (hW : ∀ c ∈ W, isSpace c = true)
    (hH : ∀ c ∈ H, c = '#') :
    stripTrailingHashes (W ++ H) = [] ∨ (stripTrailingHashes (W ++ H) = H ∧ H ≠ []) := by
  have hHp : ∀ c ∈ H, (c == '#') = true := fun c hc => by rw [hH c hc]; rfl
  rcases List.eq_nil_or_concat H with hH0 | ⟨H1, h, hH1⟩
  · -- no hash at all: the query is white space
    left
    subst hH0
    have ht : trim_right (W ++ []) = [] := by
      rw [List.append_nil]; exact dropEndWhile_of_all _ _ hW
    unfold stripTrailingHashes
    simp only [ht]
    rfl
  · have hh : h = '#' := hH h (by rw [hH1]; simp)
    have hne : H ≠ [] := by rw [hH1]; simp
    have ht : trim_right (W ++ H) = W ++ H := by
      rw [hH1, List.concat_eq_append, ← List.append_assoc]
      exact dropEndWhile_of_last _ _ _ (by rw [hh]; decide)
    have hu : dropEndWhile (fun c => c == '#') (W ++ H) = dropEndWhile (fun c => c == '#') W :=
      dropEndWhile_append_of_all _ W H hHp
    rcases List.eq_nil_or_concat W with hW0 | ⟨W1, w, hW1⟩
    · right
      subst hW0
      refine ⟨?_, hne⟩
      unfold stripTrailingHashes
      simp only [ht, hu]
      simp [dropEndWhile]
    · left
      have hw : isSpace w = true := hW w (by rw [hW1]; simp)
      have hu2 : dropEndWhile (fun c => c == '#') W = W := by
        rw [hW1, List.concat_eq_append]
        exact dropEndWhile_of_last _ _ _ (isSpace_ne_hash w hw)
      have hWne : W ≠ [] := by rw [hW1]; simp
      have hlen : W.length < (W ++ H).length := by
        rw [List.length_append]
        have : 0 < H.length := List.length_pos.mpr hne
        omega
      unfold stripTrailingHashes
      simp only [ht, hu, hu2]
      rw [if_pos ⟨hWne, hlen⟩]
      exact dropEndWhile_of_all _ _ hW

theorem matchTypeFilterTail_hashes (H : Str) (hH : ∀ c ∈ H, c = '#') :
    matchTypeFilterTail H = none := by
  cases H with
  | nil => rfl
  | cons c rest =>
    have hc : c = '#' := hH c (List.mem_cons_self _ _)
    subst hc
    rfl

theorem typeFilterSearch_hashes (acc H : Str) (hH : ∀ c ∈ H, c = '#') :
    typeFilterSearch acc H = none := by
  induction H generalizing acc with
  | nil => rfl
  | cons c rest ih =>
    have hc : c = '#' := hH c (List.mem_cons_self _ _)
    have hr : ∀ d ∈ rest, d = '#' := fun d hd => hH d (List.mem_cons_of_mem _ hd)
    subst hc
    unfold typeFilterSearch
    rw [if_neg (by decide), matchTypeFilterTail_hashes rest hr]
    exact ih _ hr

theorem parseQuery_blank_hash (W H : Str) (hW : ∀ c ∈ W, isSpace c = true)
    (hH : ∀ c ∈ H, c = '#') :
    parseQuery (W ++ H) = ([], []) ∨ (parseQuery (W ++ H) = (H, []) ∧ H ≠ []) := by
  unfold parseQuery
  rw [to_lower_blank_hash W H hW hH]
  rcases stripTrailingHashes_blank_hash W H hW hH with h | ⟨h, hne⟩
  · left; rw [h]; rfl
  · right
    refine ⟨?_, hne⟩
    rw [h]
    simp only [typeFilterRegex, typeFilterSearch_hashes [] H hH]

theorem f32RatioGt015_zero (y : Nat) : f32RatioGt015 0 y = false := by
  simp [f32RatioGt015, f32OfNat]

theorem exactStage_plain (m : SymbolMap) (N : Str) (hwf : StoreWF m) (hp : PlainNames m)
    (hN : N = [] ∨ '#' ∈ N) : exactStage m N [] = none := by
  unfold exactStage
  cases hf : findBucket m N with
  | none => rfl
  | some b =>
    exfalso
    have hmem := findBucket_mem m N b hf
    obtain ⟨h1, -, h3⟩ := hwf.2 _ hmem
    obtain ⟨s, hs⟩ := List.exists_mem_of_ne_nil b h3
    have hsall : s ∈ allSymbols m := List.mem_flatMap.mpr ⟨_, hmem, hs⟩
    have e : to_lower s.name = N := h1 s hs
    rcases hN with h | h
    · exact (hp s hsall).1 ((to_lower_eq_nil _).mp (e.trans h))
    · exact (hp s hsall).2 ((hash_mem_to_lower _).mp (e ▸ h))

theorem hash_not_mem_lowerSymbolName (s : Symbol) (h : '#' ∉ s.name) :
    '#' ∉ stripTrailingHashes (to_lower s.name) ∧ '#' ∉ to_lower s.name := by
  have h2 : '#' ∉ to_lower s.name := fun hc => h ((hash_mem_to_lower _).mp hc)
  exact ⟨fun hc => h2 (mem_of_mem_stripTrailingHashes _ _ hc), h2⟩

theorem splitAny_hashes (H : Str) (hH : ∀ c ∈ H, c = '#') :
    splitAny " \t".toList H = [H] := by
  apply splitAny_of_no_sep
  intro c hc
  rw [hH c hc]
  decide

theorem headerStageAccepts_plain (N : Str) (s : Symbol) (hs : '#' ∉ s.name)
    (hN : N = [] ∨ (N ≠ [] ∧ ∀ c ∈ N, c = '#')) : headerStageAccepts N [] s = false := by
  rcases hN with h | ⟨hne, hH⟩
  · subst h
    unfold headerStageAccepts
    simp [f32RatioGt015_zero]
  · obtain ⟨c, hc⟩ := List.exists_mem_of_ne_nil N hne
    have hcN : '#' ∈ N := by rw [← hH c hc]; exact hc
    have hno : containsStr (stripTrailingHashes (to_lower s.name)) N = false := by
      cases hcs : containsStr (stripTrailingHashes (to_lower s.name)) N with
      | false => rfl
      | true =>
        exact absurd (mem_of_containsStr _ _ hcs '#' hcN) (hash_not_mem_lowerSymbolName s hs).1
    unfold headerStageAccepts
    simp only [splitAny_hashes N hH, hno, List.length_singleton, List.all_cons, List.all_nil,
      Bool.and_true]
    simp

theorem generalStageAccepts_plain (N : Str) (s : Symbol) (hs : '#' ∉ s.name)
    (hne : N ≠ []) (hH : ∀ c ∈ N, c = '#') : generalStageAccepts N [] [N] s = false := by
  obtain ⟨c, hc⟩ := List.exists_mem_of_ne_nil N hne
  have hcN : '#' ∈ N := by rw [← hH c hc]; exact hc
  have key : ∀ L : Str, '#' ∉ L →
      (splitAny " \t".toList L).any (fun symbolWord =>
        symbolWord == N || (starts_with symbolWord N && decide (N.length ≥ 5))) = false := by
    intro L hL
    rw [List.any_eq_false]
    intro w hw
    have hwno : '#' ∉ w := fun h => hL (mem_of_mem_splitAny _ _ w '#' hw h)
    intro hcon
    simp only [Bool.or_eq_true, Bool.and_eq_true, beq_iff_eq] at hcon
    rcases hcon with h | ⟨h, -⟩
    · exact hwno (h ▸ hcN)
    · exact hwno (mem_of_starts_with _ _ h '#' hcN)
  by_cases hh : starts_with s.type "header".toList = true
  · simp only [generalStageAccepts, hh, if_true]
    rw [key _ (hash_not_mem_lowerSymbolName s hs).1, Bool.and_false]
  · simp only [generalStageAccepts, hh, Bool.false_eq_true, if_false]
    rw [key _ (hash_not_mem_lowerSymbolName s hs).2, Bool.and_false]

theorem lookupStages_plain (m : SymbolMap) (N : Str) (hwf : StoreWF m) (hp : PlainNames m)
    (hN : N = [] ∨ (N ≠ [] ∧ ∀ c ∈ N, c = '#')) : lookupStages m N [] = [] := by
  have hN2 : N = [] ∨ '#' ∈ N := by
    rcases hN with h | ⟨hne, hH⟩
    · exact Or.inl h
    · obtain ⟨c, hc⟩ := List.exists_mem_of_ne_nil N hne
      exact Or.inr (by rw [← hH c hc]; exact hc)
  have hheader : (allSymbols m).filter (headerStageAccepts N []) = [] := by
    rw [List.filter_eq_nil_iff]
    intro s hs
    rw [headerStageAccepts_plain N s (hp s hs).2 hN]
    exact Bool.false_ne_true
  unfold lookupStages
  simp only [exactStage_plain m N hwf hp hN2, hheader, List.isEmpty_nil, Bool.not_true,
    Bool.false_eq_true, if_false]
  split
  · rename_i hlen
    rcases hN with h | ⟨hne, hH⟩
    · subst h; simp at hlen
    · simp only [splitAny_hashes N hH]
      split
      · rfl
      · split
        · rfl
        · rw [List.filter_eq_nil_iff]
          intro s hs
          rw [generalStageAccepts_plain N s (hp s hs).2 hne hH]
          exact Bool.false_ne_true
  · rfl

/-- C8: on a store in which no symbol has an empty name or a name with a `#`
(the store the lookup runs on, after the cold-start reload if there is one),
`findSymbol` called with the empty string, with white space only, or with white
space followed by a run of `#`, returns the empty list; the request wrapper
on a built index returns it without an error. -/
theorem C8_findSymbol_blank_query (mach : Machine) (W H : Str)
    (hW : ∀ c ∈ W, isSpace c = true) (hH : ∀ c ∈ H, c = '#')
    (hwf : StoreWF (coldStartReload mach).index.symbolMap_)
    (hp : PlainNames (coldStartReload mach).index.symbolMap_) :
    (findSymbol mach (W ++ H)).1 = [] ∧
    (mach.index.isIndexBuilt = true → (rs_findSymbol mach (W ++ H)).1 = .ok []) := by
  have h1 : (findSymbol mach (W ++ H)).1 = [] := by
    unfold findSymbol
    simp only
    rcases parseQuery_blank_hash W H hW hH with h | ⟨h, hne⟩
    · rw [h]; exact lookupStages_plain _ [] hwf hp (Or.inl rfl)
    · rw [h]; exact lookupStages_plain _ H hwf hp (Or.inr ⟨hne, hH⟩)
  refine ⟨h1, ?_⟩
  intro hb
  unfold rs_findSymbol
  simp [hb, h1]

/-- C8, witness: the query of two blanks and three `#` on a store that holds the
function symbol `foo`. -/
theorem C8_findSymbol_blank_query_witness :
    (findSymbol (Machine.ofStore (addSymbolNoLock [] fooSymbol)) ("  ".toList ++ "###".toList)).1
      = [] ∧
    ((Machine.ofStore (addSymbolNoLock [] fooSymbol)).index.isIndexBuilt = true →
      (rs_findSymbol (Machine.ofStore (addSymbolNoLock [] fooSymbol))
        ("  ".toList ++ "###".toList)).1 = .ok []) :=
  C8_findSymbol_blank_query (Machine.ofStore (addSymbolNoLock [] fooSymbol))
    "  ".toList "###".toList (by decide) (by decide) (by decide) (by decide)

/-- C8, counterexample: the Markdown line `# ` (a hash and a blank) is a header
with an empty title, and on the store that holds its symbol `findSymbol` with
the empty string returns that symbol; the line `# ###` gives a header named
`###` which the query `###` returns; and on a store that holds only the
function `foo` the query of six blanks, `#`, a blank and `#` returns `foo`. -/
theorem C8_counterexample :
    (findSymbol (Machine.ofStore (headerStore "# ".toList)) []).1 =
      [Symbol.make [] "header1".toList "/proj/notes.md".toList 1 1 [] []] ∧
    (findSymbol (Machine.ofStore (headerStore "# ###".toList)) "###".toList).1 =
      [Symbol.make "###".toList "header1".toList "/proj/notes.md".toList 1 1 [] []] ∧
    (findSymbol (Machine.ofStore (addSymbolNoLock [] fooSymbol)) "      # #".toList).1 =
      [fooSymbol] := by
  decide

/-! ## The traversal engine -/

theorem entryCount_addSymbolNoLock (m : SymbolMap) (s : Symbol) :
    entryCount (addSymbolNoLock m s) ≤ entryCount m + 1 := by
  induction m with
  | nil =>
    simp only [addSymbolNoLock, entryCount, allSymbols, List.flatMap_cons, List.flatMap_nil,
      List.append_nil, List.filter_nil, List.length_nil, Nat.zero_add]
    exact (List.length_filter_le _ _).trans (by simp)
  | cons kb rest ih =>
    obtain ⟨k, b⟩ := kb
    unfold addSymbolNoLock
    split
    · split
      · exact Nat.le_succ _
      · simp only [entryCount, allSymbols, List.flatMap_cons, List.filter_append,
          List.length_append]
        have : ((List.filter isEntrySymbol [s]).length) ≤ 1 :=
          (List.length_filter_le _ _).trans (by simp)
        omega
    · simp only [entryCount, allSymbols, List.flatMap_cons, List.filter_append,
        List.length_append] at ih ⊢
      omega

theorem walkStep_refl (maxFiles : Nat) (t : Traversal) : WalkStep maxFiles t t :=
  ⟨Nat.le_refl _, fun h => h, Nat.le_refl _⟩

theorem walkStep_trans (maxFiles : Nat) (a b c : Traversal) (h1 : WalkStep maxFiles a b)
    (h2 : WalkStep maxFiles b c) : WalkStep maxFiles a c := by
  obtain ⟨a1, a2, a3⟩ := h1
  obtain ⟨b1, b2, b3⟩ := h2
  exact ⟨a1.trans b1, fun h => b2 (a2 h), by omega⟩

theorem walkStep_pushPath (maxFiles : Nat) (t r : Traversal) (pos : Nat)
    (h : WalkStep maxFiles t r) : WalkStep maxFiles t (r.pushPath pos) := h

theorem walkStep_addEntry (maxFiles : Nat) (t : Traversal) (s : Symbol)
    (h : t.filesIndexed < maxFiles) :
    WalkStep maxFiles t { t.addSymbol s with filesIndexed := (t.addSymbol s).filesIndexed + 1 } := by
  refine ⟨Nat.le_succ _, fun _ => h, ?_⟩
  have := entryCount_addSymbolNoLock t.index.symbolMap_ s
  simp only [Traversal.addSymbol]
  omega

theorem walkStep_indexFileEntry (env : Env) (maxFiles : Nat) (fileName : Str)
    (content : Option Str) (filePath : Str) (t : Traversal) (hext : ExtractorsAddNoEntries env)
    (h : t.filesIndexed < maxFiles) :
    WalkStep maxFiles t (indexFileEntry env fileName content filePath t) := by
  unfold indexFileEntry
  simp only
  split
  · exact walkStep_addEntry maxFiles t _ h
  · split
    · exact walkStep_addEntry maxFiles t _ h
    · split
      · refine ⟨Nat.le_succ _, fun _ => h, ?_⟩
        have h1 := entryCount_addSymbolNoLock t.index.symbolMap_
          (Symbol.make fileName "file".toList filePath 1 (fileLineCount content) [] [])
        have h2 := hext fileName content filePath
          (addSymbolNoLock t.index.symbolMap_
            (Symbol.make fileName "file".toList filePath 1 (fileLineCount content) [] []))
        simp only [Traversal.addSymbol]
        omega
      · exact walkStep_addEntry maxFiles t _ h

theorem walkStep_traverseLoop (env : Env) (maxFiles : Nat)
    (recurse : FsNode → Str → Traversal → Traversal) (dirPath : Str) (size : Nat)
    (hext : ExtractorsAddNoEntries env)
    (hrec : ∀ child path t, WalkStep maxFiles t (recurse child path t))
    (rest : List FsNode) :
    ∀ (i : Nat) (t : Traversal),
      WalkStep maxFiles t (traverseLoop env maxFiles recurse dirPath size i rest t) := by
  induction rest with
  | nil => intro i t; exact walkStep_refl _ _
  | cons child rest ih =>
    intro i t
    unfold traverseLoop
    split
    · split
      · exact walkStep_pushPath _ _ _ _ (walkStep_refl _ _)
      · exact walkStep_refl _ _
    · rename_i hlt
      have hlt2 : t.filesIndexed < maxFiles := Nat.lt_of_not_le hlt
      split
      · rename_i dirName modTime entries
        split
        · exact ih _ _
        · have hadd := walkStep_addEntry maxFiles t
            (Symbol.make dirName "directory".toList (childPath dirPath dirName) 0 0 [] []) hlt2
          simp only
          split
          · exact walkStep_pushPath _ _ _ _ hadd
          · have hr := hrec (FsNode.dir dirName modTime entries) (childPath dirPath dirName)
              { t.addSymbol (Symbol.make dirName "directory".toList
                  (childPath dirPath dirName) 0 0 [] []) with
                filesIndexed := (t.addSymbol (Symbol.make dirName "directory".toList
                  (childPath dirPath dirName) 0 0 [] [])).filesIndexed + 1 }
            split
            · exact walkStep_pushPath _ _ _ _ (walkStep_trans _ _ _ _ hadd hr)
            · exact walkStep_trans _ _ _ _ (walkStep_trans _ _ _ _ hadd hr) (ih _ _)
      · rename_i fileName content modTime
        split
        · exact ih _ _
        · exact walkStep_trans _ _ _ _
            (walkStep_indexFileEntry env maxFiles fileName content _ t hext hlt2) (ih _ _)

theorem walkStep_traverseDirectory (env : Env) (maxFiles : Nat)
    (hext : ExtractorsAddNoEntries env) (fuel : Nat) :
    ∀ (dir : FsNode) (dirPath : Str) (t : Traversal),
      WalkStep maxFiles t (traverseDirectory env maxFiles fuel dir dirPath t) := by
  induction fuel with
  | zero => intro dir dirPath t; exact walkStep_refl _ _
  | succ fuel ih =>
    intro dir dirPath t
    cases dir with
    | file name content modTime => exact walkStep_refl _ _
    | dir name modTime entries =>
      unfold traverseDirectory
      simp only
      split
      · split
        · split
          · exact walkStep_pushPath _ _ _ _ (walkStep_refl _ _)
          · exact walkStep_refl _ _
        · exact walkStep_refl _ _
      · exact walkStep_traverseLoop env maxFiles _ dirPath _ hext ih _ _
          { t with index := { t.index with traversalPath_ := t.index.traversalPath_.dropLast } }

/-- C10: in one traversal call started with a counter of 0 and the batch limit
`MAX_FILES_PER_BATCH = 100`, the counter of processed entries ends at 100 at
most (it only grows during the call), and the number of stored file, image,
binary and directory symbols grows by no more than the counter, so by at most
100; the content extractors are taken to add symbols of other types only. This
is the traversal call of `buildIndex`. -/
theorem C10_traversal_counter_within_batch (env : Env) (hext : ExtractorsAddNoEntries env)
    (fuel : Nat) (dir : FsNode) (dirPath : Str) (idx : SymbolIndex) :
    (traverseDirectory env MAX_FILES_PER_BATCH fuel dir dirPath
      { index := idx, filesIndexed := 0 }).filesIndexed ≤ 100 ∧
    entryCount (traverseDirectory env MAX_FILES_PER_BATCH fuel dir dirPath
      { index := idx, filesIndexed := 0 }).index.symbolMap_ ≤ entryCount idx.symbolMap_ + 100 ∧
    (traverse env MAX_FILES_PER_BATCH dir dirPath
      { index := idx, filesIndexed := 0 }).filesIndexed ≤ 100 ∧
    entryCount (traverse env MAX_FILES_PER_BATCH dir dirPath
      { index := idx, filesIndexed := 0 }).index.symbolMap_ ≤ entryCount idx.symbolMap_ + 100 := by
  have key : ∀ fuel, (traverseDirectory env MAX_FILES_PER_BATCH fuel dir dirPath
      { index := idx, filesIndexed := 0 }).filesIndexed ≤ 100 ∧
    entryCount (traverseDirectory env MAX_FILES_PER_BATCH fuel dir dirPath
      { index := idx, filesIndexed := 0 }).index.symbolMap_ ≤ entryCount idx.symbolMap_ + 100 := by
    intro fuel
    obtain ⟨-, h2, h3⟩ := walkStep_traverseDirectory env MAX_FILES_PER_BATCH hext fuel dir dirPath
      { index := idx, filesIndexed := 0 }
    have hb := h2 (Nat.zero_le _)
    have e : MAX_FILES_PER_BATCH = 100 := rfl
    simp only at h3
    generalize traverseDirectory env MAX_FILES_PER_BATCH fuel dir dirPath
      { index := idx, filesIndexed := 0 } = r at hb h3 ⊢
    exact ⟨by omega, by omega⟩
  exact ⟨(key fuel).1, (key fuel).2, (key _).1, (key _).2⟩

theorem indexFileByType_quietEnv (fileName : Str) (content : Option Str) (absPath : Str)
    (m : SymbolMap) : indexFileByType quietEnv fileName content absPath m = m := by
  have h : ∀ ext text, indexByExtension quietEnv ext text absPath m = none ∨
      indexByExtension quietEnv ext text absPath m = some m := by
    intro ext text
    unfold indexByExtension
    simp only [quietEnv]
    repeat' split
    all_goals first | exact Or.inl rfl | exact Or.inr rfl
  unfold indexFileByType
  simp only
  split
  · rfl
  · split
    · rfl
    · rename_i text
      rcases h (getExtensionLowerCase fileName) text with e | e
      · rw [e]
        simp only [quietEnv]
        split <;> rfl
      · rw [e]

theorem quietEnv_adds_no_entries : ExtractorsAddNoEntries quietEnv := by
  intro fileName content absPath m
  rw [indexFileByType_quietEnv]

/-- C10, witness: the traversal call on the project with the directory `d` and
its file `a.txt`. -/
theorem C10_traversal_counter_within_batch_witness :
    (traverseDirectory quietEnv MAX_FILES_PER_BATCH 3 c2Tree "/proj".toList
      { index := SymbolIndex.new, filesIndexed := 0 }).filesIndexed ≤ 100 ∧
    entryCount (traverseDirectory quietEnv MAX_FILES_PER_BATCH 3 c2Tree "/proj".toList
      { index := SymbolIndex.new, filesIndexed := 0 }).index.symbolMap_ ≤
        entryCount SymbolIndex.new.symbolMap_ + 100 ∧
    (traverse quietEnv MAX_FILES_PER_BATCH c2Tree "/proj".toList
      { index := SymbolIndex.new, filesIndexed := 0 }).filesIndexed ≤ 100 ∧
    entryCount (traverse quietEnv MAX_FILES_PER_BATCH c2Tree "/proj".toList
      { index := SymbolIndex.new, filesIndexed := 0 }).index.symbolMap_ ≤
        entryCount SymbolIndex.new.symbolMap_ + 100 :=
  C10_traversal_counter_within_batch quietEnv quietEnv_adds_no_entries 3 c2Tree "/proj".toList
    SymbolIndex.new

/-- C2, the code at the failing input: with a batch limit of one entry, the
first call on the project `proj/d/a.txt` adds the directory `d` and saves the
position 1 behind it; the second call resumes there, finds nothing left and
empties the stack, so the walk ends with the symbol `d` only, while one call
with a batch of 100 stores `d` and `a.txt`. -/
theorem C2_resumed_walk_skips_directory_content :
    (c2Resume SymbolIndex.new).traversalPath_ = [1] ∧
    (c2Resume (c2Resume SymbolIndex.new)).traversalPath_ = [] ∧
    storedNames (c2Resume (c2Resume SymbolIndex.new)) = ["d".toList] ∧
    (traverse quietEnv 100 c2Tree "/proj".toList
      { index := SymbolIndex.new, filesIndexed := 0 }).index.traversalPath_ = [] ∧
    storedNames (traverse quietEnv 100 c2Tree "/proj".toList
      { index := SymbolIndex.new, filesIndexed := 0 }).index = ["d".toList, "a.txt".toList] := by
  decide


theorem cursor_indexFileEntry (env : Env) (fileName : Str) (content : Option Str)
    (filePath : Str) (t : Traversal) :
    (indexFileEntry env fileName content filePath t).cursor =
      { t.cursor with filesIndexed := t.cursor.filesIndexed + 1 } := by
  unfold indexFileEntry
  simp only
  split
  · rfl
  · split
    · rfl
    · split <;> rfl

theorem cursor_afterDirectory (env : Env) (maxFiles : Nat)
    (recurse : FsNode → Str → Traversal → Traversal)
    (crecurse : FsNode → Str → Cursor → Cursor) (dirPath : Str) (size i : Nat)
    (rest : List FsNode) (child : FsNode) (path : Str)
    (hrec : ∀ child path t, (recurse child path t).cursor = crecurse child path t.cursor)
    (ih : ∀ (i : Nat) (t : Traversal),
      (traverseLoop env maxFiles recurse dirPath size i rest t).cursor =
        cursorLoop maxFiles crecurse dirPath size i rest t.cursor)
    (t2 : Traversal) :
    (if t2.filesIndexed ≥ maxFiles then t2.pushPath (i + 1)
      else if (recurse child path t2).filesIndexed ≥ maxFiles then
        (recurse child path t2).pushPath i
      else traverseLoop env maxFiles recurse dirPath size (i + 1) rest
        (recurse child path t2)).cursor =
    (if t2.cursor.filesIndexed ≥ maxFiles then
        { t2.cursor with traversalPath_ := t2.cursor.traversalPath_ ++ [i + 1] }
      else if (crecurse child path t2.cursor).filesIndexed ≥ maxFiles then
        { crecurse child path t2.cursor with
          traversalPath_ := (crecurse child path t2.cursor).traversalPath_ ++ [i] }
      else cursorLoop maxFiles crecurse dirPath size (i + 1) rest
        (crecurse child path t2.cursor)) := by
  have hfi : ∀ x : Traversal, x.cursor.filesIndexed = x.filesIndexed := fun _ => rfl
  rw [← hrec, hfi, hfi]
  split
  · rfl
  · split
    · rfl
    · exact ih _ _

theorem cursor_traverseLoop (env : Env) (maxFiles : Nat)
    (recurse : FsNode → Str → Traversal → Traversal)
    (crecurse : FsNode → Str → Cursor → Cursor) (dirPath : Str) (size : Nat)
    (hrec : ∀ child path t, (recurse child path t).cursor = crecurse child path t.cursor)
    (rest : List FsNode) :
    ∀ (i : Nat) (t : Traversal),
      (traverseLoop env maxFiles recurse dirPath size i rest t).cursor =
        cursorLoop maxFiles crecurse dirPath size i rest t.cursor := by
  induction rest with
  | nil => intro i t; rfl
  | cons child rest ih =>
    intro i t
    unfold traverseLoop cursorLoop
    have hc : t.cursor.filesIndexed = t.filesIndexed := rfl
    rw [hc]
    split
    · split <;> rfl
    · cases child with
      | dir dirName modTime entries =>
        simp only
        split
        · exact ih _ _
        · exact cursor_afterDirectory env maxFiles recurse crecurse dirPath size i rest
            (FsNode.dir dirName modTime entries) (childPath dirPath dirName) hrec ih
            { t.addSymbol (Symbol.make dirName "directory".toList
              (childPath dirPath dirName) 0 0 [] []) with
              filesIndexed := (t.addSymbol (Symbol.make dirName "directory".toList
                (childPath dirPath dirName) 0 0 [] [])).filesIndexed + 1 }
      | file fileName content modTime =>
        simp only
        split
        · exact ih _ _
        · rw [ih, cursor_indexFileEntry]
          rfl

theorem cursor_traverseDirectory (env : Env) (maxFiles : Nat) (fuel : Nat) :
    ∀ (dir : FsNode) (dirPath : Str) (t : Traversal),
      (traverseDirectory env maxFiles fuel dir dirPath t).cursor =
        cursorDirectory maxFiles fuel dir dirPath t.cursor := by
  induction fuel with
  | zero => intro dir dirPath t; rfl
  | succ fuel ih =>
    intro dir dirPath t
    cases dir with
    | file name content modTime => rfl
    | dir name modTime entries =>
      unfold traverseDirectory cursorDirectory
      have hc : t.cursor.filesIndexed = t.filesIndexed := rfl
      have hp : t.cursor.traversalPath_ = t.index.traversalPath_ := rfl
      simp only [hc, hp]
      split
      · split
        · split <;> rfl
        · rfl
      · exact cursor_traverseLoop env maxFiles _ _ dirPath _ ih _ _ _

/-! ## Storage -/

theorem find?_filter_ne_append (folders : List (Str × StorageFolder)) (dirId : Str)
    (folder : StorageFolder) :
    (folders.filter (fun f => !(f.1 == dirId)) ++ [(dirId, folder)]).find?
      (fun f => f.1 == dirId) = some (dirId, folder) := by
  induction folders with
  | nil => simp
  | cons f rest ih =>
    by_cases h : f.1 = dirId
    · simp only [List.filter_cons, h, beq_self_eq_true, Bool.not_true, Bool.false_eq_true,
        if_false]
      exact ih
    · have hb : (f.1 == dirId) = false := by simpa using h
      simp only [List.filter_cons, hb, Bool.not_false, if_true, List.cons_append,
        List.find?_cons]
      exact ih

theorem folder_setFolder (storage : Storage) (dirId : Str) (folder : StorageFolder) :
    (storage.setFolder dirId folder).folder dirId = folder := by
  unfold Storage.folder Storage.setFolder
  simp only [find?_filter_ne_append]

theorem mapping_setFolder (storage : Storage) (dirId : Str) (folder : StorageFolder) :
    (storage.setFolder dirId folder).mapping = storage.mapping := rfl

theorem getDirectoryId_of_mapping (s1 s2 : Storage) (h : s1.mapping = s2.mapping) (p : Str) :
    getDirectoryId s1 p = getDirectoryId s2 p := by
  unfold getDirectoryId
  rw [h]

theorem folder_fresh (dirId : Str) :
    Machine.fresh.storage.folder dirId =
      { symbol_index := none, file_checksums := none, dir_structure := none } := rfl

/-- What `loadIndexFromStorageNoLock` gives when `symbol_index.json` exists. -/
theorem loadIndex_facts (mach : Machine) (dirId : Str) (si : StoredIndex) (hD : dirId ≠ [])
    (hsi : (mach.storage.folder dirId).symbol_index = some si) :
    (loadIndexFromStorageNoLock mach dirId).1 = true ∧
    (loadIndexFromStorageNoLock mach dirId).2.index.traversalPath_ =
      si.traversal_path.map toSizeT ∧
    (loadIndexFromStorageNoLock mach dirId).2.index.currentWorkingDir_ = si.working_directory ∧
    (loadIndexFromStorageNoLock mach dirId).2.index.symbolMap_ =
      (si.symbols.map formatLoadedSignature).foldl addSymbolNoLock [] ∧
    (loadIndexFromStorageNoLock mach dirId).2.index.indexBuilt_ = true ∧
    (loadIndexFromStorageNoLock mach dirId).2.storage.mapping = mach.storage.mapping ∧
    ((loadIndexFromStorageNoLock mach dirId).2.storage.folder dirId).symbol_index = some si ∧
    ((loadIndexFromStorageNoLock mach dirId).2.storage.folder dirId).file_checksums =
      (mach.storage.folder dirId).file_checksums ∧
    ((loadIndexFromStorageNoLock mach dirId).2.storage.folder dirId).dir_structure =
      some ((mach.storage.folder dirId).dir_structure.getD []) ∧
    (loadIndexFromStorageNoLock mach dirId).2.index.directoryFiles_ =
      (mach.storage.folder dirId).dir_structure.getD [] := by
  have hDe : dirId.isEmpty = false := by
    cases dirId with
    | nil => exact absurd rfl hD
    | cons _ _ => rfl
  unfold loadIndexFromStorageNoLock
  simp only [hsi]
  unfold loadDirStructureFromStorage
  simp only [hDe, Bool.false_eq_true, if_false]
  unfold loadChecksumsFromStorage
  cases hcs : (mach.storage.folder dirId).file_checksums with
  | none =>
    simp only
    cases hds : (mach.storage.folder dirId).dir_structure with
    | none =>
      simp only [saveDirStructureToStorage, hDe, Bool.false_eq_true, if_false, folder_setFolder,
        Option.getD_none, hsi, hcs, mapping_setFolder]
      refine ⟨?_, ?_, ?_, ?_, ?_, ?_, ?_, ?_, ?_, ?_⟩ <;> trivial
    | some files =>
      simp only [Option.getD_some, hsi, hcs, hds]
      refine ⟨?_, ?_, ?_, ?_, ?_, ?_, ?_, ?_, ?_, ?_⟩ <;> trivial
  | some cs =>
    simp only
    cases hds : (mach.storage.folder dirId).dir_structure with
    | none =>
      simp only [saveDirStructureToStorage, hDe, Bool.false_eq_true, if_false, folder_setFolder,
        Option.getD_none, hsi, hcs, mapping_setFolder]
      refine ⟨?_, ?_, ?_, ?_, ?_, ?_, ?_, ?_, ?_, ?_⟩ <;> trivial
    | some files =>
      simp only [Option.getD_some, hsi, hcs, hds]
      refine ⟨?_, ?_, ?_, ?_, ?_, ?_, ?_, ?_, ?_, ?_⟩ <;> trivial

theorem indexOpenDocuments_nil (env : Env) (idx : SymbolIndex) :
    indexOpenDocuments env [] idx = idx := rfl

/-- What the traversal part of `buildIndex` leaves in the index and in the
storage, with no open document. -/
theorem buildIndexTraversal_facts (env : Env) (dir : FsNode) (dirPath : Str) (mach : Machine)
    (dirId : Str) (hD : dirId ≠ []) :
    (buildIndexTraversal env dir dirPath [] mach dirId).index.symbolMap_ =
      env.updateFileAndDirectoryContexts (walkedIndex env dir dirPath mach.index).symbolMap_ ∧
    (buildIndexTraversal env dir dirPath [] mach dirId).index.traversalPath_ =
      (walkedIndex env dir dirPath mach.index).traversalPath_ ∧
    (buildIndexTraversal env dir dirPath [] mach dirId).index.currentWorkingDir_ =
      (walkedIndex env dir dirPath mach.index).currentWorkingDir_ ∧
    (buildIndexTraversal env dir dirPath [] mach dirId).index.directoryFiles_ =
      (walkedIndex env dir dirPath mach.index).directoryFiles_ ∧
    (buildIndexTraversal env dir dirPath [] mach dirId).index.fileChecksums_ =
      (walkedIndex env dir dirPath mach.index).fileChecksums_ ∧
    (buildIndexTraversal env dir dirPath [] mach dirId).index.indexBuilt_ = true ∧
    (buildIndexTraversal env dir dirPath [] mach dirId).storage.mapping =
      mach.storage.mapping ∧
    ((buildIndexTraversal env dir dirPath [] mach dirId).storage.folder dirId) =
      { symbol_index := some
          { symbols := allSymbols (env.updateFileAndDirectoryContexts
              (walkedIndex env dir dirPath mach.index).symbolMap_),
            working_directory := (walkedIndex env dir dirPath mach.index).currentWorkingDir_,
            traversal_path := (walkedIndex env dir dirPath mach.index).traversalPath_.map toInt32 },
        file_checksums := some
          ((walkedIndex env dir dirPath mach.index).fileChecksums_.map (fun kv => kv.2)),
        dir_structure := some (walkedIndex env dir dirPath mach.index).directoryFiles_ } := by
  have hDe : dirId.isEmpty = false := by
    cases dirId with
    | nil => exact absurd rfl hD
    | cons _ _ => rfl
  unfold buildIndexTraversal saveAllToStorage saveDirStructureToStorage saveChecksumsToStorage
    saveIndexToStorage
  simp only [hDe, Bool.false_eq_true, if_false, indexOpenDocuments_nil, folder_setFolder,
    mapping_setFolder]
  refine ⟨?_, ?_, ?_, ?_, ?_, ?_, ?_, ?_⟩ <;> trivial

/-! ## Building the index -/

/-- Induction over a traversal call: a relation between traversal states that
is reflexive and transitive and holds across each elementary step of
`traverseDirectory` holds between the state before and after the call. -/
theorem traverseDirectory_rel (env : Env) (maxFiles : Nat) (R : Traversal → Traversal → Prop)
    (hrefl : ∀ t, R t t) (htrans : ∀ a b c, R a b → R b c → R a c)
    (hpush : ∀ t pos, R t (t.pushPath pos))
    (hpop : ∀ t : Traversal, R t { t with index := { t.index with
      traversalPath_ := t.index.traversalPath_.dropLast } })
    (hdir : ∀ (t : Traversal) s, R t
      { t.addSymbol s with filesIndexed := (t.addSymbol s).filesIndexed + 1 })
    (hfile : ∀ fileName content filePath t, R t (indexFileEntry env fileName content filePath t))
    (fuel : Nat) :
    ∀ (dir : FsNode) (dirPath : Str) (t : Traversal),
      R t (traverseDirectory env maxFiles fuel dir dirPath t) := by
  have hloop : ∀ (recurse : FsNode → Str → Traversal → Traversal) (dirPath : Str) (size : Nat),
      (∀ child path t, R t (recurse child path t)) →
      ∀ (rest : List FsNode) (i : Nat) (t : Traversal),
        R t (traverseLoop env maxFiles recurse dirPath size i rest t) := by
    intro recurse dirPath size hrec rest
    induction rest with
    | nil => intro i t; exact hrefl t
    | cons child rest ih =>
      intro i t
      unfold traverseLoop
      split
      · split
        · exact hpush _ _
        · exact hrefl _
      · split
        · rename_i dirName modTime entries
          split
          · exact ih _ _
          · simp only
            split
            · exact htrans _ _ _ (hdir t _) (hpush _ _)
            · split
              · exact htrans _ _ _ (htrans _ _ _ (hdir t _) (hrec _ _ _)) (hpush _ _)
              · exact htrans _ _ _ (htrans _ _ _ (hdir t _) (hrec _ _ _)) (ih _ _)
        · split
          · exact ih _ _
          · exact htrans _ _ _ (hfile _ _ _ t) (ih _ _)
  induction fuel with
  | zero => intro dir dirPath t; exact hrefl t
  | succ fuel ih =>
    intro dir dirPath t
    cases dir with
    | file name content modTime => exact hrefl t
    | dir name modTime entries =>
      unfold traverseDirectory
      simp only
      split
      · split
        · split
          · exact hpush _ _
          · exact hrefl _
        · exact hrefl _
      · exact htrans _ _ _ (hpop t) (hloop _ dirPath _ ih _ _ _)

theorem traverseDirectory_sameSettings (env : Env) (maxFiles fuel : Nat) (dir : FsNode)
    (dirPath : Str) (t : Traversal) :
    SameSettings t.index (traverseDirectory env maxFiles fuel dir dirPath t).index := by
  refine traverseDirectory_rel env maxFiles (fun a b => SameSettings a.index b.index)
    ?_ ?_ ?_ ?_ ?_ ?_ fuel dir dirPath t
  · intro t; exact ⟨rfl, rfl, rfl, rfl, rfl⟩
  · rintro a b c ⟨a1, a2, a3, a4, a5⟩ ⟨b1, b2, b3, b4, b5⟩
    exact ⟨b1.trans a1, b2.trans a2, b3.trans a3, b4.trans a4, b5.trans a5⟩
  · intro t pos; exact ⟨rfl, rfl, rfl, rfl, rfl⟩
  · intro t; exact ⟨rfl, rfl, rfl, rfl, rfl⟩
  · intro t s; exact ⟨rfl, rfl, rfl, rfl, rfl⟩
  · intro fileName content filePath t
    unfold indexFileEntry
    simp only
    split
    · exact ⟨rfl, rfl, rfl, rfl, rfl⟩
    · split
      · exact ⟨rfl, rfl, rfl, rfl, rfl⟩
      · split <;> exact ⟨rfl, rfl, rfl, rfl, rfl⟩

theorem isEmpty_false_of_ne_nil (s : Str) (h : s ≠ []) : s.isEmpty = false := by
  cases s with
  | nil => exact absurd rfl h
  | cons _ _ => rfl

/-- The resume path of `buildIndex`: the directory has an id, its stored index
loads, and the loaded traversal position is not empty. -/
theorem buildIndex_resume (env : Env) (dir : FsNode) (dirPath : Str) (mach : Machine)
    (si : StoredIndex)
    (hD : getDirectoryId mach.storage dirPath ≠ [])
    (hsi : (mach.storage.folder (getDirectoryId mach.storage dirPath)).symbol_index = some si)
    (hp : si.traversal_path.map toSizeT ≠ []) :
    (buildIndex env dir dirPath [] mach).2 =
      buildIndexTraversal env dir dirPath []
        (loadIndexFromStorageNoLock (enterWorkingDir mach dirPath)
          (getDirectoryId mach.storage dirPath)).2 (getDirectoryId mach.storage dirPath) := by
  have hst : (enterWorkingDir mach dirPath).storage = mach.storage := rfl
  obtain ⟨h1, h2, -⟩ := loadIndex_facts (enterWorkingDir mach dirPath)
    (getDirectoryId mach.storage dirPath) si hD (by rw [hst]; exact hsi)
  have hpe : ((loadIndexFromStorageNoLock (enterWorkingDir mach dirPath)
      (getDirectoryId mach.storage dirPath)).2.index.traversalPath_).isEmpty = false := by
    rw [h2]
    cases hh : si.traversal_path.map toSizeT with
    | nil => exact absurd hh hp
    | cons _ _ => rfl
  unfold buildIndex
  simp only [hst, isEmpty_false_of_ne_nil _ hD, h1, hpe, Bool.not_false, Bool.not_true,
    Bool.false_eq_true, if_true, if_false]

/-- The first build of a directory that has no id yet. -/
theorem buildIndex_first (env : Env) (dir : FsNode) (dirPath : Str) (mach : Machine)
    (hD : getDirectoryId mach.storage dirPath = [])
    (hw : env.storageWritable = true) (hid : env.generateUniqueId mach.storage ≠ []) :
    (buildIndex env dir dirPath [] mach).2 =
      buildIndexTraversal env dir dirPath []
        { index := (enterWorkingDir mach dirPath).index,
          storage := (ensureStorageDir env dirPath mach.storage).2 }
        (env.generateUniqueId mach.storage) ∧
    (ensureStorageDir env dirPath mach.storage).2.mapping =
      mach.storage.mapping ++ [(normalizeDirPath dirPath, env.generateUniqueId mach.storage)] ∧
    (ensureStorageDir env dirPath mach.storage).2.folder (env.generateUniqueId mach.storage) =
      mach.storage.folder (env.generateUniqueId mach.storage) := by
  have hst : (enterWorkingDir mach dirPath).storage = mach.storage := rfl
  have he : ensureStorageDir env dirPath mach.storage =
      (env.generateUniqueId mach.storage,
        { mach.storage.setFolder (env.generateUniqueId mach.storage)
            (mach.storage.folder (env.generateUniqueId mach.storage)) with
          mapping := mach.storage.mapping ++
            [(normalizeDirPath dirPath, env.generateUniqueId mach.storage)] }) := by
    unfold ensureStorageDir
    simp [hw, hD]
  refine ⟨?_, ?_, ?_⟩
  · unfold buildIndex
    simp only [hst, hD, List.isEmpty_nil, Bool.not_true, Bool.false_eq_true, if_false, he,
      isEmpty_false_of_ne_nil _ hid]
  · rw [he]
  · rw [he]
    exact folder_setFolder _ _ _

theorem startOfWalk_path (env : Env) (dir : FsNode) (dirPath : Str) (idx : SymbolIndex) :
    (startOfWalk env dir dirPath idx).traversalPath_ = idx.traversalPath_ := by
  unfold startOfWalk
  split <;> rfl

theorem startOfWalk_workingDir (env : Env) (dir : FsNode) (dirPath : Str) (idx : SymbolIndex) :
    (startOfWalk env dir dirPath idx).currentWorkingDir_ = idx.currentWorkingDir_ := by
  unfold startOfWalk
  split <;> rfl

theorem walkedIndex_path (env : Env) (dir : FsNode) (dirPath : Str) (idx : SymbolIndex) :
    (walkedIndex env dir dirPath idx).traversalPath_ =
      (cursorDirectory MAX_FILES_PER_BATCH (dir.depth + 1) dir dirPath
        { traversalPath_ := idx.traversalPath_, filesIndexed := 0 }).traversalPath_ := by
  unfold walkedIndex traverse
  have h := cursor_traverseDirectory env MAX_FILES_PER_BATCH (dir.depth + 1) dir dirPath
    { index := startOfWalk env dir dirPath idx, filesIndexed := 0 }
  have hc : ({ index := startOfWalk env dir dirPath idx, filesIndexed := 0 } : Traversal).cursor =
      { traversalPath_ := idx.traversalPath_, filesIndexed := 0 } := by
    unfold Traversal.cursor
    rw [startOfWalk_path]
  rw [hc] at h
  rw [← h]
  rfl

theorem walkedIndex_workingDir (env : Env) (dir : FsNode) (dirPath : Str) (idx : SymbolIndex) :
    (walkedIndex env dir dirPath idx).currentWorkingDir_ = idx.currentWorkingDir_ := by
  unfold walkedIndex traverse
  rw [(traverseDirectory_sameSettings env MAX_FILES_PER_BATCH _ dir dirPath _).1]
  exact startOfWalk_workingDir env dir dirPath idx

set_option maxRecDepth 100000 in
theorem c3_cursor_first :
    (cursorDirectory MAX_FILES_PER_BATCH (c3Tree.depth + 1) c3Tree "/proj".toList
      { traversalPath_ := [], filesIndexed := 0 }).traversalPath_ = [0] := by
  decide!

set_option maxRecDepth 100000 in
theorem c3_cursor_again :
    (cursorDirectory MAX_FILES_PER_BATCH (c3Tree.depth + 1) c3Tree "/proj".toList
      { traversalPath_ := [0], filesIndexed := 0 }).traversalPath_ = [0] := by
  decide!

theorem c3Build_first :
    (c3Build Machine.fresh).index.traversalPath_ = [0] ∧
    StoredPosition (c3Build Machine.fresh).storage "/proj".toList "id-1".toList [0] := by
  obtain ⟨h1, h2, -⟩ := buildIndex_first quietEnv c3Tree "/proj".toList Machine.fresh rfl rfl
    (by decide)
  have hid : quietEnv.generateUniqueId Machine.fresh.storage = "id-1".toList := rfl
  rw [hid] at h1 h2
  obtain ⟨-, f2, -, -, -, -, f7, f8⟩ := buildIndexTraversal_facts quietEnv c3Tree "/proj".toList
    { index := (enterWorkingDir Machine.fresh "/proj".toList).index,
      storage := (ensureStorageDir quietEnv "/proj".toList Machine.fresh.storage).2 }
    "id-1".toList (by decide)
  have hwalk : (walkedIndex quietEnv c3Tree "/proj".toList
      (enterWorkingDir Machine.fresh "/proj".toList).index).traversalPath_ = [0] := by
    rw [walkedIndex_path]
    exact c3_cursor_first
  unfold c3Build
  rw [h1]
  refine ⟨?_, ?_, ?_⟩
  · rw [f2]
    exact hwalk
  · rw [getDirectoryId_of_mapping _
      { mapping := Machine.fresh.storage.mapping ++
          [(normalizeDirPath "/proj".toList, "id-1".toList)], folders := [] } (f7.trans h2)]
    decide
  · rw [f8]
    refine ⟨_, rfl, ?_⟩
    simp only
    rw [hwalk]
    rfl

theorem c3Build_again (mach : Machine)
    (h : StoredPosition mach.storage "/proj".toList "id-1".toList [0]) :
    (c3Build mach).index.traversalPath_ = [0] ∧
    StoredPosition (c3Build mach).storage "/proj".toList "id-1".toList [0] := by
  obtain ⟨hD, si, hsi, hpath⟩ := h
  have hDne : getDirectoryId mach.storage "/proj".toList ≠ [] := by rw [hD]; decide
  have hres := buildIndex_resume quietEnv c3Tree "/proj".toList mach si hDne
    (by rw [hD]; exact hsi) (by rw [hpath]; decide)
  rw [hD] at hres
  have hst : (enterWorkingDir mach "/proj".toList).storage = mach.storage := rfl
  obtain ⟨-, l2, -, -, -, l6, -⟩ := loadIndex_facts (enterWorkingDir mach "/proj".toList)
    "id-1".toList si (by decide) (by rw [hst]; exact hsi)
  obtain ⟨-, f2, -, -, -, -, f7, f8⟩ := buildIndexTraversal_facts quietEnv c3Tree "/proj".toList
    (loadIndexFromStorageNoLock (enterWorkingDir mach "/proj".toList) "id-1".toList).2
    "id-1".toList (by decide)
  have hl2 : (loadIndexFromStorageNoLock (enterWorkingDir mach "/proj".toList)
      "id-1".toList).2.index.traversalPath_ = [0] := by
    rw [l2, hpath]; rfl
  have hwalk : (walkedIndex quietEnv c3Tree "/proj".toList
      (loadIndexFromStorageNoLock (enterWorkingDir mach "/proj".toList)
        "id-1".toList).2.index).traversalPath_ = [0] := by
    rw [walkedIndex_path, hl2]
    exact c3_cursor_again
  unfold c3Build
  rw [hres]
  refine ⟨?_, ?_, ?_⟩
  · rw [f2]
    exact hwalk
  · rw [getDirectoryId_of_mapping _ _ (f7.trans (l6.trans (congrArg Storage.mapping hst)))]
    exact hD
  · rw [f8]
    refine ⟨_, rfl, ?_⟩
    simp only
    rw [hwalk]
    rfl

/-- C3, the code at the failing input: on the project whose directory `d` holds
99 text files, the traversal position stack is `[0]` after every `buildIndex`
call, however many calls are made, so `hasPendingFiles` stays true: each call
counts `d` and its 99 files, reaches the limit of 100 at the end of `d` without
a position for `d`, and saves the position of `d` itself, from which the next
call starts `d` over. -/
theorem C3_polling_never_stops (n : Nat) :
    (c3Build^[n + 1] Machine.fresh).index.traversalPath_ = [0] ∧
    (c3Build^[n + 1] Machine.fresh).index.hasPendingFiles = true := by
  have key : ∀ n, (c3Build^[n + 1] Machine.fresh).index.traversalPath_ = [0] ∧
      StoredPosition (c3Build^[n + 1] Machine.fresh).storage "/proj".toList "id-1".toList
        [0] := by
    intro n
    induction n with
    | zero => exact c3Build_first
    | succ k ih =>
      rw [Function.iterate_succ_apply']
      exact c3Build_again _ ih.2
  refine ⟨(key n).1, ?_⟩
  unfold SymbolIndex.hasPendingFiles
  rw [(key n).1]
  rfl

/-! ## Removing the index -/

theorem coldStartReload_of_noReload (mach : Machine)
    (h : mach.index.currentWorkingDir_ = [] ∨
      getDirectoryId mach.storage mach.index.currentWorkingDir_ = []) :
    coldStartReload mach = mach := by
  unfold coldStartReload
  rcases h with h | h
  · simp [h]
  · simp [h]

theorem buildIndex_error (env : Env) (dir : FsNode) (dirPath : Str)
    (docs : List SourceDocument) (mach : Machine) (e : IndexError)
    (h : (buildIndex env dir dirPath docs mach).1 = .error e) :
    (buildIndex env dir dirPath docs mach).2 = enterWorkingDir mach dirPath ∧
    getDirectoryId mach.storage dirPath = [] := by
  have hst : (enterWorkingDir mach dirPath).storage = mach.storage := rfl
  unfold buildIndex at h ⊢
  simp only [hst] at h ⊢
  by_cases hD : (getDirectoryId mach.storage dirPath).isEmpty = true
  · simp only [hD, Bool.not_true, Bool.false_eq_true, if_false] at h ⊢
    by_cases he : (ensureStorageDir env dirPath mach.storage).1.isEmpty = true
    · simp only [he, if_true]
      exact ⟨trivial, by simpa using hD⟩
    · simp only [he, if_false] at h
      simp at h
  · exfalso
    have hD2 : (getDirectoryId mach.storage dirPath).isEmpty = false := by simpa using hD
    simp only [hD2, Bool.not_false, if_true] at h
    split_ifs at h

theorem buildIndexQuick_error (env : Env) (dirPath : Str) (mach : Machine) (e : IndexError)
    (h : (buildIndexQuick env dirPath mach).1 = .error e) :
    (buildIndexQuick env dirPath mach).2.index.indexBuilt_ = mach.index.indexBuilt_ ∧
    (buildIndexQuick env dirPath mach).2.index.currentWorkingDir_ = dirPath ∧
    (buildIndexQuick env dirPath mach).2.storage = mach.storage ∧
    getDirectoryId mach.storage dirPath = [] := by
  unfold buildIndexQuick at h ⊢
  simp only at h ⊢
  by_cases hD : (getDirectoryId mach.storage dirPath).isEmpty = true
  · simp only [hD, Bool.not_true, Bool.false_eq_true, if_false, if_true, Bool.false_and] at h ⊢
    by_cases he : (ensureStorageDir env dirPath mach.storage).1.isEmpty = true
    · simp only [he, if_true]
      exact ⟨trivial, trivial, trivial, by simpa using hD⟩
    · simp only [he, if_false] at h
      simp at h
  · exfalso
    have hD2 : (getDirectoryId mach.storage dirPath).isEmpty = false := by simpa using hD
    simp only [hD2, Bool.not_false, if_true, Bool.false_eq_true, if_false, Bool.true_and] at h
    split_ifs at h

theorem removeSymbolIndex_index (processDir : Str) (mach : Machine) :
    (removeSymbolIndex processDir mach).index = SymbolIndex.new := by
  unfold removeSymbolIndex
  simp only
  split_ifs <;> rfl

theorem lookupStages_nil (searchName typeFilter : Str) :
    lookupStages [] searchName typeFilter = [] := by
  unfold lookupStages exactStage
  simp [findBucket, allSymbols]

theorem notBuiltNoReload_run (env : Env) (request : Request) (mach : Machine)
    (h : NotBuiltNoReload mach) (hb : request.isSuccessfulBuild env mach = false) :
    NotBuiltNoReload (request.run env mach) := by
  obtain ⟨h1, h2⟩ := h
  cases request with
  | findSymbol name =>
    simp only [Request.run, findSymbol, coldStartReload_of_noReload mach h2]
    exact ⟨h1, h2⟩
  | getAllSymbols =>
    simp only [Request.run, getAllSymbols, coldStartReload_of_noReload mach h2]
    exact ⟨h1, h2⟩
  | addSymbol symbol => exact ⟨h1, h2⟩
  | removeSymbolsForFile filePath => exact ⟨h1, h2⟩
  | editStore edit => exact ⟨h1, h2⟩
  | docUpdated doc =>
    simp only [Request.run, onSourceDocUpdated, SymbolIndex.isIndexBuilt, h1, Bool.not_false,
      if_true]
    exact ⟨h1, h2⟩
  | docRemoved id path =>
    simp only [Request.run, onSourceDocRemoved, SymbolIndex.isIndexBuilt, h1, Bool.not_false,
      if_true]
    exact ⟨h1, h2⟩
  | allDocsRemoved =>
    simp only [Request.run, onAllSourceDocsRemoved, SymbolIndex.isIndexBuilt, h1,
      Bool.not_false, if_true]
    exact ⟨h1, h2⟩
  | removeSymbolIndex processDir =>
    simp only [Request.run, NotBuiltNoReload, removeSymbolIndex_index]
    exact ⟨rfl, Or.inl rfl⟩
  | buildIndex dir dirPath docs =>
    simp only [Request.isSuccessfulBuild] at hb
    cases hr : (buildIndex env dir dirPath docs mach).1 with
    | ok u => rw [hr] at hb; simp at hb
    | error e =>
      obtain ⟨e1, e2⟩ := buildIndex_error env dir dirPath docs mach e hr
      simp only [Request.run, e1]
      exact ⟨h1, Or.inr e2⟩
  | buildIndexQuick dirPath =>
    simp only [Request.isSuccessfulBuild] at hb
    cases hr : (buildIndexQuick env dirPath mach).1 with
    | ok u => rw [hr] at hb; simp at hb
    | error e =>
      obtain ⟨e1, e2, e3, e4⟩ := buildIndexQuick_error env dirPath mach e hr
      simp only [Request.run]
      refine ⟨e1.trans h1, Or.inr ?_⟩
      rw [e2, e3]
      exact e4

theorem notBuiltNoReload_runRequests (env : Env) (requests : List Request) (mach : Machine)
    (h : NotBuiltNoReload mach) (hb : NoBuildSucceeds env requests mach) :
    NotBuiltNoReload (runRequests env requests mach) := by
  induction requests generalizing mach with
  | nil => exact h
  | cons request rest ih =>
    obtain ⟨hb1, hb2⟩ := hb
    exact ih _ (notBuiltNoReload_run env request mach h hb1) hb2

theorem getDirectoryId_after_remove (mapping : List (Str × Str)) (folders) (workingDir : Str) :
    getDirectoryId
      { mapping := mapping.filter (fun row => row.1 != normalizeDirPath workingDir),
        folders := folders } workingDir = [] := by
  unfold getDirectoryId
  have : (mapping.filter (fun row => row.1 != normalizeDirPath workingDir)).find?
      (fun row => row.1 == normalizeDirPath workingDir) = none := by
    rw [List.find?_eq_none]
    intro row hrow
    have := (List.mem_filter.mp hrow).2
    simpa using this
  simp only [this]

/-- C9: after `removeSymbolIndex` the index is marked not built and the symbol
store, the fingerprint map, the file list, the pending queue, the traversal
position stack and the working directory are empty; the directory that was
removed has no id in the mapping any more. From then on, after any sequence of
requests in which no build succeeds, `find_symbol` and `get_all_symbols`
requests fail with the not-built error, and the lookups themselves load
nothing from storage. -/
theorem C9_removeSymbolIndex_not_built (env : Env) (processDir : Str) (mach : Machine)
    (requests : List Request)
    (hb : NoBuildSucceeds env requests (removeSymbolIndex processDir mach)) :
    (removeSymbolIndex processDir mach).index = SymbolIndex.new ∧
    getDirectoryId (removeSymbolIndex processDir mach).storage
      (if mach.index.currentWorkingDir_.isEmpty then processDir
        else mach.index.currentWorkingDir_) = [] ∧
    (∀ name, (rs_findSymbol (runRequests env requests (removeSymbolIndex processDir mach))
        name) = (.error .notBuilt, runRequests env requests (removeSymbolIndex processDir mach))) ∧
    (rs_getAllSymbols (runRequests env requests (removeSymbolIndex processDir mach))) =
      (.error .notBuilt, runRequests env requests (removeSymbolIndex processDir mach)) ∧
    coldStartReload (runRequests env requests (removeSymbolIndex processDir mach)) =
      runRequests env requests (removeSymbolIndex processDir mach) ∧
    (∀ name, findSymbol (removeSymbolIndex processDir mach) name =
      ([], removeSymbolIndex processDir mach)) ∧
    getAllSymbols (removeSymbolIndex processDir mach) =
      ([], removeSymbolIndex processDir mach) := by
  have hidx := removeSymbolIndex_index processDir mach
  have hinv0 : NotBuiltNoReload (removeSymbolIndex processDir mach) := by
    unfold NotBuiltNoReload
    rw [hidx]
    exact ⟨rfl, Or.inl rfl⟩
  have hinv := notBuiltNoReload_runRequests env requests _ hinv0 hb
  have hcold0 := coldStartReload_of_noReload _ hinv0.2
  refine ⟨hidx, ?_, ?_, ?_, coldStartReload_of_noReload _ hinv.2, ?_, ?_⟩
  · unfold removeSymbolIndex
    simp only
    split_ifs with hw hd hd
    · exact getDirectoryId_after_remove _ _ _
    · simpa using hd
    · exact getDirectoryId_after_remove _ _ _
    · simpa using hd
  · intro name
    unfold rs_findSymbol
    simp [SymbolIndex.isIndexBuilt, hinv.1]
  · unfold rs_getAllSymbols
    simp [SymbolIndex.isIndexBuilt, hinv.1]
  · intro name
    unfold findSymbol
    simp only [hcold0, hidx]
    exact congrArg (fun r => (r, removeSymbolIndex processDir mach)) (lookupStages_nil _ _)
  · unfold getAllSymbols
    simp only [hcold0, hidx]
    rfl

/-- C9, witness: the index built for `/proj` is removed while storage cannot be
written; a lookup, a build (which fails), a listing and a document event
follow, and the `find_symbol` request for `foo` still fails with the not-built
error. -/
theorem C9_removeSymbolIndex_not_built_witness :
    NoBuildSucceeds readOnlyEnv c9Requests (removeSymbolIndex "/".toList c9Machine) ∧
    (rs_findSymbol (runRequests readOnlyEnv c9Requests (removeSymbolIndex "/".toList c9Machine))
      "foo".toList).1 = .error .notBuilt :=
  ⟨by decide,
   congrArg Prod.fst
    ((C9_removeSymbolIndex_not_built readOnlyEnv "/".toList c9Machine c9Requests
      (by decide)).2.2.1 "foo".toList)⟩

/-! ## The buffer-updated event -/

theorem mem_allSymbols_iff (m : SymbolMap) (t : Symbol) :
    t ∈ allSymbols m ↔ ∃ kb ∈ m, t ∈ kb.2 := by
  simp [allSymbols, List.mem_flatMap]

theorem mem_allSymbols_addSymbolNoLock (m : SymbolMap) (s t : Symbol) (h : StoreWF m) :
    t ∈ allSymbols (addSymbolNoLock m s) ↔
      t ∈ allSymbols m ∨ (t = s ∧ ∀ u ∈ allSymbols m, ¬ SameIdentity u s) := by
  have weak : ∀ t, t ∈ allSymbols (addSymbolNoLock m s) → t ∈ allSymbols m ∨ t = s := by
    intro t ht
    obtain ⟨kb, hkb, htk⟩ := (mem_allSymbols_iff _ _).mp ht
    rcases addSymbolNoLock_mem m s kb hkb with h1 | h1 | ⟨b, hb, rfl, _⟩
    · exact Or.inl ((mem_allSymbols_iff _ _).mpr ⟨kb, h1, htk⟩)
    · subst h1
      simp only [List.mem_singleton] at htk
      exact Or.inr htk
    · simp only [List.mem_append, List.mem_singleton] at htk
      rcases htk with htk | htk
      · exact Or.inl ((mem_allSymbols_iff _ _).mpr ⟨_, hb, htk⟩)
      · exact Or.inr htk
  by_cases hex : ∃ u ∈ allSymbols m, SameIdentity u s
  · obtain ⟨u, hu, hus⟩ := hex
    rw [addSymbolNoLock_of_stored m s u h hu hus]
    constructor
    · exact Or.inl
    · rintro (h1 | ⟨_, h2⟩)
      · exact h1
      · exact absurd hus (h2 u hu)
  · have hno : ∀ u ∈ allSymbols m, ¬ SameIdentity u s := fun u hu hus => hex ⟨u, hu, hus⟩
    constructor
    · intro ht
      rcases weak t ht with h1 | h1
      · exact Or.inl h1
      · exact Or.inr ⟨h1, hno⟩
    · rintro (h1 | ⟨rfl, _⟩)
      · exact addSymbolNoLock_keeps m s t h1
      · obtain ⟨u, hu, hus⟩ := addSymbolNoLock_has_identity m t
        rcases weak u hu with h1 | h1
        · exact absurd hus (hno u h1)
        · rw [h1] at hu; exact hu

theorem foldl_addSymbolNoLock_keeps (l : List Symbol) (m : SymbolMap) (t : Symbol)
    (ht : t ∈ allSymbols m) : t ∈ allSymbols (l.foldl addSymbolNoLock m) := by
  induction l generalizing m with
  | nil => exact ht
  | cons x rest ih => exact ih _ (addSymbolNoLock_keeps m x t ht)

theorem foldl_addSymbolNoLock_has_identity (l : List Symbol) (m : SymbolMap) (x : Symbol)
    (hx : x ∈ l) : ∃ t ∈ allSymbols (l.foldl addSymbolNoLock m), SameIdentity t x := by
  induction l generalizing m with
  | nil => simp at hx
  | cons y rest ih =>
    rcases List.mem_cons.mp hx with rfl | h
    · obtain ⟨t, ht, hts⟩ := addSymbolNoLock_has_identity m x
      exact ⟨t, foldl_addSymbolNoLock_keeps rest _ t ht, hts⟩
    · exact ih _ h

theorem foldl_addSymbolNoLock_sub (l : List Symbol) (m : SymbolMap) (t : Symbol)
    (h : StoreWF m) (ht : t ∈ allSymbols (l.foldl addSymbolNoLock m)) :
    t ∈ allSymbols m ∨ t ∈ l := by
  induction l generalizing m with
  | nil => exact Or.inl ht
  | cons x rest ih =>
    rcases ih _ (storeWF_addSymbolNoLock m x h) ht with h1 | h1
    · rcases (mem_allSymbols_addSymbolNoLock m x t h).mp h1 with h2 | ⟨h2, _⟩
      · exact Or.inl h2
      · exact Or.inr (by rw [h2]; exact List.mem_cons_self _ _)
    · exact Or.inr (List.mem_cons_of_mem _ h1)

theorem setChecksum_of_new (cs : List (Str × FileChecksum)) (p : Str) (v : FileChecksum)
    (h : p ∉ cs.map Prod.fst) : setChecksum cs p v = cs ++ [(p, v)] := by
  induction cs with
  | nil => rfl
  | cons kv rest ih =>
    obtain ⟨k, w⟩ := kv
    simp only [List.map_cons, List.mem_cons, not_or] at h
    have hk : ¬ k = p := fun e => h.1 e.symm
    simp only [setChecksum, if_neg hk, List.cons_append, ih h.2]

theorem setChecksum_keys (cs : List (Str × FileChecksum)) (p : Str) (v : FileChecksum) :
    (setChecksum cs p v).map Prod.fst =
      if p ∈ cs.map Prod.fst then cs.map Prod.fst else cs.map Prod.fst ++ [p] := by
  induction cs with
  | nil => simp [setChecksum]
  | cons kv rest ih =>
    obtain ⟨k, w⟩ := kv
    by_cases hk : k = p
    · subst hk
      simp only [setChecksum, if_true, List.map_cons, List.mem_cons, true_or]
    · have hk2 : ¬ p = k := fun e => hk e.symm
      simp only [setChecksum, if_neg hk, List.map_cons, ih, List.mem_cons, hk2, false_or]
      by_cases hm : p ∈ rest.map Prod.fst
      · simp only [if_pos hm]
      · simp only [if_neg hm, List.cons_append]

theorem mem_setChecksum (cs : List (Str × FileChecksum)) (p : Str) (v : FileChecksum)
    (kv : Str × FileChecksum) (h : kv ∈ setChecksum cs p v) : kv ∈ cs ∨ kv = (p, v) := by
  induction cs with
  | nil => simp [setChecksum] at h; exact Or.inr h
  | cons kw rest ih =>
    obtain ⟨k, w⟩ := kw
    by_cases hk : k = p
    · simp only [setChecksum, if_pos hk, List.mem_cons] at h
      rcases h with h | h
      · exact Or.inr (by rw [h, hk])
      · exact Or.inl (List.mem_cons_of_mem _ h)
    · simp only [setChecksum, if_neg hk, List.mem_cons] at h
      rcases h with h | h
      · exact Or.inl (by rw [h]; exact List.mem_cons_self _ _)
      · rcases ih h with h2 | h2
        · exact Or.inl (List.mem_cons_of_mem _ h2)
        · exact Or.inr h2

theorem findChecksum_of_key (cs : List (Str × FileChecksum)) (p : Str)
    (h : p ∈ cs.map Prod.fst) : ∃ v, findChecksum cs p = some v ∧ (p, v) ∈ cs := by
  induction cs with
  | nil => simp at h
  | cons kv rest ih =>
    obtain ⟨k, w⟩ := kv
    by_cases hk : k = p
    · refine ⟨w, ?_, by rw [hk]; exact List.mem_cons_self _ _⟩
      simp [findChecksum, hk]
    · simp only [List.map_cons, List.mem_cons] at h
      rcases h with h | h
      · exact absurd h.symm hk
      · obtain ⟨v, hv, hm⟩ := ih h
        refine ⟨v, ?_, List.mem_cons_of_mem _ hm⟩
        have hkb : (k == p) = false := by simpa using hk
        simp only [findChecksum, List.find?_cons, hkb] at hv ⊢
        exact hv

/-- Writing the checksums to storage and reading them back gives the same map,
when its keys are distinct and every value names its key as path. -/
theorem checksums_round_trip (cs acc : List (Str × FileChecksum))
    (hn : (acc.map Prod.fst ++ cs.map Prod.fst).Nodup) (hp : ∀ kv ∈ cs, kv.2.path = kv.1) :
    (cs.map (fun kv => kv.2)).foldl (fun a c => setChecksum a c.path c) acc = acc ++ cs := by
  induction cs generalizing acc with
  | nil => simp
  | cons kv rest ih =>
    obtain ⟨k, v⟩ := kv
    have hkv : v.path = k := hp (k, v) (List.mem_cons_self _ _)
    have hnew : k ∉ acc.map Prod.fst := by
      intro hmem
      rw [List.nodup_append] at hn
      exact hn.2.2 hmem (by rw [List.map_cons]; exact List.mem_cons_self _ _)
    simp only [List.map_cons, List.foldl_cons, hkv, setChecksum_of_new acc k v hnew]
    rw [ih (acc ++ [(k, v)])]
    · simp
    · simpa [List.map_append, List.append_assoc] using hn
    · intro kv2 h2
      exact hp kv2 (List.mem_cons_of_mem _ h2)

theorem checksumsSound_setChecksum (env : Env) (dir : FsNode) (dirPath : Str)
    (cs : List (Str × FileChecksum)) (path : Str) (v : FileChecksum)
    (h : ChecksumsSound env dir dirPath cs) (hv : v.path = path)
    (hc : v.checksum = generateFileChecksum env dir dirPath path) :
    ChecksumsSound env dir dirPath (setChecksum cs path v) := by
  refine ⟨?_, ?_⟩
  · rw [setChecksum_keys]
    by_cases hm : path ∈ cs.map Prod.fst
    · rw [if_pos hm]; exact h.1
    · rw [if_neg hm, List.nodup_append]
      refine ⟨h.1, List.nodup_singleton _, ?_⟩
      intro a ha hb
      rw [List.mem_singleton] at hb
      exact hm (hb ▸ ha)
  · intro kv hkv
    rcases mem_setChecksum cs path v kv hkv with h1 | h1
    · exact h.2 kv h1
    · rw [h1]; exact ⟨hv, hc⟩

theorem calculateFileChecksums_fold (env : Env) (dir : FsNode) (dirPath : Str)
    (files : List Str) (acc : List (Str × FileChecksum))
    (hacc : ChecksumsSound env dir dirPath acc) :
    ChecksumsSound env dir dirPath
      (files.foldl
        (fun cs path =>
          match dir.lookup dirPath path with
          | none => cs
          | some node =>
            if node.isDirectory then cs
            else setChecksum cs path
              { path := path, checksum := generateFileChecksum env dir dirPath path,
                lastModified := getFileModifiedTime dir dirPath path })
        acc) ∧
    (∀ k ∈ acc.map Prod.fst, k ∈ (files.foldl
        (fun cs path =>
          match dir.lookup dirPath path with
          | none => cs
          | some node =>
            if node.isDirectory then cs
            else setChecksum cs path
              { path := path, checksum := generateFileChecksum env dir dirPath path,
                lastModified := getFileModifiedTime dir dirPath path })
        acc).map Prod.fst) ∧
    (∀ path ∈ files, (dir.lookup dirPath path).any (fun node => !node.isDirectory) = true →
      path ∈ (files.foldl
        (fun cs path =>
          match dir.lookup dirPath path with
          | none => cs
          | some node =>
            if node.isDirectory then cs
            else setChecksum cs path
              { path := path, checksum := generateFileChecksum env dir dirPath path,
                lastModified := getFileModifiedTime dir dirPath path })
        acc).map Prod.fst) := by
  induction files generalizing acc with
  | nil => exact ⟨hacc, fun k hk => hk, fun p hp => absurd hp (List.not_mem_nil _)⟩
  | cons p rest ih =>
    simp only [List.foldl_cons]
    cases hl : dir.lookup dirPath p with
    | none =>
      simp only
      obtain ⟨i1, i2, i3⟩ := ih acc hacc
      refine ⟨i1, i2, ?_⟩
      intro q hq hres
      rcases List.mem_cons.mp hq with rfl | hq
      · rw [hl] at hres; simp at hres
      · exact i3 q hq hres
    | some node =>
      simp only
      by_cases hd : node.isDirectory = true
      · simp only [hd, if_true]
        obtain ⟨i1, i2, i3⟩ := ih acc hacc
        refine ⟨i1, i2, ?_⟩
        intro q hq hres
        rcases List.mem_cons.mp hq with rfl | hq
        · rw [hl] at hres; simp [hd] at hres
        · exact i3 q hq hres
      · simp only [hd, if_false]
        obtain ⟨i1, i2, i3⟩ := ih _ (checksumsSound_setChecksum env dir dirPath acc p
          { path := p, checksum := generateFileChecksum env dir dirPath p,
            lastModified := getFileModifiedTime dir dirPath p } hacc rfl rfl)
        refine ⟨i1, ?_, ?_⟩
        · intro k hk
          refine i2 k ?_
          rw [setChecksum_keys]
          split
          · exact hk
          · exact List.mem_append_left _ hk
        · intro q hq hres
          rcases List.mem_cons.mp hq with rfl | hq
          · refine i2 q ?_
            rw [setChecksum_keys]
            split
            · assumption
            · exact List.mem_append_right _ (List.mem_singleton_self _)
          · exact i3 q hq hres

theorem hasDirectoryChanged_unchanged (env : Env) (dir : FsNode) (dirPath : Str)
    (mach : Machine) (dirId : Str) (cs : List (Str × FileChecksum))
    (hD : getDirectoryId mach.storage dirPath = dirId) (hne : dirId ≠ [])
    (hds : (mach.storage.folder dirId).dir_structure =
      some (getCurrentDirectoryStructure dir dirPath))
    (hcs : (mach.storage.folder dirId).file_checksums = some (cs.map (fun kv => kv.2)))
    (hsound : ChecksumsSound env dir dirPath cs)
    (hkeys : ∀ p ∈ getCurrentDirectoryStructure dir dirPath, p ∈ cs.map Prod.fst) :
    (hasDirectoryChanged env dir dirPath mach).1 = false ∧
    (hasDirectoryChanged env dir dirPath mach).2.index.symbolMap_ = mach.index.symbolMap_ := by
  have hDe : dirId.isEmpty = false := isEmpty_false_of_ne_nil dirId hne
  have hs1 : loadDirStructureFromStorage mach dirId =
      (true, { index := { mach.index with
                 directoryFiles_ := getCurrentDirectoryStructure dir dirPath },
               storage := mach.storage }) := by
    unfold loadDirStructureFromStorage
    simp only [hDe, Bool.false_eq_true, if_false, hds]
  have hrt := checksums_round_trip cs [] (by simpa using hsound.1) (fun kv hkv => (hsound.2 kv hkv).1)
  have hs2 : loadChecksumsFromStorage
      { index := { mach.index with
          directoryFiles_ := getCurrentDirectoryStructure dir dirPath },
        storage := mach.storage } dirId =
      (true, { index := { mach.index with
                 directoryFiles_ := getCurrentDirectoryStructure dir dirPath,
                 fileChecksums_ := cs },
               storage := mach.storage }) := by
    unfold loadChecksumsFromStorage
    simp only [hcs, hrt, List.nil_append]
  have hany : (getCurrentDirectoryStructure dir dirPath).any (fun filePath =>
      match findChecksum cs filePath with
      | none => true
      | some saved => saved.checksum != generateFileChecksum env dir dirPath filePath) = false := by
    rw [List.any_eq_false]
    intro p hp
    obtain ⟨v, hv, hm⟩ := findChecksum_of_key cs p (hkeys p hp)
    rw [hv]
    have := (hsound.2 (p, v) hm).2
    simp only at this
    simp [this]
  unfold hasDirectoryChanged
  simp only [hD, hDe, Bool.false_eq_true, if_false, hs1, Bool.not_true, hs2, ne_eq,
    not_true_eq_false, hany]
  exact ⟨trivial, trivial⟩

/-- The path of `buildIndex` for a directory whose stored index loads with an
empty traversal position and whose content has not changed. -/
theorem buildIndex_unchanged (env : Env) (dir : FsNode) (dirPath : Str) (mach : Machine)
    (si : StoredIndex)
    (hD : getDirectoryId mach.storage dirPath ≠ [])
    (hsi : (mach.storage.folder (getDirectoryId mach.storage dirPath)).symbol_index = some si)
    (hp : si.traversal_path.map toSizeT = [])
    (hch : (hasDirectoryChanged env dir dirPath
      (loadIndexFromStorageNoLock (enterWorkingDir mach dirPath)
        (getDirectoryId mach.storage dirPath)).2).1 = false) :
    (buildIndex env dir dirPath [] mach).1 = .ok () ∧
    (buildIndex env dir dirPath [] mach).2.index.symbolMap_ =
      (hasDirectoryChanged env dir dirPath
        (loadIndexFromStorageNoLock (enterWorkingDir mach dirPath)
          (getDirectoryId mach.storage dirPath)).2).2.index.symbolMap_ := by
  have hst : (enterWorkingDir mach dirPath).storage = mach.storage := rfl
  obtain ⟨h1, h2, -⟩ := loadIndex_facts (enterWorkingDir mach dirPath)
    (getDirectoryId mach.storage dirPath) si hD (by rw [hst]; exact hsi)
  have hpe : ((loadIndexFromStorageNoLock (enterWorkingDir mach dirPath)
      (getDirectoryId mach.storage dirPath)).2.index.traversalPath_).isEmpty = true := by
    rw [h2, hp]
    rfl
  unfold buildIndex
  simp only [hst, isEmpty_false_of_ne_nil _ hD, h1, hpe, hch, Bool.not_false, Bool.not_true,
    Bool.false_eq_true, if_true, if_false, indexOpenDocuments_nil]
  exact ⟨trivial, trivial⟩

theorem sameIdentity_formatLoadedSignature (a b : Symbol) :
    SameIdentity (formatLoadedSignature a) (formatLoadedSignature b) ↔ SameIdentity a b := by
  have h : ∀ s : Symbol, (formatLoadedSignature s).name = s.name ∧
      (formatLoadedSignature s).filePath = s.filePath ∧
      (formatLoadedSignature s).lineStart = s.lineStart := by
    intro s
    unfold formatLoadedSignature
    split <;> exact ⟨rfl, rfl, rfl⟩
  unfold SameIdentity
  rw [(h a).1, (h a).2.1, (h a).2.2, (h b).1, (h b).2.1, (h b).2.2]

/-- Adding symbols of pairwise different identity, none of them stored yet,
stores them all. -/
theorem mem_foldl_addSymbolNoLock_of_pairwise (l : List Symbol) (m : SymbolMap) (s : Symbol)
    (hwf : StoreWF m) (hp : l.Pairwise (fun a b => ¬ SameIdentity a b))
    (hd : ∀ u ∈ allSymbols m, ∀ x ∈ l, ¬ SameIdentity u x) :
    s ∈ allSymbols (l.foldl addSymbolNoLock m) ↔ s ∈ allSymbols m ∨ s ∈ l := by
  induction l generalizing m with
  | nil => simp
  | cons x rest ih =>
    rw [List.pairwise_cons] at hp
    have hx : ∀ u ∈ allSymbols m, ¬ SameIdentity u x := fun u hu =>
      hd u hu x (List.mem_cons_self _ _)
    rw [List.foldl_cons, ih (addSymbolNoLock m x) (storeWF_addSymbolNoLock m x hwf) hp.2,
      mem_allSymbols_addSymbolNoLock m x s hwf, List.mem_cons]
    · constructor
      · rintro ((h | ⟨h, _⟩) | h)
        · exact Or.inl h
        · exact Or.inr (Or.inl h)
        · exact Or.inr (Or.inr h)
      · rintro (h | h | h)
        · exact Or.inl (Or.inl h)
        · exact Or.inl (Or.inr ⟨h, hx⟩)
        · exact Or.inr h
    · intro u hu y hy
      rcases (mem_allSymbols_addSymbolNoLock m x u hwf).mp hu with h | ⟨h, _⟩
      · exact hd u h y (List.mem_cons_of_mem _ hy)
      · rw [h]; exact hp.1 y hy

/-- Saving a well-formed store and loading it back gives its symbols with the
signatures as the load formats them. -/
theorem mem_allSymbols_loaded (m : SymbolMap) (hwf : StoreWF m) (s : Symbol) :
    s ∈ allSymbols (((allSymbols m).map formatLoadedSignature).foldl addSymbolNoLock []) ↔
      ∃ t ∈ allSymbols m, s = formatLoadedSignature t := by
  rw [mem_foldl_addSymbolNoLock_of_pairwise _ [] s storeWF_nil]
  · simp only [allSymbols, List.flatMap_nil, List.not_mem_nil, false_or, List.mem_map]
    constructor
    · rintro ⟨t, ht, rfl⟩
      exact ⟨t, ht, rfl⟩
    · rintro ⟨t, ht, rfl⟩
      exact ⟨t, ht, rfl⟩
  · rw [List.pairwise_map]
    exact (storeWF_pairwise m hwf).imp
      (fun {a b} hab h => hab ((sameIdentity_formatLoadedSignature a b).mp h))
  · intro u hu
    simp [allSymbols] at hu

theorem storeWF_indexFileByType (env : Env) (h : EnvKeepsStoreWF env) (fileName : Str)
    (content : Option Str) (absPath : Str) (m : SymbolMap) (hwf : StoreWF m) :
    StoreWF (indexFileByType env fileName content absPath m) := by
  have hx : ∀ ext text r, indexByExtension env ext text absPath m = some r → StoreWF r := by
    intro ext text r hr
    unfold indexByExtension at hr
    split_ifs at hr
    all_goals
      injection hr with hr
      rw [← hr]
      exact h.1 _ (by simp [Env.extractors]) text absPath m hwf
  unfold indexFileByType
  simp only
  split
  · exact hwf
  · cases content with
    | none => exact hwf
    | some text =>
      simp only
      cases hr : indexByExtension env (getExtensionLowerCase fileName) text absPath m with
      | some r => exact hx _ _ _ hr
      | none =>
        simp only
        split
        · exact h.1 _ (by simp [Env.extractors]) text absPath m hwf
        · exact hwf

theorem storeWF_traverseDirectory (env : Env) (h : EnvKeepsStoreWF env) (maxFiles fuel : Nat)
    (dir : FsNode) (dirPath : Str) (t : Traversal) (hwf : StoreWF t.index.symbolMap_) :
    StoreWF (traverseDirectory env maxFiles fuel dir dirPath t).index.symbolMap_ := by
  refine traverseDirectory_rel env maxFiles
    (fun a b => StoreWF a.index.symbolMap_ → StoreWF b.index.symbolMap_)
    ?_ ?_ ?_ ?_ ?_ ?_ fuel dir dirPath t hwf
  · intro t ht; exact ht
  · intro a b c hab hbc ha; exact hbc (hab ha)
  · intro t pos ht; exact ht
  · intro t ht; exact ht
  · intro t s ht; exact storeWF_addSymbolNoLock _ s ht
  · intro fileName content filePath t ht
    unfold indexFileEntry
    simp only
    split
    · exact storeWF_addSymbolNoLock _ _ ht
    · split
      · exact storeWF_addSymbolNoLock _ _ ht
      · split
        · exact storeWF_indexFileByType env h _ _ _ _ (storeWF_addSymbolNoLock _ _ ht)
        · exact storeWF_addSymbolNoLock _ _ ht

theorem getDirectoryId_append_new (mapping : List (Str × Str)) (folders) (dirPath dirId : Str)
    (hnew : ∀ row ∈ mapping, row.1 ≠ normalizeDirPath dirPath) :
    getDirectoryId { mapping := mapping ++ [(normalizeDirPath dirPath, dirId)],
                     folders := folders } dirPath = dirId := by
  unfold getDirectoryId
  have : (mapping ++ [(normalizeDirPath dirPath, dirId)]).find?
      (fun row => row.1 == normalizeDirPath dirPath) = some (normalizeDirPath dirPath, dirId) := by
    rw [List.find?_append]
    have hn : mapping.find? (fun row => row.1 == normalizeDirPath dirPath) = none := by
      rw [List.find?_eq_none]
      intro row hrow
      simpa using hnew row hrow
    rw [hn]
    simp
  simp only [this]

theorem getDirectoryId_none (storage : Storage) (dirPath : Str)
    (hnew : ∀ row ∈ storage.mapping, row.1 ≠ normalizeDirPath dirPath) :
    getDirectoryId storage dirPath = [] := by
  unfold getDirectoryId
  have hn : storage.mapping.find? (fun row => row.1 == normalizeDirPath dirPath) = none := by
    rw [List.find?_eq_none]
    intro row hrow
    simpa using hnew row hrow
  simp only [hn]

theorem enterWorkingDir_same (mach : Machine) (dirPath : Str)
    (h : mach.index.currentWorkingDir_ = dirPath) : enterWorkingDir mach dirPath = mach := by
  obtain ⟨idx, storage⟩ := mach
  obtain ⟨a, b, c, d, e, f, g⟩ := idx
  simp only at h
  subst h
  simp [enterWorkingDir]

theorem buildIndex_first_ok (env : Env) (dir : FsNode) (dirPath : Str) (mach : Machine)
    (hD : getDirectoryId mach.storage dirPath = [])
    (hw : env.storageWritable = true) (hid : env.generateUniqueId mach.storage ≠ []) :
    (buildIndex env dir dirPath [] mach).1 = .ok () := by
  have hst : (enterWorkingDir mach dirPath).storage = mach.storage := rfl
  have he : (ensureStorageDir env dirPath mach.storage).1 = env.generateUniqueId mach.storage := by
    unfold ensureStorageDir
    simp [hw, hD]
  unfold buildIndex
  simp only [hst, hD, List.isEmpty_nil, Bool.not_true, Bool.false_eq_true, if_false, he,
    isEmpty_false_of_ne_nil _ hid]

/-- What a walk that starts with an empty traversal position leaves: the
snapshot of the directory, its checksums, and a well-formed store. -/
theorem walkedIndex_fresh (env : Env) (dir : FsNode) (dirPath : Str) (idx : SymbolIndex)
    (hidle : idx.traversalPath_ = []) :
    (walkedIndex env dir dirPath idx).directoryFiles_ =
      getCurrentDirectoryStructure dir dirPath ∧
    ChecksumsSound env dir dirPath (walkedIndex env dir dirPath idx).fileChecksums_ ∧
    (SnapshotResolves dir dirPath → ∀ p ∈ getCurrentDirectoryStructure dir dirPath,
      p ∈ (walkedIndex env dir dirPath idx).fileChecksums_.map Prod.fst) ∧
    (EnvKeepsStoreWF env → StoreWF (walkedIndex env dir dirPath idx).symbolMap_) := by
  have hs := traverseDirectory_sameSettings env MAX_FILES_PER_BATCH (dir.depth + 1) dir dirPath
    { index := startOfWalk env dir dirPath idx, filesIndexed := 0 }
  have hstart : startOfWalk env dir dirPath idx =
      calculateFileChecksums env dir dirPath
        { idx with symbolMap_ := [], pendingFiles_ := [],
                   directoryFiles_ := getCurrentDirectoryStructure dir dirPath } := by
    unfold startOfWalk
    rw [hidle]
    rfl
  have hfold := calculateFileChecksums_fold env dir dirPath
    (getCurrentDirectoryStructure dir dirPath) [] ⟨List.nodup_nil, fun kv h => by cases h⟩
  unfold walkedIndex traverse
  refine ⟨?_, ?_, ?_, ?_⟩
  · rw [hs.2.1, hstart]
    rfl
  · rw [hs.2.2.1, hstart]
    exact hfold.1
  · intro hres p hp
    rw [hs.2.2.1, hstart]
    exact hfold.2.2 p hp (hres p hp)
  · intro hkeep
    refine storeWF_traverseDirectory env hkeep _ _ dir dirPath _ ?_
    rw [hstart]
    exact storeWF_nil

/-- The second of two builds of a directory with no change in between, when the
first build left a stored index with an empty traversal position: the store
is the loaded one. -/
theorem buildIndex_again (env : Env) (dir : FsNode) (dirPath : Str) (m1 : Machine)
    (dirId : Str) (walked : SymbolIndex)
    (hne : dirId ≠ [])
    (hcwd : m1.index.currentWorkingDir_ = dirPath)
    (hid : getDirectoryId m1.storage dirPath = dirId)
    (hfolder : m1.storage.folder dirId =
      { symbol_index := some
          { symbols := allSymbols m1.index.symbolMap_,
            working_directory := walked.currentWorkingDir_,
            traversal_path := walked.traversalPath_.map toInt32 },
        file_checksums := some (walked.fileChecksums_.map (fun kv => kv.2)),
        dir_structure := some walked.directoryFiles_ })
    (hpath : walked.traversalPath_ = [])
    (hfiles : walked.directoryFiles_ = getCurrentDirectoryStructure dir dirPath)
    (hsound : ChecksumsSound env dir dirPath walked.fileChecksums_)
    (hkeys : ∀ p ∈ getCurrentDirectoryStructure dir dirPath,
      p ∈ walked.fileChecksums_.map Prod.fst) :
    (buildIndex env dir dirPath [] m1).1 = .ok () ∧
    (buildIndex env dir dirPath [] m1).2.index.symbolMap_ =
      ((allSymbols m1.index.symbolMap_).map formatLoadedSignature).foldl addSymbolNoLock [] := by
  have hsi : (m1.storage.folder dirId).symbol_index = some
      { symbols := allSymbols m1.index.symbolMap_,
        working_directory := walked.currentWorkingDir_,
        traversal_path := walked.traversalPath_.map toInt32 } := by rw [hfolder]
  have hcsum : (m1.storage.folder dirId).file_checksums =
      some (walked.fileChecksums_.map (fun kv => kv.2)) := by rw [hfolder]
  have hdstr : (m1.storage.folder dirId).dir_structure = some walked.directoryFiles_ := by
    rw [hfolder]
  obtain ⟨-, -, -, l4, -, l6, -, l8, l9, -⟩ := loadIndex_facts m1 dirId _ hne hsi
  have hch := hasDirectoryChanged_unchanged env dir dirPath
    (loadIndexFromStorageNoLock m1 dirId).2 dirId walked.fileChecksums_
    ((getDirectoryId_of_mapping _ _ l6 dirPath).trans hid) hne
    (by rw [l9, hdstr, Option.getD_some, hfiles]) (by rw [l8, hcsum]) hsound hkeys
  have hb := buildIndex_unchanged env dir dirPath m1 _ (by rw [hid]; exact hne)
    (by rw [hid]; exact hsi) (by simp only [hpath, List.map_nil])
    (by rw [enterWorkingDir_same m1 dirPath hcwd, hid]; exact hch.1)
  refine ⟨hb.1, ?_⟩
  rw [hb.2, enterWorkingDir_same m1 dirPath hcwd, hid, hch.2, l4]

theorem formatLoadedSignature_fields (t : Symbol) :
    (formatLoadedSignature t).name = t.name ∧ (formatLoadedSignature t).type = t.type ∧
    (formatLoadedSignature t).filePath = t.filePath ∧
    (formatLoadedSignature t).fileName = t.fileName ∧
    (formatLoadedSignature t).lineStart = t.lineStart ∧
    (formatLoadedSignature t).lineEnd = t.lineEnd ∧
    (formatLoadedSignature t).parents = t.parents ∧
    (formatLoadedSignature t).children = t.children ∧
    (¬ (t.type = "function".toList ∧ starts_with t.signature "function(".toList = true) →
      formatLoadedSignature t = t) := by
  unfold formatLoadedSignature
  split
  · rename_i h
    exact ⟨rfl, rfl, rfl, rfl, rfl, rfl, rfl, rfl, fun hn => absurd ⟨h.1, h.2.2⟩ hn⟩
  · exact ⟨rfl, rfl, rfl, rfl, rfl, rfl, rfl, rfl, fun _ => rfl⟩

/-- C4 (amended): for a directory that has no stored index, with no traversal
in progress, when the first build takes in the whole directory (it leaves the
traversal position stack empty), building again with nothing changed on disk
and no open documents succeeds and yields the symbols of the first build as
the load from storage leaves them: every field as in the first build, except
that the signature of a function symbol that starts with `function(` is the
one the load-time formatting gives. When that formatting changes no stored
symbol, the two builds yield the same set of symbols. -/
theorem C4_rebuild_yields_loaded_symbols (env : Env) (dir : FsNode) (dirPath : Str)
    (mach : Machine)
    (hw : env.storageWritable = true) (hid : env.generateUniqueId mach.storage ≠ [])
    (hnew : ∀ row ∈ mach.storage.mapping, row.1 ≠ normalizeDirPath dirPath)
    (hidle : mach.index.traversalPath_ = [])
    (hkeep : EnvKeepsStoreWF env) (hres : SnapshotResolves dir dirPath)
    (hcomplete : (buildIndex env dir dirPath [] mach).2.index.traversalPath_ = []) :
    (buildIndex env dir dirPath [] mach).1 = .ok () ∧
    (buildIndex env dir dirPath [] (buildIndex env dir dirPath [] mach).2).1 = .ok () ∧
    (∀ s, s ∈ allSymbols (buildIndex env dir dirPath []
          (buildIndex env dir dirPath [] mach).2).2.index.symbolMap_ ↔
        ∃ t ∈ allSymbols (buildIndex env dir dirPath [] mach).2.index.symbolMap_,
          s = formatLoadedSignature t) ∧
    (∀ t : Symbol,
      (formatLoadedSignature t).name = t.name ∧ (formatLoadedSignature t).type = t.type ∧
      (formatLoadedSignature t).filePath = t.filePath ∧
      (formatLoadedSignature t).fileName = t.fileName ∧
      (formatLoadedSignature t).lineStart = t.lineStart ∧
      (formatLoadedSignature t).lineEnd = t.lineEnd ∧
      (formatLoadedSignature t).parents = t.parents ∧
      (formatLoadedSignature t).children = t.children ∧
      (¬ (t.type = "function".toList ∧ starts_with t.signature "function(".toList = true) →
        formatLoadedSignature t = t)) ∧
    ((∀ t ∈ allSymbols (buildIndex env dir dirPath [] mach).2.index.symbolMap_,
        formatLoadedSignature t = t) →
      ∀ s, s ∈ allSymbols (buildIndex env dir dirPath []
          (buildIndex env dir dirPath [] mach).2).2.index.symbolMap_ ↔
        s ∈ allSymbols (buildIndex env dir dirPath [] mach).2.index.symbolMap_) := by
  have hD0 := getDirectoryId_none mach.storage dirPath hnew
  obtain ⟨b1, b2, -⟩ := buildIndex_first env dir dirPath mach hD0 hw hid
  have hok1 := buildIndex_first_ok env dir dirPath mach hD0 hw hid
  obtain ⟨machA, hA⟩ : ∃ x : Machine, x =
      { index := (enterWorkingDir mach dirPath).index,
        storage := (ensureStorageDir env dirPath mach.storage).2 } := ⟨_, rfl⟩
  have hAidle : machA.index.traversalPath_ = [] := by
    rw [hA]
    simp [enterWorkingDir, hidle]
  have hAcwd : machA.index.currentWorkingDir_ = dirPath := by rw [hA]; rfl
  have hAmap : machA.storage.mapping = mach.storage.mapping ++
      [(normalizeDirPath dirPath, env.generateUniqueId mach.storage)] := by rw [hA]; exact b2
  rw [← hA] at b1
  obtain ⟨f1, f2, f3, -, -, -, f7, f8⟩ :=
    buildIndexTraversal_facts env dir dirPath machA (env.generateUniqueId mach.storage) hid
  obtain ⟨w1, w2, w3, w4⟩ := walkedIndex_fresh env dir dirPath machA.index hAidle
  have hwf1 : StoreWF (buildIndexTraversal env dir dirPath [] machA
      (env.generateUniqueId mach.storage)).index.symbolMap_ := by
    rw [f1]
    exact hkeep.2 _ (w4 hkeep)
  rw [b1] at hcomplete ⊢
  have hpath : (walkedIndex env dir dirPath machA.index).traversalPath_ = [] := by
    rw [← f2]; exact hcomplete
  have hcwd1 : (buildIndexTraversal env dir dirPath [] machA
      (env.generateUniqueId mach.storage)).index.currentWorkingDir_ = dirPath := by
    rw [f3, walkedIndex_workingDir, hAcwd]
  have hid1 : getDirectoryId (buildIndexTraversal env dir dirPath [] machA
      (env.generateUniqueId mach.storage)).storage dirPath =
        env.generateUniqueId mach.storage := by
    rw [getDirectoryId_of_mapping _
      { mapping := mach.storage.mapping ++
          [(normalizeDirPath dirPath, env.generateUniqueId mach.storage)], folders := [] }
      (f7.trans hAmap)]
    exact getDirectoryId_append_new _ _ _ _ hnew
  rw [← f1] at f8
  obtain ⟨a1, a2⟩ := buildIndex_again env dir dirPath _ (env.generateUniqueId mach.storage)
    (walkedIndex env dir dirPath machA.index) hid hcwd1 hid1 f8 hpath w1 w2 (w3 hres)
  have hiff : ∀ s, s ∈ allSymbols (buildIndex env dir dirPath []
        (buildIndexTraversal env dir dirPath [] machA
          (env.generateUniqueId mach.storage))).2.index.symbolMap_ ↔
      ∃ t ∈ allSymbols (buildIndexTraversal env dir dirPath [] machA
          (env.generateUniqueId mach.storage)).index.symbolMap_,
        s = formatLoadedSignature t := by
    intro s
    rw [a2]
    exact mem_allSymbols_loaded _ hwf1 s
  refine ⟨hok1, a1, hiff, formatLoadedSignature_fields, ?_⟩
  intro hfix s
  rw [hiff s]
  constructor
  · rintro ⟨t, ht, rfl⟩
    rw [hfix t ht]
    exact ht
  · intro hs
    exact ⟨s, hs, (hfix s hs).symm⟩

theorem rFunctionEnv_keeps : EnvKeepsStoreWF rFunctionEnv := by
  refine ⟨?_, fun m hm => hm⟩
  intro extractor hmem content path m hwf
  simp only [Env.extractors, rFunctionEnv, quietEnv, List.mem_cons, List.mem_singleton,
    List.not_mem_nil, or_false] at hmem
  rcases hmem with h | h | h | h | h | h | h | h <;> subst h
  · simp only
    split
    · exact storeWF_addSymbolNoLock _ _ hwf
    · exact hwf
  all_goals exact hwf

/-- C4, witness: the project with the R file `a.R` is built twice from a fresh
index; the function `foo` of the first build is found after the second build
with its signature formatted by the load, and the file symbol of `a.R`, which
the formatting leaves alone, is found after both. -/
theorem C4_rebuild_yields_loaded_symbols_witness :
    SnapshotResolves c4Small "/proj".toList ∧
    (buildIndex rFunctionEnv c4Small "/proj".toList [] Machine.fresh).2.index.traversalPath_ = [] ∧
    fooRaw ∈ allSymbols
      (buildIndex rFunctionEnv c4Small "/proj".toList [] Machine.fresh).2.index.symbolMap_ ∧
    fooLoaded ∈ allSymbols (buildIndex rFunctionEnv c4Small "/proj".toList []
      (buildIndex rFunctionEnv c4Small "/proj".toList [] Machine.fresh).2).2.index.symbolMap_ ∧
    (buildIndex rFunctionEnv c4Small "/proj".toList []
      (buildIndex rFunctionEnv c4Small "/proj".toList [] Machine.fresh).2).1 = .ok () :=
  ⟨by decide, by decide, by decide,
   ((C4_rebuild_yields_loaded_symbols rFunctionEnv c4Small "/proj".toList Machine.fresh rfl
      (by decide) (fun _ h => nomatch h) rfl rFunctionEnv_keeps (by decide)
      (by decide)).2.2.1 fooLoaded).mpr ⟨fooRaw, by decide, by decide⟩,
   (C4_rebuild_yields_loaded_symbols rFunctionEnv c4Small "/proj".toList Machine.fresh rfl
      (by decide) (fun _ h => nomatch h) rfl rFunctionEnv_keeps (by decide)
      (by decide)).2.1⟩

set_option maxRecDepth 1000000 in
theorem c4Build_first_position : (c4Build Machine.fresh).index.traversalPath_ = [101] := by
  decide!

set_option maxRecDepth 1000000 in
theorem c4Build_first_store : c4Last ∉ allSymbols (c4Build Machine.fresh).index.symbolMap_ := by
  decide!

set_option maxRecDepth 1000000 in
theorem c4Build_again_store :
    c4Last ∈ allSymbols (c4Build (c4Build Machine.fresh)).index.symbolMap_ := by
  decide!

/-- C4, counterexample: two builds from a fresh index with nothing changed in
between. For the project with the R file `a.R` the first build leaves the
traversal position stack empty and stores the function `foo` with the
signature `function(x=1)`; after the second build the stored `foo` has the
signature `function(x = 1)` and the symbol of the first build is not in the
store. For the project with 102 text files the first build stops at the batch
limit with the traversal position `[101]`, and the second build adds the file
symbol of `f101.txt`, which the first build did not store. -/
theorem C4_counterexample :
    ((buildIndex rFunctionEnv c4Small "/proj".toList [] Machine.fresh).2.index.traversalPath_ = [] ∧
     fooRaw ∈ allSymbols
      (buildIndex rFunctionEnv c4Small "/proj".toList [] Machine.fresh).2.index.symbolMap_ ∧
     fooRaw ∉ allSymbols (buildIndex rFunctionEnv c4Small "/proj".toList []
      (buildIndex rFunctionEnv c4Small "/proj".toList [] Machine.fresh).2).2.index.symbolMap_ ∧
     fooLoaded ∈ allSymbols (buildIndex rFunctionEnv c4Small "/proj".toList []
      (buildIndex rFunctionEnv c4Small "/proj".toList [] Machine.fresh).2).2.index.symbolMap_ ∧
     fooLoaded ∉ allSymbols
      (buildIndex rFunctionEnv c4Small "/proj".toList [] Machine.fresh).2.index.symbolMap_) ∧
    ((c4Build Machine.fresh).index.traversalPath_ = [101] ∧
     c4Last ∉ allSymbols (c4Build Machine.fresh).index.symbolMap_ ∧
     c4Last ∈ allSymbols (c4Build (c4Build Machine.fresh)).index.symbolMap_) :=
  ⟨⟨by decide, by decide, by decide, by decide, by decide⟩,
   c4Build_first_position, c4Build_first_store, c4Build_again_store⟩

/-! ## Unsaved buffers -/

/-- C18: after the all-buffers-closed event on a built index, no stored symbol
has a path that contains `__UNSAVED`; every symbol whose path does not contain
it is still stored, unchanged and under the same key; nothing is stored that
was not stored before; no bucket is empty; and the other members of the index
are as before. -/
theorem C18_all_docs_removed_frame (idx : SymbolIndex) (hb : idx.indexBuilt_ = true) :
    (∀ s ∈ allSymbols (onAllSourceDocsRemoved idx).symbolMap_,
      containsStr s.filePath "__UNSAVED".toList = false) ∧
    (∀ k b s, (k, b) ∈ idx.symbolMap_ → s ∈ b →
      containsStr s.filePath "__UNSAVED".toList = false →
      ∃ b2, (k, b2) ∈ (onAllSourceDocsRemoved idx).symbolMap_ ∧ s ∈ b2) ∧
    (∀ k b2 s, (k, b2) ∈ (onAllSourceDocsRemoved idx).symbolMap_ → s ∈ b2 →
      ∃ b, (k, b) ∈ idx.symbolMap_ ∧ s ∈ b) ∧
    (∀ kb ∈ (onAllSourceDocsRemoved idx).symbolMap_, kb.2 ≠ []) ∧
    (onAllSourceDocsRemoved idx).fileChecksums_ = idx.fileChecksums_ ∧
    (onAllSourceDocsRemoved idx).directoryFiles_ = idx.directoryFiles_ ∧
    (onAllSourceDocsRemoved idx).pendingFiles_ = idx.pendingFiles_ ∧
    (onAllSourceDocsRemoved idx).traversalPath_ = idx.traversalPath_ ∧
    (onAllSourceDocsRemoved idx).indexBuilt_ = true ∧
    (onAllSourceDocsRemoved idx).currentWorkingDir_ = idx.currentWorkingDir_ := by
  unfold onAllSourceDocsRemoved
  simp only [SymbolIndex.isIndexBuilt, hb, Bool.not_true, Bool.false_eq_true, if_false]
  refine ⟨?_, ?_, ?_, ?_, trivial, trivial, trivial, trivial, trivial, trivial⟩
  · intro s hs
    simp only [allSymbols_removeWhere] at hs
    simpa using (List.mem_filter.mp hs).2
  · intro k b s hkb hs hp
    refine ⟨b.filter (fun s => !(containsStr s.filePath "__UNSAVED".toList)), ?_, ?_⟩
    · refine (removeWhere_mem _ idx.symbolMap_ _).mpr ⟨?_, b, hkb, rfl⟩
      intro he
      have : s ∈ b.filter (fun s => !(containsStr s.filePath "__UNSAVED".toList)) :=
        List.mem_filter.mpr ⟨hs, by simpa using hp⟩
      simp only at he
      rw [he] at this
      exact absurd this (List.not_mem_nil _)
    · exact List.mem_filter.mpr ⟨hs, by simpa using hp⟩
  · intro k b2 s hkb hs
    obtain ⟨-, b, hmem, e⟩ := (removeWhere_mem _ idx.symbolMap_ _).mp hkb
    simp only at e
    exact ⟨b, hmem, by rw [e] at hs; exact (List.mem_filter.mp hs).1⟩
  · intro kb hkb
    exact ((removeWhere_mem _ idx.symbolMap_ kb).mp hkb).1

/-- C18, witness: the index holds the symbol of an unsaved buffer and the
function `foo`; after the event the first is gone and the second is stored. -/
theorem C18_all_docs_removed_frame_witness :
    unsavedSymbol ∈ allSymbols c18Index.symbolMap_ ∧
    unsavedSymbol ∉ allSymbols (onAllSourceDocsRemoved c18Index).symbolMap_ ∧
    (∃ b2, ("foo".toList, b2) ∈ (onAllSourceDocsRemoved c18Index).symbolMap_ ∧ fooSymbol ∈ b2) :=
  ⟨by decide,
   fun h => absurd ((C18_all_docs_removed_frame c18Index rfl).1 unsavedSymbol h) (by decide),
   (C18_all_docs_removed_frame c18Index rfl).2.1 "foo".toList [fooSymbol] fooSymbol
     (by decide) (by decide) (by decide)⟩

theorem append_left_eq_of_length {α : Type} (a b c d : List α) (h : a ++ c = b ++ d)
    (hl : c.length = d.length) : a = b ∧ c = d := by
  have hlen : a.length = b.length := by
    have := congrArg List.length h
    simp only [List.length_append] at this
    omega
  exact List.append_inj h hlen

/-- C17 (amended): for two unsaved documents with the same display name, the
synthetic paths are equal exactly when the first four characters of the
document ids are equal; so the paths differ when the ids differ within their
first four characters. -/
theorem C17_synthetic_path_by_first_four (env : Env) (d1 d2 : SourceDocument)
    (h1 : d1.path = []) (h2 : d2.path = []) (hn : d1.tempName = d2.tempName) :
    (documentFilePath env d1 = documentFilePath env d2 ↔ d1.id.take 4 = d2.id.take 4) ∧
    (d1.id.take 4 ≠ d2.id.take 4 → documentFilePath env d1 ≠ documentFilePath env d2) := by
  have key : ∀ (x y n : Str),
      ("__UNSAVED_".toList ++ x ++ "__/".toList ++ n =
        "__UNSAVED_".toList ++ y ++ "__/".toList ++ n ↔ x = y) := by
    intro x y n
    constructor
    · intro h
      rw [List.append_assoc, List.append_assoc, List.append_assoc, List.append_assoc] at h
      have h3 := List.append_cancel_left h
      exact (append_left_eq_of_length x y _ _ h3 rfl).1
    · intro h; rw [h]
  have off : ∀ (y n : Str), y ≠ [] →
      "__UNSAVED__/".toList ++ n ≠ "__UNSAVED_".toList ++ y ++ "__/".toList ++ n := by
    intro y n hy h
    have := congrArg List.length h
    simp only [List.length_append] at this
    have hy2 : 0 < y.length := List.length_pos.mpr hy
    have e1 : "__UNSAVED__/".toList.length = 12 := rfl
    have e2 : "__UNSAVED_".toList.length = 10 := rfl
    have e3 : "__/".toList.length = 3 := rfl
    omega
  have u1 : "__UNSAVED__/Untitled".toList = "__UNSAVED__/".toList ++ "Untitled".toList := rfl
  have u2 : "__/Untitled".toList = "__/".toList ++ "Untitled".toList := rfl
  have take_ne : ∀ s : Str, s ≠ [] → s.take 4 ≠ [] := by
    intro s hs
    cases s with
    | nil => exact absurd rfl hs
    | cons a t => simp
  have main : documentFilePath env d1 = documentFilePath env d2 ↔ d1.id.take 4 = d2.id.take 4 := by
    unfold documentFilePath
    simp only [h1, h2, hn, List.isEmpty_nil, Bool.not_true, Bool.false_eq_true, if_false, u1, u2,
      ← List.append_assoc]
    by_cases ht : d2.tempName = []
    · by_cases e1 : d1.id = [] <;> by_cases e2 : d2.id = []
      · simp [ht, e1, e2]
      · simp only [ht, e1, List.isEmpty_nil, Bool.not_true, Bool.false_eq_true, if_false,
          isEmpty_false_of_ne_nil _ e2, Bool.not_false, if_true, List.take_nil]
        constructor
        · intro h
          exact absurd h (off _ "Untitled".toList (take_ne _ e2))
        · intro h
          exact absurd h.symm (take_ne _ e2)
      · simp only [ht, e2, List.isEmpty_nil, Bool.not_true, Bool.false_eq_true, if_false,
          isEmpty_false_of_ne_nil _ e1, Bool.not_false, if_true, List.take_nil]
        constructor
        · intro h
          exact absurd h.symm (off _ "Untitled".toList (take_ne _ e1))
        · intro h
          exact absurd h (take_ne _ e1)
      · simp only [ht, List.isEmpty_nil, Bool.not_true, Bool.false_eq_true, if_false,
          isEmpty_false_of_ne_nil _ e1, isEmpty_false_of_ne_nil _ e2, Bool.not_false, if_true]
        exact key _ _ "Untitled".toList
    · by_cases e1 : d1.id = [] <;> by_cases e2 : d2.id = []
      · simp [e1, e2]
      · simp only [isEmpty_false_of_ne_nil _ ht, e1, List.isEmpty_nil, Bool.not_true,
          Bool.false_eq_true, if_false, isEmpty_false_of_ne_nil _ e2, Bool.not_false, if_true,
          List.take_nil]
        constructor
        · intro h
          exact absurd h (off _ d2.tempName (take_ne _ e2))
        · intro h
          exact absurd h.symm (take_ne _ e2)
      · simp only [isEmpty_false_of_ne_nil _ ht, e2, List.isEmpty_nil, Bool.not_true,
          Bool.false_eq_true, if_false, isEmpty_false_of_ne_nil _ e1, Bool.not_false, if_true,
          List.take_nil]
        constructor
        · intro h
          exact absurd h.symm (off _ d2.tempName (take_ne _ e1))
        · intro h
          exact absurd h (take_ne _ e1)
      · simp only [isEmpty_false_of_ne_nil _ ht, List.isEmpty_nil, Bool.not_true,
          Bool.false_eq_true, if_false, isEmpty_false_of_ne_nil _ e1,
          isEmpty_false_of_ne_nil _ e2, Bool.not_false, if_true]
        exact key _ _ d2.tempName
  exact ⟨main, fun hne h => hne (main.mp h)⟩

/-- C17, witness: the documents with ids `abcd-1` and `abce-1` and the display
name `Untitled1` get different synthetic paths. -/
theorem C17_synthetic_path_by_first_four_witness :
    documentFilePath quietEnv (unsavedDoc "abcd-1".toList "Untitled1".toList) ≠
      documentFilePath quietEnv (unsavedDoc "abce-1".toList "Untitled1".toList) :=
  (C17_synthetic_path_by_first_four quietEnv (unsavedDoc "abcd-1".toList "Untitled1".toList)
    (unsavedDoc "abce-1".toList "Untitled1".toList) rfl rfl rfl).2 (by decide)

/-- C17, counterexample: the documents with the different ids `abcd-1` and
`abcd-2` and the same display name get the same synthetic path, in
`onSourceDocUpdated` and in `indexOpenDocuments` alike. -/
theorem C17_counterexample :
    (unsavedDoc "abcd-1".toList "Untitled1".toList).id ≠
      (unsavedDoc "abcd-2".toList "Untitled1".toList).id ∧
    (unsavedDoc "abcd-1".toList "Untitled1".toList).tempName =
      (unsavedDoc "abcd-2".toList "Untitled1".toList).tempName ∧
    documentFilePath quietEnv (unsavedDoc "abcd-1".toList "Untitled1".toList) =
      "__UNSAVED_abcd__/Untitled1".toList ∧
    documentFilePath quietEnv (unsavedDoc "abcd-2".toList "Untitled1".toList) =
      "__UNSAVED_abcd__/Untitled1".toList := by
  refine ⟨?_, ?_, ?_, ?_⟩ <;> decide

/-! ## The type filter of a query -/

theorem toLowerChar_of_isLowerAlpha (c : Char) (h : isLowerAlpha c = true) :
    toLowerChar c = c := by
  unfold isLowerAlpha at h
  unfold toLowerChar
  simp only [Bool.and_eq_true, decide_eq_true_eq] at h
  rw [if_neg]
  omega

theorem to_lower_of_isLowerAlpha (s : Str) (h : ∀ c ∈ s, isLowerAlpha c = true) :
    to_lower s = s := by
  unfold to_lower
  conv_rhs => rw [← List.map_id s]
  exact List.map_congr_left (fun c hc => toLowerChar_of_isLowerAlpha c (h c hc))

theorem isSpace_of_isLowerAlpha (c : Char) (h : isLowerAlpha c = true) : isSpace c = false := by
  unfold isLowerAlpha at h
  simp only [Bool.and_eq_true, decide_eq_true_eq] at h
  unfold isSpace
  have h1 : c ≠ ' ' := by rintro rfl; revert h; decide
  have h2 : c ≠ '\t' := by rintro rfl; revert h; decide
  have h3 : c ≠ '\n' := by rintro rfl; revert h; decide
  have h4 : c ≠ '\x0b' := by rintro rfl; revert h; decide
  have h5 : c ≠ '\x0c' := by rintro rfl; revert h; decide
  have h6 : c ≠ '\r' := by rintro rfl; revert h; decide
  simp [h1, h2, h3, h4, h5, h6]

theorem ne_paren_of_isLowerAlpha (c : Char) (h : isLowerAlpha c = true) :
    c ≠ '(' ∧ c ≠ ')' := by
  unfold isLowerAlpha at h
  simp only [Bool.and_eq_true, decide_eq_true_eq] at h
  constructor
  · rintro rfl; revert h; decide
  · rintro rfl; revert h; decide

theorem trim_copy_of_no_space (s : Str) (h : ∀ c ∈ s, isSpace c = false) : trim_copy s = s := by
  cases hs : s.reverse with
  | nil =>
    have : s = [] := by simpa using hs
    subst this
    rfl
  | cons c rest =>
    have hs2 : s = rest.reverse ++ [c] := by
      have := congrArg List.reverse hs
      simpa using this
    have hc : isSpace c = false := h c (by rw [hs2]; simp)
    unfold trim_copy trim_right
    have hd : s.dropWhile isSpace = s := by
      cases s with
      | nil => rfl
      | cons a t =>
        simp only [List.dropWhile_cons, h a (List.mem_cons_self _ _), Bool.false_eq_true, if_false]
    rw [hd, hs2]
    exact dropEndWhile_of_last isSpace _ c hc

theorem stripTrailingHashes_of_paren (u : Str) :
    stripTrailingHashes (u ++ [')']) = u ++ [')'] := by
  unfold stripTrailingHashes trim_right
  simp only [dropEndWhile_of_last isSpace u ')' (by decide),
    dropEndWhile_of_last (fun c => c == '#') u ')' (by decide), lt_self_iff_false, and_false,
    if_false]

theorem append_cons_inj_of_not_mem {a b X Y : Str} {x : Char} (h : a ++ x :: X = b ++ x :: Y)
    (ha : x ∉ a) (hb : x ∉ b) : a = b := by
  induction a generalizing b with
  | nil =>
    cases b with
    | nil => rfl
    | cons d b2 =>
      simp only [List.nil_append, List.cons_append, List.cons.injEq] at h
      exact absurd (by rw [h.1]; exact List.mem_cons_self _ _) hb
  | cons c a2 ih =>
    cases b with
    | nil =>
      simp only [List.nil_append, List.cons_append, List.cons.injEq] at h
      exact absurd (by rw [← h.1]; exact List.mem_cons_self _ _) ha
    | cons d b2 =>
      simp only [List.cons_append, List.cons.injEq] at h
      rw [h.1, ih h.2 (fun hm => ha (List.mem_cons_of_mem _ hm))
        (fun hm => hb (List.mem_cons_of_mem _ hm))]

/-- A match of the tail of the type-filter regex on a text that ends with
`(type)` captures `type`. -/
theorem matchTypeFilterTail_of_suffix (v type letters : Str)
    (ht : ∀ c ∈ type, isLowerAlpha c = true)
    (h : matchTypeFilterTail (v ++ '(' :: (type ++ [')'])) = some letters) :
    letters = type := by
  unfold matchTypeFilterTail at h
  have hsplit := List.takeWhile_append_dropWhile isSpace (v ++ '(' :: (type ++ [')']))
  cases hd : (v ++ '(' :: (type ++ [')'])).dropWhile isSpace with
  | nil => rw [hd] at h; simp at h
  | cons c r2 =>
    rw [hd] at h hsplit
    by_cases hc : c = '('
    · subst hc
      simp only at h
      have hsplit2 := List.takeWhile_append_dropWhile isLowerAlpha r2
      cases hd2 : r2.dropWhile isLowerAlpha with
      | nil => rw [hd2] at h; simp at h
      | cons d r4 =>
        rw [hd2] at h hsplit2
        by_cases hdc : d = ')'
        · subst hdc
          simp only at h
          split at h
          · rename_i hcond
            injection h with h
            have hall : ∀ c ∈ r4, isSpace c = true := by
              intro c hc
              exact List.all_eq_true.mp hcond.2 c hc
            have hr4 : r4 = [] := by
              cases hr : r4.reverse with
              | nil => simpa using hr
              | cons e rest =>
                exfalso
                have hr4' : r4 = rest.reverse ++ [e] := by
                  have := congrArg List.reverse hr
                  simpa using this
                have he : isSpace e = true := hall e (by rw [hr4']; simp)
                have hrev := congrArg List.reverse hsplit
                rw [← hsplit2, hr4'] at hrev
                simp only [List.reverse_append, List.reverse_cons, List.append_assoc,
                  List.singleton_append, List.nil_append, List.reverse_nil,
                  List.reverse_reverse, List.cons_append, List.cons.injEq] at hrev
                have : e = ')' := hrev.1
                rw [this] at he
                revert he
                decide
            rw [hr4] at hsplit2
            rw [← hsplit2] at hsplit
            have hrev := congrArg List.reverse hsplit
            simp only [List.reverse_append, List.reverse_cons, List.append_assoc,
              List.singleton_append, List.nil_append, List.reverse_nil] at hrev
            simp only [List.cons_append, List.cons.injEq, true_and, List.nil_append] at hrev
            have hlet : ∀ c ∈ letters, isLowerAlpha c = true := by
              intro c hc
              rw [← h] at hc
              exact List.mem_takeWhile_imp hc
            rw [h] at hrev
            have := append_cons_inj_of_not_mem hrev.symm
              (fun hm => (ne_paren_of_isLowerAlpha _ (ht _ (List.mem_reverse.mp hm))).1 rfl)
              (fun hm => (ne_paren_of_isLowerAlpha _ (hlet _ (List.mem_reverse.mp hm))).1 rfl)
            exact (List.reverse_injective this).symm
          · simp at h
        · exfalso
          revert h
          split <;> simp_all
    · exfalso
      revert h
      split <;> simp_all

theorem isLineTerminator_toLowerChar (c : Char) (h : isLineTerminator c = false) :
    isLineTerminator (toLowerChar c) = false := by
  unfold toLowerChar
  by_cases hr : 65 ≤ c.toNat ∧ c.toNat ≤ 90
  · simp only [hr, and_self, if_true]
    obtain ⟨h1, h2⟩ := hr
    generalize c.toNat = n at *
    interval_cases n <;> decide
  · simp only [hr, if_false]
    exact h

theorem takeWhile_append_stop (p : Char → Bool) (a r : Str) (x : Char)
    (ha : ∀ c ∈ a, p c = true) (hx : p x = false) :
    (a ++ x :: r).takeWhile p = a ∧ (a ++ x :: r).dropWhile p = x :: r := by
  induction a with
  | nil => simp [List.takeWhile_cons, List.dropWhile_cons, hx]
  | cons c rest ih =>
    have hc := ha c (List.mem_cons_self _ _)
    obtain ⟨i1, i2⟩ := ih (fun d hd => ha d (List.mem_cons_of_mem _ hd))
    simp only [List.cons_append, List.takeWhile_cons, List.dropWhile_cons, hc, if_true, i1, i2,
      and_self]

theorem matchTypeFilterTail_exact (type : Str) (hne : type ≠ [])
    (ht : ∀ c ∈ type, isLowerAlpha c = true) :
    matchTypeFilterTail ('(' :: (type ++ [')'])) = some type := by
  obtain ⟨t1, t2⟩ := takeWhile_append_stop isLowerAlpha type [] ')' ht (by decide)
  unfold matchTypeFilterTail
  have hd : ('(' :: (type ++ [')'])).dropWhile isSpace = '(' :: (type ++ [')']) := by
    simp [List.dropWhile_cons, isSpace]
  rw [hd]
  simp only [t1, t2]
  simp [hne]

/-- The type-filter regex matches a query that ends with ` (type)` and has no
line break before, and captures `type`. -/
theorem typeFilterSearch_of_form (n type acc : Str)
    (hn : ∀ c ∈ n, isLineTerminator c = false) (hne : type ≠ [])
    (ht : ∀ c ∈ type, isLowerAlpha c = true) :
    ∃ g, typeFilterSearch acc (n ++ ' ' :: '(' :: (type ++ [')'])) = some (g, type) := by
  induction n generalizing acc with
  | nil =>
    refine ⟨acc ++ [' '], ?_⟩
    simp only [List.nil_append, typeFilterSearch, matchTypeFilterTail_exact type hne ht]
    rfl
  | cons c rest ih =>
    have hc := hn c (List.mem_cons_self _ _)
    simp only [List.cons_append, typeFilterSearch, hc, Bool.false_eq_true, if_false]
    cases hm : matchTypeFilterTail (rest ++ ' ' :: '(' :: (type ++ [')'])) with
    | some letters =>
      have hm2 : matchTypeFilterTail ((rest ++ [' ']) ++ '(' :: (type ++ [')'])) =
          some letters := by
        rw [List.append_assoc]
        exact hm
      rw [matchTypeFilterTail_of_suffix _ type letters ht hm2]
      exact ⟨_, rfl⟩
    | none => exact ih (acc ++ [c]) (fun d hd => hn d (List.mem_cons_of_mem _ hd))

theorem parseQuery_of_form (name type : Str)
    (hn : ∀ c ∈ name, isLineTerminator c = false) (hne : type ≠ [])
    (ht : ∀ c ∈ type, isLowerAlpha c = true) :
    (parseQuery (name ++ " (".toList ++ type ++ ")".toList)).2 = type := by
  have hlow : to_lower (name ++ " (".toList ++ type ++ ")".toList) =
      (to_lower name ++ ' ' :: '(' :: type) ++ [')'] := by
    simp only [to_lower, List.map_append]
    have e1 := to_lower_of_isLowerAlpha type ht
    unfold to_lower at e1
    rw [e1]
    simp [toLowerChar]
  have hform : (to_lower name ++ ' ' :: '(' :: type) ++ [')'] =
      to_lower name ++ ' ' :: '(' :: (type ++ [')']) := by simp
  obtain ⟨g, hg⟩ := typeFilterSearch_of_form (to_lower name) type []
    (by
      intro c hc
      simp only [to_lower, List.mem_map] at hc
      obtain ⟨d, hd, rfl⟩ := hc
      exact isLineTerminator_toLowerChar d (hn d hd)) hne ht
  have hstrip : stripTrailingHashes (to_lower (name ++ " (".toList ++ type ++ ")".toList)) =
      to_lower name ++ ' ' :: '(' :: (type ++ [')']) := by
    rw [hlow, stripTrailingHashes_of_paren, hform]
  unfold parseQuery
  simp only [hstrip, typeFilterRegex, hg]
  exact trim_copy_of_no_space type (fun c hc => isSpace_of_isLowerAlpha c (ht c hc))

theorem lookupStages_filtered (m : SymbolMap) (searchName typeFilter : Str)
    (hne : typeFilter ≠ []) :
    ∀ s ∈ lookupStages m searchName typeFilter, starts_with s.type typeFilter = true := by
  have he : typeFilter.isEmpty = false := isEmpty_false_of_ne_nil _ hne
  have hpass : ∀ s, passesTypeFilter typeFilter s = true → starts_with s.type typeFilter = true := by
    intro s h
    simpa [passesTypeFilter, he] using h
  intro s hs
  unfold lookupStages at hs
  cases hx : exactStage m searchName typeFilter with
  | some results =>
    rw [hx] at hs
    simp only at hs
    unfold exactStage at hx
    cases hb : findBucket m searchName with
    | none => rw [hb] at hx; simp at hx
    | some bucket =>
      rw [hb] at hx
      simp only [he, Bool.not_false, if_true] at hx
      split at hx
      · injection hx with hx
        rw [← hx] at hs
        exact (List.mem_filter.mp hs).2
      · simp at hx
  | none =>
    rw [hx] at hs
    simp only at hs
    split at hs
    · have := (List.mem_filter.mp hs).2
      unfold headerStageAccepts at this
      simp only [Bool.and_eq_true] at this
      exact hpass s this.1.1
    · split at hs
      · split at hs
        · exact absurd hs (List.not_mem_nil _)
        · split at hs
          · exact absurd hs (List.not_mem_nil _)
          · have := (List.mem_filter.mp hs).2
            unfold generalStageAccepts at this
            simp only [Bool.and_eq_true] at this
            exact hpass s this.1
      · exact absurd hs (List.not_mem_nil _)

/-- C19 (amended): for a query `name (type)` in which `name` has no line feed
and no carriage return and `type` is a non-empty run of lower-case letters,
every symbol that `findSymbol` returns, from whichever stage, has a type that
starts with `type`. -/
theorem C19_type_filter_restricts_results (mach : Machine) (name type : Str)
    (hn : ∀ c ∈ name, isLineTerminator c = false) (hne : type ≠ [])
    (ht : ∀ c ∈ type, isLowerAlpha c = true) :
    ∀ s ∈ (findSymbol mach (name ++ " (".toList ++ type ++ ")".toList)).1,
      starts_with s.type type = true := by
  intro s hs
  unfold findSymbol at hs
  simp only [parseQuery_of_form name type hn hne ht] at hs
  exact lookupStages_filtered _ _ type hne s hs

/-- C19, witness: the query `foo (func)` on a store that holds the function
`foo`. -/
theorem C19_type_filter_restricts_results_witness :
    (findSymbol (Machine.ofStore (addSymbolNoLock [] fooSymbol)) "foo (func)".toList).1 =
      [fooSymbol] ∧
    starts_with fooSymbol.type "func".toList = true :=
  ⟨by decide,
   C19_type_filter_restricts_results (Machine.ofStore (addSymbolNoLock [] fooSymbol))
     "foo".toList "func".toList (by decide) (by decide) (by decide) fooSymbol (by decide)⟩

/-- C19, counterexample: the store holds the file symbol of a file whose name
is `x`, a line feed, and `y (function)`. The query made of that name `x`, line
feed, `y` and the type `function` is not split, because the first group of the
filter regex does not match a line feed; the whole query is looked up and the
file symbol, whose type does not start with `function`, is returned. -/
theorem C19_counterexample :
    "x\ny (function)".toList = "x\ny".toList ++ " (".toList ++ "function".toList ++ ")".toList ∧
    parseQuery "x\ny (function)".toList = ("x\ny (function)".toList, []) ∧
    (findSymbol (Machine.ofStore (addSymbolNoLock [] oddFileSymbol))
      "x\ny (function)".toList).1 = [oddFileSymbol] ∧
    starts_with oddFileSymbol.type "function".toList = false := by
  refine ⟨?_, ?_, ?_, ?_⟩ <;> decide

/-! ## The lock discipline -/

/-- C20: `addSymbol` writes to the store while it holds the mutex, but the three
overlay handlers do not: on a built index, `onSourceDocUpdated` (for a document
with content, whatever the number of symbols found in it), `onSourceDocRemoved`
(for a saved document) and `onAllSourceDocsRemoved` write to the store without
holding the mutex, as does `removeSymbolsForFile` when its caller holds no
lock. -/
theorem C20_overlay_handlers_write_without_lock (found : Nat) :
    mutatesUnderLock false Locking.addSymbol = true ∧
    mutatesUnderLock false (Locking.onSourceDocUpdated true false found) = false ∧
    mutatesUnderLock false (Locking.onSourceDocRemoved true false) = false ∧
    mutatesUnderLock false (Locking.onAllSourceDocsRemoved true) = false ∧
    mutatesUnderLock false Locking.removeSymbolsForFile = false ∧
    mutatesUnderLock true Locking.removeSymbolsForFile = true := by
  refine ⟨by decide, ?_, by decide, by decide, by decide, by decide⟩
  simp [Locking.onSourceDocUpdated, Locking.removeSymbolsForFile, mutatesUnderLock]

/-! ## The end line and the children after a build -/

set_option maxRecDepth 100000 in
theorem builtStore_c12 :
    allSymbols (builtStore "notes.md".toList c12Text) = [c12File, c12HeaderA, c12HeaderB] := by
  decide!

/-- C12: after the build of a Markdown file with the header `A` on line 1 and
the header `B` of level 2 on line 3, the last of its four lines being empty,
no header of level 1 follows `A` and the file symbol ends on line 4, but `A`
ends on line 2, the line before the next header of any level, where the
extractor left it. -/
theorem C12_header_end_before_next_header :
    c12HeaderA ∈ allSymbols (builtStore "notes.md".toList c12Text) ∧
    c12HeaderA.lineEnd = 2 ∧
    c12File ∈ allSymbols (builtStore "notes.md".toList c12Text) ∧
    c12File.lineEnd = 4 ∧
    (∀ s ∈ allSymbols (builtStore "notes.md".toList c12Text),
      isHeaderType s.type = true → s.lineStart > c12HeaderA.lineStart →
      headerLevel 0 s.type > headerLevel 0 c12HeaderA.type) := by
  rw [builtStore_c12]
  decide

set_option maxRecDepth 100000 in
theorem builtStore_c14 :
    (allSymbols (builtStore "doc.Rmd".toList c14Text)).map
      (fun s => (s.name, s.type, s.parents, s.children)) =
    [("doc.Rmd".toList, "file".toList, "/proj".toList, ["setup".toList, "f".toList]),
     ("setup".toList, "chunk".toList, "/proj/doc.Rmd".toList, ["f".toList]),
     ("f".toList, "function".toList, "setup".toList, [])] := by
  decide!

/-- C14: after the build of an R Markdown file whose chunk `setup` defines the
function `f`, the function has the chunk as parent and is a child of the
chunk, and the file symbol lists it as a child all the same, after the chunk. -/
theorem C14_function_of_named_chunk_listed :
    (allSymbols (builtStore "doc.Rmd".toList c14Text)).map
      (fun s => (s.name, s.type, s.parents, s.children)) =
    [("doc.Rmd".toList, "file".toList, "/proj".toList, ["setup".toList, "f".toList]),
     ("setup".toList, "chunk".toList, "/proj/doc.Rmd".toList, ["f".toList]),
     ("f".toList, "function".toList, "setup".toList, [])] ∧
    starts_with "setup".toList "chunk_".toList = false :=
  ⟨builtStore_c14, by decide⟩

set_option maxRecDepth 100000 in
theorem functionNames_dotted_r :
    functionNames (indexRFromString "my.func <- function(x) \x7b\x7d".toList
      "/proj/a.R".toList []) = ["my.func".toList] := by
  decide!

set_option maxRecDepth 100000 in
theorem functionNames_dotted_chunk :
    functionNames (indexMarkdownFromString (asRChunk "my.func <- function(x) \x7b\x7d".toList)
      "/proj/a.Rmd".toList []) = ["func".toList] := by
  decide!

set_option maxRecDepth 100000 in
theorem functionNames_spaced_r :
    functionNames (indexRFromString "f <- function (x) \x7b\x7d".toList
      "/proj/a.R".toList []) = [] := by
  decide!

set_option maxRecDepth 100000 in
theorem functionNames_spaced_chunk :
    functionNames (indexMarkdownFromString (asRChunk "f <- function (x) \x7b\x7d".toList)
      "/proj/a.Rmd".toList []) = ["f".toList] := by
  decide!

/-- C16: for the R code `my.func <- function(x) {}` the R extractor reports the
function `my.func` and the Markdown extractor, for the same code in an R
chunk, the function `func`; for `f <- function (x) {}` the R extractor reports
no function and the Markdown extractor the function `f`. -/
theorem C16_chunk_and_file_names_differ :
    functionNames (indexRFromString "my.func <- function(x) \x7b\x7d".toList
      "/proj/a.R".toList []) = ["my.func".toList] ∧
    functionNames (indexMarkdownFromString (asRChunk "my.func <- function(x) \x7b\x7d".toList)
      "/proj/a.Rmd".toList []) = ["func".toList] ∧
    functionNames (indexRFromString "f <- function (x) \x7b\x7d".toList
      "/proj/a.R".toList []) = [] ∧
    functionNames (indexMarkdownFromString (asRChunk "f <- function (x) \x7b\x7d".toList)
      "/proj/a.Rmd".toList []) = ["f".toList] :=
  ⟨functionNames_dotted_r, functionNames_dotted_chunk, functionNames_spaced_r,
    functionNames_spaced_chunk⟩

/-! ## Function definitions on one line -/

theorem indexRLines_eq_foldl (path : Str) (lines : List Str) (i : Nat) (st : RState)
    (m : SymbolMap) :
    indexRLines path i lines st m = (indexRLinesSymbols path i lines st).foldl addSymbolNoLock m := by
  induction lines generalizing i st m with
  | nil => rfl
  | cons line rest ih =>
    simp only [indexRLines, indexRLinesSymbols, List.foldl_append]
    exact ih _ _ _

theorem indexRFromString_eq_foldl (content path : Str) (m : SymbolMap) :
    indexRFromString content path m = (indexRSymbols content path).foldl addSymbolNoLock m :=
  indexRLines_eq_foldl _ _ _ _ _

/-- A balanced text leaves the depth walk where it was. -/
theorem balancedFrom_append (o c : Char) (s t : Str) (e d : Nat)
    (h : balancedFrom o c e s = true) :
    balancedFrom o c (d + e) (s ++ t) = balancedFrom o c d t := by
  induction s generalizing e with
  | nil =>
    simp only [balancedFrom, beq_iff_eq] at h
    subst h
    rfl
  | cons x rest ih =>
    simp only [balancedFrom] at h
    simp only [List.cons_append, balancedFrom]
    by_cases hx : (x == o) = true
    · simp only [hx, if_true] at h ⊢
      exact ih (e + 1) h
    · simp only [hx, Bool.false_eq_true, if_false] at h ⊢
      by_cases hy : (x == c) = true
      · simp only [hy, if_true, Bool.and_eq_true, decide_eq_true_eq] at h ⊢
        have h1 : 1 ≤ d + e := by omega
        have e1 : d + e - 1 = d + (e - 1) := by omega
        simp only [h1, decide_True, Bool.true_and, e1]
        exact ih (e - 1) h.2
      · simp only [hy, Bool.false_eq_true, if_false] at h ⊢
        exact ih e h

theorem balancedFrom_of_none (o c : Char) (s t : Str) (d : Nat)
    (h : ∀ x ∈ s, x ≠ o ∧ x ≠ c) : balancedFrom o c d (s ++ t) = balancedFrom o c d t := by
  induction s with
  | nil => rfl
  | cons x rest ih =>
    obtain ⟨h1, h2⟩ := h x (List.mem_cons_self _ _)
    have e1 : (x == o) = false := by simpa using h1
    have e2 : (x == c) = false := by simpa using h2
    simp only [List.cons_append, balancedFrom, e1, e2, Bool.false_eq_true, if_false]
    exact ih (fun y hy => h y (List.mem_cons_of_mem _ hy))

/-- The scan for the closing parenthesis runs over a balanced text. -/
theorem findClosing_append (o c : Char) (s t : Str) (e d p : Nat) (hd : 1 ≤ d)
    (h : balancedFrom o c e s = true) :
    findClosing o c ((d + e : Nat) : Int) p (s ++ t) = findClosing o c (d : Int) (p + s.length) t := by
  induction s generalizing e p with
  | nil =>
    simp only [balancedFrom, beq_iff_eq] at h
    subst h
    rfl
  | cons x rest ih =>
    simp only [balancedFrom] at h
    simp only [List.cons_append, findClosing, List.length_cons]
    by_cases hx : (x == o) = true
    · simp only [hx, if_true] at h ⊢
      have := ih (e + 1) (p + 1) h
      have e1 : ((d + e : Nat) : Int) + 1 = ((d + (e + 1) : Nat) : Int) := by
        push_cast
        ring
      rw [show p + (rest.length + 1) = p + 1 + rest.length by omega, e1]
      exact this
    · simp only [hx, Bool.false_eq_true, if_false] at h ⊢
      by_cases hy : (x == c) = true
      · simp only [hy, if_true, Bool.and_eq_true, decide_eq_true_eq] at h ⊢
        have hne : (((d + e : Nat) : Int) - 1 == 0) = false := by
          simp only [beq_eq_false_iff_ne, ne_eq]
          omega
        simp only [hne, Bool.false_eq_true, if_false]
        have := ih (e - 1) (p + 1) h.2
        have e1 : ((d + e : Nat) : Int) - 1 = ((d + (e - 1) : Nat) : Int) := by omega
        rw [show p + (rest.length + 1) = p + 1 + rest.length by omega, e1]
        exact this
      · simp only [hy, Bool.false_eq_true, if_false] at h ⊢
        have := ih e (p + 1) h
        rw [show p + (rest.length + 1) = p + 1 + rest.length by omega]
        exact this

/-- The brace scan of `indexRFromString` finds the end on a text whose braces
are balanced, when a brace is open or one is still to come. -/
theorem scanBraces_of_balanced (s : Str) (d : Nat) (found : Bool)
    (hf : found = false → d = 0) (h : balancedFrom '\x7b' '\x7d' d s = true)
    (hopen : 1 ≤ d ∨ '\x7b' ∈ s) : (scanBraces (d : Int) found s).1 = true := by
  induction s generalizing d found with
  | nil =>
    simp only [balancedFrom, beq_iff_eq] at h
    rcases hopen with h1 | h1
    · omega
    · exact absurd h1 (List.not_mem_nil _)
  | cons x rest ih =>
    simp only [balancedFrom] at h
    simp only [scanBraces]
    by_cases hx : (x == '\x7b') = true
    · simp only [hx, if_true] at h ⊢
      have := ih (d + 1) true (fun hh => absurd hh (by decide)) h (Or.inl (by omega))
      simpa using this
    · simp only [hx, Bool.false_eq_true, if_false] at h ⊢
      by_cases hy : (x == '\x7d') = true
      · simp only [hy, if_true, Bool.and_eq_true, decide_eq_true_eq] at h ⊢
        have hfound : found = true := by
          cases found with
          | true => rfl
          | false => have := hf rfl; omega
        subst hfound
        by_cases h0 : d = 1
        · subst h0
          simp
        · have hne : (((d : Nat) : Int) - 1 == 0) = false := by
            simp only [beq_eq_false_iff_ne, ne_eq]
            omega
          simp only [hne, Bool.and_false, Bool.false_eq_true, if_false]
          have := ih (d - 1) true (fun hh => absurd hh (by decide)) h.2 (Or.inl (by omega))
          have e1 : ((d - 1 : Nat) : Int) = (d : Int) - 1 := by omega
          rw [e1] at this
          exact this
      · simp only [hy, Bool.false_eq_true, if_false] at h ⊢
        refine ih d found hf h ?_
        rcases hopen with h1 | h1
        · exact Or.inl h1
        · rcases List.mem_cons.mp h1 with h2 | h2
          · subst h2
            exact absurd (by decide) hx
          · exact Or.inr h2

theorem ne_of_isRIdentChar (c d : Char) (hc : isRIdentChar c = true)
    (hd : isRIdentChar d = false) : c ≠ d := by
  rintro rfl
  rw [hc] at hd
  exact absurd hd (by decide)

theorem isRIdentChar_of_isRIdentStart (c : Char) (h : isRIdentStart c = true) :
    isRIdentChar c = true := by
  simp only [isRIdentStart, isRIdentChar, Bool.or_eq_true] at h ⊢
  rcases h with (h | h) | h
  · exact Or.inl (Or.inl (Or.inl h))
  · exact Or.inl (Or.inr h)
  · exact Or.inr h

theorem isRIdentifier_chars (name : Str) (h : isRIdentifier name = true) :
    ∀ c ∈ name, isRIdentChar c = true := by
  cases name with
  | nil => simp [isRIdentifier] at h
  | cons c rest =>
    simp only [isRIdentifier, Bool.and_eq_true, List.all_eq_true] at h
    intro d hd
    rcases List.mem_cons.mp hd with rfl | h1
    · exact isRIdentChar_of_isRIdentStart _ h.1
    · exact h.2 d h1

theorem assignmentOpAt_of_isRIdentChar (c : Char) (s : Str) (hc : isRIdentChar c = true) :
    assignmentOpAt (c :: s) = none := by
  have h1 := ne_of_isRIdentChar c '<' hc (by decide)
  have h2 := ne_of_isRIdentChar c '-' hc (by decide)
  have h3 := ne_of_isRIdentChar c ':' hc (by decide)
  have h4 := ne_of_isRIdentChar c '=' hc (by decide)
  simp [assignmentOpAt, assignmentOps, starts_with, h1, h2, h3, h4]

/-- The first assignment operator of a line that starts with an identifier
followed by ` <-` is that arrow. -/
theorem searchAssignmentOp_of_name (name tail : Str) (h : ∀ c ∈ name, isRIdentChar c = true) :
    searchAssignmentOp (name ++ ' ' :: '<' :: '-' :: tail) =
      some (name ++ [' '], "<-".toList, tail) := by
  induction name with
  | nil =>
    simp [searchAssignmentOp, assignmentOpAt, assignmentOps, starts_with]
  | cons c rest ih =>
    have hc := h c (List.mem_cons_self _ _)
    have ih1 := ih (fun d hd => h d (List.mem_cons_of_mem _ hd))
    simp only [List.cons_append, searchAssignmentOp, assignmentOpAt_of_isRIdentChar _ _ hc]
    change (match searchAssignmentOp (rest ++ ' ' :: '<' :: '-' :: tail) with
      | some (before, op, after) => some (c :: before, op, after)
      | none => none) = _
    rw [ih1]

theorem trimRightBlank_of_name (name : Str) (hne : name ≠ [])
    (h : ∀ c ∈ name, isRIdentChar c = true) : trimRightBlank (name ++ [' ']) = name := by
  rcases List.eq_nil_or_concat name with h0 | ⟨front, c, h0⟩
  · exact absurd h0 hne
  · have hc : isRIdentChar c = true := h c (by rw [h0]; simp)
    have hb : isBlank c = false := by
      have h1 := ne_of_isRIdentChar c ' ' hc (by decide)
      have h2 := ne_of_isRIdentChar c '\t' hc (by decide)
      simp [isBlank, h1, h2]
    have hall : (name ++ [' ']).all isBlank = false := by
      rw [h0]
      simp only [List.all_append, List.all_cons, List.all_nil, hb, Bool.and_true,
        Bool.false_and, Bool.and_false, List.concat_eq_append]
    unfold trimRightBlank
    rw [hall]
    simp only [Bool.false_eq_true, if_false]
    rw [dropEndWhile_append_of_all isBlank name [' '] (by simp [isBlank]), h0,
      List.concat_eq_append, dropEndWhile_of_last isBlank front c hb]

theorem searchRIdentifier_of_name (name : Str) (h : isRIdentifier name = true) :
    searchRIdentifier name = some name := by
  cases name with
  | nil => simp [isRIdentifier] at h
  | cons c rest =>
    simp only [isRIdentifier, Bool.and_eq_true, List.all_eq_true] at h
    simp only [searchRIdentifier, h.1, if_true, Option.some.injEq, List.cons.injEq, true_and]
    exact List.takeWhile_eq_self_iff.mpr h.2

/-- The signature read from `function(ARGS)` followed by anything, when the
parentheses of the arguments are balanced. -/
theorem rSignature_of_args (args tail : Str) (h : Balanced '(' ')' args) :
    rSignature ("function(".toList ++ args ++ ')' :: tail) =
      "function(".toList ++ args ++ ")".toList := by
  have e0 : "function(".toList ++ args ++ ')' :: tail =
      'f' :: 'u' :: 'n' :: 'c' :: 't' :: 'i' :: 'o' :: 'n' :: '(' :: (args ++ ')' :: tail) := by
    simp
  have hclose : findClosing '(' ')' 0 8 ('(' :: (args ++ ')' :: tail)) =
      some (9 + args.length) := by
    have := findClosing_append '(' ')' args (')' :: tail) 0 1 9 (le_refl 1) h
    simp only [findClosing]
    simp only [Nat.add_zero, Nat.cast_one] at this
    simp only [beq_self_eq_true, if_true, zero_add]
    rw [this]
    simp [findClosing]
  rw [e0]
  unfold rSignature
  simp only [hasFunctionKeyword, starts_with, List.drop, List.dropWhile, isSpace,
    List.takeWhile, List.length_cons, hclose]
  simp
  rw [hclose]
  simp only [Option.getD_some]
  rw [if_pos (by omega), show 9 + args.length - 8 = args.length + 1 by omega,
    List.take_append_eq_append_take]
  simp

theorem functionLine_eq (name args body : Str) :
    functionLine name args body =
      name ++ ' ' :: '<' :: '-' :: ' ' ::
        ("function(".toList ++ args ++ ')' :: (" \x7b ".toList ++ body ++ " \x7d".toList)) := by
  simp [functionLine]

/-- The braces of the line `NAME <- function(ARGS) { BODY }` are balanced when
those of the arguments and of the body are. -/
theorem functionLine_balanced (name args body : Str) (hn : ∀ c ∈ name, isRIdentChar c = true)
    (ha : Balanced '\x7b' '\x7d' args) (hb : Balanced '\x7b' '\x7d' body) :
    balancedFrom '\x7b' '\x7d' 0 (functionLine name args body) = true := by
  have h1 : ∀ x ∈ name, x ≠ '\x7b' ∧ x ≠ '\x7d' := fun x hx =>
    ⟨ne_of_isRIdentChar x _ (hn x hx) (by decide), ne_of_isRIdentChar x _ (hn x hx) (by decide)⟩
  have h2 : ∀ x ∈ " <- function(".toList, x ≠ '\x7b' ∧ x ≠ '\x7d' := by decide
  have e : functionLine name args body =
      name ++ (" <- function(".toList ++ (args ++ (')' :: ' ' :: '\x7b' :: ' ' ::
        (body ++ " \x7d".toList)))) := by
    simp [functionLine]
  rw [e, balancedFrom_of_none _ _ _ _ _ h1, balancedFrom_of_none _ _ _ _ _ h2]
  have h3 := balancedFrom_append '\x7b' '\x7d' args
    (')' :: ' ' :: '\x7b' :: ' ' :: (body ++ " \x7d".toList)) 0 0 ha
  rw [Nat.add_zero] at h3
  rw [h3]
  have h4 := balancedFrom_append '\x7b' '\x7d' body " \x7d".toList 0 1 hb
  rw [Nat.add_zero] at h4
  simp only [balancedFrom]
  simp only [show ((')' : Char) == '\x7b') = false by decide,
    show ((')' : Char) == '\x7d') = false by decide,
    show ((' ' : Char) == '\x7b') = false by decide,
    show ((' ' : Char) == '\x7d') = false by decide, beq_self_eq_true, if_true,
    Bool.false_eq_true, if_false, Nat.zero_add]
  rw [h4]
  decide

theorem findFunctionEnd_functionLine (name args body : Str) (rest : List Str) (i : Nat)
    (hn : ∀ c ∈ name, isRIdentChar c = true)
    (ha : Balanced '\x7b' '\x7d' args) (hb : Balanced '\x7b' '\x7d' body) :
    findFunctionEnd i 0 false (functionLine name args body :: rest) = some i := by
  have hmem : '\x7b' ∈ functionLine name args body := by
    simp [functionLine]
  have h := scanBraces_of_balanced (functionLine name args body) 0 false (fun _ => rfl)
    (functionLine_balanced name args body hn ha hb) (Or.inr hmem)
  rcases hs : scanBraces 0 false (functionLine name args body) with ⟨b, c1, f1⟩
  have h0 : scanBraces ((0 : Nat) : Int) false (functionLine name args body) = (b, c1, f1) := hs
  rw [h0] at h
  simp only at h
  subst h
  simp only [findFunctionEnd, hs]

/-- What `indexRFromString` adds for the line `NAME <- function(ARGS) { BODY }`
with index `i`. -/
theorem rFunctionDefinition_functionLine (path name args body : Str) (rest : List Str) (i : Nat)
    (st : RState) (hname : isRIdentifier name = true) (hp : Balanced '(' ')' args)
    (ha : Balanced '\x7b' '\x7d' args) (hb : Balanced '\x7b' '\x7d' body) :
    ∃ parents, rFunctionDefinition path i (functionLine name args body) rest st =
      some (Symbol.make name "function".toList path ((i : Int) + 1) ((i : Int) + 1) parents
        ("function(".toList ++ args ++ ")".toList)) := by
  have hn := isRIdentifier_chars name hname
  have hne : name ≠ [] := by
    rintro rfl
    simp [isRIdentifier] at hname
  have hend := findFunctionEnd_functionLine name args body rest i hn ha hb
  have hsearch := searchAssignmentOp_of_name name
    (' ' :: ("function(".toList ++ args ++ ')' :: (" \x7b ".toList ++ body ++ " \x7d".toList))) hn
  rw [← functionLine_eq] at hsearch
  have htrim : trimLeftBlank
      (' ' :: ("function(".toList ++ args ++ ')' :: (" \x7b ".toList ++ body ++ " \x7d".toList))) =
      "function(".toList ++ args ++ ')' :: (" \x7b ".toList ++ body ++ " \x7d".toList) := by
    simp [trimLeftBlank, isBlank]
  have hstart : starts_with
      ("function(".toList ++ args ++ ')' :: (" \x7b ".toList ++ body ++ " \x7d".toList))
      "function(".toList = true := by
    simp [starts_with]
  refine ⟨if st.currentFunction.isEmpty then st.currentNamespace
    else if st.currentNamespace.isEmpty then st.currentFunction
    else st.currentNamespace ++ "::".toList ++ st.currentFunction, ?_⟩
  unfold rFunctionDefinition
  simp only [hsearch, trimRightBlank_of_name name hne hn, searchRIdentifier_of_name name hname,
    htrim, hstart, Bool.true_or, if_true, hend, Option.getD_some,
    rSignature_of_args args _ hp]

theorem rFunctionDefinition_lineStart (path line : Str) (rest : List Str) (i : Nat) (st : RState)
    (s : Symbol) (h : rFunctionDefinition path i line rest st = some s) :
    s.lineStart = (i : Int) + 1 := by
  unfold rFunctionDefinition at h
  split at h
  · exact absurd h (by simp)
  · split at h
    · exact absurd h (by simp)
    · split_ifs at h <;>
        (simp at h
         rw [← h.2]
         rfl)

/-- Every symbol added for the line with index `i` starts on line `i + 1`. -/
theorem indexRLine_lineStart (path line : Str) (rest : List Str) (i : Nat) (st : RState)
    (s : Symbol) (h : s ∈ (indexRLine path i line rest st).1) : s.lineStart = (i : Int) + 1 := by
  unfold indexRLine at h
  by_cases hc : ((line.dropWhile isBlank).isEmpty ||
      (line.dropWhile isBlank).head? == some '#') = true
  · simp only [hc, if_true] at h
    exact absurd h (List.not_mem_nil _)
  · simp only [hc, Bool.false_eq_true, if_false, List.mem_append] at h
    rcases h with (h | h) | h
    · rw [Option.mem_toList] at h
      exact rFunctionDefinition_lineStart _ _ _ _ _ _ h
    · split_ifs at h
      · rw [List.mem_singleton] at h
        rw [h]
        rfl
      · simp at h
    · split at h
      · rw [List.mem_singleton] at h
        rw [h]
        rfl
      · simp at h

/-- The symbols added for the line `NAME <- function(ARGS) { BODY }` start with
the function symbol. -/
theorem indexRLine_functionLine (path name args body : Str) (rest : List Str) (i : Nat)
    (st : RState) (hname : isRIdentifier name = true) (hp : Balanced '(' ')' args)
    (ha : Balanced '\x7b' '\x7d' args) (hb : Balanced '\x7b' '\x7d' body) :
    ∃ parents tail, (indexRLine path i (functionLine name args body) rest st).1 =
      Symbol.make name "function".toList path ((i : Int) + 1) ((i : Int) + 1) parents
        ("function(".toList ++ args ++ ")".toList) :: tail := by
  obtain ⟨parents, hdef⟩ :=
    rFunctionDefinition_functionLine path name args body rest i st hname hp ha hb
  refine ⟨parents, ?_⟩
  cases name with
  | nil => simp [isRIdentifier] at hname
  | cons c cs =>
    have hc : isRIdentChar c = true := isRIdentifier_chars _ hname c (List.mem_cons_self _ _)
    have h1 := ne_of_isRIdentChar c ' ' hc (by decide)
    have h2 := ne_of_isRIdentChar c '\t' hc (by decide)
    have h3 := ne_of_isRIdentChar c '#' hc (by decide)
    have hline : ∃ tail, functionLine (c :: cs) args body = c :: tail := ⟨_, rfl⟩
    obtain ⟨tail, htail⟩ := hline
    have hdrop : (functionLine (c :: cs) args body).dropWhile isBlank = c :: tail := by
      have hb1 : isBlank c = false := by simp [isBlank, h1, h2]
      rw [htail, List.dropWhile_cons_of_neg (by simp [hb1])]
    have h4 : (some c == some '#') = false := by simp [h3]
    unfold indexRLine
    simp only [hdrop, List.isEmpty_cons, List.head?_cons, h4, Bool.or_self, Bool.false_eq_true,
      if_false, hdef, Option.toList_some, List.singleton_append, List.cons_append]
    exact ⟨_, rfl⟩

/-- The symbols added before the line with index `i + j` start before it. -/
theorem indexRLinesSymbols_at (path : Str) (lines : List Str) (i j : Nat) (st : RState)
    (line : Str) (h : lines[j]? = some line) :
    ∃ st1 pre post, indexRLinesSymbols path i lines st =
        pre ++ (indexRLine path (i + j) line (lines.drop (j + 1)) st1).1 ++ post ∧
      ∀ u ∈ pre, u.lineStart < (i : Int) + j + 1 := by
  induction lines generalizing i j st with
  | nil => simp at h
  | cons l ls ih =>
    cases j with
    | zero =>
      simp only [List.getElem?_cons_zero, Option.some.injEq] at h
      subst h
      exact ⟨st, [], indexRLinesSymbols path (i + 1) ls (indexRLine path i l ls st).2,
        by simp [indexRLinesSymbols], by simp⟩
    | succ j =>
      simp only [List.getElem?_cons_succ] at h
      obtain ⟨st1, pre, post, heq, hpre⟩ := ih (i + 1) j (indexRLine path i l ls st).2 h
      refine ⟨st1, (indexRLine path i l ls st).1 ++ pre, post, ?_, ?_⟩
      · simp only [indexRLinesSymbols, heq, List.drop_succ_cons, List.append_assoc]
        rw [show i + 1 + j = i + (j + 1) by omega]
      · intro u hu
        rcases List.mem_append.mp hu with h1 | h1
        · have := indexRLine_lineStart _ _ _ _ _ _ h1
          push_cast
          omega
        · have := hpre u h1
          push_cast at this ⊢
          omega

/-- A symbol is stored by a run of `addSymbolNoLock` when no stored symbol and
no symbol added before it has its name, path and start line. -/
theorem mem_foldl_addSymbolNoLock_of_fresh (pre post : List Symbol) (s : Symbol) (m : SymbolMap)
    (hwf : StoreWF m) (hm : ∀ u ∈ allSymbols m, ¬ SameIdentity u s)
    (hpre : ∀ u ∈ pre, ¬ SameIdentity u s) :
    s ∈ allSymbols ((pre ++ s :: post).foldl addSymbolNoLock m) := by
  rw [List.foldl_append, List.foldl_cons]
  refine foldl_addSymbolNoLock_keeps post _ s ?_
  refine (mem_allSymbols_addSymbolNoLock _ s s (storeWF_foldl_addSymbolNoLock pre m hwf)).mpr
    (Or.inr ⟨rfl, fun u hu => ?_⟩)
  rcases foldl_addSymbolNoLock_sub pre m u hwf hu with h1 | h1
  · exact hm u h1
  · exact hpre u h1

/-- C11 (amended): for R content in which line `k` has the form
`NAME <- function(ARGS) { BODY }`, with `NAME` an R identifier at the start of
the line, the parentheses and the braces of `ARGS` and the braces of `BODY`
balanced on that line, the R extractor emits a symbol with name `NAME`, type
"function", `lineStart = k`, `lineEnd = k` and signature "function(ARGS)"; the
symbol is in the store afterwards when the store held no symbol with this
name, path and start line before. -/
theorem C11_one_line_function_symbol (content path name args body : Str) (k : Nat)
    (m : SymbolMap) (hk : 1 ≤ k)
    (hline : (splitAny "\n".toList content)[k - 1]? = some (functionLine name args body))
    (hname : isRIdentifier name = true) (hp : Balanced '(' ')' args)
    (ha : Balanced '\x7b' '\x7d' args) (hb : Balanced '\x7b' '\x7d' body) :
    ∃ s ∈ indexRSymbols content path,
      s.name = name ∧ s.type = "function".toList ∧ s.filePath = path ∧
      s.lineStart = (k : Int) ∧ s.lineEnd = (k : Int) ∧
      s.signature = "function(".toList ++ args ++ ")".toList ∧
      (StoreWF m → (∀ u ∈ allSymbols m, ¬ SameIdentity u s) →
        s ∈ allSymbols (indexRFromString content path m)) := by
  obtain ⟨st1, pre, post, heq, hpre⟩ := indexRLinesSymbols_at path
    (splitAny "\n".toList content) 0 (k - 1)
    { currentNamespace := [], currentFunction := [], currentFunctionStart := -1,
      functionStack := [] } _ hline
  obtain ⟨parents, b, hab⟩ := indexRLine_functionLine path name args body
    ((splitAny "\n".toList content).drop (k - 1 + 1)) (0 + (k - 1)) st1 hname hp ha hb
  have hk1 : ((0 + (k - 1) : Nat) : Int) + 1 = (k : Int) := by omega
  rw [hk1] at hab
  have hall : indexRSymbols content path =
      pre ++ Symbol.make name "function".toList path k k parents
        ("function(".toList ++ args ++ ")".toList) :: (b ++ post) := by
    unfold indexRSymbols
    rw [heq, hab]
    simp
  refine ⟨Symbol.make name "function".toList path k k parents
    ("function(".toList ++ args ++ ")".toList), by rw [hall]; simp, rfl, rfl, rfl, rfl, rfl, rfl,
    fun hwf hm => ?_⟩
  rw [indexRFromString_eq_foldl, hall]
  refine mem_foldl_addSymbolNoLock_of_fresh _ _ _ m hwf hm (fun u hu hsame => ?_)
  have hstart : u.lineStart = (k : Int) := hsame.2.2
  have := hpre u hu
  push_cast at this
  omega

/-- C11, witness: `foo <- function(x) { x + 1 }` at line 1 gives the symbol
`foo`, lines 1 to 1, with the signature `function(x)`. -/
theorem C11_one_line_function_symbol_witness :
    ∃ s ∈ indexRSymbols "foo <- function(x) \x7b x + 1 \x7d".toList "a.R".toList,
      s.name = "foo".toList ∧ s.type = "function".toList ∧ s.filePath = "a.R".toList ∧
      s.lineStart = ((1 : Nat) : Int) ∧ s.lineEnd = ((1 : Nat) : Int) ∧
      s.signature = "function(".toList ++ "x".toList ++ ")".toList ∧
      (StoreWF [] → (∀ u ∈ allSymbols [], ¬ SameIdentity u s) →
        s ∈ allSymbols (indexRFromString "foo <- function(x) \x7b x + 1 \x7d".toList
          "a.R".toList [])) :=
  C11_one_line_function_symbol "foo <- function(x) \x7b x + 1 \x7d".toList "a.R".toList
    "foo".toList "x".toList "x + 1".toList 1 [] (by decide) (by decide) (by decide) (by decide)
    (by decide) (by decide)

/-- C11, counterexample: the line `foo <- function(x = "{") { x }` has the form
of the claim (the arguments have no parenthesis, the body has no brace), and
the symbol that the R extractor emits for it ends on line 2, after the closing
brace of the next line: the braces of the arguments are counted too. -/
theorem C11_counterexample :
    (splitAny "\n".toList c11Text)[0]? = some (functionLine "foo".toList c11Args "x".toList) ∧
    isRIdentifier "foo".toList = true ∧ Balanced '(' ')' c11Args ∧
    Balanced '\x7b' '\x7d' "x".toList ∧
    indexRSymbols c11Text "a.R".toList =
      [Symbol.make "foo".toList "function".toList "a.R".toList 1 2 []
        ("function(".toList ++ c11Args ++ ")".toList)] := by
  decide

/-! ## Updates of the end line in place -/

theorem sameCore_refl (a : Symbol) : SameCore a a := ⟨rfl, rfl, rfl, rfl⟩

theorem allSymbols_cons (k : Str) (b : List Symbol) (rest : SymbolMap) :
    allSymbols ((k, b) :: rest) = b ++ allSymbols rest := by
  simp [allSymbols]

theorem length_modifyAt {α : Type} (f : α → α) (i : Nat) (arr : List α) :
    (modifyAt f i arr).length = arr.length := by
  induction arr generalizing i with
  | nil => cases i <;> rfl
  | cons a rest ih =>
    cases i with
    | zero => rfl
    | succ j => simp [modifyAt, ih]

theorem getD_modifyAt_ne {α : Type} (f : α → α) (i j : Nat) (arr : List α) (d : α)
    (h : j ≠ i) : (modifyAt f i arr).getD j d = arr.getD j d := by
  induction arr generalizing i j with
  | nil => cases i <;> rfl
  | cons a rest ih =>
    cases i with
    | zero =>
      cases j with
      | zero => exact absurd rfl h
      | succ k => rfl
    | succ i1 =>
      cases j with
      | zero => rfl
      | succ k =>
        simp only [modifyAt, List.getD_cons_succ]
        exact ih i1 k (fun e => h (by rw [e]))

theorem getD_modifyAt_self {α : Type} (f : α → α) (i : Nat) (arr : List α) (d : α)
    (h : i < arr.length) : (modifyAt f i arr).getD i d = f (arr.getD i d) := by
  induction arr generalizing i with
  | nil => simp at h
  | cons a rest ih =>
    cases i with
    | zero => rfl
    | succ i1 =>
      simp only [modifyAt, List.getD_cons_succ]
      exact ih i1 (by simpa using h)

theorem modifyAt_of_length_le {α : Type} (f : α → α) (i : Nat) (arr : List α)
    (h : arr.length ≤ i) : modifyAt f i arr = arr := by
  induction arr generalizing i with
  | nil => cases i <;> rfl
  | cons a rest ih =>
    cases i with
    | zero => simp at h
    | succ i1 =>
      simp only [modifyAt, List.cons.injEq, true_and]
      exact ih i1 (by simpa using h)

theorem symbolAt_modifyAt_ne (f : Symbol → Symbol) (i j : Nat) (arr : List Symbol) (h : j ≠ i) :
    symbolAt (modifyAt f i arr) j = symbolAt arr j :=
  getD_modifyAt_ne f i j arr _ h

theorem symbolAt_modifyAt_self (f : Symbol → Symbol) (i : Nat) (arr : List Symbol)
    (h : i < arr.length) : symbolAt (modifyAt f i arr) i = f (symbolAt arr i) :=
  getD_modifyAt_self f i arr _ h

/-- What holds of every position after a change at one position holds when it
holds of the changed symbol and of the unchanged ones. -/
theorem symbolAt_modifyAt_cases (f : Symbol → Symbol) (i j : Nat) (arr : List Symbol) :
    symbolAt (modifyAt f i arr) j = symbolAt arr j ∨
      (j = i ∧ symbolAt (modifyAt f i arr) j = f (symbolAt arr j)) := by
  by_cases hji : j = i
  · by_cases hi : i < arr.length
    · subst hji
      exact Or.inr ⟨rfl, symbolAt_modifyAt_self f j arr hi⟩
    · rw [modifyAt_of_length_le f i arr (by omega)]
      exact Or.inl rfl
  · exact Or.inl (symbolAt_modifyAt_ne f i j arr hji)

theorem sameSkeleton_refl (a : List Symbol) : SameSkeleton a a :=
  ⟨rfl, fun _ => sameCore_refl _⟩

theorem sameCore_trans {a b c : Symbol} (h1 : SameCore a b) (h2 : SameCore b c) : SameCore a c :=
  ⟨h1.1.trans h2.1, h1.2.1.trans h2.2.1, h1.2.2.1.trans h2.2.2.1, h1.2.2.2.trans h2.2.2.2⟩

theorem sameSkeleton_trans {a b c : List Symbol} (h1 : SameSkeleton a b) (h2 : SameSkeleton b c) :
    SameSkeleton a c :=
  ⟨h1.1.trans h2.1, fun j => sameCore_trans (h1.2 j) (h2.2 j)⟩

theorem sameSkeleton_modifyAt (f : Symbol → Symbol) (hf : ∀ s, SameCore s (f s)) (i : Nat)
    (arr : List Symbol) : SameSkeleton arr (modifyAt f i arr) := by
  refine ⟨(length_modifyAt f i arr).symm, fun j => ?_⟩
  rcases symbolAt_modifyAt_cases f i j arr with h | ⟨_, h⟩
  · rw [h]
    exact sameCore_refl _
  · rw [h]
    exact hf _

theorem childrenGrow_refl (a : List Symbol) : ChildrenGrow a a := fun _ _ h => h

theorem childrenGrow_trans {a b c : List Symbol} (h1 : ChildrenGrow a b)
    (h2 : ChildrenGrow b c) : ChildrenGrow a c := fun j x hx => h2 j x (h1 j x hx)

theorem childrenGrow_modifyAt (f : Symbol → Symbol)
    (hf : ∀ s, ∀ c ∈ s.children, c ∈ (f s).children) (i : Nat) (arr : List Symbol) :
    ChildrenGrow arr (modifyAt f i arr) := by
  intro j c hc
  rcases symbolAt_modifyAt_cases f i j arr with h | ⟨_, h⟩
  · rw [h]
    exact hc
  · rw [h]
    exact hf _ c hc

theorem parents_modifyAt (f : Symbol → Symbol) (hf : ∀ s, (f s).parents = s.parents) (i j : Nat)
    (arr : List Symbol) : (symbolAt (modifyAt f i arr) j).parents = (symbolAt arr j).parents := by
  rcases symbolAt_modifyAt_cases f i j arr with h | ⟨_, h⟩
  · rw [h]
  · rw [h]
    exact hf _

theorem addChild_core (s : Symbol) (n : Str) : SameCore s (s.addChild n) := by
  unfold Symbol.addChild
  split_ifs
  · exact sameCore_refl _
  · exact ⟨rfl, rfl, rfl, rfl⟩

theorem addChild_parents (s : Symbol) (n : Str) : (s.addChild n).parents = s.parents := by
  unfold Symbol.addChild
  split_ifs <;> rfl

theorem addChild_grows (s : Symbol) (n : Str) : ∀ c ∈ s.children, c ∈ (s.addChild n).children := by
  intro c hc
  unfold Symbol.addChild
  split_ifs
  · exact hc
  · exact List.mem_append_left _ hc

theorem mem_addChild (s : Symbol) (n : Str) : n ∈ (s.addChild n).children := by
  unfold Symbol.addChild
  split_ifs with h
  · exact h
  · exact List.mem_append_right _ (List.mem_singleton.mpr rfl)

/-! ## The stack of the hierarchy loop -/

theorem stack_low_unchanged (lv : Nat → Nat) (pre : List Nat) (stack : Nat → Option Nat)
    (level : Nat) (h : ∀ k ∈ pre, level ≤ lv k) (l : Nat) (hl : l < level) :
    (pre.foldl (stackPush lv) stack) l = stack l := by
  induction pre generalizing stack with
  | nil => rfl
  | cons k rest ih =>
    rw [List.foldl_cons, ih _ (fun x hx => h x (List.mem_cons_of_mem _ hx))]
    have := h k (List.mem_cons_self _ _)
    unfold stackPush
    rw [if_neg (by omega), if_neg (by omega)]

theorem findSome_descending_some (f : Nat → Option Nat) (n a y : Nat) (h1 : 1 ≤ a) (h2 : a ≤ n)
    (hf : f a = some y) (hnone : ∀ l, a < l → l ≤ n → f l = none) :
    ((List.range n).reverse.map (fun l => l + 1)).findSome? f = some y := by
  induction n with
  | zero => omega
  | succ m ih =>
    rw [List.range_succ, List.reverse_append, List.reverse_singleton, List.singleton_append,
      List.map_cons, List.findSome?_cons]
    by_cases ha : a = m + 1
    · rw [← ha, hf]
    · rw [hnone (m + 1) (by omega) (le_refl _)]
      exact ih (by omega) (fun l hal hl => hnone l hal (by omega))

theorem findSome_descending_none (f : Nat → Option Nat) (n : Nat)
    (hnone : ∀ l, 1 ≤ l → l ≤ n → f l = none) :
    ((List.range n).reverse.map (fun l => l + 1)).findSome? f = none := by
  induction n with
  | zero => rfl
  | succ m ih =>
    rw [List.range_succ, List.reverse_append, List.reverse_singleton, List.singleton_append,
      List.map_cons, List.findSome?_cons, hnone (m + 1) (by omega) (le_refl _)]
    exact ih (fun l h1 hl => hnone l h1 (by omega))

/-- After the headers `pre1`, the header `g` of a lower level and headers of
levels that are not lower, the parent found is `g`. -/
theorem parentOn_some (lv : Nat → Nat) (hlv : ∀ x, 1 ≤ lv x) (pre1 pre2 : List Nat) (g : Nat)
    (stack : Nat → Option Nat) (level : Nat) (hg : lv g < level)
    (h2 : ∀ k ∈ pre2, level ≤ lv k) :
    parentOn ((pre1 ++ g :: pre2).foldl (stackPush lv) stack) level = some g := by
  unfold parentOn
  refine findSome_descending_some _ (level - 1) (lv g) g (hlv g) (by omega) ?_ ?_
  · rw [if_neg (by omega), List.foldl_append, List.foldl_cons,
      stack_low_unchanged lv pre2 _ level h2 (lv g) hg]
    simp [stackPush]
  · intro l hgl hl
    rw [if_neg (by omega), List.foldl_append, List.foldl_cons,
      stack_low_unchanged lv pre2 _ level h2 l (by omega)]
    unfold stackPush
    rw [if_neg (by omega), if_pos (by omega)]

/-- After headers of levels that are not lower, no parent is found. -/
theorem parentOn_none (lv : Nat → Nat) (pre : List Nat) (level : Nat)
    (h : ∀ k ∈ pre, level ≤ lv k) :
    parentOn (pre.foldl (stackPush lv) (fun _ => none)) level = none := by
  unfold parentOn
  refine findSome_descending_none _ (level - 1) (fun l _ hl => ?_)
  rw [if_neg (by omega), stack_low_unchanged lv pre _ level h l (by omega)]

/-! ## The hierarchy loop -/

theorem hierarchyStep_stack (path : Str) (arr : List Symbol) (stack : Nat → Option Nat) (h : Nat) :
    (hierarchyStep path (arr, stack) h).2 =
      stackPush (fun x => stackLevel (symbolAt arr x).type) stack h := rfl

theorem hierarchyStep_array (path : Str) (arr : List Symbol) (stack : Nat → Option Nat) (h : Nat) :
    (hierarchyStep path (arr, stack) h).1 =
      (match parentOn stack (stackLevel (symbolAt arr h).type) with
       | some p =>
         modifyAt (fun s => s.addChild (symbolAt arr h).name) p
           (modifyAt (fun s => { s with parents := (symbolAt arr p).name }) h arr)
       | none =>
         match (symbolsByFile (modifyAt (fun s => { s with parents := path }) h arr) path).find?
             (fun j => (symbolAt (modifyAt (fun s => { s with parents := path }) h arr) j).type ==
               "file".toList) with
         | some f =>
           modifyAt (fun s => s.addChild
               (symbolAt (modifyAt (fun s => { s with parents := path }) h arr) h).name) f
             (modifyAt (fun s => { s with parents := path }) h arr)
         | none => modifyAt (fun s => { s with parents := path }) h arr) := rfl

theorem setParents_core (s : Symbol) (p : Str) : SameCore s { s with parents := p } :=
  ⟨rfl, rfl, rfl, rfl⟩

theorem setParents_grows (s : Symbol) (p : Str) :
    ∀ c ∈ s.children, c ∈ ({ s with parents := p } : Symbol).children := fun _ hc => hc

/-- One step of the hierarchy loop: the skeleton stays, children are added
only, the label of no other position changes, and the header gets the name of
the parent found in the stack, which gets the header as a child, or the path. -/
theorem hierarchyStep_spec (path : Str) (ref arr : List Symbol) (stack : Nat → Option Nat)
    (h : Nat) (hs : SameSkeleton ref arr) (hh : h < arr.length) :
    SameSkeleton arr (hierarchyStep path (arr, stack) h).1 ∧
    ChildrenGrow arr (hierarchyStep path (arr, stack) h).1 ∧
    (∀ x, x ≠ h → (symbolAt (hierarchyStep path (arr, stack) h).1 x).parents =
      (symbolAt arr x).parents) ∧
    HierarchyDone ref (hierarchyStep path (arr, stack) h).1 path stack h := by
  have hlevel : stackLevel (symbolAt arr h).type = stackLevel (symbolAt ref h).type := by
    rw [(hs.2 h).2.1]
  rw [hierarchyStep_array, hlevel]
  unfold HierarchyDone
  cases hpar : parentOn stack (stackLevel (symbolAt ref h).type) with
  | some p =>
    simp only
    refine ⟨sameSkeleton_trans (sameSkeleton_modifyAt _ (fun s => setParents_core s _) h arr)
        (sameSkeleton_modifyAt _ (fun s => addChild_core s _) p _),
      childrenGrow_trans (childrenGrow_modifyAt _ (fun s => setParents_grows s _) h arr)
        (childrenGrow_modifyAt _ (fun s => addChild_grows s _) p _), ?_, ?_, ?_⟩
    · intro x hx
      rw [parents_modifyAt _ (fun s => addChild_parents s _), symbolAt_modifyAt_ne _ h x arr hx]
    · rw [parents_modifyAt _ (fun s => addChild_parents s _), symbolAt_modifyAt_self _ h arr hh]
      exact ((hs.2 p).1).symm
    · intro q hq hlt
      injection hq with hq
      subst hq
      rw [symbolAt_modifyAt_self _ p _ (by rw [length_modifyAt]; rw [← hs.1]; exact hlt)]
      rw [(hs.2 h).1]
      exact mem_addChild _ _
  | none =>
    simp only
    have hbase : SameSkeleton arr (modifyAt (fun s => { s with parents := path }) h arr) :=
      sameSkeleton_modifyAt _ (fun s => setParents_core s _) h arr
    have hgrow : ChildrenGrow arr (modifyAt (fun s => { s with parents := path }) h arr) :=
      childrenGrow_modifyAt _ (fun s => setParents_grows s _) h arr
    split
    · refine ⟨sameSkeleton_trans hbase (sameSkeleton_modifyAt _ (fun s => addChild_core s _) _ _),
        childrenGrow_trans hgrow (childrenGrow_modifyAt _ (fun s => addChild_grows s _) _ _),
        ?_, ?_, ?_⟩
      · intro x hx
        rw [parents_modifyAt _ (fun s => addChild_parents s _),
          symbolAt_modifyAt_ne _ h x arr hx]
      · rw [parents_modifyAt _ (fun s => addChild_parents s _),
          symbolAt_modifyAt_self _ h arr hh]
      · intro q hq
        exact absurd hq (by simp)
    · refine ⟨hbase, hgrow, ?_, ?_, ?_⟩
      · intro x hx
        rw [symbolAt_modifyAt_ne _ h x arr hx]
      · rw [symbolAt_modifyAt_self _ h arr hh]
      · intro q hq
        exact absurd hq (by simp)

theorem stackPush_congr (ref arr : List Symbol) (hs : SameSkeleton ref arr)
    (stack : Nat → Option Nat) (h : Nat) :
    stackPush (fun x => stackLevel (symbolAt arr x).type) stack h =
      stackPush (fun x => stackLevel (symbolAt ref x).type) stack h := by
  unfold stackPush
  simp only [(hs.2 h).2.1]

/-- The hierarchy loop over the headers `todo`: the skeleton stays, children
are added only, the labels of the other positions stay, and every header of
the list gets the label found in the stack built by the headers before it. -/
theorem hierarchyFold_spec (path : Str) (ref : List Symbol) (todo : List Nat)
    (arr : List Symbol) (stack : Nat → Option Nat) (hs : SameSkeleton ref arr)
    (hnd : todo.Nodup) (hlt : ∀ x ∈ todo, x < ref.length) :
    SameSkeleton arr (todo.foldl (hierarchyStep path) (arr, stack)).1 ∧
    ChildrenGrow arr (todo.foldl (hierarchyStep path) (arr, stack)).1 ∧
    (∀ x, x ∉ todo → (symbolAt (todo.foldl (hierarchyStep path) (arr, stack)).1 x).parents =
      (symbolAt arr x).parents) ∧
    (∀ pre h post, todo = pre ++ h :: post →
      HierarchyDone ref (todo.foldl (hierarchyStep path) (arr, stack)).1 path
        (pre.foldl (stackPush (fun x => stackLevel (symbolAt ref x).type)) stack) h) := by
  induction todo generalizing arr stack with
  | nil =>
    refine ⟨sameSkeleton_refl _, childrenGrow_refl _, fun _ _ => rfl, ?_⟩
    intro pre h post he
    exact absurd he (by simp)
  | cons t rest ih =>
    rw [List.nodup_cons] at hnd
    have ht : t < arr.length := by
      rw [← hs.1]
      exact hlt t (List.mem_cons_self _ _)
    obtain ⟨s1, s2, s3, s4⟩ := hierarchyStep_spec path ref arr stack t hs ht
    have hpair : hierarchyStep path (arr, stack) t =
        ((hierarchyStep path (arr, stack) t).1,
          stackPush (fun x => stackLevel (symbolAt ref x).type) stack t) := by
      rw [← stackPush_congr ref arr hs stack t, ← hierarchyStep_stack]
    rw [List.foldl_cons, hpair]
    obtain ⟨i1, i2, i3, i4⟩ := ih (hierarchyStep path (arr, stack) t).1
      (stackPush (fun x => stackLevel (symbolAt ref x).type) stack t)
      (sameSkeleton_trans hs s1) hnd.2 (fun x hx => hlt x (List.mem_cons_of_mem _ hx))
    refine ⟨sameSkeleton_trans s1 i1, childrenGrow_trans s2 i2, ?_, ?_⟩
    · intro x hx
      rw [List.mem_cons, not_or] at hx
      rw [i3 x hx.2, s3 x hx.1]
    · intro pre h post he
      cases pre with
      | nil =>
        simp only [List.nil_append, List.cons.injEq] at he
        obtain ⟨e1, e2⟩ := he
        subst e1
        simp only [List.foldl_nil]
        refine ⟨?_, fun p hp hpl => i2 p _ (s4.2 p hp hpl)⟩
        rw [i3 t hnd.1]
        exact s4.1
      | cons t1 pre1 =>
        simp only [List.cons_append, List.cons.injEq] at he
        obtain ⟨e1, e2⟩ := he
        subst e1
        rw [List.foldl_cons]
        exact i4 pre1 h post e2

/-! ## The sorted headers of a file -/

theorem symbolsByFile_congr (a b : List Symbol) (hs : SameSkeleton a b) (path : Str) :
    symbolsByFile b path = symbolsByFile a path := by
  unfold symbolsByFile
  rw [← hs.1]
  refine List.filter_congr (fun j _ => ?_)
  rw [(hs.2 j).2.1, (hs.2 j).2.2.1]

theorem insertByLine_congr (a b : List Symbol) (hs : SameSkeleton a b) (j : Nat) (l : List Nat) :
    insertByLine b j l = insertByLine a j l := by
  induction l with
  | nil => rfl
  | cons k rest ih =>
    unfold insertByLine
    rw [(hs.2 j).2.2.2, (hs.2 k).2.2.2, ih]

theorem sortedHeaders_congr (a b : List Symbol) (hs : SameSkeleton a b) (path : Str) :
    sortedHeaders b path = sortedHeaders a path := by
  unfold sortedHeaders
  rw [symbolsByFile_congr a b hs path]
  have hf : (symbolsByFile a path).filter (fun j => isHeaderType (symbolAt b j).type) =
      (symbolsByFile a path).filter (fun j => isHeaderType (symbolAt a j).type) :=
    List.filter_congr (fun j _ => by rw [(hs.2 j).2.1])
  rw [hf]
  generalize (symbolsByFile a path).filter (fun j => isHeaderType (symbolAt a j).type) = l
  induction l with
  | nil => rfl
  | cons x rest ih =>
    simp only [List.foldr_cons]
    rw [ih, insertByLine_congr a b hs]

theorem insertByLine_perm (arr : List Symbol) (j : Nat) (l : List Nat) :
    (insertByLine arr j l).Perm (j :: l) := by
  induction l with
  | nil => exact List.Perm.refl _
  | cons k rest ih =>
    unfold insertByLine
    split_ifs
    · exact List.Perm.refl _
    · exact (List.Perm.cons k ih).trans (List.Perm.swap j k rest)

theorem foldr_insertByLine_perm (arr : List Symbol) (l : List Nat) :
    (l.foldr (insertByLine arr) []).Perm l := by
  induction l with
  | nil => exact List.Perm.refl _
  | cons x rest ih =>
    exact (insertByLine_perm arr x _).trans (List.Perm.cons x ih)

theorem insertByLine_sorted (arr : List Symbol) (j : Nat) (l : List Nat)
    (h : l.Pairwise (fun a b => (symbolAt arr a).lineStart ≤ (symbolAt arr b).lineStart)) :
    (insertByLine arr j l).Pairwise
      (fun a b => (symbolAt arr a).lineStart ≤ (symbolAt arr b).lineStart) := by
  induction l with
  | nil => exact List.pairwise_singleton _ _
  | cons k rest ih =>
    rw [List.pairwise_cons] at h
    unfold insertByLine
    split_ifs with hjk
    · rw [List.pairwise_cons]
      refine ⟨fun x hx => ?_, List.pairwise_cons.mpr h⟩
      rcases List.mem_cons.mp hx with h1 | h1
      · rw [h1]
        exact le_of_lt hjk
      · exact le_trans (le_of_lt hjk) (h.1 x h1)
    · rw [List.pairwise_cons]
      refine ⟨fun x hx => ?_, ih h.2⟩
      rcases List.mem_cons.mp ((insertByLine_perm arr j rest).subset hx) with h1 | h1
      · rw [h1]
        exact not_lt.mp hjk
      · exact h.1 x h1

theorem foldr_insertByLine_sorted (arr : List Symbol) (l : List Nat) :
    (l.foldr (insertByLine arr) []).Pairwise
      (fun a b => (symbolAt arr a).lineStart ≤ (symbolAt arr b).lineStart) := by
  induction l with
  | nil => exact List.Pairwise.nil
  | cons x rest ih => exact insertByLine_sorted arr x _ ih

theorem isHeaderType_not_excluded (t : Str) (h : isHeaderType t = true) :
    (t == "file".toList || t == "directory".toList || t == "variable".toList) = false := by
  cases t with
  | nil => simp [isHeaderType, starts_with] at h
  | cons c rest =>
    have hc : c = 'h' := by
      have h1 : starts_with (c :: rest) ('h' :: "eader".toList) = true := h
      simp only [starts_with, Bool.and_eq_true, beq_iff_eq] at h1
      exact h1.1
    subst hc
    simp

theorem mem_sortedHeaders (arr : List Symbol) (path : Str) (x : Nat) :
    x ∈ sortedHeaders arr path ↔ x ∈ headersOf arr path := by
  unfold sortedHeaders
  rw [(foldr_insertByLine_perm arr _).mem_iff]
  unfold symbolsByFile headersOf
  simp only [List.mem_filter, List.mem_range, Bool.and_eq_true, Bool.not_eq_true',
    beq_iff_eq]
  constructor
  · rintro ⟨⟨h1, _, h3⟩, h4⟩
    exact ⟨h1, h4, h3⟩
  · rintro ⟨h1, h2, h3⟩
    exact ⟨⟨h1, isHeaderType_not_excluded _ h2, h3⟩, h2⟩

theorem nodup_sortedHeaders (arr : List Symbol) (path : Str) : (sortedHeaders arr path).Nodup := by
  unfold sortedHeaders
  rw [(foldr_insertByLine_perm arr _).nodup_iff]
  unfold symbolsByFile
  exact ((List.nodup_range _).filter _).filter _

theorem sorted_sortedHeaders (arr : List Symbol) (path : Str) :
    (sortedHeaders arr path).Pairwise
      (fun a b => (symbolAt arr a).lineStart ≤ (symbolAt arr b).lineStart) :=
  foldr_insertByLine_sorted arr _

theorem lt_length_of_mem_headersOf (arr : List Symbol) (path : Str) (x : Nat)
    (h : x ∈ headersOf arr path) : x < arr.length := by
  unfold headersOf at h
  rw [List.mem_filter, List.mem_range] at h
  exact h.1

/-- A list sorted by a key that is different for different elements splits at
each element into the elements with smaller keys and those with larger keys. -/
theorem split_sorted (ls : Nat → Int) (l : List Nat) (hn : l.Nodup)
    (hsort : l.Pairwise (fun a b => ls a ≤ ls b))
    (hinj : ∀ x ∈ l, ∀ y ∈ l, ls x = ls y → x = y) (h : Nat) (hh : h ∈ l) :
    ∃ pre post, l = pre ++ h :: post ∧ (∀ x ∈ pre, ls x < ls h) ∧ (∀ x ∈ post, ls h < ls x) := by
  obtain ⟨pre, post, he⟩ := List.append_of_mem hh
  refine ⟨pre, post, he, ?_, ?_⟩
  · intro x hx
    subst he
    rw [List.pairwise_append] at hsort
    have hle := hsort.2.2 x hx h (List.mem_cons_self _ _)
    have hne : ls x ≠ ls h := by
      intro e
      have := hinj x (List.mem_append_left _ hx) h
        (List.mem_append_right _ (List.mem_cons_self _ _)) e
      subst this
      have := (List.nodup_append.mp hn).2.2
      exact this hx (List.mem_cons_self _ _)
    omega
  · intro x hx
    subst he
    rw [List.pairwise_append, List.pairwise_cons] at hsort
    have hle := hsort.2.1.1 x hx
    have hne : ls h ≠ ls x := by
      intro e
      have := hinj h (List.mem_append_right _ (List.mem_cons_self _ _)) x
        (List.mem_append_right _ (List.mem_cons_of_mem _ hx)) e
      subst this
      have := (List.nodup_cons.mp (List.nodup_append.mp hn).2.1).1
      exact this hx
    omega

/-- The level of the hierarchy loop for the types `header1` to `header6`. -/
theorem stackLevel_header :
    ∀ level ∈ [1, 2, 3, 4, 5, 6],
      stackLevel ("header".toList ++ (Nat.repr level).toList) = level := by
  decide

theorem stackLevel_pos (type : Str) : 1 ≤ stackLevel type := by
  unfold stackLevel
  split
  · split_ifs with h
    · exact le_refl 1
    · omega
  · exact le_refl 1

/-- The hierarchy loop for the headers of one file: the skeleton stays,
children are added only, the labels of the positions that are no headers of the
file stay, and every header of the file is linked. -/
theorem hierarchyFile_spec (ref arr : List Symbol) (path : Str) (hs : SameSkeleton ref arr) :
    SameSkeleton arr (hierarchyFile arr path) ∧
    ChildrenGrow arr (hierarchyFile arr path) ∧
    (∀ x, x ∉ headersOf ref path →
      (symbolAt (hierarchyFile arr path) x).parents = (symbolAt arr x).parents) ∧
    (DistinctHeaderLines ref path →
      ∀ h ∈ headersOf ref path, HeaderLinked ref (hierarchyFile arr path) path h) := by
  have hH : sortedHeaders arr path = sortedHeaders ref path := sortedHeaders_congr ref arr hs path
  have hnd := nodup_sortedHeaders ref path
  have hlt : ∀ x ∈ sortedHeaders ref path, x < ref.length := fun x hx =>
    lt_length_of_mem_headersOf ref path x ((mem_sortedHeaders ref path x).mp hx)
  obtain ⟨f1, f2, f3, f4⟩ := hierarchyFold_spec path ref (sortedHeaders ref path) arr
    (fun _ => none) hs hnd hlt
  unfold hierarchyFile
  rw [hH]
  refine ⟨f1, f2, fun x hx => f3 x (fun hmem => hx ((mem_sortedHeaders ref path x).mp hmem)), ?_⟩
  intro hdist h hh
  have hsort := sorted_sortedHeaders ref path
  have hinj : ∀ x ∈ sortedHeaders ref path, ∀ y ∈ sortedHeaders ref path,
      (symbolAt ref x).lineStart = (symbolAt ref y).lineStart → x = y := by
    intro x hx y hy hxy
    exact List.inj_on_of_nodup_map hdist ((mem_sortedHeaders ref path x).mp hx)
      ((mem_sortedHeaders ref path y).mp hy) hxy
  obtain ⟨pre, post, he, hpre, hpost⟩ := split_sorted (fun x => (symbolAt ref x).lineStart)
    (sortedHeaders ref path) hnd hsort hinj h ((mem_sortedHeaders ref path h).mpr hh)
  have hdone := f4 pre h post he
  have hsub : ∀ x ∈ pre, x ∈ headersOf ref path := fun x hx =>
    (mem_sortedHeaders ref path x).mp (by rw [he]; exact List.mem_append_left _ hx)
  refine ⟨?_, ?_⟩
  · intro g hg hgl hglv hnear
    have hgH : g ∈ sortedHeaders ref path := (mem_sortedHeaders ref path g).mpr hg
    have hgpre : g ∈ pre := by
      rw [he] at hgH
      rcases List.mem_append.mp hgH with h1 | h1
      · exact h1
      · rcases List.mem_cons.mp h1 with h2 | h2
        · rw [h2] at hgl
          exact absurd hgl (lt_irrefl _)
        · have := hpost g h2
          simp only at this
          omega
    have hpresub : pre.Sublist (sortedHeaders ref path) := by
      rw [he]
      exact List.sublist_append_left _ _
    obtain ⟨pre1, pre2, he2, _, hpre2⟩ := split_sorted (fun x => (symbolAt ref x).lineStart) pre
      (hnd.sublist hpresub) (hsort.sublist hpresub)
      (fun x hx y hy => hinj x (hpresub.subset hx) y (hpresub.subset hy)) g hgpre
    have hk2 : ∀ k ∈ pre2, k ∈ pre := by
      intro k hk
      rw [he2]
      exact List.mem_append_right _ (List.mem_cons_of_mem _ hk)
    have hpar := parentOn_some (fun x => stackLevel (symbolAt ref x).type)
      (fun x => stackLevel_pos _) pre1 pre2 g (fun _ => none)
      (stackLevel (symbolAt ref h).type) hglv
      (fun k hk => hnear k (hsub k (hk2 k hk)) (hpre2 k hk) (hpre k (hk2 k hk)))
    rw [← he2] at hpar
    obtain ⟨d1, d2⟩ := hdone
    rw [hpar] at d1
    exact ⟨d1, d2 g hpar (lt_length_of_mem_headersOf ref path g hg)⟩
  · intro hnone
    have hpar := parentOn_none (fun x => stackLevel (symbolAt ref x).type) pre
      (stackLevel (symbolAt ref h).type) (fun k hk => hnone k (hsub k hk) (hpre k hk))
    obtain ⟨d1, _⟩ := hdone
    rw [hpar] at d1
    exact d1

/-! ## The passes of the relationship pass -/

theorem mem_eraseDups_loop (x : Str) (l acc : List Str) :
    x ∈ List.eraseDups.loop l acc ↔ x ∈ l ∨ x ∈ acc := by
  induction l generalizing acc with
  | nil => simp [List.eraseDups.loop]
  | cons a rest ih =>
    unfold List.eraseDups.loop
    cases he : acc.elem a with
    | true =>
      simp only
      rw [ih acc]
      have ha : a ∈ acc := List.elem_iff.mp he
      constructor
      · rintro (h | h)
        · exact Or.inl (List.mem_cons_of_mem _ h)
        · exact Or.inr h
      · rintro (h | h)
        · rcases List.mem_cons.mp h with h1 | h1
          · exact Or.inr (h1 ▸ ha)
          · exact Or.inl h1
        · exact Or.inr h
    | false =>
      simp only
      rw [ih (a :: acc)]
      simp only [List.mem_cons]
      tauto

theorem mem_eraseDups (x : Str) (l : List Str) : x ∈ l.eraseDups ↔ x ∈ l := by
  unfold List.eraseDups
  rw [mem_eraseDups_loop]
  simp

theorem symbolAt_mem (arr : List Symbol) (j : Nat) (h : j < arr.length) : symbolAt arr j ∈ arr := by
  unfold symbolAt
  rw [List.getD_eq_getElem _ _ h]
  exact List.getElem_mem h

theorem mem_headersOf (arr : List Symbol) (path : Str) (x : Nat) :
    x ∈ headersOf arr path ↔
      x < arr.length ∧ isHeaderType (symbolAt arr x).type = true ∧
        (symbolAt arr x).filePath = path := by
  unfold headersOf
  simp [List.mem_filter]

theorem headersOf_congr (a b : List Symbol) (hs : SameSkeleton a b) (path : Str) :
    headersOf b path = headersOf a path := by
  unfold headersOf
  rw [← hs.1]
  refine List.filter_congr (fun j _ => ?_)
  rw [(hs.2 j).2.1, (hs.2 j).2.2.1]

/-- The path of a header is a key of `symbolsByFile`. -/
theorem mem_indexedPaths (arr : List Symbol) (path : Str) (h : Nat)
    (hh : h ∈ headersOf arr path) : path ∈ indexedPaths arr := by
  obtain ⟨h1, h2, h3⟩ := (mem_headersOf arr path h).mp hh
  unfold indexedPaths
  rw [mem_eraseDups, List.mem_map]
  refine ⟨symbolAt arr h, ?_, h3⟩
  rw [List.mem_filter]
  refine ⟨symbolAt_mem arr h h1, ?_⟩
  rw [isHeaderType_not_excluded _ h2]
  rfl

theorem headerLinked_mono (ref a b : List Symbol) (path : Str) (h : Nat)
    (hl : HeaderLinked ref a path h)
    (hp : (symbolAt b h).parents = (symbolAt a h).parents) (hg : ChildrenGrow a b) :
    HeaderLinked ref b path h := by
  refine ⟨fun g hg1 hg2 hg3 hg4 => ?_, fun hn => ?_⟩
  · obtain ⟨p1, p2⟩ := hl.1 g hg1 hg2 hg3 hg4
    exact ⟨by rw [hp]; exact p1, hg g _ p2⟩
  · rw [hp]
    exact hl.2 hn

/-- The hierarchy loops of a list of files link a header when its file is in
the list, and keep it linked. -/
theorem hierarchyFiles_spec (ref : List Symbol) (qs : List Str) (arr : List Symbol)
    (hs : SameSkeleton ref arr) (path : Str) (h : Nat) (hh : h ∈ headersOf ref path)
    (hd : DistinctHeaderLines ref path) :
    SameSkeleton arr (qs.foldl hierarchyFile arr) ∧
    ChildrenGrow arr (qs.foldl hierarchyFile arr) ∧
    ((path ∈ qs ∨ HeaderLinked ref arr path h) →
      HeaderLinked ref (qs.foldl hierarchyFile arr) path h) := by
  induction qs generalizing arr with
  | nil =>
    refine ⟨sameSkeleton_refl _, childrenGrow_refl _, fun hl => ?_⟩
    rcases hl with h1 | h1
    · exact absurd h1 (List.not_mem_nil _)
    · exact h1
  | cons q rest ih =>
    obtain ⟨f1, f2, f3, f4⟩ := hierarchyFile_spec ref arr q hs
    obtain ⟨i1, i2, i3⟩ := ih (hierarchyFile arr q) (sameSkeleton_trans hs f1)
    rw [List.foldl_cons]
    refine ⟨sameSkeleton_trans f1 i1, childrenGrow_trans f2 i2, fun hl => i3 ?_⟩
    by_cases hq : q = path
    · subst hq
      exact Or.inr (f4 hd h hh)
    · rcases hl with h1 | h1
      · rcases List.mem_cons.mp h1 with h2 | h2
        · exact absurd h2.symm hq
        · exact Or.inl h2
      · refine Or.inr (headerLinked_mono ref arr _ path h h1 (f3 h (fun hmem => ?_)) f2)
        exact hq (((mem_headersOf ref q h).mp hmem).2.2.symm.trans
          ((mem_headersOf ref path h).mp hh).2.2)

/-- One run of the hierarchy block links every header. -/
theorem hierarchyPass_spec (ref arr : List Symbol) (hs : SameSkeleton ref arr) (path : Str)
    (h : Nat) (hh : h ∈ headersOf ref path) (hd : DistinctHeaderLines ref path) :
    SameSkeleton arr (hierarchyPass arr) ∧ ChildrenGrow arr (hierarchyPass arr) ∧
    HeaderLinked ref (hierarchyPass arr) path h := by
  obtain ⟨i1, i2, i3⟩ := hierarchyFiles_spec ref (indexedPaths arr) arr hs path h hh hd
  refine ⟨i1, i2, i3 (Or.inl ?_)⟩
  exact mem_indexedPaths arr path h (by rw [headersOf_congr ref arr hs]; exact hh)

/-- The runs of the hierarchy block, one for every bucket, link every header
when there is a bucket. -/
theorem hierarchyRuns_spec (ref : List Symbol) (runs : List Nat) (arr : List Symbol)
    (hs : SameSkeleton ref arr) (path : Str) (h : Nat) (hh : h ∈ headersOf ref path)
    (hd : DistinctHeaderLines ref path) :
    SameSkeleton arr (runs.foldl (fun a _ => hierarchyPass a) arr) ∧
    ((runs ≠ [] ∨ HeaderLinked ref arr path h) →
      HeaderLinked ref (runs.foldl (fun a _ => hierarchyPass a) arr) path h) := by
  induction runs generalizing arr with
  | nil =>
    refine ⟨sameSkeleton_refl _, fun hl => ?_⟩
    rcases hl with h1 | h1
    · exact absurd rfl h1
    · exact h1
  | cons r rest ih =>
    obtain ⟨p1, _, p3⟩ := hierarchyPass_spec ref arr hs path h hh hd
    obtain ⟨i1, i2⟩ := ih (hierarchyPass arr) (sameSkeleton_trans hs p1)
    rw [List.foldl_cons]
    exact ⟨sameSkeleton_trans p1 i1, fun _ => i2 (Or.inr p3)⟩

theorem sameSkeleton_foldl {α : Type} (f : List Symbol → α → List Symbol)
    (hf : ∀ a x, SameSkeleton a (f a x)) (l : List α) (arr : List Symbol) :
    SameSkeleton arr (l.foldl f arr) := by
  induction l generalizing arr with
  | nil => exact sameSkeleton_refl _
  | cons x rest ih => exact sameSkeleton_trans (hf arr x) (ih (f arr x))

theorem sameSkeleton_addChildrenWhere (accept : List Symbol → Nat → Bool) (members : List Nat)
    (i : Nat) (arr : List Symbol) : SameSkeleton arr (addChildrenWhere accept members i arr) := by
  unfold addChildrenWhere
  refine sameSkeleton_foldl _ (fun a j => ?_) members arr
  split_ifs
  · exact sameSkeleton_modifyAt _ (fun s => addChild_core s _) i a
  · exact sameSkeleton_refl _

theorem setFields_core (s : Symbol) (c : List Str) (p : Str) :
    SameCore s { s with children := c, parents := p } := ⟨rfl, rfl, rfl, rfl⟩

theorem setEnd_core (s : Symbol) (e : Int) : SameCore s { s with lineEnd := e } :=
  ⟨rfl, rfl, rfl, rfl⟩

theorem sameSkeleton_relateFile (fsys : FileSystem) (i : Nat) (arr : List Symbol) :
    SameSkeleton arr (relateFile fsys i arr) := by
  unfold relateFile
  exact sameSkeleton_trans (sameSkeleton_modifyAt _ (fun s => setFields_core s _ _) i arr)
    (sameSkeleton_trans (sameSkeleton_addChildrenWhere _ _ i _)
      (sameSkeleton_trans (sameSkeleton_addChildrenWhere _ _ i _)
        (sameSkeleton_addChildrenWhere _ _ i _)))

theorem sameSkeleton_relateDirectory (fsys : FileSystem) (i : Nat) (arr : List Symbol) :
    SameSkeleton arr (relateDirectory fsys i arr) := by
  unfold relateDirectory
  have h1 := sameSkeleton_modifyAt (fun s => { s with children := [], parents := [] })
    (fun s => setFields_core s _ _) i arr
  simp only
  split
  · exact h1
  · refine sameSkeleton_trans h1 (sameSkeleton_foldl _ (fun a child => ?_) _ _)
    split_ifs
    · exact sameSkeleton_refl _
    · exact sameSkeleton_modifyAt _ (fun s => addChild_core s _) i a

theorem sameSkeleton_relateHeader (i : Nat) (arr : List Symbol) :
    SameSkeleton arr (relateHeader i arr) := by
  unfold relateHeader
  have h1 := sameSkeleton_modifyAt (fun s => { s with children := [], parents := s.filePath })
    (fun s => setFields_core s _ _) i arr
  simp only
  split_ifs
  · exact h1
  · refine sameSkeleton_trans h1 (sameSkeleton_trans ?_
      (sameSkeleton_trans (sameSkeleton_addChildrenWhere _ _ i _)
        (sameSkeleton_addChildrenWhere _ _ i _)))
    split
    · exact sameSkeleton_trans (sameSkeleton_modifyAt _ (fun s => setParents_core s _) i _)
        (sameSkeleton_modifyAt _ (fun s => addChild_core s _) _ _)
    · exact sameSkeleton_refl _
  · exact sameSkeleton_trans h1
      (sameSkeleton_trans (sameSkeleton_addChildrenWhere _ _ i _)
        (sameSkeleton_addChildrenWhere _ _ i _))

theorem sameSkeleton_relateChunk (i : Nat) (arr : List Symbol) :
    SameSkeleton arr (relateChunk i arr) := by
  unfold relateChunk
  exact sameSkeleton_trans (sameSkeleton_modifyAt _ (fun s => setFields_core s _ _) i arr)
    (sameSkeleton_addChildrenWhere _ _ i _)

theorem sameSkeleton_secondPassStep (fsys : FileSystem) (arr : List Symbol) (i : Nat) :
    SameSkeleton arr (secondPassStep fsys arr i) := by
  unfold secondPassStep
  simp only
  split_ifs
  · exact sameSkeleton_relateFile fsys i arr
  · exact sameSkeleton_relateDirectory fsys i arr
  · exact sameSkeleton_relateHeader i arr
  · exact sameSkeleton_relateChunk i arr
  · exact sameSkeleton_refl _

theorem sameSkeleton_thirdPassStep (fsys : FileSystem) (arr : List Symbol) (i : Nat) :
    SameSkeleton arr (thirdPassStep fsys arr i) := by
  have h1 : ∀ o : Option Nat, SameSkeleton arr
      (match o with
       | some f => modifyAt (fun s => { s with lineEnd := (symbolAt arr f).lineEnd }) i arr
       | none => arr) := by
    intro o
    cases o with
    | none => exact sameSkeleton_refl _
    | some f => exact sameSkeleton_modifyAt _ (fun s => setEnd_core s _) i arr
  unfold thirdPassStep
  simp only
  split_ifs
  · exact sameSkeleton_refl _
  · exact sameSkeleton_refl _
  · split
    · exact sameSkeleton_modifyAt _ (fun s => setEnd_core s _) i arr
    · split
      · exact sameSkeleton_trans (h1 _) (sameSkeleton_modifyAt _ (fun s => setEnd_core s _) i _)
      · exact h1 _
  · split
    · exact sameSkeleton_modifyAt _ (fun s => setEnd_core s _) i arr
    · exact h1 _

theorem isHeaderType_ne_function (t : Str) (h : isHeaderType t = true) :
    (t == "function".toList) = false := by
  cases t with
  | nil => simp [isHeaderType, starts_with] at h
  | cons c rest =>
    have hc : c = 'h' := by
      have h1 : starts_with (c :: rest) ('h' :: "eader".toList) = true := h
      simp only [starts_with, Bool.and_eq_true, beq_iff_eq] at h1
      exact h1.1
    subst hc
    simp

/-- The fourth pass for one symbol: the skeleton stays, children are added
only, and the label of a symbol that is no function stays. -/
theorem fourthPassStep_spec (arr : List Symbol) (i : Nat) :
    SameSkeleton arr (fourthPassStep arr i) ∧ ChildrenGrow arr (fourthPassStep arr i) ∧
    ∀ x, ((symbolAt arr x).type == "function".toList) = false →
      (symbolAt (fourthPassStep arr i) x).parents = (symbolAt arr x).parents := by
  unfold fourthPassStep
  by_cases hf : ((symbolAt arr i).type == "function".toList) = true
  · have hne : ∀ x, ((symbolAt arr x).type == "function".toList) = false → x ≠ i := by
      intro x hx e
      rw [e, hf] at hx
      exact absurd hx (by decide)
    rw [if_neg (by rw [hf]; decide)]
    simp only
    split
    · exact ⟨sameSkeleton_modifyAt _ (fun s => setParents_core s _) i arr,
        childrenGrow_modifyAt _ (fun s => setParents_grows s _) i arr,
        fun x hx => by rw [symbolAt_modifyAt_ne _ i x arr (hne x hx)]⟩
    · split
      · exact ⟨sameSkeleton_trans (sameSkeleton_modifyAt _ (fun s => setParents_core s _) i arr)
            (sameSkeleton_modifyAt _ (fun s => addChild_core s _) _ _),
          childrenGrow_trans (childrenGrow_modifyAt _ (fun s => setParents_grows s _) i arr)
            (childrenGrow_modifyAt _ (fun s => addChild_grows s _) _ _),
          fun x hx => by
            rw [parents_modifyAt _ (fun s => addChild_parents s _),
              symbolAt_modifyAt_ne _ i x arr (hne x hx)]⟩
      · have b1 := sameSkeleton_modifyAt (fun s => { s with parents := s.filePath })
          (fun s => setParents_core s _) i arr
        have b2 := childrenGrow_modifyAt (fun s => { s with parents := s.filePath })
          (fun s => setParents_grows s _) i arr
        split
        · exact ⟨sameSkeleton_trans b1 (sameSkeleton_modifyAt _ (fun s => addChild_core s _) _ _),
            childrenGrow_trans b2 (childrenGrow_modifyAt _ (fun s => addChild_grows s _) _ _),
            fun x hx => by
              rw [parents_modifyAt _ (fun s => addChild_parents s _),
                symbolAt_modifyAt_ne _ i x arr (hne x hx)]⟩
        · exact ⟨b1, b2, fun x hx => by rw [symbolAt_modifyAt_ne _ i x arr (hne x hx)]⟩
  · rw [if_pos (by simpa using hf)]
    exact ⟨sameSkeleton_refl _, childrenGrow_refl _, fun _ _ => rfl⟩

/-- The fourth pass keeps a header linked. -/
theorem fourthPass_spec (ref : List Symbol) (l : List Nat) (arr : List Symbol)
    (hs : SameSkeleton ref arr) (path : Str) (h : Nat) (hh : h ∈ headersOf ref path)
    (hl : HeaderLinked ref arr path h) :
    SameSkeleton arr (l.foldl fourthPassStep arr) ∧
    HeaderLinked ref (l.foldl fourthPassStep arr) path h := by
  induction l generalizing arr with
  | nil => exact ⟨sameSkeleton_refl _, hl⟩
  | cons i rest ih =>
    obtain ⟨s1, s2, s3⟩ := fourthPassStep_spec arr i
    have htype : ((symbolAt arr h).type == "function".toList) = false := by
      rw [← (hs.2 h).2.1]
      exact isHeaderType_ne_function _ ((mem_headersOf ref path h).mp hh).2.1
    obtain ⟨i1, i2⟩ := ih (fourthPassStep arr i) (sameSkeleton_trans hs s1)
      (headerLinked_mono ref arr _ path h hl (s3 h htype) s2)
    rw [List.foldl_cons]
    exact ⟨sameSkeleton_trans s1 i1, i2⟩

theorem allSymbols_refill (m : SymbolMap) (arr : List Symbol)
    (h : arr.length = (allSymbols m).length) : allSymbols (refill m arr) = arr := by
  induction m generalizing arr with
  | nil =>
    simp only [allSymbols, List.flatMap_nil, List.length_nil] at h
    rw [List.length_eq_zero.mp h]
    rfl
  | cons kb rest ih =>
    obtain ⟨k, b⟩ := kb
    rw [allSymbols_cons, List.length_append] at h
    unfold refill
    rw [allSymbols_cons, ih (arr.drop b.length) (by rw [List.length_drop]; omega),
      List.take_append_drop]

/-- The relationship pass keeps the skeleton of the store and links every
header. -/
theorem relationshipPasses_spec (fsys : FileSystem) (buckets : Nat) (arr : List Symbol)
    (hb : 1 ≤ buckets) (path : Str) (h : Nat) (hh : h ∈ headersOf arr path)
    (hd : DistinctHeaderLines arr path) :
    SameSkeleton arr (relationshipPasses fsys buckets arr) ∧
    HeaderLinked arr (relationshipPasses fsys buckets arr) path h := by
  unfold relationshipPasses
  simp only
  have h2 := sameSkeleton_foldl (secondPassStep fsys) (sameSkeleton_secondPassStep fsys)
    (List.range arr.length) arr
  have h3 := sameSkeleton_trans h2 (sameSkeleton_foldl (thirdPassStep fsys)
    (sameSkeleton_thirdPassStep fsys) (List.range
      ((List.range arr.length).foldl (secondPassStep fsys) arr).length) _)
  obtain ⟨r1, r2⟩ := hierarchyRuns_spec arr (List.range buckets) _ h3 path h hh hd
  have hne : List.range buckets ≠ [] := by
    intro e
    have := congrArg List.length e
    simp at this
    omega
  obtain ⟨q1, q2⟩ := fourthPass_spec arr (List.range
      ((List.range buckets).foldl (fun a _ => hierarchyPass a)
        ((List.range ((List.range arr.length).foldl (secondPassStep fsys) arr).length).foldl
          (thirdPassStep fsys) ((List.range arr.length).foldl (secondPassStep fsys) arr))).length)
    _ (sameSkeleton_trans h3 r1) path h hh (r2 (Or.inl hne))
  exact ⟨sameSkeleton_trans (sameSkeleton_trans h3 r1) q1, q2⟩

/-- C13: after the relationship pass, the parent label of a header is the name
of the nearest preceding header of the same file whose level is strictly
lower, or the file path when there is none, and that parent header has the
header's name among its children. The header is the symbol at position `h` of
the store, the headers of its file start on different lines, and the pass
changes no name, type, path or start line. -/
theorem C13_header_parent_is_nearest_lower (fsys : FileSystem) (m : SymbolMap) (path : Str)
    (h : Nat) (hh : h ∈ headersOf (allSymbols m) path)
    (hd : DistinctHeaderLines (allSymbols m) path) :
    SameSkeleton (allSymbols m) (allSymbols (updateFileAndDirectoryContexts fsys m)) ∧
    HeaderLinked (allSymbols m) (allSymbols (updateFileAndDirectoryContexts fsys m)) path h := by
  have hb : 1 ≤ m.length := by
    cases m with
    | nil =>
      have := lt_length_of_mem_headersOf _ _ _ hh
      simp [allSymbols] at this
    | cons _ _ => simp
  obtain ⟨s1, s2⟩ := relationshipPasses_spec fsys m.length (allSymbols m) hb path h hh hd
  unfold updateFileAndDirectoryContexts
  rw [allSymbols_refill m _ s1.1.symm]
  exact ⟨s1, s2⟩

/-- C13, witness: in the store of the Markdown file with the header `A` on line
1 and the header `B` of level 2 on line 3, the header `B` at position 1 is
linked. -/
theorem C13_header_parent_is_nearest_lower_witness :
    1 ∈ headersOf (allSymbols c13Store) "/proj/notes.md".toList ∧
    DistinctHeaderLines (allSymbols c13Store) "/proj/notes.md".toList ∧
    SameSkeleton (allSymbols c13Store)
      (allSymbols (updateFileAndDirectoryContexts
        (FileSystem.ofTree (.dir "proj".toList 0 []) "/proj".toList) c13Store)) ∧
    HeaderLinked (allSymbols c13Store)
      (allSymbols (updateFileAndDirectoryContexts
        (FileSystem.ofTree (.dir "proj".toList 0 []) "/proj".toList) c13Store))
      "/proj/notes.md".toList 1 :=
  ⟨by decide, by decide,
    C13_header_parent_is_nearest_lower
      (FileSystem.ofTree (.dir "proj".toList 0 []) "/proj".toList) c13Store
      "/proj/notes.md".toList 1 (by decide) (by decide)⟩

/-! ## Queries of short words -/

theorem headerStage_short_words :
    (allSymbols (addSymbolNoLock [] shortWordsSymbol)).filter
      (headerStageAccepts "ab cd".toList []) = [] := by
  decide

theorem findSymbol_short_words :
    (findSymbol (Machine.ofStore (addSymbolNoLock [] shortWordsSymbol)) "ab cd".toList).1 =
      [shortWordsSymbol] := by
  decide

/-- C24: every word of the query `ab cd` is shorter than 3 characters, the
exact stage and the header stage find nothing for it in a store that holds the
function `ab cdx`, and `findSymbol` returns that function, from the general
stage. -/
theorem C24_short_words_reach_general_stage :
    (splitAny " \t".toList "ab cd".toList).all (fun w => decide (w.length < 3)) = true ∧
    parseQuery "ab cd".toList = ("ab cd".toList, []) ∧
    exactStage (addSymbolNoLock [] shortWordsSymbol) "ab cd".toList [] = none ∧
    (allSymbols (addSymbolNoLock [] shortWordsSymbol)).filter
      (headerStageAccepts "ab cd".toList []) = [] ∧
    (findSymbol (Machine.ofStore (addSymbolNoLock [] shortWordsSymbol)) "ab cd".toList).1 =
      [shortWordsSymbol] :=
  ⟨by decide, by decide, by decide, headerStage_short_words, findSymbol_short_words⟩

/-! ## The exclusion set -/

theorem c25_build_names :
    (allSymbols (buildIndex quietEnv c25Tree "/proj".toList [] Machine.fresh).2.index.symbolMap_).map
      (fun s => (s.name, s.type)) = [("#a.txt#".toList, "file".toList)] := by
  decide

/-- C25: the set holds the entry `#*#`, the file name `#a.txt#` matches it
through the wildcard, and `isExcludedFilename` returns false for it: the
wildcard test handles a star at the start or at the end of an entry only. The
traversal emits the file symbol of that file. -/
theorem C25_star_in_the_middle_not_matched :
    "#*#".toList ∈ excludedFilenames ∧
    starts_with "#a.txt#".toList "#".toList = true ∧
    ends_with "#a.txt#".toList "#".toList = true ∧
    matchesWildcard "#*#".toList "#a.txt#".toList = false ∧
    isExcludedFilename "#a.txt#".toList = false ∧
    (allSymbols (buildIndex quietEnv c25Tree "/proj".toList [] Machine.fresh).2.index.symbolMap_).map
      (fun s => (s.name, s.type)) = [("#a.txt#".toList, "file".toList)] :=
  ⟨by decide, by decide, by decide, by decide, by decide, c25_build_names⟩

/-! ## The dispatch on the extension -/

theorem indexByExtension_undispatched (env : Env) (content path : Str) (m : SymbolMap) :
    ∀ ext ∈ undispatchedExtensions, indexByExtension env ext content path m = none := by
  intro ext hext
  simp only [undispatchedExtensions, List.map_cons, List.map_nil, List.mem_cons,
    List.mem_singleton, List.not_mem_nil, or_false] at hext
  rcases hext with h | h | h | h | h | h | h | h | h <;> subst h <;> rfl

/-- C26: the extensions `.cxx`, `.hxx`, `.pyi`, `.pyw`, `.markdown`, `.zsh`,
`.bat`, `.cmd` and `.ps1` are in the indexable set and not in the binary set,
and the dispatch on the extension has no branch for them: `indexFileByType` on
`notes.markdown` and `indexContentByFileType` on `/proj/notes.markdown` leave
the store as it is, whatever the extractors, while for `notes.md` the Markdown
extractor runs. -/
theorem C26_indexable_extensions_without_extractor (env : Env) (content : Str) (m : SymbolMap) :
    (∀ ext ∈ undispatchedExtensions,
      isIndexableFileType ext = true ∧ isBinaryFileType ext = false ∧
      ∀ path, indexByExtension env ext content path m = none) ∧
    indexFileByType env "notes.markdown".toList (some content) "/proj/notes.markdown".toList m =
      m ∧
    indexContentByFileType env content "/proj/notes.markdown".toList m = m ∧
    indexFileByType env "notes.md".toList (some content) "/proj/notes.md".toList m =
      env.indexMarkdownFromString content "/proj/notes.md".toList m ∧
    indexContentByFileType env content "/proj/notes.md".toList m =
      env.indexMarkdownFromString content "/proj/notes.md".toList m := by
  refine ⟨fun ext hext => ⟨?_, ?_, fun path =>
    indexByExtension_undispatched env content path m ext hext⟩, ?_, ?_, ?_, ?_⟩
  · revert ext
    decide
  · revert ext
    decide
  · have e : getExtensionLowerCase "notes.markdown".toList = ".markdown".toList := by decide
    have h1 : isBinaryFileType ".markdown".toList = false := by decide
    have h2 : isIndexableFileType ".markdown".toList = true := by decide
    have h3 : ends_with (to_lower "notes.markdown".toList) ".rd".toList = false := by decide
    simp only [indexFileByType, e, h1, h2, h3, Bool.not_true, Bool.or_self, Bool.false_eq_true,
      if_false, indexByExtension_undispatched env content _ m ".markdown".toList (by decide)]
  · have e : (if "/proj/notes.markdown".toList.contains '.' then
        to_lower ('.' :: ("/proj/notes.markdown".toList.reverse.takeWhile
          (fun c => c != '.')).reverse) else []) = ".markdown".toList := by decide
    have h0 : isExcludedFilename (baseName "/proj/notes.markdown".toList) = false := by decide
    have h1 : isBinaryFileType ".markdown".toList = false := by decide
    have h2 : isIndexableFileType ".markdown".toList = true := by decide
    simp only [indexContentByFileType, e, h0, h1, h2, Bool.not_true, Bool.or_self,
      Bool.false_eq_true, if_false,
      indexByExtension_undispatched env content _ m ".markdown".toList (by decide),
      Option.getD_none]
  · have e : getExtensionLowerCase "notes.md".toList = ".md".toList := by decide
    have h1 : isBinaryFileType ".md".toList = false := by decide
    have h2 : isIndexableFileType ".md".toList = true := by decide
    have h3 : indexByExtension env ".md".toList content "/proj/notes.md".toList m =
        some (env.indexMarkdownFromString content "/proj/notes.md".toList m) := rfl
    simp only [indexFileByType, e, h1, h2, h3, Bool.not_true, Bool.or_self, Bool.false_eq_true,
      if_false]
  · have e : (if "/proj/notes.md".toList.contains '.' then
        to_lower ('.' :: ("/proj/notes.md".toList.reverse.takeWhile
          (fun c => c != '.')).reverse) else []) = ".md".toList := by decide
    have h0 : isExcludedFilename (baseName "/proj/notes.md".toList) = false := by decide
    have h1 : isBinaryFileType ".md".toList = false := by decide
    have h2 : isIndexableFileType ".md".toList = true := by decide
    have h3 : indexByExtension env ".md".toList content "/proj/notes.md".toList m =
        some (env.indexMarkdownFromString content "/proj/notes.md".toList m) := rfl
    simp only [indexContentByFileType, e, h0, h1, h2, h3, Bool.not_true, Bool.or_self,
      Bool.false_eq_true, if_false, Option.getD_some]

/-! ## Line ranges of the extractors -/

/-- C27: for a Markdown text of two lines whose R chunk is never closed, the
Markdown extractor produces the chunk symbol with `lineStart = 1` and
`lineEnd = 0`: the end line, left at 0 when the chunk is opened, is set only
when the closing fence is found. -/
theorem C27_unclosed_chunk_ends_before_it_starts :
    (splitAny "\n".toList c27Text).length = 2 ∧
    allSymbols (indexMarkdownFromString c27Text "/proj/a.Rmd".toList []) =
      [Symbol.make "chunk_1".toList "chunk".toList "/proj/a.Rmd".toList 1 0 [] []] := by
  decide

/-! ## The frame of the Markdown extractor -/

/-- C29: the store holds the header `Intro` of `p.md` and the header `Intro` of
`q.md`, which ends on line 5. The Markdown extractor runs for `p.md` on the
text `# Intro` followed by a line of text: the header of `p.md` is there
already and is not added, the pointer to the header last added is set to the
back of the bucket, which is the header of `q.md`, and at the end of the text
the end line of the header of `q.md` becomes 2. -/
theorem C29_reindex_moves_end_of_other_file :
    allSymbols c29Store = [introP, introQ] ∧
    introQ.filePath ≠ "/proj/p.md".toList ∧
    allSymbols (indexMarkdownFromString "# Intro\ntext".toList "/proj/p.md".toList c29Store) =
      [introP, { introQ with lineEnd := 2 }] := by
  decide

/-! ## The incremental update on an added file -/

theorem c21_listing :
    getCurrentDirectoryStructure c21After "/proj".toList =
      ["/proj/a.txt".toList, "/proj/b.txt".toList] := by
  decide

theorem c21_built_files : c21Built.index.directoryFiles_ = ["/proj/a.txt".toList] := by
  decide

theorem c21_update_succeeds :
    (updateIndexIncrementally quietEnv c21After "/proj".toList c21Built).1 = true := by
  decide

theorem c21_updated_files :
    c21Updated.index.directoryFiles_ =
      ["/proj/a.txt".toList, "/proj/b.txt".toList, "/proj/b.txt".toList] := by
  decide

theorem c21_updated_pending : c21Updated.index.pendingFiles_ = [] := by
  decide

theorem c21_stored_files :
    (c21Updated.storage.folder (getDirectoryId c21Updated.storage "/proj".toList)).dir_structure =
      some ["/proj/a.txt".toList, "/proj/b.txt".toList, "/proj/b.txt".toList] := by
  decide

theorem c21_changed_again :
    (hasDirectoryChanged quietEnv c21After "/proj".toList c21Updated).1 = true := by
  decide

theorem c21_second_update_files :
    (updateIndexIncrementally quietEnv c21After "/proj".toList c21Updated).2.index.directoryFiles_ =
      ["/proj/a.txt".toList, "/proj/b.txt".toList, "/proj/b.txt".toList] := by
  decide

/-- C21: the index of a project with the file `a.txt` is built and stored, the
file `b.txt` is added, and `updateIndexIncrementally` runs: it succeeds with
no file left pending, and the file list it keeps and persists holds the path of
`b.txt` twice, once from the modified files (the file has no stored checksum)
and once from the new files. The listing of the directory has two paths, so
`hasDirectoryChanged` on the unchanged directory returns true, and a second
update keeps the list as it is. -/
theorem C21_added_file_listed_twice :
    c21Built.index.directoryFiles_ = ["/proj/a.txt".toList] ∧
    getCurrentDirectoryStructure c21After "/proj".toList =
      ["/proj/a.txt".toList, "/proj/b.txt".toList] ∧
    (updateIndexIncrementally quietEnv c21After "/proj".toList c21Built).1 = true ∧
    c21Updated.index.pendingFiles_ = [] ∧
    c21Updated.index.directoryFiles_ =
      ["/proj/a.txt".toList, "/proj/b.txt".toList, "/proj/b.txt".toList] ∧
    (c21Updated.storage.folder (getDirectoryId c21Updated.storage "/proj".toList)).dir_structure =
      some ["/proj/a.txt".toList, "/proj/b.txt".toList, "/proj/b.txt".toList] ∧
    (hasDirectoryChanged quietEnv c21After "/proj".toList c21Updated).1 = true ∧
    (updateIndexIncrementally quietEnv c21After "/proj".toList c21Updated).2.index.directoryFiles_ =
      ["/proj/a.txt".toList, "/proj/b.txt".toList, "/proj/b.txt".toList] :=
  ⟨c21_built_files, c21_listing, c21_update_succeeds, c21_updated_pending, c21_updated_files,
    c21_stored_files, c21_changed_again, c21_second_update_files⟩

/-! ## The file-level symbol of the incremental update -/

theorem c30_update_entries :
    storedEntries (updateIndexIncrementally quietEnv c30After "/proj".toList c21Built).2 =
      [("a.txt".toList, "file".toList, 1, 1), ("logo.png".toList, "binary".toList, 0, 0),
       (".DS_Store".toList, "file".toList, 1, 1)] := by
  decide

theorem c30_traversal_entries :
    storedEntries (buildIndex quietEnv c30After "/proj".toList [] Machine.fresh).2 =
      [("a.txt".toList, "file".toList, 1, 1), ("logo.png".toList, "image".toList, 0, 0)] := by
  decide

/-- C30: the index of a project with the file `a.txt` is built and stored, and
the files `logo.png` and `.DS_Store` are added. The incremental update adds
the symbol of `logo.png` with the type `binary` and a symbol of type `file` for
`.DS_Store`; a full traversal of the same directory adds the symbol of
`logo.png` with the type `image` and no symbol for `.DS_Store`, whose name is
excluded. -/
theorem C30_update_differs_from_traversal :
    isImageFileType (getExtensionLowerCase "logo.png".toList) = true ∧
    isExcludedFilename ".DS_Store".toList = true ∧
    storedEntries (updateIndexIncrementally quietEnv c30After "/proj".toList c21Built).2 =
      [("a.txt".toList, "file".toList, 1, 1), ("logo.png".toList, "binary".toList, 0, 0),
       (".DS_Store".toList, "file".toList, 1, 1)] ∧
    storedEntries (buildIndex quietEnv c30After "/proj".toList [] Machine.fresh).2 =
      [("a.txt".toList, "file".toList, 1, 1), ("logo.png".toList, "image".toList, 0, 0)] :=
  ⟨by decide, by decide, c30_update_entries, c30_traversal_entries⟩

/-! ## The round trip through storage -/

theorem toSizeT_toInt32 (pos : Nat) (h : pos < 2147483648) : toSizeT (toInt32 pos) = pos := by
  have h1 : pos % 4294967296 = pos := Nat.mod_eq_of_lt (by omega)
  unfold toSizeT toInt32
  rw [h1, if_pos h]
  omega

theorem symbol_index_saved (mach : Machine) (dirId : Str) :
    ((saveIndexToStorage mach dirId).storage.folder dirId).symbol_index =
      some { symbols := allSymbols mach.index.symbolMap_,
             working_directory := mach.index.currentWorkingDir_,
             traversal_path := mach.index.traversalPath_.map toInt32 } := by
  simp only [saveIndexToStorage, folder_setFolder]

theorem formatLoadedSignature_signature (t : Symbol) :
    (formatLoadedSignature t).signature =
      if t.type = "function".toList ∧ starts_with t.signature "function(".toList = true then
        formatFunctionParameters (normalizeWhitespace t.signature)
      else t.signature := by
  unfold formatLoadedSignature
  by_cases h : t.type = "function".toList ∧ starts_with t.signature "function(".toList = true
  · have hne : t.signature ≠ [] := by
      intro h0
      rw [h0] at h
      exact absurd h.2 (by decide)
    rw [if_pos ⟨h.1, hne, h.2⟩, if_pos h]
  · rw [if_neg (fun h3 => h ⟨h3.1, h3.2.2⟩), if_neg h]

/-- C28 (amended): for a store as `addSymbolNoLock` builds it and a traversal
position stack whose positions are below `2^31`, saving the index and loading
it back succeeds; every loaded symbol has the name, type, path, file name,
line range, parents and children of a saved symbol, and its signature, except
that the signature of a function symbol that starts with `function(` is the
one the load-time formatting gives; every saved symbol is loaded in that
form; and the loaded traversal position stack and working directory equal the
saved ones. -/
theorem C28_save_load_round_trip (mach : Machine) (dirId : Str) (hD : dirId ≠ [])
    (hwf : StoreWF mach.index.symbolMap_)
    (hpos : ∀ pos ∈ mach.index.traversalPath_, pos < 2147483648) :
    (loadIndexFromStorageNoLock (saveIndexToStorage mach dirId) dirId).1 = true ∧
    (∀ s ∈ allSymbols
        (loadIndexFromStorageNoLock (saveIndexToStorage mach dirId) dirId).2.index.symbolMap_,
      ∃ t ∈ allSymbols mach.index.symbolMap_,
        s.name = t.name ∧ s.type = t.type ∧ s.filePath = t.filePath ∧
        s.fileName = t.fileName ∧ s.lineStart = t.lineStart ∧ s.lineEnd = t.lineEnd ∧
        s.parents = t.parents ∧ s.children = t.children ∧
        s.signature =
          if t.type = "function".toList ∧ starts_with t.signature "function(".toList = true then
            formatFunctionParameters (normalizeWhitespace t.signature)
          else t.signature) ∧
    (∀ t ∈ allSymbols mach.index.symbolMap_,
      formatLoadedSignature t ∈ allSymbols
        (loadIndexFromStorageNoLock (saveIndexToStorage mach dirId) dirId).2.index.symbolMap_) ∧
    (loadIndexFromStorageNoLock (saveIndexToStorage mach dirId) dirId).2.index.traversalPath_ =
      mach.index.traversalPath_ ∧
    (loadIndexFromStorageNoLock (saveIndexToStorage mach dirId) dirId).2.index.currentWorkingDir_ =
      mach.index.currentWorkingDir_ := by
  obtain ⟨l1, l2, l3, l4, -⟩ :=
    loadIndex_facts (saveIndexToStorage mach dirId) dirId _ hD (symbol_index_saved mach dirId)
  refine ⟨l1, ?_, ?_, ?_, l3⟩
  · intro s hs
    rw [l4] at hs
    obtain ⟨t, ht, rfl⟩ := (mem_allSymbols_loaded _ hwf s).mp hs
    obtain ⟨f1, f2, f3, f4, f5, f6, f7, f8, -⟩ := formatLoadedSignature_fields t
    exact ⟨t, ht, f1, f2, f3, f4, f5, f6, f7, f8, formatLoadedSignature_signature t⟩
  · intro t ht
    rw [l4]
    exact (mem_allSymbols_loaded _ hwf _).mpr ⟨t, ht, rfl⟩
  · rw [l2]
    simp only [List.map_map]
    conv_rhs => rw [← List.map_id mach.index.traversalPath_]
    exact List.map_congr_left (fun pos hp => toSizeT_toInt32 pos (hpos pos hp))

/-- C28 (witness): the store holds the function `foo` with the signature
`function(x=1)` and the traversal position stack is empty; the function is
loaded back with the signature `function(x = 1)`. -/
theorem C28_save_load_round_trip_witness :
    StoreWF (Machine.ofStore (addSymbolNoLock [] fooRaw)).index.symbolMap_ ∧
    fooRaw ∈ allSymbols (Machine.ofStore (addSymbolNoLock [] fooRaw)).index.symbolMap_ ∧
    formatLoadedSignature fooRaw = fooLoaded ∧
    formatLoadedSignature fooRaw ∈ allSymbols
      (loadIndexFromStorageNoLock
        (saveIndexToStorage (Machine.ofStore (addSymbolNoLock [] fooRaw)) "d".toList)
        "d".toList).2.index.symbolMap_ :=
  ⟨by decide, by decide, by decide,
   (C28_save_load_round_trip (Machine.ofStore (addSymbolNoLock [] fooRaw)) "d".toList
      (by decide) (by decide) (fun _ h => nomatch h)).2.2.1 fooRaw (by decide)⟩

/-- C28 (counterexample): the function `foo` is saved with the signature
`function(x=1)` and loaded back with the signature `function(x = 1)`. -/
theorem C28_counterexample :
    allSymbols (Machine.ofStore (addSymbolNoLock [] fooRaw)).index.symbolMap_ = [fooRaw] ∧
    allSymbols
      (loadIndexFromStorageNoLock
        (saveIndexToStorage (Machine.ofStore (addSymbolNoLock [] fooRaw)) "d".toList)
        "d".toList).2.index.symbolMap_ = [fooLoaded] ∧
    fooRaw.signature = "function(x=1)".toList ∧
    fooLoaded.signature = "function(x = 1)".toList ∧
    fooLoaded.signature ≠ fooRaw.signature := by
  decide

/-! ## Queries of many words -/

theorem splitAny_ne_nil (seps s : Str) : splitAny seps s ≠ [] := by
  cases s with
  | nil => simp [splitAny]
  | cons c s =>
    unfold splitAny
    split
    · exact List.cons_ne_nil _ _
    · split <;> exact List.cons_ne_nil _ _

theorem splitAny_length_le (seps s : Str) : (splitAny seps s).length ≤ s.length + 1 := by
  induction s with
  | nil => simp [splitAny]
  | cons c s ih =>
    unfold splitAny
    split
    · simp only [List.length_cons]
      omega
    · cases h : splitAny seps s with
      | nil => simp
      | cons w ws =>
        rw [h] at ih
        simp only [List.length_cons] at ih ⊢
        omega

theorem headerStageAccepts_many_words (searchName typeFilter : Str) (symbol : Symbol)
    (hwords : 10 < (splitAny " \t".toList searchName).length) :
    headerStageAccepts searchName typeFilter symbol =
      (passesTypeFilter typeFilter symbol && starts_with symbol.type "header".toList &&
       containsStr (stripTrailingHashes (to_lower symbol.name)) searchName &&
       f32RatioGt015 (min searchName.length (stripTrailingHashes (to_lower symbol.name)).length)
         (max searchName.length (stripTrailingHashes (to_lower symbol.name)).length)) := by
  have hlen := splitAny_length_le " \t".toList searchName
  have h4 : searchName.length ≥ 4 := by omega
  have hmax : max searchName.length (stripTrailingHashes (to_lower symbol.name)).length > 0 := by
    have := le_max_left searchName.length (stripTrailingHashes (to_lower symbol.name)).length
    omega
  unfold headerStageAccepts
  simp only [gt_iff_lt, hwords, if_true, Bool.not_false, Bool.true_and, Bool.false_or, h4,
    decide_True, hmax, Bool.and_assoc]

/-- C22 (amended): for a query of more than 10 words that has no exact match,
the header stage skips its every-word test only: `findSymbol` returns exactly
the header symbols that pass the type filter, whose cleaned name contains the
whole cleaned query and whose length ratio (in binary32) is above 0.15, so it
returns no symbol that is not a header; when there is no such header it
returns the empty list, the general stage taking at most 8 words. -/
theorem C22_long_query_phrase_match (mach : Machine) (name : Str)
    (hwords : 10 < (splitAny " \t".toList (parseQuery name).1).length)
    (hexact : exactStage (coldStartReload mach).index.symbolMap_ (parseQuery name).1
      (parseQuery name).2 = none) :
    (findSymbol mach name).1 =
      (allSymbols (coldStartReload mach).index.symbolMap_).filter (fun symbol =>
        passesTypeFilter (parseQuery name).2 symbol &&
        starts_with symbol.type "header".toList &&
        containsStr (stripTrailingHashes (to_lower symbol.name)) (parseQuery name).1 &&
        f32RatioGt015
          (min (parseQuery name).1.length (stripTrailingHashes (to_lower symbol.name)).length)
          (max (parseQuery name).1.length (stripTrailingHashes (to_lower symbol.name)).length)) ∧
    ∀ symbol ∈ (findSymbol mach name).1, starts_with symbol.type "header".toList = true := by
  have hfun : headerStageAccepts (parseQuery name).1 (parseQuery name).2 = (fun symbol =>
        passesTypeFilter (parseQuery name).2 symbol &&
        starts_with symbol.type "header".toList &&
        containsStr (stripTrailingHashes (to_lower symbol.name)) (parseQuery name).1 &&
        f32RatioGt015
          (min (parseQuery name).1.length (stripTrailingHashes (to_lower symbol.name)).length)
          (max (parseQuery name).1.length (stripTrailingHashes (to_lower symbol.name)).length)) :=
    funext (fun symbol => headerStageAccepts_many_words _ _ symbol hwords)
  have hres : (findSymbol mach name).1 =
      (allSymbols (coldStartReload mach).index.symbolMap_).filter
        (headerStageAccepts (parseQuery name).1 (parseQuery name).2) := by
    have h8 : (splitAny " \t".toList (parseQuery name).1).length > 8 := by omega
    simp only [findSymbol, lookupStages, hexact]
    by_cases hempty : ((allSymbols (coldStartReload mach).index.symbolMap_).filter
        (headerStageAccepts (parseQuery name).1 (parseQuery name).2)).isEmpty = true
    · rw [List.isEmpty_iff] at hempty
      simp only [hempty, List.isEmpty_nil, Bool.not_true, Bool.false_eq_true, if_false, h8,
        if_true, ite_self]
    · simp only [hempty, Bool.not_false, if_true]
  refine ⟨by rw [hres, hfun], ?_⟩
  intro symbol hs
  rw [hres, List.mem_filter, headerStageAccepts_many_words _ _ symbol hwords] at hs
  simp only [Bool.and_eq_true] at hs
  exact hs.2.1.1.2

/-- C22 (witness): the query `a b c d e f g h i j k` has eleven words and no
exact match in the store that holds the header `a b c d e f g h i j k l`; what
`findSymbol` returns for it are headers. -/
theorem C22_long_query_phrase_match_witness :
    10 < (splitAny " \t".toList (parseQuery longQuery).1).length ∧
    exactStage (coldStartReload (Machine.ofStore (addSymbolNoLock [] longHeader))).index.symbolMap_
      (parseQuery longQuery).1 (parseQuery longQuery).2 = none ∧
    ∀ symbol ∈ (findSymbol (Machine.ofStore (addSymbolNoLock [] longHeader)) longQuery).1,
      starts_with symbol.type "header".toList = true :=
  ⟨by decide, by decide,
   (C22_long_query_phrase_match (Machine.ofStore (addSymbolNoLock [] longHeader)) longQuery
      (by decide) (by decide)).2⟩

theorem findSymbol_longQuery :
    (findSymbol (Machine.ofStore (addSymbolNoLock [] longHeader)) longQuery).1 = [longHeader] := by
  decide

/-- C22 (counterexample): the query `a b c d e f g h i j k` has eleven words
and no exact match, and `findSymbol` returns the header
`a b c d e f g h i j k l`, whose name contains the query. -/
theorem C22_counterexample :
    (splitAny " \t".toList (parseQuery longQuery).1).length = 11 ∧
    exactStage (addSymbolNoLock [] longHeader) (parseQuery longQuery).1
      (parseQuery longQuery).2 = none ∧
    (findSymbol (Machine.ofStore (addSymbolNoLock [] longHeader)) longQuery).1 = [longHeader] ∧
    starts_with longHeader.type "header".toList = true :=
  ⟨by decide, by decide, findSymbol_longQuery, by decide⟩

/-! ## The rule of the general stage -/

theorem splitAny_singleton (seps s : Str) (h : (splitAny seps s).length = 1) :
    splitAny seps s = [s] := by
  induction s with
  | nil => simp [splitAny]
  | cons c s ih =>
    unfold splitAny at h ⊢
    by_cases hc : seps.contains c = true
    · rw [if_pos hc] at h
      have hne := splitAny_ne_nil seps s
      cases hs : splitAny seps s with
      | nil => exact absurd hs hne
      | cons w ws =>
        rw [hs] at h
        simp at h
    · rw [if_neg hc] at h ⊢
      cases hs : splitAny seps s with
      | nil => exact absurd hs (splitAny_ne_nil seps s)
      | cons w ws =>
        rw [hs] at h ih
        simp only [List.length_cons, add_left_eq_self, List.length_eq_zero] at h
        subst h
        have := ih rfl
        simp only [List.cons.injEq, and_true] at this
        rw [this]

theorem starts_with_self (s : Str) : starts_with s s = true := by
  induction s with
  | nil => rfl
  | cons c s ih => simp [starts_with, ih]

theorem containsStr_of_starts_with (s t : Str) (h : starts_with s t = true) :
    containsStr s t = true := by
  cases s with
  | nil =>
    cases t with
    | nil => rfl
    | cons d t => simp [starts_with] at h
  | cons c s => simp [containsStr, h]

theorem wordMatches_eq_containsStr (queryWord symbolWord : Str) :
    wordMatches queryWord symbolWord = containsStr symbolWord queryWord := by
  unfold wordMatches
  cases hc : containsStr symbolWord queryWord with
  | true => simp
  | false =>
    have h1 : starts_with symbolWord queryWord = false := by
      cases hs : starts_with symbolWord queryWord with
      | false => rfl
      | true => rw [containsStr_of_starts_with _ _ hs] at hc; exact absurd hc (by decide)
    have h2 : (symbolWord == queryWord) = false := by
      cases he : symbolWord == queryWord with
      | false => rfl
      | true =>
        have heq : symbolWord = queryWord := by simpa using he
        rw [heq, starts_with_self] at h1
        exact absurd h1 (by decide)
    simp [h1, h2]

theorem length_dropEndWhile_le (p : Char → Bool) (s : Str) :
    (dropEndWhile p s).length ≤ s.length :=
  (dropEndWhile_sublist p s).length_le

theorem length_stripTrailingHashes_le (s : Str) : (stripTrailingHashes s).length ≤ s.length := by
  have h1 : (trim_right s).length ≤ s.length := length_dropEndWhile_le _ s
  have h2 := length_dropEndWhile_le (fun c => c == '#') (trim_right s)
  have h3 : (trim_right (dropEndWhile (fun c => c == '#') (trim_right s))).length ≤
      (dropEndWhile (fun c => c == '#') (trim_right s)).length := length_dropEndWhile_le _ _
  unfold stripTrailingHashes
  simp only
  split
  · omega
  · exact h1

theorem length_generalStageName_le (symbol : Symbol) :
    (generalStageName symbol).length ≤ symbol.name.length := by
  unfold generalStageName
  split
  · have := length_stripTrailingHashes_le (to_lower symbol.name)
    simp only [to_lower, List.length_map] at this ⊢
    exact this
  · simp [to_lower]

theorem f32OfNat_small (n : Nat) (h : n < 16777216) : f32OfNat n = n := by
  unfold f32OfNat
  rw [if_pos h]

theorem f32RatioGt015_small (x y : Nat) (hx : x ≤ 3728270) (hy : y ≤ 3728270) :
    f32RatioGt015 (min x y) (max x y) = decide (3 * max x y < 20 * min x y) := by
  have h1 : min x y < 16777216 := by
    have := min_le_left x y
    omega
  have h2 : max x y < 16777216 := by
    rcases le_total x y with h | h
    · rw [max_eq_right h]; omega
    · rw [max_eq_left h]; omega
  unfold f32RatioGt015
  rw [f32OfNat_small _ h1, f32OfNat_small _ h2]
  rcases le_total x y with h | h
  · rw [max_eq_right h, min_eq_left h]
    by_cases hc : 3 * y < 20 * x
    · rw [decide_eq_true hc, decide_eq_true (by omega)]
    · rw [decide_eq_false hc, decide_eq_false (by omega)]
  · rw [max_eq_left h, min_eq_right h]
    by_cases hc : 3 * x < 20 * y
    · rw [decide_eq_true hc, decide_eq_true (by omega)]
    · rw [decide_eq_false hc, decide_eq_false (by omega)]

theorem f32RatioGe07_small (k n : Nat) (h2 : 2 ≤ n) (h8 : n ≤ 8) (hk : k ≤ n) :
    (f32RatioGe07 k n || (decide (n ≥ 2) && decide (k = n))) = decide (7 * n ≤ 10 * k) := by
  unfold f32RatioGe07
  rw [f32OfNat_small k (by omega), f32OfNat_small n (by omega)]
  interval_cases n <;> interval_cases k <;> decide

theorem generalStageAccepts_rule (searchName typeFilter : Str) (symbol : Symbol)
    (hfilter : passesTypeFilter typeFilter symbol = true)
    (hwords : (splitAny " \t".toList searchName).length ≤ 8)
    (hq : searchName.length ≤ 3728270) (hs : symbol.name.length ≤ 3728270) :
    generalStageAccepts searchName typeFilter (splitAny " \t".toList searchName) symbol =
      generalFuzzyRule searchName (generalStageName symbol) := by
  have hn : (generalStageName symbol).length ≤ 3728270 :=
    le_trans (length_generalStageName_le symbol) hs
  have hname : (if starts_with symbol.type "header".toList then
      stripTrailingHashes (to_lower symbol.name) else to_lower symbol.name) =
      generalStageName symbol := rfl
  by_cases h1 : (splitAny " \t".toList searchName).length = 1
  · have hsplit := splitAny_singleton _ _ h1
    simp only [generalStageAccepts, generalFuzzyRule, hfilter, hsplit, Bool.true_and,
      List.length_singleton, if_true, hname]
  · have hne := splitAny_ne_nil " \t".toList searchName
    simp only [generalStageAccepts, generalFuzzyRule, hfilter, Bool.true_and, h1, if_false, hname,
      wordMatches_eq_containsStr]
    have hk := List.length_filter_le
      (fun queryWord => (splitAny " \t".toList (generalStageName symbol)).any
        (fun word => containsStr word queryWord)) (splitAny " \t".toList searchName)
    revert hk hwords h1 hne
    generalize splitAny " \t".toList searchName = queryWords
    intro hwords h1 hne hk
    match queryWords, hwords, h1, hne, hk with
    | [], _, _, hne, _ => exact absurd rfl hne
    | [_], _, h1, _, _ => exact absurd rfl h1
    | a :: b :: rest, hwords, _, _, hk =>
      simp only
      rw [f32RatioGe07_small _ _ (by simp) hwords hk, f32RatioGt015_small _ _ hq hn]

theorem lookupStages_general (m : SymbolMap) (searchName typeFilter : Str)
    (hexact : exactStage m searchName typeFilter = none)
    (hheader : (allSymbols m).filter (headerStageAccepts searchName typeFilter) = [])
    (hlen : 3 ≤ searchName.length)
    (hwords : (splitAny " \t".toList searchName).length ≤ 8) :
    lookupStages m searchName typeFilter =
      (allSymbols m).filter
        (generalStageAccepts searchName typeFilter (splitAny " \t".toList searchName)) := by
  have h8 : ¬ (splitAny " \t".toList searchName).length > 8 := by omega
  have hsub : ((splitAny " \t".toList searchName).any (fun queryWord =>
      decide (queryWord.length ≥ 3)) = true) ∨
      ¬ (splitAny " \t".toList searchName).length ≤ 1 := by
    by_cases h1 : (splitAny " \t".toList searchName).length ≤ 1
    · left
      have hne := splitAny_ne_nil " \t".toList searchName
      have hone : (splitAny " \t".toList searchName).length = 1 := by
        have : (splitAny " \t".toList searchName).length ≠ 0 := by
          simpa [List.length_eq_zero] using hne
        omega
      rw [splitAny_singleton _ _ hone]
      simpa using hlen
    · right
      exact h1
  simp only [lookupStages, hexact, hheader, List.isEmpty_nil, Bool.not_true, Bool.false_eq_true,
    if_false, ge_iff_le, hlen, if_true, h8]
  rcases hsub with h | h
  · simp only [ge_iff_le] at h
    simp only [h, Bool.not_true, Bool.false_and, Bool.false_eq_true, if_false]
  · simp only [h, decide_False, Bool.and_false, Bool.false_eq_true, if_false]

/-- C23 (amended): in the general stage, reached when the exact and the header
stage return nothing for a query of at least 3 characters and at most 8 words,
a stored symbol that passes the type filter is returned if and only if the
rule holds for the query and the lower-cased name of the symbol, for a header
symbol after the hash clean-up (trailing white space and a trailing run of `#`
removed): a query of one word equals some word of that name, or some word
starts with it and the query has at least 5 characters; for a query of several
words, at least 70% of the query words occur in some word of that name and the
quotient of the shorter by the longer length is greater than 0.15 (query and
name at most 3728270 characters long, where the binary32 test agrees with the
exact one). -/
theorem C23_general_stage_rule (mach : Machine) (name : Str) (symbol : Symbol)
    (hexact : exactStage (coldStartReload mach).index.symbolMap_ (parseQuery name).1
      (parseQuery name).2 = none)
    (hheader : (allSymbols (coldStartReload mach).index.symbolMap_).filter
      (headerStageAccepts (parseQuery name).1 (parseQuery name).2) = [])
    (hlen : 3 ≤ (parseQuery name).1.length)
    (hwords : (splitAny " \t".toList (parseQuery name).1).length ≤ 8)
    (hq : (parseQuery name).1.length ≤ 3728270) (hs : symbol.name.length ≤ 3728270)
    (hmem : symbol ∈ allSymbols (coldStartReload mach).index.symbolMap_)
    (hfilter : passesTypeFilter (parseQuery name).2 symbol = true) :
    symbol ∈ (findSymbol mach name).1 ↔
      generalFuzzyRule (parseQuery name).1 (generalStageName symbol) = true := by
  have hres : (findSymbol mach name).1 =
      lookupStages (coldStartReload mach).index.symbolMap_ (parseQuery name).1
        (parseQuery name).2 := rfl
  rw [hres, lookupStages_general _ _ _ hexact hheader hlen hwords, List.mem_filter,
    generalStageAccepts_rule _ _ symbol hfilter hwords hq hs]
  exact ⟨fun h => h.2, fun h => ⟨hmem, h⟩⟩

/-- C23 (witness): for the query `plot fit` and the store that holds the
function `plot model fit`, the exact and the header stage return nothing, the
rule holds (both query words occur in the name, and the length quotient is
8/14), and the function is returned. -/
theorem C23_general_stage_rule_witness :
    exactStage (coldStartReload (Machine.ofStore (addSymbolNoLock [] threeWordFunction))).index.symbolMap_
      (parseQuery "plot fit".toList).1 (parseQuery "plot fit".toList).2 = none ∧
    generalFuzzyRule (parseQuery "plot fit".toList).1 (generalStageName threeWordFunction) = true ∧
    threeWordFunction ∈
      (findSymbol (Machine.ofStore (addSymbolNoLock [] threeWordFunction)) "plot fit".toList).1 :=
  ⟨by decide, by decide,
   (C23_general_stage_rule (Machine.ofStore (addSymbolNoLock [] threeWordFunction))
      "plot fit".toList threeWordFunction (by decide) (by decide) (by decide) (by decide)
      (by decide) (by decide) (by decide) (by decide)).mpr (by decide)⟩

theorem findSymbol_hashedHeader :
    (findSymbol (Machine.ofStore (addSymbolNoLock [] hashedHeader)) "abcd".toList).1 =
      [hashedHeader] := by
  decide

theorem findSymbol_two_letters :
    (findSymbol (Machine.ofStore (addSymbolNoLock [] shortWordsSymbol)) "ab".toList).1 = [] := by
  decide

theorem findSymbol_nine_words :
    (findSymbol (Machine.ofStore (addSymbolNoLock [] tenWordFunction))
      "a b c d e f g h i".toList).1 = [] := by
  decide

/-- C23 (counterexample): the header `some very long header title abcd#` is
returned for the query `abcd`, for which the exact and the header stage return
nothing, although no word of its lower-cased name equals the query (the last
word is `abcd#`) and the query has fewer than 5 characters; with the `#`
removed the last word is `abcd`. The general stage does not run for a query of
fewer than 3 characters or of more than 8 words: the function `ab cdx` is not
returned for the query `ab`, and the function `a b c d e f g h i j` is not
returned for the query `a b c d e f g h i`, although the rule holds for both
and the earlier stages return nothing. -/
theorem C23_counterexample :
    (parseQuery "abcd".toList = ("abcd".toList, []) ∧
     exactStage (addSymbolNoLock [] hashedHeader) "abcd".toList [] = none ∧
     (allSymbols (addSymbolNoLock [] hashedHeader)).filter
       (headerStageAccepts "abcd".toList []) = [] ∧
     passesTypeFilter [] hashedHeader = true ∧
     splitAny " \t".toList (to_lower hashedHeader.name) =
       ["some", "very", "long", "header", "title", "abcd#"].map String.toList ∧
     generalFuzzyRule "abcd".toList (to_lower hashedHeader.name) = false ∧
     (findSymbol (Machine.ofStore (addSymbolNoLock [] hashedHeader)) "abcd".toList).1 =
       [hashedHeader]) ∧
    (parseQuery "ab".toList = ("ab".toList, []) ∧
     exactStage (addSymbolNoLock [] shortWordsSymbol) "ab".toList [] = none ∧
     (allSymbols (addSymbolNoLock [] shortWordsSymbol)).filter
       (headerStageAccepts "ab".toList []) = [] ∧
     generalFuzzyRule "ab".toList (to_lower shortWordsSymbol.name) = true ∧
     (findSymbol (Machine.ofStore (addSymbolNoLock [] shortWordsSymbol)) "ab".toList).1 = []) ∧
    (parseQuery "a b c d e f g h i".toList = ("a b c d e f g h i".toList, []) ∧
     exactStage (addSymbolNoLock [] tenWordFunction) "a b c d e f g h i".toList [] = none ∧
     (allSymbols (addSymbolNoLock [] tenWordFunction)).filter
       (headerStageAccepts "a b c d e f g h i".toList []) = [] ∧
     generalFuzzyRule "a b c d e f g h i".toList (to_lower tenWordFunction.name) = true ∧
     (findSymbol (Machine.ofStore (addSymbolNoLock [] tenWordFunction))
       "a b c d e f g h i".toList).1 = []) :=
  ⟨⟨by decide, by decide, by decide, by decide, by decide, by decide, findSymbol_hashedHeader⟩,
   ⟨by decide, by decide, by decide, by decide, findSymbol_two_letters⟩,
   ⟨by decide, by decide, by decide, by decide, findSymbol_nine_words⟩⟩

/-! ## The identity rule of `addSymbol` -/

theorem sameIdentity_symm {a b : Symbol} (h : SameIdentity a b) : SameIdentity b a :=
  ⟨h.1.symm, h.2.1.symm, h.2.2.symm⟩

theorem sameIdentity_trans {a b c : Symbol} (h1 : SameIdentity a b) (h2 : SameIdentity b c) :
    SameIdentity a c :=
  ⟨h1.1.trans h2.1, h1.2.1.trans h2.2.1, h1.2.2.trans h2.2.2⟩

/-- After the calls of `addSymbolNoLock` for the symbols of `l` on the empty
store, a symbol is stored exactly when it is the first of `l` with its
identity. -/
theorem mem_foldl_addSymbolNoLock_iff_first (l : List Symbol) (s : Symbol) :
    s ∈ allSymbols (l.foldl addSymbolNoLock []) ↔
      ∃ pre post, l = pre ++ s :: post ∧ ∀ u ∈ pre, ¬ SameIdentity u s := by
  induction l using List.reverseRecOn with
  | nil =>
    constructor
    · intro h
      simp [allSymbols] at h
    · rintro ⟨pre, post, h, _⟩
      exact absurd h (by simp)
  | append_singleton l1 x ih =>
    have hwf : StoreWF (l1.foldl addSymbolNoLock []) :=
      storeWF_foldl_addSymbolNoLock l1 [] storeWF_nil
    rw [List.foldl_append, List.foldl_cons, List.foldl_nil,
      mem_allSymbols_addSymbolNoLock _ _ _ hwf]
    constructor
    · rintro (h | ⟨h, hnew⟩)
      · obtain ⟨pre, post, hl, hpre⟩ := ih.mp h
        exact ⟨pre, post ++ [x], by rw [hl]; simp, hpre⟩
      · subst h
        refine ⟨l1, [], rfl, fun u hu hus => ?_⟩
        obtain ⟨t, ht, htu⟩ := foldl_addSymbolNoLock_has_identity l1 [] u hu
        exact hnew t ht (sameIdentity_trans htu hus)
    · rintro ⟨pre, post, hl, hpre⟩
      rcases List.eq_nil_or_concat post with hp | ⟨post1, y, hp⟩
      · subst hp
        have h2 := List.append_inj' hl rfl
        have hx : x = s := by simpa using h2.2
        right
        refine ⟨hx.symm, fun u hu hus => ?_⟩
        rcases foldl_addSymbolNoLock_sub l1 [] u storeWF_nil hu with h3 | h3
        · simp [allSymbols] at h3
        · rw [h2.1] at h3
          exact hpre u h3 (hx ▸ hus)
      · subst hp
        have h2 : l1 ++ [x] = (pre ++ s :: post1) ++ [y] := by rw [hl]; simp
        have h3 := List.append_inj' h2 rfl
        left
        exact ih.mpr ⟨pre, post1, h3.1, hpre⟩

/-- C7: `addSymbol` discards a symbol whose identity (name, file path, start
line) equals that of a stored symbol, and stores every other symbol. Starting
from the empty store, after any sequence `l` of `addSymbol` calls no two
stored symbols share an identity; adding a symbol with the identity of a
stored one leaves the store exactly as it was; every stored symbol stays
stored when another is added; adding the same symbol a second time changes
nothing; after a call the stored symbols are those stored before and, when no
stored symbol has its identity, the added symbol; and a symbol is stored after
the sequence exactly when it is the first of the sequence with its identity
(the instance stored first is kept, a later one is discarded). -/
theorem C7_addSymbol_discards_duplicates (l : List Symbol) :
    (allSymbols (l.foldl addSymbol [])).Pairwise (fun a b => ¬ SameIdentity a b) ∧
    (∀ s t, t ∈ allSymbols (l.foldl addSymbol []) → SameIdentity t s →
      addSymbol (l.foldl addSymbol []) s = l.foldl addSymbol []) ∧
    (∀ s t, t ∈ allSymbols (l.foldl addSymbol []) →
      t ∈ allSymbols (addSymbol (l.foldl addSymbol []) s)) ∧
    (∀ s, addSymbol (addSymbol (l.foldl addSymbol []) s) s =
      addSymbol (l.foldl addSymbol []) s) ∧
    (∀ s t, t ∈ allSymbols (addSymbol (l.foldl addSymbol []) s) ↔
      t ∈ allSymbols (l.foldl addSymbol []) ∨
      (t = s ∧ ∀ u ∈ allSymbols (l.foldl addSymbol []), ¬ SameIdentity u s)) ∧
    (∀ s, s ∈ allSymbols (l.foldl addSymbol []) ↔
      ∃ pre post, l = pre ++ s :: post ∧ ∀ u ∈ pre, ¬ SameIdentity u s) := by
  have hwf : StoreWF (l.foldl addSymbol []) :=
    storeWF_foldl_addSymbolNoLock l [] storeWF_nil
  refine ⟨storeWF_pairwise _ hwf, ?_, ?_, ?_, ?_, ?_⟩
  · intro s t ht hs
    exact addSymbolNoLock_of_stored _ s t hwf ht hs
  · intro s t ht
    exact addSymbolNoLock_keeps _ s t ht
  · intro s
    obtain ⟨t, ht, hts⟩ := addSymbolNoLock_has_identity (l.foldl addSymbol []) s
    exact addSymbolNoLock_of_stored _ s t (storeWF_addSymbolNoLock _ s hwf) ht hts
  · intro s t
    exact mem_allSymbols_addSymbolNoLock _ s t hwf
  · intro s
    exact mem_foldl_addSymbolNoLock_iff_first l s

/-! ## Buckets under the store operations -/

theorem bucketOf_nil (key : Str) : bucketOf [] key = [] := rfl

theorem bucketOf_cons (k0 : Str) (b : List Symbol) (rest : SymbolMap) (key : Str) :
    bucketOf ((k0, b) :: rest) key = if k0 = key then b else bucketOf rest key := by
  unfold bucketOf
  simp only [findBucket]
  split <;> rfl

theorem mem_allSymbols_of_mem_bucketOf (m : SymbolMap) (key : Str) (s : Symbol)
    (h : s ∈ bucketOf m key) : s ∈ allSymbols m := by
  unfold bucketOf at h
  cases hb : findBucket m key with
  | none => rw [hb] at h; exact absurd h (List.not_mem_nil _)
  | some b =>
    rw [hb] at h
    exact (mem_allSymbols_iff m s).mpr ⟨(key, b), findBucket_mem m key b hb, h⟩

theorem mem_bucketOf_key (m : SymbolMap) (hwf : StoreWF m) (key : Str) (s : Symbol)
    (h : s ∈ bucketOf m key) : to_lower s.name = key := by
  unfold bucketOf at h
  cases hb : findBucket m key with
  | none => rw [hb] at h; exact absurd h (List.not_mem_nil _)
  | some b =>
    rw [hb] at h
    exact (hwf.2 _ (findBucket_mem m key b hb)).1 s h

theorem bucketOf_addSymbolNoLock (m : SymbolMap) (s : Symbol) (key : Str) :
    bucketOf (addSymbolNoLock m s) key =
      if key = to_lower s.name then
        (if (bucketOf m key).any (fun existingSymbol => existingSymbol.isSameInstance s) then
          bucketOf m key
         else bucketOf m key ++ [s])
      else bucketOf m key := by
  induction m with
  | nil =>
    simp only [addSymbolNoLock, bucketOf_cons, bucketOf_nil]
    by_cases h : key = to_lower s.name
    · subst h
      simp
    · have h2 : ¬ to_lower s.name = key := fun e => h e.symm
      simp [h, h2]
  | cons kb rest ih =>
    obtain ⟨k0, b⟩ := kb
    unfold addSymbolNoLock
    by_cases hk0 : k0 = to_lower s.name
    · rw [if_pos hk0]
      by_cases hk : key = to_lower s.name
      · have hkk : k0 = key := hk0.trans hk.symm
        rw [if_pos hk, bucketOf_cons, if_pos hkk]
        by_cases hd : b.any (fun existingSymbol => existingSymbol.isSameInstance s) = true
        · rw [if_pos hd, if_pos hd, bucketOf_cons, if_pos hkk]
        · rw [if_neg hd, if_neg hd, bucketOf_cons, if_pos hkk]
      · have hkk : ¬ k0 = key := fun e => hk (e.symm.trans hk0)
        rw [if_neg hk]
        by_cases hd : b.any (fun existingSymbol => existingSymbol.isSameInstance s) = true
        · rw [if_pos hd]
        · rw [if_neg hd, bucketOf_cons, bucketOf_cons, if_neg hkk, if_neg hkk]
    · rw [if_neg hk0, bucketOf_cons, bucketOf_cons, ih]
      by_cases hkk : k0 = key
      · have hk : ¬ key = to_lower s.name := fun e => hk0 (hkk.trans e)
        rw [if_pos hkk, if_pos hkk, if_neg hk]
      · rw [if_neg hkk, if_neg hkk]

theorem overlay_addSymbolNoLock (base m n : SymbolMap) (path : Str) (s : Symbol)
    (hbase : ∀ u ∈ allSymbols base, u.filePath ≠ path) (hs : s.filePath = path)
    (h : Overlay base m n) : Overlay base (addSymbolNoLock m s) (addSymbolNoLock n s) := by
  intro key
  rw [bucketOf_addSymbolNoLock, bucketOf_addSymbolNoLock, h key]
  by_cases hk : key = to_lower s.name
  · rw [if_pos hk, if_pos hk]
    have hb : (bucketOf base key).any (fun existingSymbol => existingSymbol.isSameInstance s) =
        false := by
      rw [List.any_eq_false]
      intro x hx
      have hp := hbase x (mem_allSymbols_of_mem_bucketOf base key x hx)
      have hne : (x.filePath == s.filePath) = false := by
        rw [hs]
        simpa using hp
      simp [Symbol.isSameInstance, hne]
    rw [List.any_append, hb, Bool.false_or]
    split
    · rfl
    · rw [List.append_assoc]
  · rw [if_neg hk, if_neg hk]

theorem overlay_foldl_addSymbolNoLock (base : SymbolMap) (path : Str) (l : List Symbol)
    (m n : SymbolMap) (hbase : ∀ u ∈ allSymbols base, u.filePath ≠ path)
    (hl : ∀ s ∈ l, s.filePath = path) (h : Overlay base m n) :
    Overlay base (l.foldl addSymbolNoLock m) (l.foldl addSymbolNoLock n) := by
  induction l generalizing m n with
  | nil => exact h
  | cons x rest ih =>
    exact ih _ _ (fun s hs => hl s (List.mem_cons_of_mem _ hs))
      (overlay_addSymbolNoLock base m n path x hbase (hl x (List.mem_cons_self _ _)) h)

end Rao
